import Mathlib

/-!
# CindyJS `libcs/Parser.js`: tokenizer, operator table, expression parser, postprocessor

A shallow embedding of `src/js/libcs/Parser.js`.  JavaScript strings are
sequences of UTF-16 code units, thrown exceptions are an explicit result,
loops that the source bounds by the input are run on fuel, and the mutable
objects of the source (tokens that become tree nodes) are records with
optional fields.
-/

namespace CindyParser

/-! ## Strings -/

/-- A JavaScript string: its sequence of UTF-16 code units. -/
abbrev JSString := List Nat

/-- The UTF-16 code units of a string literal of the source. -/
def utf16 (s : String) : JSString :=
  s.toList.flatMap fun c =>
    if c.toNat < 65536 then [c.toNat]
    else [0xD800 + (c.toNat - 0x10000) / 1024, 0xDC00 + (c.toNat - 0x10000) % 1024]

/-- Decimal digits of a number, as `'' + n` produces them. -/
def numToString (n : Nat) : JSString := utf16 (toString n)

/-- `hay.indexOf(needle)` from position `i`: the first index at which `needle` occurs, `-1` if none. -/
def indexOfFrom (needle : JSString) : JSString → Nat → Int
  | [], i => if needle.isEmpty then i else -1
  | c :: s, i => if needle.isPrefixOf (c :: s) then i else indexOfFrom needle s (i + 1)

/-- `hay.indexOf(needle)`. -/
def indexOf (hay needle : JSString) : Int := indexOfFrom needle hay 0

/-- `s.charAt(i)`: the one-unit string at index `i`, the empty string out of range. -/
def charAt (s : JSString) (i : Int) : JSString :=
  if i < 0 then [] else (s.drop i.toNat).take 1

/-- `s.substring(a, b)` for `a ≤ b`. -/
def substring (s : JSString) (a b : Nat) : JSString := (s.drop a).take (b - a)

/-! ## Operator table -/

/-- One entry of `operatorLevels`: the `rassoc` flag and the operator names with their symbols,
in key order. -/
structure Level where
  rassoc : Bool := false
  names : List (String × List JSString)
  deriving DecidableEq, Repr

/-- All operators, sorted by precedence level. -/
def operatorLevels : List Level := [
  { names := [("key", [utf16 ":"]), ("field", [utf16 "."]), ("deg", [utf16 "°"]),
      ("take", [utf16 "_"])] },
  { rassoc := true, names := [("pow", [utf16 "^"]), ("sqrt", [utf16 "√"])] },
  { names := [
      ("mul", [utf16 "*", utf16 "\u2062", utf16 "\u22c5", utf16 "\u00b7"]),
      ("cross", [utf16 "×"]),
      ("div", [utf16 "/", utf16 "\u00f7", utf16 "\u2215", utf16 "\u2236"])] },
  { names := [("add", [utf16 "+"]), ("sub", [utf16 "-", utf16 "−"]),
      ("neg", [utf16 "!", utf16 "¬"])] },
  { names := [("seq", [utf16 ".."])] },
  { names := [
      ("eq", [utf16 "==", utf16 "≟"]),
      ("ne", [utf16 "!=", utf16 "<>", utf16 "≠"]),
      ("lt", [utf16 "<"]),
      ("gt", [utf16 ">"]),
      ("le", [utf16 "<=", utf16 "≤", utf16 "≦"]),
      ("ge", [utf16 ">=", utf16 "≥", utf16 "≧"]),
      ("aeq", [utf16 "~=", utf16 "≈"]),
      ("ane", [utf16 "~!=", utf16 "≉"]),
      ("alt", [utf16 "~<", utf16 "⪉"]),
      ("agt", [utf16 "~>", utf16 "⪊"]),
      ("ale", [utf16 "~<=", utf16 "⪅"]),
      ("age", [utf16 "~>=", utf16 "⪆"]),
      ("in", [utf16 "∈"]),
      ("nin", [utf16 "∉"])] },
  { names := [("and", [utf16 "&", utf16 "∧"]), ("or", [utf16 "%", utf16 "∨"])] },
  { rassoc := true, names := [("prepend", [utf16 "<:"])] },
  { names := [
      ("concat", [utf16 "++", utf16 "∪"]),
      ("remove", [utf16 "--", utf16 "∖"]),
      ("common", [utf16 "~~", utf16 "∩"]),
      ("append", [utf16 ":>"])] },
  { rassoc := true, names := [
      ("assign", [utf16 "="]),
      ("define", [utf16 ":="]),
      ("undefine", [utf16 ":=_"]),
      ("bdefine", [utf16 "::="])] },
  { names := [("seq", [utf16 ";"])] },
  { names := [("modif", [utf16 "->", utf16 "→"])] },
  { rassoc := true, names := [("list", [utf16 ","])] }]

def prefixOperators : List JSString := [utf16 "+", utf16 "-"]
def prefixOnly : List JSString := [utf16 "!", utf16 "√"]
def postfixOnly : List JSString := [utf16 "°", utf16 ":=_"]
def flexfix : List JSString := [utf16 ";", utf16 ","]

/-- An operator descriptor `descr`.  The fixity flags of the source are called
`prefix`, `postfix` and `infix` there. -/
structure OpDescr where
  name : String
  sym : JSString
  symbols : List JSString
  rassoc : Bool
  precedence : Nat
  prefixOk : Bool
  postfixOk : Bool
  infixOk : Bool
  bare : Bool
  deriving DecidableEq, Repr

/-- The registry built by `initializeOperators`: the descriptor objects in creation order, the
object `operators` mapping each symbol to its (shared) descriptor object, given by its index,
and the array `operatorSymbols`. -/
structure OpTable where
  descrs : List OpDescr := []
  operators : List (JSString × Nat) := []
  operatorSymbols : List JSString := []
  deriving DecidableEq, Repr

/-- `operators.hasOwnProperty(symbol)`. -/
def OpTable.hasOwnProperty (t : OpTable) (symbol : JSString) : Bool :=
  t.operators.any fun e => e.1 == symbol

/-- The loop over `symbols` registering each for the descriptor with index `d`;
`none` is `throw Error('Duplicate operator: ' + symbol)`. -/
def registerSymbols (d : Nat) : List JSString → OpTable → Option OpTable
  | [], t => some t
  | symbol :: rest, t =>
    if t.hasOwnProperty symbol then none
    else registerSymbols d rest
      { t with operators := t.operators ++ [(symbol, d)],
               operatorSymbols := t.operatorSymbols ++ [symbol] }

/-- The loop `for (var name in level)` for a level of the given associativity and precedence. -/
def registerNames (rassoc : Bool) (precedence : Nat) :
    List (String × List JSString) → OpTable → Option OpTable
  | [], t => some t
  | (name, symbols) :: rest, t =>
    let descr : OpDescr :=
      { name := name, sym := symbols.headD [], symbols := symbols, rassoc := rassoc,
        precedence := precedence, prefixOk := false, postfixOk := false, infixOk := true,
        bare := false }
    match registerSymbols t.descrs.length symbols { t with descrs := t.descrs ++ [descr] } with
    | none => none
    | some t1 => registerNames rassoc precedence rest t1

/-- The loop `operatorLevels.forEach`, `precedence` being the running counter. -/
def registerLevels : List Level → Nat → OpTable → Option OpTable
  | [], _, t => some t
  | level :: rest, precedence, t =>
    match registerNames level.rassoc (precedence + 2) level.names t with
    | none => none
    | some t1 => registerLevels rest (precedence + 2) t1

/-- The statement `operators[op].… = …` for each `op` of a list: the descriptor object that `op`
maps to is updated, which every symbol sharing it sees; `none` when `op` is not registered. -/
def setFlags (f : OpDescr → OpDescr) : List JSString → OpTable → Option OpTable
  | [], t => some t
  | op :: rest, t =>
    match t.operators.lookup op with
    | none => none
    | some d => setFlags f rest { t with descrs := t.descrs.modify f d }

/-- The function `initializeOperators`. -/
def initializeOperators : Option OpTable := do
  let t ← registerLevels operatorLevels 0 {}
  let t ← setFlags (fun d => { d with prefixOk := true }) prefixOperators t
  let t ← setFlags (fun d => { d with prefixOk := true, infixOk := false }) prefixOnly t
  let t ← setFlags (fun d => { d with postfixOk := true, infixOk := false }) postfixOnly t
  setFlags (fun d => { d with prefixOk := true, postfixOk := true, infixOk := true, bare := true })
    flexfix t

/-- The value of the registry that `initializeOperators` builds, the symbols being given by
their code units. -/
def opTableValue : OpTable :=
  { descrs := [
      ⟨"key", [58], [[58]], false, 2, false, false, true, false⟩,
      ⟨"field", [46], [[46]], false, 2, false, false, true, false⟩,
      ⟨"deg", [176], [[176]], false, 2, false, true, false, false⟩,
      ⟨"take", [95], [[95]], false, 2, false, false, true, false⟩,
      ⟨"pow", [94], [[94]], true, 4, false, false, true, false⟩,
      ⟨"sqrt", [8730], [[8730]], true, 4, true, false, false, false⟩,
      ⟨"mul", [42], [[42], [8290], [8901], [183]], false, 6, false, false, true, false⟩,
      ⟨"cross", [215], [[215]], false, 6, false, false, true, false⟩,
      ⟨"div", [47], [[47], [247], [8725], [8758]], false, 6, false, false, true, false⟩,
      ⟨"add", [43], [[43]], false, 8, true, false, true, false⟩,
      ⟨"sub", [45], [[45], [8722]], false, 8, true, false, true, false⟩,
      ⟨"neg", [33], [[33], [172]], false, 8, true, false, false, false⟩,
      ⟨"seq", [46, 46], [[46, 46]], false, 10, false, false, true, false⟩,
      ⟨"eq", [61, 61], [[61, 61], [8799]], false, 12, false, false, true, false⟩,
      ⟨"ne", [33, 61], [[33, 61], [60, 62], [8800]], false, 12, false, false, true, false⟩,
      ⟨"lt", [60], [[60]], false, 12, false, false, true, false⟩,
      ⟨"gt", [62], [[62]], false, 12, false, false, true, false⟩,
      ⟨"le", [60, 61], [[60, 61], [8804], [8806]], false, 12, false, false, true, false⟩,
      ⟨"ge", [62, 61], [[62, 61], [8805], [8807]], false, 12, false, false, true, false⟩,
      ⟨"aeq", [126, 61], [[126, 61], [8776]], false, 12, false, false, true, false⟩,
      ⟨"ane", [126, 33, 61], [[126, 33, 61], [8777]], false, 12, false, false, true, false⟩,
      ⟨"alt", [126, 60], [[126, 60], [10889]], false, 12, false, false, true, false⟩,
      ⟨"agt", [126, 62], [[126, 62], [10890]], false, 12, false, false, true, false⟩,
      ⟨"ale", [126, 60, 61], [[126, 60, 61], [10885]], false, 12, false, false, true, false⟩,
      ⟨"age", [126, 62, 61], [[126, 62, 61], [10886]], false, 12, false, false, true, false⟩,
      ⟨"in", [8712], [[8712]], false, 12, false, false, true, false⟩,
      ⟨"nin", [8713], [[8713]], false, 12, false, false, true, false⟩,
      ⟨"and", [38], [[38], [8743]], false, 14, false, false, true, false⟩,
      ⟨"or", [37], [[37], [8744]], false, 14, false, false, true, false⟩,
      ⟨"prepend", [60, 58], [[60, 58]], true, 16, false, false, true, false⟩,
      ⟨"concat", [43, 43], [[43, 43], [8746]], false, 18, false, false, true, false⟩,
      ⟨"remove", [45, 45], [[45, 45], [8726]], false, 18, false, false, true, false⟩,
      ⟨"common", [126, 126], [[126, 126], [8745]], false, 18, false, false, true, false⟩,
      ⟨"append", [58, 62], [[58, 62]], false, 18, false, false, true, false⟩,
      ⟨"assign", [61], [[61]], true, 20, false, false, true, false⟩,
      ⟨"define", [58, 61], [[58, 61]], true, 20, false, false, true, false⟩,
      ⟨"undefine", [58, 61, 95], [[58, 61, 95]], true, 20, false, true, false, false⟩,
      ⟨"bdefine", [58, 58, 61], [[58, 58, 61]], true, 20, false, false, true, false⟩,
      ⟨"seq", [59], [[59]], false, 22, true, true, true, true⟩,
      ⟨"modif", [45, 62], [[45, 62], [8594]], false, 24, false, false, true, false⟩,
      ⟨"list", [44], [[44]], true, 26, true, true, true, true⟩],
    operators := [
      ([58], 0), ([46], 1), ([176], 2), ([95], 3), ([94], 4), ([8730], 5), ([42], 6), ([8290], 6),
      ([8901], 6), ([183], 6), ([215], 7), ([47], 8), ([247], 8), ([8725], 8), ([8758], 8),
      ([43], 9), ([45], 10), ([8722], 10), ([33], 11), ([172], 11), ([46, 46], 12), ([61, 61], 13),
      ([8799], 13), ([33, 61], 14), ([60, 62], 14), ([8800], 14), ([60], 15), ([62], 16),
      ([60, 61], 17), ([8804], 17), ([8806], 17), ([62, 61], 18), ([8805], 18), ([8807], 18),
      ([126, 61], 19), ([8776], 19), ([126, 33, 61], 20), ([8777], 20), ([126, 60], 21),
      ([10889], 21), ([126, 62], 22), ([10890], 22), ([126, 60, 61], 23), ([10885], 23),
      ([126, 62, 61], 24), ([10886], 24), ([8712], 25), ([8713], 26), ([38], 27), ([8743], 27),
      ([37], 28), ([8744], 28), ([60, 58], 29), ([43, 43], 30), ([8746], 30), ([45, 45], 31),
      ([8726], 31), ([126, 126], 32), ([8745], 32), ([58, 62], 33), ([61], 34), ([58, 61], 35),
      ([58, 61, 95], 36), ([58, 58, 61], 37), ([59], 38), ([45, 62], 39), ([8594], 39), ([44], 40)],
    operatorSymbols := [
      [58], [46], [176], [95], [94], [8730], [42], [8290], [8901], [183], [215], [47], [247],
      [8725], [8758], [43], [45], [8722], [33], [172], [46, 46], [61, 61], [8799], [33, 61],
      [60, 62], [8800], [60], [62], [60, 61], [8804], [8806], [62, 61], [8805], [8807], [126, 61],
      [8776], [126, 33, 61], [8777], [126, 60], [10889], [126, 62], [10890], [126, 60, 61],
      [10885], [126, 62, 61], [10886], [8712], [8713], [38], [8743], [37], [8744], [60, 58],
      [43, 43], [8746], [45, 45], [8726], [126, 126], [8745], [58, 62], [61], [58, 61],
      [58, 61, 95], [58, 58, 61], [59], [45, 62], [8594], [44]] }

/-- The run of `initializeOperators` at module initialisation: it does not throw, and the
registry that it has built is `opTableValue`. -/
def opTableBuilt : { t : OpTable // initializeOperators = some t } :=
  ⟨opTableValue, by decide!⟩

/-- The registry after module initialisation, which the tokenizer and the parser read: what
`initializeOperators` has built. -/
def opTable : OpTable := opTableBuilt.val

/-- `operators[symbol]`, `none` for `undefined`. -/
def operators (symbol : JSString) : Option OpDescr :=
  match opTable.operators.lookup symbol with
  | none => none
  | some d => opTable.descrs[d]?

/-- Insertion of `a` into a list sorted by non-increasing length, before the first element that
is not longer than `a`. -/
def insertByLength (a : JSString) : List JSString → List JSString
  | [] => [a]
  | b :: l => if b.length ≤ a.length then a :: b :: l else b :: insertByLength a l

/-- `operatorSymbols.sort(function(a, b) { return b.length - a.length; })`: longer symbols first;
symbols of equal length keep their registration order. -/
def sortByLength : List JSString → List JSString
  | [] => []
  | a :: l => insertByLength a (sortByLength l)

/-- The value of the array `operatorSymbols` after it has been sorted. -/
def operatorSymbolsValue : List JSString := [
    [126, 33, 61], [126, 60, 61], [126, 62, 61], [58, 61, 95], [58, 58, 61], [46, 46], [61, 61],
    [33, 61], [60, 62], [60, 61], [62, 61], [126, 61], [126, 60], [126, 62], [60, 58], [43, 43],
    [45, 45], [126, 126], [58, 62], [58, 61], [45, 62], [58], [46], [176], [95], [94], [8730],
    [42], [8290], [8901], [183], [215], [47], [247], [8725], [8758], [43], [45], [8722], [33],
    [172], [8799], [8800], [60], [62], [8804], [8806], [8805], [8807], [8776], [8777], [10889],
    [10890], [10885], [10886], [8712], [8713], [38], [8743], [37], [8744], [8746], [8726],
    [8745], [61], [59], [8594], [44]]

/-- The statement `operatorSymbols.sort(…)` that follows the initialisation: the array that
`initializeOperators` has filled, sorted, is `operatorSymbolsValue`. -/
def operatorSymbolsSorted :
    { l : List JSString // sortByLength opTable.operatorSymbols = l } :=
  ⟨operatorSymbolsValue, by decide!⟩

/-- The array `operatorSymbols` as the tokenizer reads it: sorted, longer symbols first. -/
def operatorSymbols : List JSString := operatorSymbolsSorted.val

def brackets : JSString := utf16 "[]()\x7b\x7d||"

/-! ## Lexical patterns -/

/-- The class `[ \t]` of in-token whitespace. -/
def isInTokenWhitespace (c : Nat) : Bool := c = 32 || c = 9

/-- The class `[ \t\n]` of `whitespaceToken`. -/
def isWhitespace (c : Nat) : Bool := c = 32 || c = 9 || c = 10

/-- The class `[0-9]`. -/
def isDigit (c : Nat) : Bool := 48 ≤ c && c ≤ 57

/-- The units that `.` does not match: the line terminators. -/
def isLineTerminator (c : Nat) : Bool := c = 10 || c = 13 || c = 0x2028 || c = 0x2029

/-- `X*` for a class `X` of single units, greedy: the length of the longest run. -/
def spanLen (p : Nat → Bool) : JSString → Nat
  | [] => 0
  | c :: s => if p c then spanLen p s + 1 else 0

/-- The pattern `inTokenWhitespace`, `[ \t]*`. -/
def inTokenWhitespace (s : JSString) : Nat := spanLen isInTokenWhitespace s

/-- The pattern ` X` after `expandSpaces`, `[ \t]*X`, for a class `X` of single units that are
not in-token whitespace: the length of the match, `none` if there is none. -/
def spaceThen (p : Nat → Bool) (s : JSString) : Option Nat :=
  match s.drop (inTokenWhitespace s) with
  | [] => none
  | c :: _ => if p c then some (inTokenWhitespace s + 1) else none

/-- The pattern `(?: X)*` after `expandSpaces`, `(?:[ \t]*X)*`, greedy, for a class `X` of single
units that are not in-token whitespace: the length of the match.  `k` counts the in-token
whitespace read since the last `X`, which belongs to the match only if another `X` follows. -/
def spaceSeq (p : Nat → Bool) : JSString → Nat → Nat
  | [], _ => 0
  | c :: s, k =>
    if isInTokenWhitespace c then spaceSeq p s (k + 1)
    else if p c then k + 1 + spaceSeq p s 0
    else 0

/-- The pattern `whitespaceToken`, `[ \t\n]+`. -/
def whitespaceToken (s : JSString) : Option Nat :=
  if spanLen isWhitespace s = 0 then none else some (spanLen isWhitespace s)

/-- The pattern `//.*` of a single-line comment. -/
def lineComment : JSString → Option Nat
  | 47 :: 47 :: s => some (2 + spanLen (fun c => !isLineTerminator c) s)
  | _ => none

/-- The pattern `/\*`, the start of a multi-line comment. -/
def startComment : JSString → Option Nat
  | 47 :: 42 :: _ => some 2
  | _ => none

/-- The optional fractional part of `reNumber`, `(?: \.(?! \.)(?: [0-9])*)?`: its length, `0`
when the group does not take part in the match. -/
def fractionPart (s : JSString) : Nat :=
  match spaceThen (fun c => c = 46) s with
  | none => 0
  | some n =>
    if (spaceThen (fun c => c = 46) (s.drop n)).isSome then 0
    else n + spaceSeq isDigit (s.drop n) 0

/-- The optional exponent of `reNumber`, `(?: [Ee](?: [+-])?(?: [0-9])+)?`: its length, `0` when
the group does not take part in the match. -/
def exponentPart (s : JSString) : Nat :=
  match spaceThen (fun c => c = 69 || c = 101) s with
  | none => 0
  | some n =>
    let withSign : Nat :=
      match spaceThen (fun c => c = 43 || c = 45) (s.drop n) with
      | none => 0
      | some m =>
        if spaceSeq isDigit (s.drop (n + m)) 0 = 0 then 0
        else m + spaceSeq isDigit (s.drop (n + m)) 0
    if withSign ≠ 0 then n + withSign
    else if spaceSeq isDigit (s.drop n) 0 = 0 then 0
    else n + spaceSeq isDigit (s.drop n) 0

/-- The pattern `reNumber`: either an integer part, possibly followed by a possibly empty
fractional part, possibly followed by an exponent, or a leading dot followed by a non-empty
fractional part, possibly followed by an exponent. -/
def reNumber : JSString → Option Nat
  | [] => none
  | c :: s =>
    if isDigit c then
      let n1 := 1 + spaceSeq isDigit s 0
      let n2 := fractionPart ((c :: s).drop n1)
      some (n1 + n2 + exponentPart ((c :: s).drop (n1 + n2)))
    else if c = 46 then
      if spaceSeq isDigit s 0 = 0 then none
      else some (1 + spaceSeq isDigit s 0 + exponentPart (s.drop (spaceSeq isDigit s 0)))
    else none

/-- The function `anyOfGroup`: the group matching any of the given strings literally, the
alternatives being tried in the order of the list. -/
def anyOfGroup (lst : List JSString) (s : JSString) : Option Nat :=
  match lst.find? (fun sym => sym.isPrefixOf s) with
  | none => none
  | some sym => some sym.length

def supDigit : JSString := utf16 "⁰¹²³⁴⁵⁶⁷⁸⁹"
def subDigit : JSString := utf16 "₀₁₂₃₄₅₆₇₈₉"

/-- The patterns `supNum` and `subNum`, `(?:[±] )?D(?: D)*` after `expandSpaces`, for the sign
class `sign` and the digit class `digit`. -/
def scriptNum (sign digit : JSString) : JSString → Option Nat
  | [] => none
  | c :: s =>
    let unsigned : Option Nat :=
      if c ∈ digit then some (1 + spaceSeq (fun d => d ∈ digit) s 0) else none
    if c ∈ sign then
      match s.drop (inTokenWhitespace s) with
      | [] => unsigned
      | d :: r =>
        if d ∈ digit then some (1 + inTokenWhitespace s + 1 + spaceSeq (fun d => d ∈ digit) r 0)
        else unsigned
    else unsigned

def supNum : JSString → Option Nat := scriptNum (utf16 "⁺⁻") supDigit
def subNum : JSString → Option Nat := scriptNum (utf16 "₊₋") subDigit

/-- The array `dict` given to the generator of `unicodeLetters`. -/
def letterDict : List Nat := [
    2, 0, 106, 3, 4, 1, 6, 5, 7, 11, 17, 8, 12, 21, 9, 22, 30, 10, 15, 24, 25, 16, 13, 42, 46, 14,
    18, 19, 29, 37, 27, 28, 35, 26, 32, 36, 40, 43, 47, 53, 20, 48, 50, 56, 33, 34, 39, 51, 52, 55,
    63, 64, 65, 68, 85, 23, 31, 38, 45, 49, 105, 59, 66, 69, 72, 88, 102, 114, 117, 128, 157, 191,
    41, 44, 54, 60, 67, 70, 71, 73, 74, 75, 76, 80, 81, 82, 83, 84, 86, 87, 89, 93, 94, 98, 99, 107,
    108, 116, 122, 130, 132, 134, 138, 160, 165, 185, 195, 196, 255, 268, 277, 310, 332, 339, 362,
    365, 390, 449, 457, 470, 512, 513, 541, 568, 582, 619, 673, 726, 768, 820, 921, 991, 1164, 2684,
    6581, 8453, 11171, 20949]

/-- The string `str` given to the generator of `unicodeLetters`, as code units. -/
def letterStr : JSString := [
    84, 52, 40, 52, 73, 33, 41, 33, 39, 33, 38, 47, 32, 48, 32, 150, 39, 41, 50, 36, 43, 33, 32, 33,
    131, 36, 32, 37, 35, 35, 32, 33, 40, 33, 32, 32, 32, 33, 32, 59, 32, 117, 32, 134, 46, 136, 32,
    61, 35, 33, 43, 89, 111, 65, 38, 32, 56, 55, 67, 37, 32, 125, 32, 33, 53, 37, 43, 37, 41, 32,
    35, 33, 42, 33, 32, 60, 48, 97, 44, 33, 52, 66, 49, 37, 39, 33, 38, 45, 39, 33, 49, 33, 36, 33,
    51, 51, 96, 72, 115, 71, 36, 33, 59, 33, 43, 46, 53, 50, 39, 40, 35, 37, 35, 45, 32, 38, 32, 33,
    36, 35, 36, 33, 42, 33, 57, 37, 32, 32, 50, 37, 72, 39, 39, 37, 35, 45, 32, 38, 32, 37, 32, 37,
    32, 37, 66, 35, 32, 33, 72, 32, 42, 43, 32, 32, 32, 45, 32, 38, 32, 37, 32, 36, 36, 33, 59, 33,
    53, 37, 51, 33, 44, 40, 35, 37, 35, 45, 32, 38, 32, 37, 32, 36, 36, 33, 88, 37, 32, 32, 53, 33,
    58, 33, 32, 39, 36, 32, 32, 35, 36, 37, 32, 33, 32, 37, 36, 37, 36, 32, 36, 41, 87, 33, 71, 40,
    32, 32, 32, 47, 32, 50, 36, 33, 62, 32, 38, 37, 67, 40, 32, 32, 32, 47, 32, 46, 32, 36, 36, 33,
    76, 33, 32, 37, 53, 37, 59, 40, 32, 32, 32, 68, 35, 33, 42, 33, 42, 32, 52, 39, 38, 42, 36, 87,
    32, 43, 32, 33, 35, 38, 93, 70, 32, 37, 54, 38, 93, 37, 32, 33, 35, 37, 32, 33, 35, 33, 40, 35,
    32, 38, 32, 32, 32, 33, 32, 33, 35, 37, 32, 35, 32, 37, 49, 33, 35, 36, 32, 33, 47, 35, 76, 33,
    83, 40, 32, 64, 63, 36, 129, 55, 45, 33, 42, 39, 39, 35, 36, 33, 36, 37, 43, 32, 39, 44, 54, 33,
    58, 61, 32, 33, 38, 33, 35, 55, 32, 144, 32, 35, 35, 38, 32, 33, 32, 35, 35, 68, 32, 35, 35, 66,
    32, 35, 35, 38, 32, 33, 32, 35, 35, 57, 32, 75, 32, 35, 35, 94, 89, 50, 42, 86, 35, 39, 36, 157,
    35, 53, 32, 52, 38, 112, 40, 40, 43, 44, 32, 35, 50, 42, 50, 42, 50, 44, 32, 32, 53, 79, 67, 33,
    39, 33, 85, 121, 46, 68, 32, 33, 38, 95, 41, 48, 74, 60, 35, 36, 44, 69, 39, 52, 81, 47, 49, 80,
    118, 33, 124, 56, 58, 38, 75, 60, 57, 37, 41, 69, 62, 64, 55, 32, 41, 64, 128, 35, 32, 35, 36,
    37, 49, 103, 84, 142, 35, 39, 35, 61, 35, 39, 35, 40, 32, 33, 32, 33, 32, 33, 32, 48, 35, 80,
    32, 38, 32, 33, 36, 32, 32, 38, 36, 35, 35, 39, 39, 44, 38, 32, 32, 38, 100, 33, 57, 33, 42, 44,
    98, 33, 39, 33, 35, 46, 32, 33, 36, 36, 40, 33, 32, 33, 32, 33, 32, 35, 32, 49, 35, 35, 38, 36,
    39, 33, 71, 37, 165, 56, 32, 56, 32, 132, 40, 35, 36, 37, 54, 61, 32, 33, 38, 33, 35, 81, 43,
    33, 42, 47, 49, 38, 32, 38, 32, 38, 32, 38, 32, 38, 32, 38, 32, 38, 32, 38, 116, 33, 151, 37,
    69, 36, 38, 37, 39, 86, 40, 32, 32, 122, 32, 35, 38, 68, 36, 123, 58, 65, 106, 50, 153, 166,
    113, 169, 69, 164, 85, 90, 35, 141, 36, 50, 41, 37, 45, 56, 42, 48, 35, 95, 74, 43, 35, 98, 35,
    77, 35, 40, 83, 49, 32, 32, 32, 35, 32, 47, 48, 79, 50, 91, 82, 39, 36, 33, 32, 33, 54, 62, 41,
    47, 65, 63, 43, 56, 60, 33, 42, 36, 32, 46, 41, 36, 32, 68, 51, 32, 32, 40, 45, 47, 36, 33, 36,
    91, 32, 33, 36, 37, 35, 36, 35, 33, 32, 33, 52, 32, 35, 49, 43, 32, 54, 39, 35, 39, 35, 39, 49,
    38, 32, 38, 32, 55, 32, 46, 41, 99, 48, 168, 54, 47, 39, 73, 167, 147, 35, 92, 78, 38, 54, 36,
    38, 33, 32, 46, 32, 44, 32, 36, 32, 33, 32, 37, 32, 37, 32, 127, 77, 146, 59, 82, 35, 71, 104,
    41, 100, 36, 32, 133, 61, 52, 40, 52, 44, 97, 36, 39, 35, 39, 35, 39, 35, 32, 55296, 33, 41, 32,
    52, 32, 58, 32, 37, 32, 57, 35, 54, 64, 130, 148, 63, 36, 73, 73, 88, 42, 53, 32, 40, 40, 61,
    41, 60, 35, 64, 39, 40, 55297, 33, 102, 126, 78, 46, 79, 102, 143, 49, 45, 41, 40, 55298, 33,
    39, 35, 33, 32, 69, 32, 37, 36, 33, 35, 47, 41, 47, 49, 48, 94, 58, 32, 37, 41, 45, 41, 52, 110,
    81, 40, 37, 84, 33, 53, 35, 32, 32, 32, 65, 90, 63, 36, 63, 67, 40, 32, 62, 63, 71, 41, 45, 41,
    58, 57, 42, 55299, 33, 96, 75, 74, 57, 74, 55300, 35, 80, 114, 105, 76, 51, 62, 64, 55, 77, 36,
    33, 54, 70, 50, 35, 47, 33, 32, 33, 67, 42, 32, 51, 86, 38, 32, 33, 32, 35, 32, 57, 32, 46, 43,
    56, 78, 40, 35, 37, 35, 45, 32, 38, 32, 37, 32, 36, 36, 33, 59, 33, 54, 36, 55301, 101, 70, 45,
    37, 32, 33, 137, 56, 55, 35, 61, 70, 45, 33, 107, 55, 120, 52, 55302, 135, 82, 66, 33, 149, 75,
    55304, 33, 162, 55305, 101, 138, 55309, 33, 56, 55313, 33, 156, 55322, 33, 155, 43, 48, 99, 60,
    59, 70, 42, 35, 66, 72, 38, 58, 55323, 160, 85, 44, 33, 108, 44, 55340, 33, 37, 55343, 33, 34,
    38, 44, 36, 43, 43, 46, 55349, 33, 119, 32, 109, 32, 37, 35, 33, 35, 37, 35, 35, 32, 41, 32, 33,
    32, 38, 32, 83, 32, 35, 35, 40, 32, 38, 32, 62, 32, 35, 32, 36, 32, 33, 36, 38, 32, 145, 35, 51,
    32, 51, 32, 48, 32, 51, 32, 48, 32, 51, 32, 48, 32, 51, 32, 48, 32, 51, 32, 40, 55354, 33, 139,
    55355, 152, 35, 32, 65, 32, 37, 32, 33, 35, 33, 32, 46, 32, 35, 32, 33, 32, 33, 40, 33, 39, 33,
    32, 33, 32, 33, 32, 32, 32, 37, 32, 33, 35, 33, 32, 33, 32, 33, 32, 33, 32, 33, 32, 37, 32, 33,
    35, 35, 32, 38, 32, 35, 32, 35, 32, 33, 32, 46, 32, 53, 38, 32, 32, 36, 32, 53, 55401, 33, 159,
    55, 140, 55405, 33, 161, 44, 103, 55406, 33, 60, 35, 163, 55411, 33, 158, 55422, 33, 154]

/-- The loop of the generator of `unicodeLetters`, from running value `j`: the ranges of the
character class that is open, and the alternatives that follow it, each a leading unit (a high
surrogate, copied from `str`) with the ranges of its class.  A unit of `str` below `0xd800`
is read together with the next one: they give, through `dict`, the distance of the next range
from `j` and its extent. -/
def decodeLetters : JSString → Nat → List (Nat × Nat) × List (Nat × List (Nat × Nat))
  | [], _ => ([], [])
  | code :: rest, j =>
    if 0xd800 ≤ code then
      let r := decodeLetters rest 0xdc00
      ([], (code, r.1) :: r.2)
    else
      match rest with
      | [] => ([], [])
      | code2 :: rest2 =>
        let fst := letterDict.getD (code - 32) 0 + j
        let lst := fst + letterDict.getD (code2 - 32) 0
        let r := decodeLetters rest2 lst
        ((fst % 65536, lst % 65536) :: r.1, r.2)

/-- The class that opens the pattern `unicodeLetters`, letters of the basic plane, as its
ranges: the first component of `decodeLetters letterStr 0` (theorem `decodeLetters_eq`). -/
def bmpLetters : List (Nat × Nat) := [
    (65, 90), (97, 122), (170, 170), (181, 181), (186, 186), (192, 214), (216, 246), (248, 705),
    (710, 721), (736, 740), (748, 748), (750, 750), (880, 884), (886, 887), (890, 893),
    (895, 895), (902, 902), (904, 906), (908, 908), (910, 929), (931, 1013), (1015, 1153),
    (1162, 1327), (1329, 1366), (1369, 1369), (1377, 1415), (1488, 1514), (1520, 1522),
    (1568, 1610), (1646, 1647), (1649, 1747), (1749, 1749), (1765, 1766), (1774, 1775),
    (1786, 1788), (1791, 1791), (1808, 1808), (1810, 1839), (1869, 1957), (1969, 1969),
    (1994, 2026), (2036, 2037), (2042, 2042), (2048, 2069), (2074, 2074), (2084, 2084),
    (2088, 2088), (2112, 2136), (2208, 2228), (2308, 2361), (2365, 2365), (2384, 2384),
    (2392, 2401), (2417, 2432), (2437, 2444), (2447, 2448), (2451, 2472), (2474, 2480),
    (2482, 2482), (2486, 2489), (2493, 2493), (2510, 2510), (2524, 2525), (2527, 2529),
    (2544, 2545), (2565, 2570), (2575, 2576), (2579, 2600), (2602, 2608), (2610, 2611),
    (2613, 2614), (2616, 2617), (2649, 2652), (2654, 2654), (2674, 2676), (2693, 2701),
    (2703, 2705), (2707, 2728), (2730, 2736), (2738, 2739), (2741, 2745), (2749, 2749),
    (2768, 2768), (2784, 2785), (2809, 2809), (2821, 2828), (2831, 2832), (2835, 2856),
    (2858, 2864), (2866, 2867), (2869, 2873), (2877, 2877), (2908, 2909), (2911, 2913),
    (2929, 2929), (2947, 2947), (2949, 2954), (2958, 2960), (2962, 2965), (2969, 2970),
    (2972, 2972), (2974, 2975), (2979, 2980), (2984, 2986), (2990, 3001), (3024, 3024),
    (3077, 3084), (3086, 3088), (3090, 3112), (3114, 3129), (3133, 3133), (3160, 3162),
    (3168, 3169), (3205, 3212), (3214, 3216), (3218, 3240), (3242, 3251), (3253, 3257),
    (3261, 3261), (3294, 3294), (3296, 3297), (3313, 3314), (3333, 3340), (3342, 3344),
    (3346, 3386), (3389, 3389), (3406, 3406), (3423, 3425), (3450, 3455), (3461, 3478),
    (3482, 3505), (3507, 3515), (3517, 3517), (3520, 3526), (3585, 3632), (3634, 3635),
    (3648, 3654), (3713, 3714), (3716, 3716), (3719, 3720), (3722, 3722), (3725, 3725),
    (3732, 3735), (3737, 3743), (3745, 3747), (3749, 3749), (3751, 3751), (3754, 3755),
    (3757, 3760), (3762, 3763), (3773, 3773), (3776, 3780), (3782, 3782), (3804, 3807),
    (3840, 3840), (3904, 3911), (3913, 3948), (3976, 3980), (4096, 4138), (4159, 4159),
    (4176, 4181), (4186, 4189), (4193, 4193), (4197, 4198), (4206, 4208), (4213, 4225),
    (4238, 4238), (4256, 4293), (4295, 4295), (4301, 4301), (4304, 4346), (4348, 4680),
    (4682, 4685), (4688, 4694), (4696, 4696), (4698, 4701), (4704, 4744), (4746, 4749),
    (4752, 4784), (4786, 4789), (4792, 4798), (4800, 4800), (4802, 4805), (4808, 4822),
    (4824, 4880), (4882, 4885), (4888, 4954), (4992, 5007), (5024, 5109), (5112, 5117),
    (5121, 5740), (5743, 5759), (5761, 5786), (5792, 5866), (5873, 5880), (5888, 5900),
    (5902, 5905), (5920, 5937), (5952, 5969), (5984, 5996), (5998, 6000), (6016, 6067),
    (6103, 6103), (6108, 6108), (6176, 6263), (6272, 6312), (6314, 6314), (6320, 6389),
    (6400, 6430), (6480, 6509), (6512, 6516), (6528, 6571), (6576, 6601), (6656, 6678),
    (6688, 6740), (6823, 6823), (6917, 6963), (6981, 6987), (7043, 7072), (7086, 7087),
    (7098, 7141), (7168, 7203), (7245, 7247), (7258, 7293), (7401, 7404), (7406, 7409),
    (7413, 7414), (7424, 7615), (7680, 7957), (7960, 7965), (7968, 8005), (8008, 8013),
    (8016, 8023), (8025, 8025), (8027, 8027), (8029, 8029), (8031, 8061), (8064, 8116),
    (8118, 8124), (8126, 8126), (8130, 8132), (8134, 8140), (8144, 8147), (8150, 8155),
    (8160, 8172), (8178, 8180), (8182, 8188), (8305, 8305), (8319, 8319), (8336, 8348),
    (8450, 8450), (8455, 8455), (8458, 8467), (8469, 8469), (8473, 8477), (8484, 8484),
    (8486, 8486), (8488, 8488), (8490, 8493), (8495, 8505), (8508, 8511), (8517, 8521),
    (8526, 8526), (8579, 8580), (11264, 11310), (11312, 11358), (11360, 11492), (11499, 11502),
    (11506, 11507), (11520, 11557), (11559, 11559), (11565, 11565), (11568, 11623),
    (11631, 11631), (11648, 11670), (11680, 11686), (11688, 11694), (11696, 11702),
    (11704, 11710), (11712, 11718), (11720, 11726), (11728, 11734), (11736, 11742),
    (11823, 11823), (12293, 12294), (12337, 12341), (12347, 12348), (12353, 12438),
    (12445, 12447), (12449, 12538), (12540, 12543), (12549, 12589), (12593, 12686),
    (12704, 12730), (12784, 12799), (13312, 19893), (19968, 40917), (40960, 42124),
    (42192, 42237), (42240, 42508), (42512, 42527), (42538, 42539), (42560, 42606),
    (42623, 42653), (42656, 42725), (42775, 42783), (42786, 42888), (42891, 42925),
    (42928, 42935), (42999, 43009), (43011, 43013), (43015, 43018), (43020, 43042),
    (43072, 43123), (43138, 43187), (43250, 43255), (43259, 43259), (43261, 43261),
    (43274, 43301), (43312, 43334), (43360, 43388), (43396, 43442), (43471, 43471),
    (43488, 43492), (43494, 43503), (43514, 43518), (43520, 43560), (43584, 43586),
    (43588, 43595), (43616, 43638), (43642, 43642), (43646, 43695), (43697, 43697),
    (43701, 43702), (43705, 43709), (43712, 43712), (43714, 43714), (43739, 43741),
    (43744, 43754), (43762, 43764), (43777, 43782), (43785, 43790), (43793, 43798),
    (43808, 43814), (43816, 43822), (43824, 43866), (43868, 43877), (43888, 44002),
    (44032, 55203), (55216, 55238), (55243, 55291), (63744, 64109), (64112, 64217),
    (64256, 64262), (64275, 64279), (64285, 64285), (64287, 64296), (64298, 64310),
    (64312, 64316), (64318, 64318), (64320, 64321), (64323, 64324), (64326, 64433),
    (64467, 64829), (64848, 64911), (64914, 64967), (65008, 65019), (65136, 65140),
    (65142, 65276), (65313, 65338), (65345, 65370), (65382, 65470), (65474, 65479),
    (65482, 65487), (65490, 65495), (65498, 65500)]

/-- The alternatives `H[…]` of `unicodeLetters`, a high surrogate and a class of low ones: the
second component of `decodeLetters letterStr 0` (theorem `decodeLetters_eq`). -/
def astralLetters : List (Nat × List (Nat × Nat)) := [
  (55296, [
    (56320, 56331), (56333, 56358), (56360, 56378), (56380, 56381), (56383, 56397),
    (56400, 56413), (56448, 56570), (56960, 56988), (56992, 57040), (57088, 57119),
    (57136, 57152), (57154, 57161), (57168, 57205), (57216, 57245), (57248, 57283),
    (57288, 57295)]),
  (55297, [
    (56320, 56477), (56576, 56615), (56624, 56675), (56832, 57142), (57152, 57173),
    (57184, 57191)]),
  (55298, [
    (56320, 56325), (56328, 56328), (56330, 56373), (56375, 56376), (56380, 56380),
    (56383, 56405), (56416, 56438), (56448, 56478), (56544, 56562), (56564, 56565),
    (56576, 56597), (56608, 56633), (56704, 56759), (56766, 56767), (56832, 56832),
    (56848, 56851), (56853, 56855), (56857, 56883), (56928, 56956), (56960, 56988),
    (57024, 57031), (57033, 57060), (57088, 57141), (57152, 57173), (57184, 57202),
    (57216, 57233)]),
  (55299, [
    (56320, 56392), (56448, 56498), (56512, 56562)]),
  (55300, [
    (56323, 56375), (56451, 56495), (56528, 56552), (56579, 56614), (56656, 56690),
    (56694, 56694), (56707, 56754), (56769, 56772), (56794, 56794), (56796, 56796),
    (56832, 56849), (56851, 56875), (56960, 56966), (56968, 56968), (56970, 56973),
    (56975, 56989), (56991, 57000), (57008, 57054), (57093, 57100), (57103, 57104),
    (57107, 57128), (57130, 57136), (57138, 57139), (57141, 57145), (57149, 57149),
    (57168, 57168), (57181, 57185)]),
  (55301, [
    (56448, 56495), (56516, 56517), (56519, 56519), (56704, 56750), (56792, 56795),
    (56832, 56879), (56900, 56900), (56960, 57002), (57088, 57113)]),
  (55302, [
    (56480, 56543), (56575, 56575), (57024, 57080)]),
  (55304, [
    (56320, 57241)]),
  (55305, [
    (56448, 56643)]),
  (55309, [
    (56320, 56366)]),
  (55313, [
    (56320, 56902)]),
  (55322, [
    (56320, 56888), (56896, 56926), (57040, 57069), (57088, 57135), (57152, 57155),
    (57187, 57207), (57213, 57231)]),
  (55323, [
    (57088, 57156), (57168, 57168), (57235, 57247)]),
  (55340, [
    (56320, 56321)]),
  (55343, [
    (56320, 56426), (56432, 56444), (56448, 56456), (56464, 56473)]),
  (55349, [
    (56320, 56404), (56406, 56476), (56478, 56479), (56482, 56482), (56485, 56486),
    (56489, 56492), (56494, 56505), (56507, 56507), (56509, 56515), (56517, 56581),
    (56583, 56586), (56589, 56596), (56598, 56604), (56606, 56633), (56635, 56638),
    (56640, 56644), (56646, 56646), (56650, 56656), (56658, 56997), (57000, 57024),
    (57026, 57050), (57052, 57082), (57084, 57108), (57110, 57140), (57142, 57166),
    (57168, 57198), (57200, 57224), (57226, 57256), (57258, 57282), (57284, 57291)]),
  (55354, [
    (56320, 56516)]),
  (55355, [
    (56832, 56835), (56837, 56863), (56865, 56866), (56868, 56868), (56871, 56871),
    (56873, 56882), (56884, 56887), (56889, 56889), (56891, 56891), (56898, 56898),
    (56903, 56903), (56905, 56905), (56907, 56907), (56909, 56911), (56913, 56914),
    (56916, 56916), (56919, 56919), (56921, 56921), (56923, 56923), (56925, 56925),
    (56927, 56927), (56929, 56930), (56932, 56932), (56935, 56938), (56940, 56946),
    (56948, 56951), (56953, 56956), (56958, 56958), (56960, 56969), (56971, 56987),
    (56993, 56995), (56997, 57001), (57003, 57019)]),
  (55401, [
    (56320, 57046), (57088, 57343)]),
  (55405, [
    (56320, 57140), (57152, 57343)]),
  (55406, [
    (56320, 56349), (56352, 57343)]),
  (55411, [
    (56320, 56993)]),
  (55422, [
    (56320, 56861)])]

/-- The argument `hiRanges`, `"\ud80c\ud840-\ud868\ud86a-\ud86c\ud86f-\ud872"`. -/
def hiRanges : List (Nat × Nat) :=
  [(0xd80c, 0xd80c), (0xd840, 0xd868), (0xd86a, 0xd86c), (0xd86f, 0xd872)]

/-- Membership of a unit in a character class given by ranges. -/
def inRanges (rs : List (Nat × Nat)) (c : Nat) : Bool := rs.any fun r => r.1 ≤ c && c ≤ r.2

/-- A unit of the first class of `unicodeLetters`. -/
def isBmpLetter (c : Nat) : Bool := inRanges bmpLetters c

/-- Two units matched by a later alternative of `unicodeLetters`: `H[…]` for a listed high
surrogate, or `[hiRanges][\udc00-\udfff]`. -/
def isAstralLetter (c d : Nat) : Bool :=
  astralLetters.any (fun a => a.1 = c && inRanges a.2 d) ||
    (inRanges hiRanges c && 0xdc00 ≤ d && d ≤ 0xdfff)

/-- The pattern `unicodeLetters`: the number of units it matches at the start of `s`, `0` if it
does not match. -/
def unicodeLetters : JSString → Nat
  | [] => 0
  | [c] => if isBmpLetter c then 1 else 0
  | c :: d :: _ => if isBmpLetter c then 1 else if isAstralLetter c d then 2 else 0

/-- The tail `(?: (?:[0-9']|L))*` of `reIdentifier` after `expandSpaces`, `L` being
`unicodeLetters`: the length of the match; `k` as in `spaceSeq`. -/
def identifierTail : JSString → Nat → Nat
  | [], _ => 0
  | [c], k =>
    if isInTokenWhitespace c then 0
    else if isDigit c || c = 39 || isBmpLetter c then k + 1
    else 0
  | c :: d :: s, k =>
    if isInTokenWhitespace c then identifierTail (d :: s) (k + 1)
    else if isDigit c || c = 39 || isBmpLetter c then k + 1 + identifierTail (d :: s) 0
    else if isAstralLetter c d then k + 2 + identifierTail s 0
    else 0

/-- The pattern `reIdentifier`, `#(?: [1-9])?|(?:'|L)(?: (?:[0-9']|L))*` after `expandSpaces`. -/
def reIdentifier : JSString → Option Nat
  | [] => none
  | c :: s =>
    if c = 35 then some (1 + (spaceThen (fun d => 49 ≤ d && d ≤ 57) s).getD 0)
    else if c = 39 then some (1 + identifierTail s 0)
    else if unicodeLetters (c :: s) = 0 then none
    else some (unicodeLetters (c :: s) + identifierTail ((c :: s).drop (unicodeLetters (c :: s))) 0)

/-- The pattern `"[^"]*"` of a string literal. -/
def stringLiteral : JSString → Option Nat
  | [] => none
  | c :: s =>
    if c = 34 then
      match s.drop (spanLen (fun d => d ≠ 34) s) with
      | [] => none
      | _ :: _ => some (spanLen (fun d => d ≠ 34) s + 2)
    else none

/-- The pattern `$`: the end of the input. -/
def endOfInput : JSString → Option Nat
  | [] => some 0
  | _ :: _ => none

/-- The alternatives of `reNextToken`, in order; each is one capture group. -/
def tokenPatterns : List (JSString → Option Nat) := [
  whitespaceToken, --                            whitespace
  lineComment, --                                single-line comment
  startComment, --                               start of multi-line comment
  reNumber, --                                   number literal
  anyOfGroup operatorSymbols, --                 operator
  anyOfGroup (brackets.map fun c => [c]), --     bracket
  subNum, --                                     subscript
  supNum, --                                     superscript
  reIdentifier, --                               identifier
  stringLiteral, --                              string literal
  endOfInput] --                                 EOF

/-- The first of the given alternatives to match at the start of `s`, `tt` being the number of
the first one: the length of the match and the number of the capture group that took part. -/
def firstMatch : List (JSString → Option Nat) → Nat → JSString → Option (Nat × Nat)
  | [], _, _ => none
  | p :: ps, tt, s =>
    match p s with
    | some n => some (n, tt)
    | none => firstMatch ps (tt + 1) s

/-- The pattern `reNextToken` tried at the start of `s`. -/
def reNextToken (s : JSString) : Option (Nat × Nat) := firstMatch tokenPatterns 1 s

/-- `str.replace(reSpace, '')`: every run of spaces and tabs removed. -/
def removeSpaces (str : JSString) : JSString := str.filter fun c => !isInTokenWhitespace c

inductive TokType where
  | ANY | WS | COMMENT | START_COMMENT | NUM | OP | BRA | SUB | SUP | ID | STR | EOF
  deriving DecidableEq, Repr, Inhabited

def tokenTypes : List TokType := [
  .ANY, .WS, .COMMENT, .START_COMMENT,
  .NUM, .OP, .BRA, .SUB, .SUP, .ID, .STR, .EOF]

/-! ## Errors and results -/

/-- A source position as `curPos` returns it. -/
structure Pos where
  row : Nat
  col : Nat
  pos : Nat
  deriving DecidableEq, Repr, Inhabited

/-- A thrown value: the error object built by `ParseError`, or a `TypeError` of the JavaScript
runtime (a property read from `null` or `undefined`). -/
inductive Err where
  | parseError (message description : JSString) (location : Option Pos) (text : Option JSString)
  | typeError
  deriving DecidableEq, Repr

/-- The function `ParseError`; `none` is an argument left `undefined`. -/
def ParseError (message : JSString) (location : Option Pos) (text : Option JSString) : Err :=
  let msg := message
  let msg :=
    match location with
    | some l => msg ++ utf16 " at " ++ numToString l.row ++ utf16 ":" ++ numToString l.col
    | none => msg
  let msg :=
    match text with
    | some (c :: t) => msg ++ utf16 ": ‘" ++ (c :: t) ++ utf16 "’"
    | _ => msg
  .parseError msg message location text

/-- The property `err.description`. -/
def Err.description : Err → Option JSString
  | .parseError _ d _ _ => some d
  | .typeError => none

/-- The property `err.location`. -/
def Err.location : Err → Option Pos
  | .parseError _ _ l _ => l
  | .typeError => none

/-- The outcome of running a piece of the source: a value, a thrown error, or `fuel` when the
fuel given to the run was used up before it ended. -/
inductive Res (α : Type) where
  | ok (a : α)
  | throw (e : Err)
  | fuel
  deriving DecidableEq, Repr

/-- Sequencing: an error or the lack of fuel ends the run. -/
def Res.bind {α β : Type} (r : Res α) (f : α → Res β) : Res β :=
  match r with
  | .ok a => f a
  | .throw e => .throw e
  | .fuel => .fuel

instance : Monad Res where
  pure := Res.ok
  bind := Res.bind

/-- Whether a run ended with a value. -/
def Res.isOk {α : Type} : Res α → Bool
  | .ok _ => true
  | _ => false

/-- The value with which a run ended, for a run that ended with one. -/
def Res.value {α : Type} [Inhabited α] : Res α → α
  | .ok a => a
  | _ => default

/-! ## Tokenizer -/

/-- A token as `nextInternal` returns it. -/
structure Token where
  start : Pos
  end_ : Pos
  raw : JSString
  text : JSString
  toktype : TokType
  deriving DecidableEq, Repr, Inhabited

/-- The state of a `Tokenizer`; `lastIndex` is `this.re.lastIndex`. -/
structure Tokenizer where
  input : JSString
  lastIndex : Nat
  bols : List Nat
  pos : Nat
  bol : Nat
  line : Nat
  deriving DecidableEq, Repr, Inhabited

/-- The offsets just after each newline of `s`, `i` being the offset of `s` in the input:
what the loop over `input.indexOf('\n', pos) + 1` pushes onto `bols`. -/
def lineStarts : JSString → Nat → List Nat
  | [], _ => []
  | c :: s, i => if c = 10 then (i + 1) :: lineStarts s (i + 1) else lineStarts s (i + 1)

/-- The constructor `Tokenizer(input)`. -/
def Tokenizer.new (input : JSString) : Tokenizer :=
  { input := input, lastIndex := 0, bols := lineStarts input 0 ++ [input.length],
    pos := 0, bol := 0, line := 1 }

/-- The loop `while (this.bols[0] <= pos) { this.bol = this.bols.shift(); this.line++; }`:
the remaining `bols`, `bol` and `line`. -/
def shiftLines (pos : Nat) : List Nat → Nat → Nat → List Nat × Nat × Nat
  | [], bol, line => ([], bol, line)
  | b :: bols, bol, line =>
    if b ≤ pos then shiftLines pos bols b (line + 1) else (b :: bols, bol, line)

def Tokenizer.advanceTo (t : Tokenizer) (pos : Nat) : Tokenizer :=
  let r := shiftLines pos t.bols t.bol t.line
  { t with pos := pos, bols := r.1, bol := r.2.1, line := r.2.2 }

def Tokenizer.advanceBy (t : Tokenizer) (offset : Nat) : Tokenizer :=
  t.advanceTo (t.pos + offset)

def Tokenizer.curPos (t : Tokenizer) : Pos :=
  { row := t.line, col := t.pos - t.bol, pos := t.pos }

/-- A match of `reNextToken`: `match.index`, `match[0].length` and the number of the capture
group that is set. -/
structure Match where
  index : Nat
  len : Nat
  group : Nat
  deriving DecidableEq, Repr

/-- The search of `re.exec`: the leftmost offset, from offset `i` where `s` starts, at which
`reNextToken` matches. -/
def execFrom : JSString → Nat → Option Match
  | [], i =>
    match reNextToken [] with
    | some r => some { index := i, len := r.1, group := r.2 }
    | none => none
  | c :: s, i =>
    match reNextToken (c :: s) with
    | some r => some { index := i, len := r.1, group := r.2 }
    | none => execFrom s (i + 1)

/-- `this.re.exec(this.input)` for the global pattern `reNextToken` with the given `lastIndex`;
`none` is the result `null`. -/
def exec (input : JSString) (lastIndex : Nat) : Option Match :=
  if input.length < lastIndex then none else execFrom (input.drop lastIndex) lastIndex

def Tokenizer.nextInternal (t : Tokenizer) : Res (Token × Tokenizer) :=
  match exec t.input t.lastIndex with
  | none => .throw .typeError
  | some m =>
    if m.index ≠ t.pos then
      .throw (ParseError (utf16 "Invalid token") (some t.curPos)
        (some (substring t.input t.pos m.index)))
    else
      let pos1 := t.curPos
      let t1 := { t with lastIndex := m.index + m.len }.advanceBy m.len
      let pos2 := t1.curPos
      let raw := substring t.input m.index (m.index + m.len)
      .ok ({ start := pos1, end_ := pos2, raw := raw, text := removeSpaces raw,
             toktype := tokenTypes.getD m.group .ANY }, t1)

/-- The scan of `reComment`, `/\*\/|\/\*/g`, in a multi-line comment: `s` starts at offset `i`
and `depth` comments are open; the result is `reComment.lastIndex` when the depth reaches `0`,
`none` when the scan finds no further match. -/
def commentEnd : JSString → Nat → Nat → Option Nat
  | [], _, _ => none
  | [_], _, _ => none
  | c :: d :: s, i, depth =>
    if c = 42 ∧ d = 47 then
      if depth ≤ 1 then some (i + 2) else commentEnd s (i + 2) (depth - 1)
    else if c = 47 ∧ d = 42 then commentEnd s (i + 2) (depth + 1)
    else commentEnd (d :: s) (i + 1) depth

/-- The loop of `Tokenizer.prototype.next`, run for at most the given number of rounds. -/
def Tokenizer.nextLoop : Nat → Tokenizer → Res (Token × Tokenizer)
  | 0, _ => .fuel
  | fuel + 1, t =>
    match t.nextInternal with
    | .fuel => .fuel
    | .throw e => .throw e
    | .ok (tok, t1) =>
      if tok.toktype = .START_COMMENT then
        -- Match multiline comment, take nesting into account
        match commentEnd (t1.input.drop (tok.start.pos + 2)) (tok.start.pos + 2) 1 with
        | none => .throw (ParseError (utf16 "Unterminated comment") (some tok.start) (some tok.text))
        | some lastIndex =>
          Tokenizer.nextLoop fuel ({ t1 with lastIndex := lastIndex }.advanceTo lastIndex)
      else if tok.toktype = .WS ∨ tok.toktype = .COMMENT then Tokenizer.nextLoop fuel t1
      else .ok (tok, t1)

/-- `Tokenizer.prototype.next`: every round of the loop but the last consumes at least one unit
of the input, so the loop ends within `input.length + 1` rounds. -/
def Tokenizer.next (t : Tokenizer) : Res (Token × Tokenizer) :=
  Tokenizer.nextLoop (t.input.length + 1) t

/-! ## Tree nodes -/

/-- The property `value` of a node: `{real: +text, imag: 0}` of a number, `real` holding the
string that the unary plus converts; the text of a string literal; the empty array of an empty
list. -/
inductive Value where
  | number (real : JSString) (imag : Nat)
  | string (s : JSString)
  | emptyList
  deriving DecidableEq, Repr

/-- The scalar properties that the tokenizer, the parser and the postprocessor set on a token or
node object; `none` is a property that is not set.  `end_` is the property `end`. -/
structure Fields where
  start : Option Pos := none
  end_ : Option Pos := none
  raw : Option JSString := none
  text : Option JSString := none
  toktype : Option TokType := none
  ctype : Option String := none
  name : Option JSString := none
  value : Option Value := none
  op : Option OpDescr := none
  precedence : Option Nat := none
  oper : Option JSString := none
  isSuperscript : Bool := false
  key : Option JSString := none
  deriving DecidableEq, Repr

/-- A value of the parser: `null`, `undefined`, or an object with its scalar properties, its
array `args` (`[]` also when the property is not set: the source reads `args` only where it is),
its object `modifs` as the list of its entries in insertion order, and its property `obj`. -/
inductive Node where
  | null : Node
  | undefined : Node
  | obj (f : Fields) (args : List Node) (modifs : List (JSString × Node)) (obj : Option Node) : Node
  deriving Repr, Inhabited

/-- Equality test of two lists, given a test for their elements. -/
def listEqWith {α : Type} (eq : α → α → Bool) : List α → List α → Bool
  | [], [] => true
  | x :: xs, y :: ys => eq x y && listEqWith eq xs ys
  | _, _ => false

/-- Equality test of two nodes that are nested less than `n` deep (`false` beyond that). -/
def Node.eqTo : Nat → Node → Node → Bool
  | _, .null, .null => true
  | _, .undefined, .undefined => true
  | n + 1, .obj f a m o, .obj g b k q =>
    decide (f = g) && listEqWith (Node.eqTo n) a b &&
      listEqWith (fun x y => decide (x.1 = y.1) && Node.eqTo n x.2 y.2) m k &&
      (match o, q with
        | none, none => true
        | some x, some y => Node.eqTo n x y
        | _, _ => false)
  | _, _, _ => false

/-- Whether a value is truthy: `null` and `undefined` are not, objects are. -/
def Node.truthy : Node → Bool
  | .obj .. => true
  | _ => false

/-- The object that a token is when the parser starts to work on it. -/
def Token.toFields (tok : Token) : Fields :=
  { start := some tok.start, end_ := some tok.end_, raw := some tok.raw, text := some tok.text,
    toktype := some tok.toktype }

/-! ## Expression parser -/

/-- The body of `applyOperator` for a sequence ending in `lhs`, `op`, `rhs`.  Every call of the
source is on a sequence of at least three elements; on a shorter one the model throws. -/
def applyOperator (seq : List Node) : Res (List Node) :=
  match seq.reverse with
  | rhs :: .obj op _ omodifs oobj :: lhs :: rest =>
    let fixity (allowed : OpDescr → Bool) (message : String) : Res Unit :=
      match op.op with
      | none => .throw .typeError
      | some d => if allowed d then .ok () else .throw (ParseError (utf16 message) op.start op.text)
    let superscript : Res Unit :=
      match lhs with
      | .obj l _ _ _ =>
        if l.isSuperscript &&
            (match op.precedence, l.precedence with
              | some p, some q => decide (p ≤ q)
              | _, _ => false) then
          .throw (ParseError (utf16 "Operator not allowed after superscript") op.start op.text)
        else .ok ()
      | _ => .ok ()
    let check : Res Unit :=
      if lhs.truthy then
        superscript.bind fun _ =>
          if rhs.truthy then fixity (fun d => d.infixOk) "Operator may not be used infix"
          else fixity (fun d => d.postfixOk) "Operator may not be used postfix"
      else
        if rhs.truthy then fixity (fun d => d.prefixOk) "Operator may not be used prefix"
        else fixity (fun d => d.bare) "Operator without operands"
    check.bind fun _ =>
      match op.op with
      | none => .throw .typeError
      | some d =>
        .ok ((Node.obj { op with ctype := some "infix", oper := some d.sym } [lhs, rhs]
          omodifs oobj :: rest).reverse)
  | _ => .throw .typeError

/-- The test `seq[seq.length - 2].precedence <= prec` of the reduction loops. -/
def pendingLe (prec : Nat) (seq : List Node) : Res Bool :=
  match seq.reverse with
  | _ :: .obj f _ _ _ :: _ =>
    match f.precedence with
    | some p => .ok (decide (p ≤ prec))
    | none => .ok false
  | _ => .throw .typeError

/-- A loop `while (seq.length >= 3 && cond) applyOperator(seq);`, run for at most the given
number of rounds. -/
def applyLoop (cond : List Node → Res Bool) : Nat → List Node → Res (List Node)
  | fuel, seq =>
    if seq.length < 3 then .ok seq
    else
      match cond seq with
      | .fuel => .fuel
      | .throw e => .throw e
      | .ok false => .ok seq
      | .ok true =>
        match fuel with
        | 0 => .fuel
        | fuel + 1 =>
          match applyOperator seq with
          | .fuel => .fuel
          | .throw e => .throw e
          | .ok seq1 => applyLoop cond fuel seq1

/-- `while (seq.length >= 3 && seq[seq.length - 2].precedence <= prec) applyOperator(seq);`:
each round shortens `seq`, so its length bounds the number of rounds. -/
def applyWhileLe (prec : Nat) (seq : List Node) : Res (List Node) :=
  applyLoop (pendingLe prec) seq.length seq

/-- `if (!(seq.length & 1)) seq.push(null);`. -/
def padNull (seq : List Node) : List Node :=
  if seq.length % 2 = 0 then seq ++ [.null] else seq

/-- The test of `case 'OP'` for the operator `:=_` written as `:=` and `_`: the descriptor `op`
is the one of `_` and the sequence ends in a pending operator token `:=`. -/
def mergesWithDefine (op : OpDescr) (seq : List Node) : Res Bool :=
  if op.sym = utf16 "_" && seq.length != 0 && seq.length % 2 == 0 then
    match seq.getLast? with
    | some (.obj l _ _ _) =>
      if l.toktype = some .OP then
        match l.op with
        | none => .throw .typeError
        | some d => .ok (d.sym = utf16 ":=")
      else .ok false
    | _ => .throw .typeError
  else .ok false

/-- The `case 'OP'` of the switch in `parseRec`: the sequence after the case. -/
def caseOP (tok : Token) (seq : List Node) : Res (List Node) :=
  match operators tok.text with
  | none => .throw .typeError
  | some op0 =>
    (mergesWithDefine op0 seq).bind fun merge =>
      let merged : Res (OpDescr × JSString × List Node) :=
        if merge then
          match operators (utf16 ":=_") with
          | none => .throw .typeError
          | some op => .ok (op, op.sym, seq.dropLast)
        else .ok (op0, tok.text, seq)
      merged.bind fun (op, text, seq) =>
        (applyWhileLe op.precedence (padNull seq)).bind fun seq =>
          .ok (seq ++ [.obj { tok.toFields with
            text := some text, op := some op,
            precedence := some (if op.rassoc then op.precedence + 1 else op.precedence) }
            [] [] none])

/-- The cases `'ID'`, `'NUM'` and `'STR'` of the switch in `parseRec`, which set `ctype` and
one more property on the token and push it. -/
def caseValue (tok : Token) (f : Fields) (seq : List Node) : Res (List Node) :=
  if seq.length % 2 = 1 then
    .throw (ParseError (utf16 "Missing operator") (some tok.start) (some tok.text))
  else .ok (seq ++ [.obj f [] [] none])

/-- The loop of `subsup` building `dstDigits`. -/
def dstDigits (dict : JSString) (srcDigits : JSString) : JSString :=
  srcDigits.flatMap fun c => charAt (utf16 "0123456789+-") (indexOf dict [c])

/-- The function `subsup`: the sequence after the call.  The property `rawtext` of the pushed
operator object, copied from a property that no token has, is left out. -/
def subsup (seq : List Node) (tok : Token) (op : JSString) (dict : JSString) :
    Res (List Node) :=
  match operators op with
  | none => .throw .typeError
  | some op =>
    (applyWhileLe op.precedence (padNull seq)).bind fun seq =>
      applyOperator (seq ++ [
        .obj { op := some op,
               precedence := some (op.precedence + (if op.rassoc then 1 else 0)),
               start := some tok.start, end_ := some tok.end_, text := some tok.text }
          [] [] none,
        .obj { tok.toFields with
               ctype := some "number",
               value := some (.number (dstDigits dict tok.text) 0) }
          [] [] none])

/-- `seq[seq.length - 1].isSuperscript = true;`. -/
def markSuperscript (seq : List Node) : Res (List Node) :=
  match seq.getLast? with
  | some (.obj f a m o) => .ok (seq.dropLast ++ [.obj { f with isSuperscript := true } a m o])
  | _ => .throw .typeError

/-- The loop `while (expr && expr.ctype === 'infix' && expr.oper === ',')` of `case 'BRA'`
with the `lst.push(expr)` that follows it. -/
def commaChain : Node → List Node
  | .obj f args m o =>
    if f.ctype = some "infix" ∧ f.oper = some (utf16 ",") then
      match args with
      | [] => [.undefined, .undefined]
      | [a] => [a, .undefined]
      | a :: b :: _ => a :: commaChain b
    else [.obj f args m o]
  | e => [e]

/-- The list `lst` of the elements of a bracket group with content `expr`. -/
def groupElements (expr : Node) : List Node :=
  if expr.truthy then commaChain expr else []

/-- The value-position branch of `case 'BRA'`: the node pushed for the group. -/
def bracketValue (pair : JSString) (lst : List Node) (tok : Token) : Res Node :=
  if pair = utf16 "||" then
    if lst.length = 1 then
      .ok (.obj { ctype := some "function", oper := some (utf16 "abs_infix") } lst [] none)
    else if lst.length = 2 then
      .ok (.obj { ctype := some "function", oper := some (utf16 "dist_infix") } lst [] none)
    else
      .throw (ParseError
        (utf16 "Don't support |…| with " ++ numToString lst.length ++ utf16 " arguments")
        (some tok.start) none)
  else if pair = utf16 "\x7b\x7d" then
    .throw (ParseError (utf16 "\x7b…\x7d reserved for future use") (some tok.start) none)
  else if pair ≠ utf16 "[]" ∧ lst.length = 1 then
    .ok (.obj { ctype := some "paren" } lst [] none)
  else if lst.length = 0 then
    .ok (.obj { ctype := some "list", value := some .emptyList } [] [] none)
  else
    .ok (.obj { ctype := some "function", oper := some (utf16 "genList") } lst [] none)

/-- The assignment `modifs[key] = value` on an object given by its entries. -/
def setProperty (modifs : List (JSString × Node)) (key : JSString) (value : Node) :
    List (JSString × Node) :=
  if modifs.any (fun e => e.1 == key) then
    modifs.map fun e => if e.1 == key then (key, value) else e
  else modifs ++ [(key, value)]

/-- The loop over `lst` of the operator-position branch of `case 'BRA'`, from the given `args`
and `modifs`. -/
def callArguments : List Node → List Node → List (JSString × Node) →
    Res (List Node × List (JSString × Node))
  | [], args, modifs => .ok (args, modifs)
  | .obj f eargs em eo :: rest, args, modifs =>
    if f.ctype = some "infix" ∧ f.oper = some (utf16 "->") then
      match eargs.getD 0 .undefined with
      | .obj id _ _ _ =>
        if id.ctype ≠ some "variable" then
          .throw (ParseError (utf16 "Modifier name must be an identifier") f.start none)
        else
          callArguments rest args
            (setProperty modifs (id.name.getD (utf16 "undefined")) (eargs.getD 1 .undefined))
      | _ => .throw .typeError
    else callArguments rest (args ++ [.obj f eargs em eo]) modifs
  | elt :: rest, args, modifs => callArguments rest (args ++ [elt]) modifs

/-- The operator-position branch of `case 'BRA'`, a function call: the sequence after it. -/
def bracketCall (pair : JSString) (lst : List Node) (tok : Token) (seq : List Node) :
    Res (List Node) :=
  if pair = utf16 "\x7b\x7d" then
    .throw (ParseError (utf16 "\x7b…\x7d reserved for future use") (some tok.start) none)
  else
    match seq.getLast? with
    | some (.obj fname _ _ o) =>
      if fname.ctype ≠ some "variable" then
        .throw (ParseError (utf16 "Function name must be an identifier") fname.start none)
      else
        (callArguments lst [] []).bind fun (args, modifs) =>
          .ok (seq.dropLast ++ [.obj { fname with
            ctype := some "function",
            oper := some (fname.name.getD (utf16 "undefined") ++ utf16 "$" ++
              numToString args.length) } args modifs o])
    | _ => .throw .typeError

/-- The result of `parseRec`. -/
structure ParseRecResult where
  expr : Node
  closedBy : Token
  deriving Inhabited

/-- The end of `parseRec`, after the loop has been left at token `tok`. -/
def finishRec (seq : List Node) (tok : Token) : Res ParseRecResult :=
  (applyLoop (fun _ => .ok true) (padNull seq).length (padNull seq)).bind fun seq =>
    .ok { expr := seq.getD 0 .undefined, closedBy := tok }

/-- The error of `case 'BRA'` for a group that its closing bracket does not close. -/
def mismatchError (tok ctok : Token) : Err :=
  ParseError
    (utf16 "Opening " ++ tok.text ++
      utf16 " at " ++ numToString tok.start.row ++ utf16 ":" ++ numToString tok.start.col ++
      utf16 " closed by " ++ (if ctok.text = [] then utf16 "EOF" else ctok.text) ++
      utf16 " at " ++ numToString ctok.start.row ++ utf16 ":" ++ numToString ctok.start.col)
    none none

/-- The function `parseRec` from inside its loop, `seq` being the sequence so far: recursively
called for nested brackets, `closing` is the text of the expected closing bracket (`none` for
`undefined`).  Each round of the loop and each nested call takes one unit of fuel. -/
def parseLoop : Nat → Tokenizer → Option JSString → List Node →
    Res (ParseRecResult × Tokenizer)
  | 0, _, _, _ => .fuel
  | fuel + 1, tokens, closing, seq =>
    match tokens.next with
    | .fuel => .fuel
    | .throw e => .throw e
    | .ok (tok, tokens) =>
      let continueWith (r : Res (List Node)) : Res (ParseRecResult × Tokenizer) :=
        match r with
        | .fuel => .fuel
        | .throw e => .throw e
        | .ok seq => parseLoop fuel tokens closing seq
      let leave : Res (ParseRecResult × Tokenizer) :=
        match finishRec seq tok with
        | .fuel => .fuel
        | .throw e => .throw e
        | .ok res => .ok (res, tokens)
      match tok.toktype with
      | .OP => continueWith (caseOP tok seq)
      | .ID =>
        continueWith (caseValue tok
          { tok.toFields with ctype := some "variable", name := some tok.text } seq)
      | .NUM =>
        continueWith (caseValue tok
          { tok.toFields with ctype := some "number", value := some (.number tok.text 0) } seq)
      | .STR =>
        continueWith (caseValue tok
          { tok.toFields with
            ctype := some "string",
            value := some (.string (substring tok.raw 1 (tok.raw.length - 1))) } seq)
      | .SUB => continueWith (subsup seq tok (utf16 "_") (utf16 "₀₁₂₃₄₅₆₇₈₉₊₋"))
      | .SUP =>
        continueWith ((subsup seq tok (utf16 "^") (utf16 "⁰¹²³⁴⁵⁶⁷⁸⁹⁺⁻")).bind markSuperscript)
      | .BRA =>
        let bra := indexOf brackets tok.text
        if some tok.text = closing ∨ bra % 2 = 1 then leave
        else
          let closer := charAt brackets (bra + 1)
          match parseLoop fuel tokens (some closer) [] with
          | .fuel => .fuel
          | .throw e => .throw e
          | .ok (sub, tokens) =>
            let ctok := sub.closedBy
            if ctok.text ≠ closer then .throw (mismatchError tok ctok)
            else
              let pair := tok.text ++ ctok.text
              let lst := groupElements sub.expr
              let r : Res (List Node) :=
                if seq.length % 2 = 0 then -- value position
                  (bracketValue pair lst tok).bind fun node => .ok (seq ++ [node])
                else -- operator position, so it's a function call
                  bracketCall pair lst tok seq
              match r with
              | .fuel => .fuel
              | .throw e => .throw e
              | .ok seq => parseLoop fuel tokens closing seq
      | .EOF => leave
      | _ => parseLoop fuel tokens closing seq

/-- The function `parseRec(tokens, closing)`. -/
def parseRec (fuel : Nat) (tokens : Tokenizer) (closing : Option JSString) :
    Res (ParseRecResult × Tokenizer) :=
  parseLoop fuel tokens closing []

/-! ## Postprocessor -/

def cvoid : Node := .obj { ctype := some "void" } [] [] none

/-- The check of a function argument in the target of `:=`, the body of the `forEach`. -/
def checkDefineArgument (exprStart : Option Pos) : Node → Res Unit
  | .null => .throw .typeError
  | .undefined => .throw .typeError
  | .obj a _ _ _ =>
    if a.ctype ≠ some "variable" then
      .throw (ParseError (utf16 "Function argument must be an identifier")
        (match a.start with
          | some l => some l
          | none => exprStart) none)
    else .ok ()

/-- The loop `fun.args.forEach`. -/
def checkDefineArguments (exprStart : Option Pos) : List Node → Res Unit
  | [] => .ok ()
  | arg :: rest =>
    (checkDefineArgument exprStart arg).bind fun _ => checkDefineArguments exprStart rest

/-- The parent-first part of `postprocess` for an object with properties `f` and `args`. -/
def parentFirst (f : Fields) (args : List Node) : Res Unit :=
  if f.ctype = some "infix" then
    if f.oper = some (utf16 ":=") then
      match args.getD 0 .undefined with
      | .obj fn fargs _ _ =>
        if fn.ctype = some "function" then checkDefineArguments f.start fargs
        else if fn.ctype ≠ some "variable" then
          .throw (ParseError
            (f.oper.getD [] ++ utf16 " can only be used to define functions or variables")
            f.start none)
        else .ok ()
      | _ => .throw .typeError
    else if f.oper = some (utf16 ",") then
      .throw (ParseError (utf16 "comma may only be used to delimit list elements") f.start none)
    else .ok ()
  else .ok ()

/-- The `delete` statements that end `postprocess`. -/
def stripTransient (f : Fields) : Fields :=
  { f with start := none, end_ := none, toktype := none, op := none, raw := none, text := none }

/-- The parent-last part of `postprocess` and its end, for an object whose `args` and `modifs`
have been postprocessed.  The bookkeeping in `usedVariables` and `usedFunctions`, which is not
part of the returned tree, is left out, and so is `impl`: a `Parser` has no `infixmap` unless
its caller adds one. -/
def parentLast (f : Fields) (args : List Node) (modifs : List (JSString × Node))
    (o : Option Node) : Res Node :=
  if f.ctype = some "paren" then .ok (args.getD 0 .undefined)
  else if f.ctype = some "infix" ∧ f.oper = some (utf16 ".") then
    match args.getD 1 .undefined with
    | .obj g _ _ _ =>
      if g.ctype = some "variable" then
        .ok (.obj (stripTransient { f with ctype := some "field", key := g.name }) args modifs
          (some (args.getD 0 .undefined)))
      else .throw (ParseError (utf16 "Field name must be identifier") f.start f.text)
    | _ => .throw (ParseError (utf16 "Field name must be identifier") f.start f.text)
  else .ok (.obj (stripTransient f) args modifs o)

mutual
/-- `Parser.prototype.postprocess`. -/
def postprocess : Node → Res Node
  | .null => .ok cvoid
  | .undefined => .ok .undefined
  | .obj f args modifs o =>
    match parentFirst f args with
    | .fuel => .fuel
    | .throw e => .throw e
    | .ok _ =>
      match postprocessArgs args with
      | .fuel => .fuel
      | .throw e => .throw e
      | .ok args1 =>
        match postprocessModifs modifs with
        | .fuel => .fuel
        | .throw e => .throw e
        | .ok modifs1 => parentLast f args1 modifs1 o
/-- `expr.args.map(this.postprocess, this)`. -/
def postprocessArgs : List Node → Res (List Node)
  | [] => .ok []
  | a :: rest =>
    match postprocess a with
    | .fuel => .fuel
    | .throw e => .throw e
    | .ok a1 =>
      match postprocessArgs rest with
      | .fuel => .fuel
      | .throw e => .throw e
      | .ok rest1 => .ok (a1 :: rest1)
/-- The loop `for (var key in expr.modifs)`. -/
def postprocessModifs : List (JSString × Node) → Res (List (JSString × Node))
  | [] => .ok []
  | (key, a) :: rest =>
    match postprocess a with
    | .fuel => .fuel
    | .throw e => .throw e
    | .ok a1 =>
      match postprocessModifs rest with
      | .fuel => .fuel
      | .throw e => .throw e
      | .ok rest1 => .ok ((key, a1) :: rest1)
end

/-! ## Parser façade -/

/-- What `parse` returns: a tree node, or a caught error, on which `ctype` is set to `'error'`. -/
inductive ParseOutput where
  | node (n : Node)
  | error (err : Err)

/-- The property `ctype` of a returned value. -/
def ParseOutput.ctype : ParseOutput → Option String
  | .error _ => some "error"
  | .node (.obj f _ _ _) => f.ctype
  | .node _ => none

/-- `Parser.prototype.parse` with `parseRec` run on the given fuel; `none` when the fuel is used
up. -/
def parseWith (fuel : Nat) (code : JSString) : Option ParseOutput :=
  match parseRec fuel (Tokenizer.new code) none with
  | .fuel => none
  | .throw err => some (.error err)
  | .ok (res, _) =>
    if res.closedBy.toktype ≠ .EOF then
      some (.error (ParseError (utf16 "Closing bracket never opened.")
        (some res.closedBy.start) (some res.closedBy.text)))
    else
      match postprocess res.expr with
      | .fuel => none
      | .throw err => some (.error err)
      | .ok n => some (.node n)

/-- `Parser.prototype.parse`: every round of the loop of `parseRec` but the last of each call
consumes a token of at least one unit, so `code.length + 1` rounds and calls are enough. -/
def parse (code : JSString) : Option ParseOutput := parseWith (code.length + 1) code

/-! ## Notions used to state the properties -/

/-- The node that `case 'ID'` makes of an identifier token. -/
def variableNode (tok : Token) : Node :=
  .obj { tok.toFields with ctype := some "variable", name := some tok.text } [] [] none

/-- The object that `case 'OP'` pushes for an operator token with descriptor `op`: the pending
operator, whose `precedence` is one higher than the declared one when `op` is right-associative. -/
def pendingOperator (tok : Token) (op : OpDescr) : Node :=
  .obj { tok.toFields with
    op := some op,
    precedence := some (if op.rassoc then op.precedence + 1 else op.precedence) } [] [] none

/-- The node that `applyOperator` makes of the pending operator of a token with descriptor `op`
and the operands `lhs` and `rhs`: `ctype` is `'infix'`, `oper` is the canonical symbol of `op`,
`args` is `[lhs, rhs]`. -/
def infixNode (tok : Token) (op : OpDescr) (lhs rhs : Node) : Node :=
  .obj { tok.toFields with
    op := some op,
    precedence := some (if op.rassoc then op.precedence + 1 else op.precedence),
    ctype := some "infix", oper := some op.sym } [lhs, rhs] [] none

/-- The index in `operatorLevels` of the level that lists the symbol, `0` being the first. -/
def levelOf (symbol : JSString) : Option Nat :=
  operatorLevels.findIdx? fun level => level.names.any fun e => e.2.contains symbol

/-- The tokenizer after `n` calls of `next` that return a token. -/
def Tokenizer.after : Nat → Tokenizer → Tokenizer
  | 0, t => t
  | n + 1, t => (Tokenizer.after n t).next.value.2

/-- The token that call number `n` of `next` returns, the first call being number `0`. -/
def Tokenizer.nth (n : Nat) (t : Tokenizer) : Token := (t.after n).next.value.1

/-- A group element that is an infix node of the operator `->`. -/
def isArrow : Node → Bool
  | .obj f _ _ _ => f.ctype = some "infix" && f.oper = some (utf16 "->")
  | _ => false

/-- For a group element `name -> value`, an infix node of `->` whose left operand is a variable
node: the name of the variable and the right operand. -/
def modifierEntry : Node → Option (JSString × Node)
  | .obj f args _ _ =>
    if f.ctype = some "infix" ∧ f.oper = some (utf16 "->") then
      match args.getD 0 .undefined with
      | .obj id _ _ _ =>
        if id.ctype = some "variable" then
          some (id.name.getD (utf16 "undefined"), args.getD 1 .undefined)
        else none
      | _ => none
    else none
  | _ => none

/-- The row that belongs to offset `p` of the input: one more than the number of newline
characters before the offset. -/
def rowAt (input : JSString) (p : Nat) : Nat := 1 + (input.take p).count 10

/-- The column that belongs to offset `p` of the input: the distance from the offset just after
the last newline character before `p`, from the start of the input if there is none. -/
def colAt (input : JSString) (p : Nat) : Nat :=
  ((input.take p).reverse.takeWhile fun c => c ≠ 10).length

/-- The position that belongs to offset `p` of the input. -/
def posAt (input : JSString) (p : Nat) : Pos :=
  { row := rowAt input p, col := colAt input p, pos := p }

/-- The markers `/*` (`true`) and `*/` (`false`) in `s`, found from left to right without
overlap, each with the offset just after it; `i` is the offset of `s` in the input. -/
def commentMarkers : JSString → Nat → List (Bool × Nat)
  | [], _ => []
  | [_], _ => []
  | c :: d :: s, i =>
    if c = 47 ∧ d = 42 then (true, i + 2) :: commentMarkers s (i + 2)
    else if c = 42 ∧ d = 47 then (false, i + 2) :: commentMarkers s (i + 2)
    else commentMarkers (d :: s) (i + 1)

/-- The depth counter run over a list of markers, `depth` comments being open: the offset just
after the first `*/` that brings the depth to `0`, `none` if the markers end before that. -/
def depthScan : List (Bool × Nat) → Nat → Option Nat
  | [], _ => none
  | (true, _) :: ms, depth => depthScan ms (depth + 1)
  | (false, e) :: ms, depth => if depth ≤ 1 then some e else depthScan ms (depth - 1)

/-- An input that consists only of whitespace and comments, read in at most the given number of
pieces: runs of spaces, tabs and newlines, single-line comments up to the end of their line, and
multi-line comments up to the `*/` that closes them. -/
def blankWithin : Nat → JSString → Bool
  | 0, _ => false
  | n + 1, s =>
    match s with
    | [] => true
    | 47 :: 47 :: r => blankWithin n (r.drop (spanLen (fun c => !isLineTerminator c) r))
    | 47 :: 42 :: r =>
      match depthScan (commentMarkers r 0) 1 with
      | some e => blankWithin n (r.drop e)
      | none => false
    | c :: r =>
      if isWhitespace c then blankWithin n ((c :: r).drop (spanLen isWhitespace (c :: r)))
      else false

/-- An input that consists only of whitespace and comments. -/
def isBlank (s : JSString) : Bool := blankWithin (s.length + 1) s

/-- A value of type Number that the unary plus gives for a numeral of `subsup`: a double that
is an integer, or an infinity. -/
inductive JSNumber where
  | finite (v : Int)
  | infinite (negative : Bool)
  | nan
  deriving DecidableEq, Repr

/-- The value of a string of decimal digits, `acc` being the value of the digits read so far;
`none` if a unit is not a digit. -/
def digitsValue : JSString → Nat → Option Nat
  | [], acc => some acc
  | c :: s, acc => if isDigit c then digitsValue s (10 * acc + (c - 48)) else none

/-- The exponent `e` of the double nearest to `n`: the least `e` with `n < 2 ^ (53 + e)`,
found in at most the given number of halvings. -/
def doubleExponent : Nat → Nat → Nat
  | 0, _ => 0
  | k + 1, n => if n < 2 ^ 53 then 0 else 1 + doubleExponent k (n / 2)

/-- The least power of two beyond the finite doubles, `2 ^ 1024`. -/
def doubleLimit : Nat := (2 ^ 256) ^ 4

/-- The double nearest to the natural number `n`, ties going to the even significand: `n` itself
below `2 ^ 53`; `none` when the nearest double is beyond the largest finite one. -/
def roundToDouble (n : Nat) : Option Nat :=
  let e := doubleExponent n n
  let q := n / 2 ^ e
  let r := n % 2 ^ e
  let up : Bool := 2 * r > 2 ^ e || (2 * r = 2 ^ e && q % 2 = 1)
  let v := (if up then q + 1 else q) * 2 ^ e
  if v < doubleLimit then some v else none

/-- The Number of a string of decimal digits, negated if `negative`: the nearest double;
`NaN` for the empty string and for a string with a unit that is not a digit. -/
def unsignedNumber (digits : JSString) (negative : Bool) : JSNumber :=
  match digits with
  | [] => .nan
  | _ :: _ =>
    match digitsValue digits 0 with
    | none => .nan
    | some n =>
      match roundToDouble n with
      | none => .infinite negative
      | some v => .finite (if negative then -(v : Int) else v)

/-- The unary plus `+str` on the strings that `subsup` builds, decimal digits after an optional
sign: the Number nearest to the integer that the string spells (`StringToNumber` of the
language); `NaN` for a string without digits or with another unit. -/
def toNumber (str : JSString) : JSNumber :=
  match str with
  | 43 :: r => unsignedNumber r false
  | 45 :: r => unsignedNumber r true
  | r => unsignedNumber r false

/-- The natural number spelled by a run of digit glyphs, `digits` being the glyphs of `0` to
`9` in order and `acc` the value of the glyphs read so far. -/
def spelledNat (digits : JSString) : JSString → Nat → Nat
  | [], acc => acc
  | c :: s, acc => spelledNat digits s (10 * acc + digits.indexOf c)

/-- The signed decimal integer spelled by a run of glyphs: an optional sign glyph, `plus` or
`minus`, and digit glyphs. -/
def spelledInteger (digits : JSString) (plus minus : Nat) : JSString → Int
  | [] => 0
  | c :: s =>
    if c = minus then -(spelledNat digits s 0 : Int)
    else if c = plus then spelledNat digits s 0
    else spelledNat digits (c :: s) 0

/-- A sketch of a tree, for nodes nested less than `n` deep: the name of a variable, the numeral
of a number, the text of a string literal in quotes, and for every other node its `ctype`, its
`oper` and the sketches of its `args` and of the values of its `modifs`, in brackets. -/
def Node.sketch : Nat → Node → String
  | 0, _ => "…"
  | _ + 1, .null => "null"
  | _ + 1, .undefined => "undefined"
  | n + 1, .obj f args modifs _ =>
    let str (s : JSString) : String := String.mk (s.map Char.ofNat)
    match f.ctype, f.name, f.value with
    | some "variable", some name, _ => str name
    | some "number", _, some (.number real _) => str real
    | some "string", _, some (.string s) => "\"" ++ str s ++ "\""
    | _, _, _ =>
      "(" ++ f.ctype.getD "" ++ (match f.oper with
        | some oper => " " ++ str oper
        | none => "") ++
      String.join (args.map fun a => " " ++ Node.sketch n a) ++
      String.join (modifs.map fun e => " " ++ str e.1 ++ "->" ++ Node.sketch n e.2) ++ ")"

/-- The sketch of what `parse` returns: of the tree, or the `description` of the error. -/
def ParseOutput.sketch : Option ParseOutput → String
  | none => ""
  | some (.node n) => n.sketch 32
  | some (.error e) =>
    match e.description with
    | some d => "error: " ++ String.mk (d.map Char.ofNat)
    | none => "error"

/-- The sketch of what `parseRec` returns, the raw tree. -/
def ParseRecResult.sketch : Res (ParseRecResult × Tokenizer) → String
  | .ok (res, _) => res.expr.sketch 32
  | .throw e =>
    match e.description with
    | some d => "error: " ++ String.mk (d.map Char.ofNat)
    | none => "error"
  | .fuel => ""

/-- The argument `dict` of `subsup` for a superscript, and the one for a subscript. -/
def supDict : JSString := utf16 "⁰¹²³⁴⁵⁶⁷⁸⁹⁺⁻"
def subDict : JSString := utf16 "₀₁₂₃₄₅₆₇₈₉₊₋"

/-- The number node that `subsup` makes of a subscript or superscript token: `imag` is `0` and
`real` is the unary plus of the numeral `dstDigits`. -/
def scriptNumber (tok : Token) (dict : JSString) : Node :=
  .obj { tok.toFields with
    ctype := some "number", value := some (.number (dstDigits dict tok.text) 0) } [] [] none

/-- The infix node that `subsup` builds for the operand `x`, the operator `op` (`^` or `_`) and
the token of the run; `case 'SUP'` then sets `isSuperscript` on it. -/
def scriptNode (tok : Token) (op : OpDescr) (dict : JSString) (x : Node)
    (isSuperscript : Bool) : Node :=
  .obj { op := some op, precedence := some (op.precedence + (if op.rassoc then 1 else 0)),
         start := some tok.start, end_ := some tok.end_, text := some tok.text,
         ctype := some "infix", oper := some op.sym, isSuperscript := isSuperscript }
    [x, scriptNumber tok dict] [] none

/-- A run of glyphs as `supNum` and `subNum` match it, the spaces and tabs removed: an optional
sign glyph and at least one digit glyph. -/
def isScriptRun (digits : JSString) (plus minus : Nat) : JSString → Bool
  | [] => false
  | c :: s =>
    if c = plus ∨ c = minus then !s.isEmpty && s.all (fun d => d ∈ digits)
    else (c :: s).all (fun d => d ∈ digits)

/-- The units with which a token that is not an identifier can start or go on: those of the
operator symbols, the brackets, the subscript and superscript glyphs, the digits, the dot, the
quote of a string literal, and the whitespace. -/
def specialUnits : JSString :=
  operatorSymbols.flatten ++ brackets ++ supDict ++ subDict ++
    [48, 49, 50, 51, 52, 53, 54, 55, 56, 57, 46, 34, 32, 9, 10]

/-- A unit with which a match of `reIdentifier` can start: `#`, `'`, a letter of the first
class of `unicodeLetters`, or the leading unit of one of its other alternatives. -/
def isIdentifierStart (c : Nat) : Bool :=
  c = 35 || c = 39 || isBmpLetter c || astralLetters.any (fun a => a.1 = c) ||
    inRanges hiRanges c

/-- What `reNextToken` needs of the first units of an operator symbol to reach its operator
alternative when an identifier follows the symbol. -/
def operatorHead : JSString → Bool
  | [] => false
  | [x] => !isWhitespace x && !isDigit x
  | x :: y :: _ =>
    !isWhitespace x && !isDigit x && !(x = 47 && (y = 47 || y = 42)) &&
      !(x = 46 && (isInTokenWhitespace y || isDigit y))

/-- The ctypes of the nodes that `parseRec` builds. -/
def rawCtypes : List String :=
  ["number", "string", "variable", "function", "infix", "list", "paren"]

/-- The ctypes of the nodes of a tree that `parse` returns. -/
def finalCtypes : List String :=
  ["void", "number", "string", "variable", "function", "field", "infix", "list"]

/-- What `parseRec` keeps true of the `ctype` and the `args` of a node that it has built: the
ctype is one of `rawCtypes`, an infix node has two args and a paren node one. -/
def Fields.rawShape (f : Fields) (args : List Node) : Bool :=
  match f.ctype with
  | some c =>
    decide (c ∈ rawCtypes) && (c != "infix" || args.length == 2) &&
      (c != "paren" || args.length == 1)
  | none => false

mutual
/-- An operand of `parseRec`: `null`, or a node of the shape `rawShape` without `obj` whose
args and modifier values are operands. -/
def Node.raw : Node → Bool
  | .null => true
  | .undefined => false
  | .obj f args modifs o => f.rawShape args && o.isNone && Node.rawArgs args &&
      Node.rawModifs modifs
/-- Every element is an operand. -/
def Node.rawArgs : List Node → Bool
  | [] => true
  | a :: rest => Node.raw a && Node.rawArgs rest
/-- Every value is an operand. -/
def Node.rawModifs : List (JSString × Node) → Bool
  | [] => true
  | (_, a) :: rest => Node.raw a && Node.rawModifs rest
end

mutual
/-- Every node of the tree, reached through `args`, the values of `modifs` and `obj`, is an
object whose properties satisfy `p`. -/
def Node.all (p : Fields → Bool) : Node → Bool
  | .obj f args modifs o => p f && Node.allArgs p args && Node.allModifs p modifs &&
      Node.allObj p o
  | _ => false
def Node.allArgs (p : Fields → Bool) : List Node → Bool
  | [] => true
  | a :: rest => Node.all p a && Node.allArgs p rest
def Node.allModifs (p : Fields → Bool) : List (JSString × Node) → Bool
  | [] => true
  | (_, a) :: rest => Node.all p a && Node.allModifs p rest
def Node.allObj (p : Fields → Bool) : Option Node → Bool
  | none => true
  | some x => Node.all p x
end

/-- A pending operator of `parseRec`: an object without `modifs` and `obj` whose `op` is a
registered descriptor and whose `precedence` is the declared one, one more if the operator is
right-associative. -/
def Node.pending : Node → Bool
  | .obj f _ modifs o =>
    modifs.isEmpty && o.isNone &&
      (match f.op, f.precedence with
        | some d, some q =>
          decide (d ∈ opTable.descrs) && q == d.precedence + (if d.rassoc then 1 else 0)
        | _, _ => false)
  | _ => false

/-- The sequence `seq` of `parseRec`: operands at the even indices, pending operators at the
odd ones. -/
def seqRaw : List Node → Bool
  | [] => true
  | [e] => e.raw
  | e :: p :: rest => e.raw && p.pending && seqRaw rest

/-- The properties of a node of a returned tree: a ctype of `finalCtypes`, and none of the
transient properties `start`, `end`, `toktype`, `op`, `raw`, `text`. -/
def Fields.final (f : Fields) : Bool :=
  (match f.ctype with
    | some c => decide (c ∈ finalCtypes)
    | none => false) &&
  f.start.isNone && f.end_.isNone && f.toktype.isNone && f.op.isNone && f.raw.isNone &&
    f.text.isNone

/-- The properties of a node that is not an infix node of the comma operator. -/
def Fields.notComma (f : Fields) : Bool :=
  !(f.ctype = some "infix" && f.oper = some (utf16 ","))


/-- An infix node of the comma operator. -/
def Node.isComma : Node → Bool
  | .obj f _ _ _ => f.ctype = some "infix" && f.oper = some (utf16 ",")
  | _ => false

/-- The pending operators of a sequence of `parseRec`: its elements at the odd indices. -/
def pendings : List Node → List Node
  | _ :: p :: rest => p :: pendings rest
  | _ => []

/-- The property `precedence` of an element of the sequence. -/
def Node.precedence : Node → Option Nat
  | .obj f _ _ _ => f.precedence
  | _ => none

/-- A sequence of `parseRec` whose first pending operator is a comma: its `precedence` is 27,
which no incoming operator reaches. -/
def commaPending (seq : List Node) : Bool :=
  match pendings seq with
  | p :: _ => p.precedence == some 27
  | [] => false

/-- A sequence of `parseRec` without a pending comma: the `precedence` of every pending
operator is at most 26. -/
def lowPending (seq : List Node) : Bool :=
  (pendings seq).all fun p =>
    match p.precedence with
    | some q => decide (q ≤ 26)
    | none => false

/-- What one round of the loop of `parseRec` comes to: the loop goes on with the given tokens
and sequence, or the function returns. -/
inductive Round where
  | next (tokens : Tokenizer) (seq : List Node)
  | done (res : ParseRecResult) (tokens : Tokenizer)

/-- One round of the loop of `parseRec`, the body of `parseLoop`; `fuel` is for the nested call
of `case 'BRA'`. -/
def parseRound (fuel : Nat) (tokens : Tokenizer) (closing : Option JSString)
    (seq : List Node) : Res Round :=
  match tokens.next with
  | .fuel => .fuel
  | .throw e => .throw e
  | .ok (tok, tokens) =>
    let continueWith (r : Res (List Node)) : Res Round :=
      match r with
      | .fuel => .fuel
      | .throw e => .throw e
      | .ok seq => .ok (.next tokens seq)
    let leave : Res Round :=
      match finishRec seq tok with
      | .fuel => .fuel
      | .throw e => .throw e
      | .ok res => .ok (.done res tokens)
    match tok.toktype with
    | .OP => continueWith (caseOP tok seq)
    | .ID =>
      continueWith (caseValue tok
        { tok.toFields with ctype := some "variable", name := some tok.text } seq)
    | .NUM =>
      continueWith (caseValue tok
        { tok.toFields with ctype := some "number", value := some (.number tok.text 0) } seq)
    | .STR =>
      continueWith (caseValue tok
        { tok.toFields with
          ctype := some "string",
          value := some (.string (substring tok.raw 1 (tok.raw.length - 1))) } seq)
    | .SUB => continueWith (subsup seq tok (utf16 "_") (utf16 "₀₁₂₃₄₅₆₇₈₉₊₋"))
    | .SUP =>
      continueWith ((subsup seq tok (utf16 "^") (utf16 "⁰¹²³⁴⁵⁶⁷⁸⁹⁺⁻")).bind markSuperscript)
    | .BRA =>
      let bra := indexOf brackets tok.text
      if some tok.text = closing ∨ bra % 2 = 1 then leave
      else
        let closer := charAt brackets (bra + 1)
        match parseLoop fuel tokens (some closer) [] with
        | .fuel => .fuel
        | .throw e => .throw e
        | .ok (sub, tokens) =>
          let ctok := sub.closedBy
          if ctok.text ≠ closer then .throw (mismatchError tok ctok)
          else
            let pair := tok.text ++ ctok.text
            let lst := groupElements sub.expr
            let r : Res (List Node) :=
              if seq.length % 2 = 0 then
                (bracketValue pair lst tok).bind fun node => .ok (seq ++ [node])
              else
                bracketCall pair lst tok seq
            match r with
            | .fuel => .fuel
            | .throw e => .throw e
            | .ok seq => .ok (.next tokens seq)
    | .EOF => leave
    | _ => .ok (.next tokens seq)

/-- The outermost call of `parseRec` that `parse` makes on `code`, after `k` rounds of its
loop: the fuel that is left, the tokens and the sequence; `none` when the call has ended
before. -/
def roundState (code : JSString) : Nat → Option (Nat × Tokenizer × List Node)
  | 0 => some (code.length + 1, Tokenizer.new code, [])
  | k + 1 =>
    match roundState code k with
    | some (fuel + 1, tokens, seq) =>
      match parseRound fuel tokens none seq with
      | .ok (.next tokens seq) => some (fuel, tokens, seq)
      | _ => none
    | _ => none

/-- The token that the outermost call of `parseRec` on `code` reads in round `k` of its loop,
the first round being round `0`: a token outside of every bracket group. -/
def topLevelToken (code : JSString) (k : Nat) : Option Token :=
  match roundState code k with
  | some (_ + 1, tokens, _) =>
    match tokens.next with
    | .ok (tok, _) => some tok
    | _ => none
  | _ => none

/-- The tree that `parse` returned, `null` when it returned an error. -/
def ParseOutput.tree : Option ParseOutput → Node
  | some (.node n) => n
  | _ => .null

/-- Whether `parse` returned a tree and not an error. -/
def ParseOutput.isNode : Option ParseOutput → Bool
  | some (.node _) => true
  | _ => false

/-! ## Two operands joined by a comma -/

/-- The shape of a token: its kind, its text and its raw text, without its positions. -/
def Token.shape (tok : Token) : TokType × JSString × JSString := (tok.toktype, tok.text, tok.raw)

/-- The shapes of the tokens that the calls of `next` return from a state of the tokenizer, up
to the end-of-input token, in at most the given number of calls; `none` when a call throws. -/
def tokenShapes : Nat → Tokenizer → Option (List (TokType × JSString × JSString))
  | 0, _ => none
  | n + 1, t =>
    match t.next with
    | .ok (tok, t1) =>
      if tok.toktype = .EOF then some [tok.shape]
      else (tokenShapes n t1).map fun l => tok.shape :: l
    | _ => none

/-- The shapes of the tokens of an input, the end-of-input token being the last. -/
def tokensOf (code : JSString) : Option (List (TokType × JSString × JSString)) :=
  tokenShapes (code.length + 1) (Tokenizer.new code)

/-- Two operands joined by a comma as sequences of tokens: the tokens of `a , b` are the tokens
of `a` without its end-of-input token, an operator token `,`, and the tokens of `b`. -/
def joinsByComma (a b : JSString) : Bool :=
  match tokensOf a, tokensOf b, tokensOf (a ++ utf16 " , " ++ b) with
  | some la, some lb, some l => l == la.dropLast ++ (TokType.OP, utf16 ",", utf16 ",") :: lb
  | _, _, _ => false

/-- The properties of a node without its positions `start` and `end`. -/
def Fields.erase (f : Fields) : Fields := { f with start := none, end_ := none }

mutual
/-- A tree without the positions of its nodes. -/
def Node.erase : Node → Node
  | .null => .null
  | .undefined => .undefined
  | .obj f args modifs o =>
    .obj f.erase (Node.eraseArgs args) (Node.eraseModifs modifs) (Node.eraseObj o)
def Node.eraseArgs : List Node → List Node
  | [] => []
  | a :: rest => Node.erase a :: Node.eraseArgs rest
def Node.eraseModifs : List (JSString × Node) → List (JSString × Node)
  | [] => []
  | (k, a) :: rest => (k, Node.erase a) :: Node.eraseModifs rest
def Node.eraseObj : Option Node → Option Node
  | none => none
  | some x => some (Node.erase x)
end

/-- The value of a run that ended with one, passed through `g`. -/
def Res.okMap {α β : Type} (g : α → β) : Res α → Option β
  | .ok a => some (g a)
  | _ => none

/-- An element of the sequence of `parseRec` that is not marked as a superscript, or whose
`precedence` is at most 26. -/
def Node.supOk : Node → Bool
  | .obj f _ _ _ =>
    !f.isSuperscript ||
      (match f.precedence with
        | some q => decide (q ≤ 26)
        | none => true)
  | _ => true

/-- The arguments and modifiers of a call without their positions. -/
def eraseCall (p : List Node × List (JSString × Node)) :
    List Node × List (JSString × Node) :=
  (p.1.map Node.erase, Node.eraseModifs p.2)

/-- What `parseRec` returns, without the positions. -/
def ParseRecResult.shape (r : ParseRecResult) : Node × TokType × JSString × JSString :=
  (r.expr.erase, r.closedBy.shape)

/-- A pending comma operator: its `precedence` is 27, and its descriptor allows every use. -/
def Node.commaFrame : Node → Bool
  | .obj c _ _ _ =>
    c.precedence == some 27 && c.toktype == some TokType.OP &&
      (match c.op with
        | some d => d.sym == utf16 "," && d.prefixOk && d.postfixOk && d.infixOk && d.bare
        | none => false)
  | _ => false

/-- The start of a sequence of `parseRec` that the rounds of its loop to come leave alone:
nothing, or an operand and a pending comma. -/
def framed : List Node → Bool
  | [] => true
  | [e, c] => e.supOk && c.commaFrame
  | _ => false

/-- The cases of the switch in `parseRec` for a token that neither opens nor closes a bracket
group nor ends the input: the sequence after the case. -/
def tokenStep (tok : Token) (seq : List Node) : Res (List Node) :=
  match tok.toktype with
  | .OP => caseOP tok seq
  | .ID =>
    caseValue tok { tok.toFields with ctype := some "variable", name := some tok.text } seq
  | .NUM =>
    caseValue tok
      { tok.toFields with ctype := some "number", value := some (.number tok.text 0) } seq
  | .STR =>
    caseValue tok
      { tok.toFields with
        ctype := some "string",
        value := some (.string (substring tok.raw 1 (tok.raw.length - 1))) } seq
  | .SUB => subsup seq tok (utf16 "_") (utf16 "₀₁₂₃₄₅₆₇₈₉₊₋")
  | .SUP => (subsup seq tok (utf16 "^") (utf16 "⁰¹²³⁴⁵⁶⁷⁸⁹⁺⁻")).bind markSuperscript
  | _ => .ok seq

/-- The bracket `closing` that `case 'BRA'` passes to the nested call for an opening bracket. -/
def closerOf (tok : Token) : JSString := charAt brackets (indexOf brackets tok.text + 1)

/-- The end of `case 'BRA'` for an opening bracket `tok` whose group the nested call returned
as `sub`: the sequence after the case. -/
def bracketStep (tok : Token) (sub : ParseRecResult) (seq : List Node) : Res (List Node) :=
  let pair := tok.text ++ sub.closedBy.text
  let lst := groupElements sub.expr
  if seq.length % 2 = 0 then
    (bracketValue pair lst tok).bind fun node => .ok (seq ++ [node])
  else
    bracketCall pair lst tok seq

/-- Whether a token ends the call of `parseRec` that reads it: the end of the input, the
expected closing bracket, or any closing bracket. -/
def leaves (tok : Token) (closing : Option JSString) : Bool :=
  tok.toktype == .EOF ||
    (tok.toktype == .BRA &&
      (decide (some tok.text = closing) || decide (indexOf brackets tok.text % 2 = 1)))

/-- The calls of `next` from a state of the tokenizer return tokens of the given shapes, the
last being the end-of-input token. -/
def Stream (t : Tokenizer) (l : List (TokType × JSString × JSString)) : Prop :=
  ∃ n, tokenShapes n t = some l

/-- Two states of the tokenizer from which the calls of `next` return tokens of the same
shapes, up to the end of the input of the first, where the second goes on with the tokens `y`. -/
def Agr (e : TokType × JSString × JSString) (y : List (TokType × JSString × JSString))
    (t u : Tokenizer) : Prop :=
  ∃ p, Stream t (p ++ [e]) ∧ Stream u (p ++ y)


/-! # Properties -/

/-! ## Results of runs -/

theorem Res.eq_ok_value {α : Type} [Inhabited α] (r : Res α) (h : r.isOk = true) :
    r = .ok r.value := by
  cases r <;> simp_all [Res.isOk, Res.value]

theorem Res.eq_ok_pair {α β : Type} [Inhabited α] [Inhabited β] (r : Res (α × β))
    (h : r.isOk = true) : r = .ok (r.value.1, r.value.2) := by
  cases r <;> simp_all [Res.isOk, Res.value]

@[simp] theorem Res.bind_ok {α β : Type} (a : α) (f : α → Res β) : (Res.ok a).bind f = f a := rfl

@[simp] theorem Res.bind_throw {α β : Type} (e : Err) (f : α → Res β) :
    (Res.throw e : Res α).bind f = .throw e := rfl

@[simp] theorem Res.bind_fuel {α β : Type} (f : α → Res β) :
    (Res.fuel : Res α).bind f = .fuel := rfl

/-! ## The equality test of nodes -/

theorem listEqWith_sound {α : Type} (eq : α → α → Bool) (h : ∀ x y, eq x y = true → x = y) :
    ∀ a b : List α, listEqWith eq a b = true → a = b := by
  intro a
  induction a with
  | nil => intro b; cases b <;> simp [listEqWith]
  | cons x xs ih =>
    intro b
    cases b with
    | nil => simp [listEqWith]
    | cons y ys =>
      simp only [listEqWith, Bool.and_eq_true]
      rintro ⟨h1, h2⟩
      rw [h x y h1, ih ys h2]

theorem Node.eqTo_sound : ∀ (n : Nat) (a b : Node), Node.eqTo n a b = true → a = b := by
  intro n
  induction n with
  | zero => intro a b; cases a <;> cases b <;> simp [Node.eqTo]
  | succ n ih =>
    intro a b
    cases a with
    | null => cases b <;> simp [Node.eqTo]
    | undefined => cases b <;> simp [Node.eqTo]
    | obj f a m o =>
      cases b with
      | null => simp [Node.eqTo]
      | undefined => simp [Node.eqTo]
      | obj g b k q =>
        simp only [Node.eqTo, Bool.and_eq_true, decide_eq_true_eq]
        rintro ⟨⟨⟨h1, h2⟩, h3⟩, h4⟩
        have e2 := listEqWith_sound _ ih _ _ h2
        have e3 : m = k := by
          refine listEqWith_sound _ ?_ _ _ h3
          rintro ⟨x1, x2⟩ ⟨y1, y2⟩ hxy
          simp only [Bool.and_eq_true, decide_eq_true_eq] at hxy
          rw [hxy.1, ih _ _ hxy.2]
        have e4 : o = q := by
          cases o <;> cases q <;> simp at h4 ⊢
          exact ih _ _ h4
        rw [h1, e2, e3, e4]

/-- A concrete parse result, checked by evaluation. -/
theorem parse_eq_node (n : Nat) (code : JSString) (t : Node)
    (h : (match parse code with
          | some (.node r) => Node.eqTo n r t
          | _ => false) = true) : parse code = some (.node t) := by
  cases hp : parse code with
  | none => simp [hp] at h
  | some o =>
    cases o with
    | error e => simp [hp] at h
    | node r => simp only [hp] at h; rw [Node.eqTo_sound n r t h]

/-- A concrete parse failure, checked by evaluation. -/
theorem parse_eq_error (code : JSString) (e : Err)
    (h : (match parse code with
          | some (.error r) => decide (r = e)
          | _ => false) = true) : parse code = some (.error e) := by
  cases hp : parse code with
  | none => simp [hp] at h
  | some o =>
    cases o with
    | error r => simp only [hp, decide_eq_true_eq] at h; rw [h]
    | node r => simp [hp] at h

/-! ## The tables built at module initialisation -/

theorem initializeOperators_eq : initializeOperators = some opTable := opTableBuilt.property

theorem operatorSymbols_eq : sortByLength opTable.operatorSymbols = operatorSymbols :=
  operatorSymbolsSorted.property

theorem decodeLetters_eq : decodeLetters letterStr 0 = (bmpLetters, astralLetters) := by
  decide!

/-! ## The tokenizer -/

theorem firstMatch_group (ps : List (JSString → Option Nat)) (tt : Nat) (s : JSString)
    (n g : Nat) (h : firstMatch ps tt s = some (n, g)) :
    ∃ k, ∃ hk : k < ps.length, g = tt + k ∧ ps[k] s = some n ∧
      ∀ j, (hj : j < k) → ps[j] s = none := by
  induction ps generalizing tt with
  | nil => simp [firstMatch] at h
  | cons p ps ih =>
    simp only [firstMatch] at h
    cases hp : p s with
    | some m =>
      simp only [hp, Option.some.injEq, Prod.mk.injEq] at h
      refine ⟨0, by simp, by omega, by simpa [hp] using h.1, by simp⟩
    | none =>
      simp only [hp] at h
      obtain ⟨k, hk, hg, hk2, hk3⟩ := ih (tt + 1) h
      refine ⟨k + 1, by simpa using hk, by omega, by simpa using hk2, ?_⟩
      intro j hj
      cases j with
      | zero => simpa using hp
      | succ j => simpa using hk3 j (by omega)

theorem reNextToken_op (s : JSString) (n : Nat) (h : reNextToken s = some (n, 5)) :
    anyOfGroup operatorSymbols s = some n := by
  obtain ⟨k, hk, hg, hk2, -⟩ := firstMatch_group _ _ _ _ _ h
  have : k = 4 := by omega
  subst this
  simpa [tokenPatterns] using hk2

theorem execFrom_spec (s : JSString) (i : Nat) (m : Match) (h : execFrom s i = some m) :
    ∃ k, m.index = i + k ∧ reNextToken (s.drop k) = some (m.len, m.group) := by
  induction s generalizing i with
  | nil =>
    simp only [execFrom] at h
    split at h
    · rename_i r hr
      simp only [Option.some.injEq] at h
      subst h
      exact ⟨0, rfl, by simpa using hr⟩
    · simp at h
  | cons c s ih =>
    simp only [execFrom] at h
    split at h
    · rename_i r hr
      simp only [Option.some.injEq] at h
      subst h
      exact ⟨0, rfl, by simpa using hr⟩
    · obtain ⟨k, hk1, hk2⟩ := ih (i + 1) h
      exact ⟨k + 1, by omega, by simpa using hk2⟩

theorem tokenTypes_op (g : Nat) (h : tokenTypes.getD g .ANY = .OP) : g = 5 := by
  by_cases hg : g < 12
  · interval_cases g <;> simp_all [tokenTypes]
  · have hn : tokenTypes[g]? = none := List.getElem?_eq_none (by simp [tokenTypes]; omega)
    simp [List.getD_eq_getElem?_getD, hn] at h

theorem isPrefixOf_take (u s : JSString) (h : u.isPrefixOf s = true) : s.take u.length = u := by
  rw [List.isPrefixOf_iff_prefix] at h
  obtain ⟨r, rfl⟩ := h
  simp

theorem operatorSymbols_sorted :
    operatorSymbols.Pairwise (fun a b => b.length ≤ a.length) := by decide!

theorem operatorSymbols_noSpaces : ∀ u ∈ operatorSymbols, removeSpaces u = u := by decide!

theorem anyOfGroup_longest (lst : List JSString) (s : JSString) (n : Nat)
    (hs : lst.Pairwise (fun a b => b.length ≤ a.length)) (h : anyOfGroup lst s = some n) :
    ∃ u ∈ lst, u.length = n ∧ u <+: s ∧ ∀ v ∈ lst, v <+: s → v.length ≤ u.length := by
  unfold anyOfGroup at h
  split at h
  · simp at h
  · rename_i u hu
    simp only [Option.some.injEq] at h
    rw [List.find?_eq_some] at hu
    obtain ⟨hpre, as, bs, rfl, hno⟩ := hu
    refine ⟨u, by simp, h, List.isPrefixOf_iff_prefix.mp hpre, ?_⟩
    intro v hv hvs
    simp only [List.mem_append, List.mem_cons] at hv
    rcases hv with hv | rfl | hv
    · have := hno v hv
      simp [List.isPrefixOf_iff_prefix.mpr hvs] at this
    · exact le_refl _
    · rw [List.pairwise_append] at hs
      exact (List.pairwise_cons.mp hs.2.1).1 v hv

theorem nextInternal_op (t t1 : Tokenizer) (tok : Token)
    (h : t.nextInternal = .ok (tok, t1)) (hop : tok.toktype = .OP) :
    tok.text ∈ operatorSymbols ∧ tok.text <+: t.input.drop t.pos ∧
      ∀ u ∈ operatorSymbols, u <+: t.input.drop t.pos → u.length ≤ tok.text.length := by
  unfold Tokenizer.nextInternal at h
  split at h
  · simp at h
  · rename_i m hm
    split at h
    · simp at h
    · rename_i hidx
      simp only [ne_eq, Decidable.not_not] at hidx
      simp only [Res.ok.injEq, Prod.mk.injEq] at h
      obtain ⟨htok, -⟩ := h
      subst htok
      simp only at hop
      have hg := tokenTypes_op _ hop
      unfold exec at hm
      split at hm
      · simp at hm
      · obtain ⟨k, hk1, hk2⟩ := execFrom_spec _ _ _ hm
        rw [hg, List.drop_drop] at hk2
        have hk3 := reNextToken_op _ _ hk2
        obtain ⟨u, hu1, hu2, hu3, hu4⟩ := anyOfGroup_longest _ _ _ operatorSymbols_sorted hk3
        have hpos : t.lastIndex + k = t.pos := by omega
        rw [hpos] at hu3 hu4
        have hraw : substring t.input m.index (m.index + m.len) = u := by
          obtain ⟨r, hr⟩ := hu3
          simp [substring, hidx, ← hr, ← hu2]
        simp only [hraw, operatorSymbols_noSpaces u hu1]
        exact ⟨hu1, hu3, hu4⟩

/-- C10: `operatorSymbols` is sorted by non-increasing length; an operator token produced by the
tokenizer at a position has as text the longest registered operator symbol that is a prefix of
the remaining input; so when a registered symbol `u` is a prefix of the remaining input, no
registered proper prefix `s` of `u` is the operator token produced there; `<=`, `:=_` and `~!=`
are one token each; `operatorSymbols` is the array that `initializeOperators` fills, sorted by
`sortByLength`, the statement `operatorSymbols.sort(…)`. -/
theorem operator_lexing_longest_match :
    operatorSymbols.Pairwise (fun a b => b.length ≤ a.length) ∧
    (∀ (t t1 : Tokenizer) (tok : Token), t.nextInternal = .ok (tok, t1) → tok.toktype = .OP →
      tok.text ∈ operatorSymbols ∧ tok.text <+: t.input.drop t.pos ∧
        ∀ u ∈ operatorSymbols, u <+: t.input.drop t.pos → u.length ≤ tok.text.length) ∧
    (∀ (t t1 : Tokenizer) (tok : Token) (s u : JSString),
      s ∈ operatorSymbols → u ∈ operatorSymbols → s <+: u → s ≠ u →
      u <+: t.input.drop t.pos → t.nextInternal = .ok (tok, t1) →
        ¬ (tok.toktype = .OP ∧ tok.text = s)) ∧
    (Tokenizer.new (utf16 "<=")).next = .ok (
      { start := ⟨1, 0, 0⟩, end_ := ⟨2, 0, 2⟩, raw := utf16 "<=", text := utf16 "<=",
        toktype := .OP },
      { input := utf16 "<=", lastIndex := 2, bols := [], pos := 2, bol := 2, line := 2 }) ∧
    (Tokenizer.new (utf16 ":=_")).next = .ok (
      { start := ⟨1, 0, 0⟩, end_ := ⟨2, 0, 3⟩, raw := utf16 ":=_", text := utf16 ":=_",
        toktype := .OP },
      { input := utf16 ":=_", lastIndex := 3, bols := [], pos := 3, bol := 3, line := 2 }) ∧
    (Tokenizer.new (utf16 "~!=")).next = .ok (
      { start := ⟨1, 0, 0⟩, end_ := ⟨2, 0, 3⟩, raw := utf16 "~!=", text := utf16 "~!=",
        toktype := .OP },
      { input := utf16 "~!=", lastIndex := 3, bols := [], pos := 3, bol := 3, line := 2 }) ∧
    (initializeOperators = some opTable ∧
      sortByLength opTable.operatorSymbols = operatorSymbols) := by
  refine ⟨operatorSymbols_sorted, nextInternal_op, ?_, by decide!, by decide!, by decide!,
    initializeOperators_eq, operatorSymbols_eq⟩
  rintro t t1 tok s u - hu hsu hne hut hnext ⟨hop, rfl⟩
  have hlen := (nextInternal_op t t1 tok hnext hop).2.2 u hu hut
  exact hne (List.IsPrefix.eq_of_length_le hsu hlen)

/-- The input `a<=b` is the three tokens `a`, `<=`, `b`: the operator token produced after `a` is
the longest registered symbol that is a prefix of `<=b`, which is `<=`, not its prefix `<`. -/
theorem operator_lexing_longest_match_witness :
    ((Tokenizer.new (utf16 "a<=b")).next.value.2.nextInternal.value.1.text ∈ operatorSymbols ∧
      (Tokenizer.new (utf16 "a<=b")).next.value.2.nextInternal.value.1.text <+:
        (Tokenizer.new (utf16 "a<=b")).next.value.2.input.drop
          (Tokenizer.new (utf16 "a<=b")).next.value.2.pos ∧
      ∀ u ∈ operatorSymbols,
        u <+: (Tokenizer.new (utf16 "a<=b")).next.value.2.input.drop
          (Tokenizer.new (utf16 "a<=b")).next.value.2.pos →
        u.length ≤ (Tokenizer.new (utf16 "a<=b")).next.value.2.nextInternal.value.1.text.length) ∧
    (Tokenizer.new (utf16 "a<=b")).next.value.2.nextInternal.value.1.text = utf16 "<=" :=
  ⟨operator_lexing_longest_match.2.1 (Tokenizer.new (utf16 "a<=b")).next.value.2
      (Tokenizer.new (utf16 "a<=b")).next.value.2.nextInternal.value.2
      (Tokenizer.new (utf16 "a<=b")).next.value.2.nextInternal.value.1
      (Res.eq_ok_pair _ (by decide!)) (by decide!), by decide!⟩
theorem parseLoop_ID (fuel : Nat) (tokens t1 : Tokenizer) (closing : Option JSString)
    (seq : List Node) (tok : Token) (h : tokens.next = .ok (tok, t1)) (htt : tok.toktype = .ID)
    (hs : seq.length % 2 = 0) :
    parseLoop (fuel + 1) tokens closing seq = parseLoop fuel t1 closing (seq ++ [variableNode tok]) := by
  rw [parseLoop]
  simp only [h, htt, caseValue, hs, variableNode]
  simp

theorem parseLoop_OP (fuel : Nat) (tokens t1 : Tokenizer) (closing : Option JSString)
    (seq seq1 : List Node) (tok : Token) (h : tokens.next = .ok (tok, t1))
    (htt : tok.toktype = .OP) (hs : caseOP tok seq = .ok seq1) :
    parseLoop (fuel + 1) tokens closing seq = parseLoop fuel t1 closing seq1 := by
  rw [parseLoop]
  simp only [h, htt, hs]

theorem parseLoop_EOF (fuel : Nat) (tokens t1 : Tokenizer) (closing : Option JSString)
    (seq : List Node) (tok : Token) (res : ParseRecResult) (h : tokens.next = .ok (tok, t1))
    (htt : tok.toktype = .EOF) (hs : finishRec seq tok = .ok res) :
    parseLoop (fuel + 1) tokens closing seq = .ok (res, t1) := by
  rw [parseLoop]
  simp only [h, htt, hs]

theorem applyOperator_infix (rest : List Node) (q : Token) (dq : OpDescr)
    (x y : Fields) (xa ya : List Node) (xm ym : List (JSString × Node)) (xo yo : Option Node)
    (hx : x.isSuperscript = false) (hq : dq.infixOk = true) :
    applyOperator (rest ++ [.obj x xa xm xo, pendingOperator q dq, .obj y ya ym yo]) =
      .ok (rest ++ [infixNode q dq (.obj x xa xm xo) (.obj y ya ym yo)]) := by
  simp [applyOperator, pendingOperator, infixNode, Node.truthy, hx, hq, Token.toFields, Res.bind]
theorem mergesWithDefine_odd (op : OpDescr) (seq : List Node) (h : seq.length % 2 = 1) :
    mergesWithDefine op seq = .ok false := by
  simp [mergesWithDefine, h]

theorem padNull_odd (seq : List Node) (h : seq.length % 2 = 1) : padNull seq = seq := by
  simp [padNull, h]

theorem caseOP_one (tok : Token) (d : OpDescr) (x : Node) (hd : operators tok.text = some d) :
    caseOP tok [x] = .ok [x, pendingOperator tok d] := by
  simp [caseOP, hd, mergesWithDefine_odd, padNull_odd, applyWhileLe, applyLoop, pendingOperator,
    Token.toFields]

theorem pendingLe_three (prec : Nat) (x y : Node) (q : Token) (dq : OpDescr) (rest : List Node) :
    pendingLe prec (rest ++ [x, pendingOperator q dq, y]) =
      .ok (decide ((if dq.rassoc then dq.precedence + 1 else dq.precedence) ≤ prec)) := by
  simp [pendingLe, pendingOperator]

theorem caseOP_shift (tok q : Token) (d dq : OpDescr) (x y : Node)
    (hd : operators tok.text = some d)
    (hlt : d.precedence < (if dq.rassoc then dq.precedence + 1 else dq.precedence)) :
    caseOP tok [x, pendingOperator q dq, y] =
      .ok [x, pendingOperator q dq, y, pendingOperator tok d] := by
  have h3 := pendingLe_three d.precedence x y q dq []
  simp only [List.nil_append] at h3
  have hn : ¬ (if dq.rassoc then dq.precedence + 1 else dq.precedence) ≤ d.precedence := by omega
  have hm := mergesWithDefine_odd d [x, pendingOperator q dq, y] (by simp)
  have hpad := padNull_odd [x, pendingOperator q dq, y] (by simp)
  simp [caseOP, hd, hm, hpad, applyWhileLe, applyLoop, h3, hn]
  simp [pendingOperator, Token.toFields]

theorem caseOP_reduce (tok q : Token) (d dq : OpDescr)
    (x y : Fields) (xa ya : List Node) (xm ym : List (JSString × Node)) (xo yo : Option Node)
    (hd : operators tok.text = some d)
    (hle : (if dq.rassoc then dq.precedence + 1 else dq.precedence) ≤ d.precedence)
    (hx : x.isSuperscript = false) (hq : dq.infixOk = true) :
    caseOP tok [.obj x xa xm xo, pendingOperator q dq, .obj y ya ym yo] =
      .ok [infixNode q dq (.obj x xa xm xo) (.obj y ya ym yo), pendingOperator tok d] := by
  have h3 := pendingLe_three d.precedence (.obj x xa xm xo) (.obj y ya ym yo) q dq []
  have h4 := applyOperator_infix [] q dq x y xa ya xm ym xo yo hx hq
  simp only [List.nil_append] at h3 h4
  have hm := mergesWithDefine_odd d [.obj x xa xm xo, pendingOperator q dq, .obj y ya ym yo] (by simp)
  have hpad := padNull_odd [.obj x xa xm xo, pendingOperator q dq, .obj y ya ym yo] (by simp)
  simp [caseOP, hd, hm, hpad, applyWhileLe, applyLoop, h3, h4, hle]
  simp [pendingOperator, Token.toFields]

theorem finishRec_one (x : Node) (tok : Token) :
    finishRec [x] tok = .ok { expr := x, closedBy := tok } := by
  simp [finishRec, padNull, applyLoop]

theorem finishRec_three (tok q : Token) (dq : OpDescr)
    (x y : Fields) (xa ya : List Node) (xm ym : List (JSString × Node)) (xo yo : Option Node)
    (hx : x.isSuperscript = false) (hq : dq.infixOk = true) :
    finishRec [.obj x xa xm xo, pendingOperator q dq, .obj y ya ym yo] tok =
      .ok { expr := infixNode q dq (.obj x xa xm xo) (.obj y ya ym yo), closedBy := tok } := by
  have h4 := applyOperator_infix [] q dq x y xa ya xm ym xo yo hx hq
  simp only [List.nil_append] at h4
  simp [finishRec, padNull, applyLoop, h4]

theorem finishRec_five (tok q p : Token) (dq dp : OpDescr)
    (x y z : Fields) (xa ya za : List Node) (xm ym zm : List (JSString × Node))
    (xo yo zo : Option Node)
    (hx : x.isSuperscript = false) (hy : y.isSuperscript = false)
    (hq : dq.infixOk = true) (hp : dp.infixOk = true) :
    finishRec [.obj x xa xm xo, pendingOperator q dq, .obj y ya ym yo, pendingOperator p dp,
        .obj z za zm zo] tok =
      .ok { expr := infixNode q dq (.obj x xa xm xo)
              (infixNode p dp (.obj y ya ym yo) (.obj z za zm zo)),
            closedBy := tok } := by
  have h4 := applyOperator_infix [.obj x xa xm xo, pendingOperator q dq] p dp y z ya za ym zm
    yo zo hy hp
  have h5 := applyOperator_infix [] q dq x
    { p.toFields with
      op := some dp,
      precedence := some (if dp.rassoc then dp.precedence + 1 else dp.precedence),
      ctype := some "infix", oper := some dp.sym }
    xa [.obj y ya ym yo, .obj z za zm zo] xm [] xo none hx hq
  simp only [List.nil_append, List.cons_append] at h4 h5
  simp [finishRec, padNull, applyLoop, h4]
  simp only [infixNode] at h5 ⊢
  simp [h5]
theorem lookup_mem {α : Type} (l : List (JSString × α)) (s : JSString) (v : α)
    (h : l.lookup s = some v) : s ∈ l.map Prod.fst := by
  induction l with
  | nil => simp at h
  | cons e l ih =>
    obtain ⟨k, w⟩ := e
    simp only [List.lookup] at h
    split at h
    · rename_i heq
      simp only [beq_iff_eq] at heq
      simp [heq]
    · simp [ih h]

theorem operators_mem (s : JSString) (d : OpDescr) (h : operators s = some d) :
    s ∈ opTable.operators.map Prod.fst := by
  unfold operators at h
  split at h
  · simp at h
  · rename_i i hi
    exact lookup_mem _ _ _ hi

/-- The declared precedence and the associativity of each registered symbol, from its level. -/
theorem operators_level_table : ∀ s ∈ opTable.operators.map Prod.fst,
    (operators s).map (fun d => (d.precedence, d.rassoc)) =
      (levelOf s).bind fun i => operatorLevels[i]?.map fun level => (2 * (i + 1), level.rassoc) := by
  decide!

theorem operators_level (s : JSString) (d : OpDescr) (i : Nat) (h : operators s = some d)
    (hl : levelOf s = some i) :
    d.precedence = 2 * (i + 1) ∧ operatorLevels[i]?.map (fun level => level.rassoc) = some d.rassoc := by
  have := operators_level_table s (operators_mem s d h)
  rw [h, hl] at this
  simp only [Option.map_some', Option.some_bind] at this
  cases hi : operatorLevels[i]? with
  | none => simp [hi] at this
  | some level =>
    simp only [hi, Option.map_some', Option.some.injEq, Prod.mk.injEq] at this
    simp [this.1, this.2]

theorem Token.toFields_isSuperscript (tok : Token) : tok.toFields.isSuperscript = false := rfl

/-- C3: for infix-capable operators `p` and `q` with `p` in an earlier level of `operatorLevels`
than `q` and identifier tokens `a`, `b`, `c`, the token sequence `a q b p c` parses (in
`parseRec`) to infix `q` with args `[a, infix p [b, c]]` and `a p b q c` to infix `q` with args
`[infix p [a, b], c]`, whether or not the level of `p` is right-associative; the registry in
which `operators` looks the descriptors up is the one that `initializeOperators` builds from
`operatorLevels`, each descriptor with the number of its level as `precedence`. -/
theorem tighter_level_groups_first (fuel : Nat) (t0 t1 t2 t3 t4 t5 t6 : Tokenizer)
    (closing : Option JSString) (a b c p q eof : Token) (dp dq : OpDescr) (i j : Nat)
    (ha : a.toktype = .ID) (hb : b.toktype = .ID) (hc : c.toktype = .ID)
    (hp : p.toktype = .OP) (hq : q.toktype = .OP) (he : eof.toktype = .EOF)
    (hdp : operators p.text = some dp) (hdq : operators q.text = some dq)
    (hip : dp.infixOk = true) (hiq : dq.infixOk = true)
    (hlp : levelOf p.text = some i) (hlq : levelOf q.text = some j) (hij : i < j) :
    (t0.next = .ok (a, t1) → t1.next = .ok (q, t2) → t2.next = .ok (b, t3) →
      t3.next = .ok (p, t4) → t4.next = .ok (c, t5) → t5.next = .ok (eof, t6) →
      parseRec (fuel + 6) t0 closing = .ok (
        { expr := infixNode q dq (variableNode a) (infixNode p dp (variableNode b) (variableNode c)),
          closedBy := eof }, t6)) ∧
    (t0.next = .ok (a, t1) → t1.next = .ok (p, t2) → t2.next = .ok (b, t3) →
      t3.next = .ok (q, t4) → t4.next = .ok (c, t5) → t5.next = .ok (eof, t6) →
      parseRec (fuel + 6) t0 closing = .ok (
        { expr := infixNode q dq (infixNode p dp (variableNode a) (variableNode b)) (variableNode c),
          closedBy := eof }, t6)) ∧
    initializeOperators = some opTable := by
  have hpp := (operators_level _ _ _ hdp hlp).1
  have hqp := (operators_level _ _ _ hdq hlq).1
  refine ⟨?_, ?_, initializeOperators_eq⟩
  · intro h0 h1 h2 h3 h4 h5
    have hshift : dp.precedence < (if dq.rassoc then dq.precedence + 1 else dq.precedence) := by
      split <;> omega
    rw [parseRec, parseLoop_ID _ _ _ _ _ _ h0 ha (by simp), List.nil_append,
      parseLoop_OP _ _ _ _ _ _ _ h1 hq (caseOP_one q dq _ hdq),
      parseLoop_ID _ _ _ _ _ _ h2 hb (by simp), List.cons_append, List.cons_append,
      List.nil_append,
      parseLoop_OP _ _ _ _ _ _ _ h3 hp (caseOP_shift p q dp dq _ _ hdp hshift),
      parseLoop_ID _ _ _ _ _ _ h4 hc (by simp)]
    simp only [List.cons_append, List.nil_append, variableNode]
    rw [parseLoop_EOF _ _ _ _ _ _ _ h5 he
        (finishRec_five eof q p dq dp _ _ _ _ _ _ _ _ _ _ _ _ (by rfl) (by rfl) hiq hip)]
  · intro h0 h1 h2 h3 h4 h5
    have hred : (if dp.rassoc then dp.precedence + 1 else dp.precedence) ≤ dq.precedence := by
      split <;> omega
    rw [parseRec, parseLoop_ID _ _ _ _ _ _ h0 ha (by simp), List.nil_append,
      parseLoop_OP _ _ _ _ _ _ _ h1 hp (caseOP_one p dp _ hdp),
      parseLoop_ID _ _ _ _ _ _ h2 hb (by simp), List.cons_append, List.cons_append,
      List.nil_append]
    simp only [variableNode]
    rw [parseLoop_OP _ _ _ _ _ _ _ h3 hq
        (caseOP_reduce q p dq dp _ _ _ _ _ _ _ _ hdq hred (by rfl) hip),
      parseLoop_ID _ _ _ _ _ _ h4 hc (by simp)]
    simp only [List.cons_append, List.nil_append, variableNode, infixNode]
    rw [parseLoop_EOF _ _ _ _ _ _ _ h5 he
        (finishRec_three eof q dq _ _ _ _ _ _ _ _ (by rfl) hiq)]
    rfl
theorem Tokenizer.next_after (t : Tokenizer) (n : Nat) (h : ((t.after n).next).isOk = true) :
    (t.after n).next = .ok (t.nth n, t.after (n + 1)) := by
  simp only [Tokenizer.nth, Tokenizer.after]
  exact Res.eq_ok_pair _ h

set_option maxHeartbeats 1000000 in
/-- The input `a+b*c`, in which `*` is of an earlier level than `+`, is parsed by `parseRec` to
infix `+` with args `[a, infix * [b, c]]`. -/
theorem tighter_level_groups_first_witness :
    (levelOf ((Tokenizer.new (utf16 "a+b*c")).nth 3).text = some 2 ∧
      levelOf ((Tokenizer.new (utf16 "a+b*c")).nth 1).text = some 3 ∧
      ((Tokenizer.new (utf16 "a+b*c")).nth 1).text = utf16 "+" ∧
      ((Tokenizer.new (utf16 "a+b*c")).nth 3).text = utf16 "*") ∧
    parseRec (0 + 6) ((Tokenizer.new (utf16 "a+b*c")).after 0) none = .ok (
      { expr := infixNode ((Tokenizer.new (utf16 "a+b*c")).nth 1)
          { name := "add", sym := utf16 "+", symbols := [utf16 "+"], rassoc := false,
            precedence := 8, prefixOk := true, postfixOk := false, infixOk := true, bare := false }
          (variableNode ((Tokenizer.new (utf16 "a+b*c")).nth 0))
          (infixNode ((Tokenizer.new (utf16 "a+b*c")).nth 3)
            { name := "mul", sym := utf16 "*",
              symbols := [utf16 "*", utf16 "\u2062", utf16 "\u22c5", utf16 "\u00b7"],
              rassoc := false, precedence := 6, prefixOk := false, postfixOk := false,
              infixOk := true, bare := false }
            (variableNode ((Tokenizer.new (utf16 "a+b*c")).nth 2))
            (variableNode ((Tokenizer.new (utf16 "a+b*c")).nth 4))),
        closedBy := (Tokenizer.new (utf16 "a+b*c")).nth 5 },
      (Tokenizer.new (utf16 "a+b*c")).after (5 + 1)) := by
  have H : (((Tokenizer.new (utf16 "a+b*c")).nth 0).toktype = .ID ∧ ((Tokenizer.new (utf16 "a+b*c")).nth 2).toktype = .ID ∧
      ((Tokenizer.new (utf16 "a+b*c")).nth 4).toktype = .ID ∧ ((Tokenizer.new (utf16 "a+b*c")).nth 3).toktype = .OP ∧
      ((Tokenizer.new (utf16 "a+b*c")).nth 1).toktype = .OP ∧ ((Tokenizer.new (utf16 "a+b*c")).nth 5).toktype = .EOF ∧
      operators ((Tokenizer.new (utf16 "a+b*c")).nth 3).text = some
            { name := "mul", sym := utf16 "*",
              symbols := [utf16 "*", utf16 "\u2062", utf16 "\u22c5", utf16 "\u00b7"],
              rassoc := false, precedence := 6, prefixOk := false, postfixOk := false,
              infixOk := true, bare := false } ∧
      operators ((Tokenizer.new (utf16 "a+b*c")).nth 1).text = some
          { name := "add", sym := utf16 "+", symbols := [utf16 "+"], rassoc := false,
            precedence := 8, prefixOk := true, postfixOk := false, infixOk := true, bare := false } ∧
      levelOf ((Tokenizer.new (utf16 "a+b*c")).nth 3).text = some 2 ∧ levelOf ((Tokenizer.new (utf16 "a+b*c")).nth 1).text = some 3 ∧
      ((Tokenizer.new (utf16 "a+b*c")).nth 1).text = utf16 "+" ∧ ((Tokenizer.new (utf16 "a+b*c")).nth 3).text = utf16 "*") ∧
      (((Tokenizer.new (utf16 "a+b*c")).after 0).next).isOk = true ∧ (((Tokenizer.new (utf16 "a+b*c")).after 1).next).isOk = true ∧
      (((Tokenizer.new (utf16 "a+b*c")).after 2).next).isOk = true ∧ (((Tokenizer.new (utf16 "a+b*c")).after 3).next).isOk = true ∧
      (((Tokenizer.new (utf16 "a+b*c")).after 4).next).isOk = true ∧ (((Tokenizer.new (utf16 "a+b*c")).after 5).next).isOk = true := by decide!
  obtain ⟨⟨ha, hb, hc, hp, hq, he, hdp, hdq, hlp, hlq, hq1, hp1⟩, h0, h1, h2, h3, h4, h5⟩ := H
  exact ⟨⟨hlp, hlq, hq1, hp1⟩,
    (tighter_level_groups_first 0 ((Tokenizer.new (utf16 "a+b*c")).after 0) ((Tokenizer.new (utf16 "a+b*c")).after (0 + 1)) ((Tokenizer.new (utf16 "a+b*c")).after (1 + 1))
      ((Tokenizer.new (utf16 "a+b*c")).after (2 + 1)) ((Tokenizer.new (utf16 "a+b*c")).after (3 + 1)) ((Tokenizer.new (utf16 "a+b*c")).after (4 + 1)) ((Tokenizer.new (utf16 "a+b*c")).after (5 + 1)) none
      ((Tokenizer.new (utf16 "a+b*c")).nth 0) ((Tokenizer.new (utf16 "a+b*c")).nth 2) ((Tokenizer.new (utf16 "a+b*c")).nth 4) ((Tokenizer.new (utf16 "a+b*c")).nth 3) ((Tokenizer.new (utf16 "a+b*c")).nth 1) ((Tokenizer.new (utf16 "a+b*c")).nth 5)
      { name := "mul", sym := utf16 "*",
              symbols := [utf16 "*", utf16 "\u2062", utf16 "\u22c5", utf16 "\u00b7"],
              rassoc := false, precedence := 6, prefixOk := false, postfixOk := false,
              infixOk := true, bare := false }
      { name := "add", sym := utf16 "+", symbols := [utf16 "+"], rassoc := false,
            precedence := 8, prefixOk := true, postfixOk := false, infixOk := true, bare := false }
      2 3 ha hb hc hp hq he hdp hdq rfl rfl hlp hlq (by decide)).1
      (Tokenizer.next_after (Tokenizer.new (utf16 "a+b*c")) 0 h0) (Tokenizer.next_after (Tokenizer.new (utf16 "a+b*c")) 1 h1)
      (Tokenizer.next_after (Tokenizer.new (utf16 "a+b*c")) 2 h2) (Tokenizer.next_after (Tokenizer.new (utf16 "a+b*c")) 3 h3)
      (Tokenizer.next_after (Tokenizer.new (utf16 "a+b*c")) 4 h4) (Tokenizer.next_after (Tokenizer.new (utf16 "a+b*c")) 5 h5)⟩

/-- C4: for infix-capable operators `o1` and `o2` of one level of `operatorLevels` (possibly
the same operator) and identifier tokens `a`, `b`, `c`, the token sequence `a o1 b o2 c` parses
(in `parseRec`) to infix `o2` with args `[infix o1 [a, b], c]` when the level is not
right-associative, and to infix `o1` with args `[a, infix o2 [b, c]]` when it is declared
`rassoc`; the registry in which `operators` looks the descriptors up is the one that
`initializeOperators` builds, `registerNames` copying the number and the `rassoc` flag of the
level into each descriptor. -/
theorem same_level_associativity (fuel : Nat) (t0 t1 t2 t3 t4 t5 t6 : Tokenizer)
    (closing : Option JSString) (a b c o1 o2 eof : Token) (d1 d2 : OpDescr) (i : Nat)
    (level : Level)
    (ha : a.toktype = .ID) (hb : b.toktype = .ID) (hc : c.toktype = .ID)
    (ho1 : o1.toktype = .OP) (ho2 : o2.toktype = .OP) (he : eof.toktype = .EOF)
    (hd1 : operators o1.text = some d1) (hd2 : operators o2.text = some d2)
    (hi1 : d1.infixOk = true) (hi2 : d2.infixOk = true)
    (hl1 : levelOf o1.text = some i) (hl2 : levelOf o2.text = some i)
    (hlevel : operatorLevels[i]? = some level)
    (h0 : t0.next = .ok (a, t1)) (h1 : t1.next = .ok (o1, t2)) (h2 : t2.next = .ok (b, t3))
    (h3 : t3.next = .ok (o2, t4)) (h4 : t4.next = .ok (c, t5)) (h5 : t5.next = .ok (eof, t6)) :
    (level.rassoc = false →
      parseRec (fuel + 6) t0 closing = .ok (
        { expr := infixNode o2 d2 (infixNode o1 d1 (variableNode a) (variableNode b))
            (variableNode c),
          closedBy := eof }, t6)) ∧
    (level.rassoc = true →
      parseRec (fuel + 6) t0 closing = .ok (
        { expr := infixNode o1 d1 (variableNode a)
            (infixNode o2 d2 (variableNode b) (variableNode c)),
          closedBy := eof }, t6)) ∧
    initializeOperators = some opTable := by
  have hp1 := operators_level _ _ _ hd1 hl1
  have hp2 := operators_level _ _ _ hd2 hl2
  simp only [hlevel, Option.map_some', Option.some.injEq] at hp1 hp2
  refine ⟨?_, ?_, initializeOperators_eq⟩
  · intro hr
    have hred : (if d1.rassoc then d1.precedence + 1 else d1.precedence) ≤ d2.precedence := by
      rw [← hp1.2, hr]
      simp only [Bool.false_eq_true, if_false]
      omega
    rw [parseRec, parseLoop_ID _ _ _ _ _ _ h0 ha (by simp), List.nil_append,
      parseLoop_OP _ _ _ _ _ _ _ h1 ho1 (caseOP_one o1 d1 _ hd1),
      parseLoop_ID _ _ _ _ _ _ h2 hb (by simp), List.cons_append, List.cons_append,
      List.nil_append]
    simp only [variableNode]
    rw [parseLoop_OP _ _ _ _ _ _ _ h3 ho2
        (caseOP_reduce o2 o1 d2 d1 _ _ _ _ _ _ _ _ hd2 hred (by rfl) hi1),
      parseLoop_ID _ _ _ _ _ _ h4 hc (by simp)]
    simp only [List.cons_append, List.nil_append, variableNode, infixNode]
    rw [parseLoop_EOF _ _ _ _ _ _ _ h5 he
        (finishRec_three eof o2 d2 _ _ _ _ _ _ _ _ (by rfl) hi2)]
    rfl
  · intro hr
    have hshift : d2.precedence < (if d1.rassoc then d1.precedence + 1 else d1.precedence) := by
      rw [← hp1.2, hr]
      simp only [if_true]
      omega
    rw [parseRec, parseLoop_ID _ _ _ _ _ _ h0 ha (by simp), List.nil_append,
      parseLoop_OP _ _ _ _ _ _ _ h1 ho1 (caseOP_one o1 d1 _ hd1),
      parseLoop_ID _ _ _ _ _ _ h2 hb (by simp), List.cons_append, List.cons_append,
      List.nil_append,
      parseLoop_OP _ _ _ _ _ _ _ h3 ho2 (caseOP_shift o2 o1 d2 d1 _ _ hd2 hshift),
      parseLoop_ID _ _ _ _ _ _ h4 hc (by simp)]
    simp only [List.cons_append, List.nil_append, variableNode]
    rw [parseLoop_EOF _ _ _ _ _ _ _ h5 he
        (finishRec_five eof o1 o2 d1 d2 _ _ _ _ _ _ _ _ _ _ _ _ (by rfl) (by rfl) hi1 hi2)]

set_option maxHeartbeats 1000000 in
/-- The input `a-b+c`, of the left-associative level of `+` and `-`, is parsed by `parseRec` to
infix `+` with args `[infix - [a, b], c]`; the input `a^b^c`, of the right-associative level of
`^`, to infix `^` with args `[a, infix ^ [b, c]]`. -/
theorem same_level_associativity_witness :
    parseRec (0 + 6) ((Tokenizer.new (utf16 "a-b+c")).after 0) none = .ok (
      { expr := infixNode ((Tokenizer.new (utf16 "a-b+c")).nth 3)
          { name := "add", sym := utf16 "+", symbols := [utf16 "+"], rassoc := false, precedence := 8, prefixOk := true, postfixOk := false, infixOk := true, bare := false }
          (infixNode ((Tokenizer.new (utf16 "a-b+c")).nth 1)
            { name := "sub", sym := utf16 "-", symbols := [utf16 "-", utf16 "−"], rassoc := false, precedence := 8, prefixOk := true, postfixOk := false, infixOk := true, bare := false }
            (variableNode ((Tokenizer.new (utf16 "a-b+c")).nth 0)) (variableNode ((Tokenizer.new (utf16 "a-b+c")).nth 2)))
          (variableNode ((Tokenizer.new (utf16 "a-b+c")).nth 4)),
        closedBy := (Tokenizer.new (utf16 "a-b+c")).nth 5 },
      (Tokenizer.new (utf16 "a-b+c")).after (5 + 1)) ∧
    parseRec (0 + 6) ((Tokenizer.new (utf16 "a^b^c")).after 0) none = .ok (
      { expr := infixNode ((Tokenizer.new (utf16 "a^b^c")).nth 1)
          { name := "pow", sym := utf16 "^", symbols := [utf16 "^"], rassoc := true, precedence := 4, prefixOk := false, postfixOk := false, infixOk := true, bare := false }
          (variableNode ((Tokenizer.new (utf16 "a^b^c")).nth 0))
          (infixNode ((Tokenizer.new (utf16 "a^b^c")).nth 3)
            { name := "pow", sym := utf16 "^", symbols := [utf16 "^"], rassoc := true, precedence := 4, prefixOk := false, postfixOk := false, infixOk := true, bare := false }
            (variableNode ((Tokenizer.new (utf16 "a^b^c")).nth 2)) (variableNode ((Tokenizer.new (utf16 "a^b^c")).nth 4))),
        closedBy := (Tokenizer.new (utf16 "a^b^c")).nth 5 },
      (Tokenizer.new (utf16 "a^b^c")).after (5 + 1)) := by
  have H : (((Tokenizer.new (utf16 "a-b+c")).nth 0).toktype = .ID ∧ ((Tokenizer.new (utf16 "a-b+c")).nth 2).toktype = .ID ∧
      ((Tokenizer.new (utf16 "a-b+c")).nth 4).toktype = .ID ∧ ((Tokenizer.new (utf16 "a-b+c")).nth 1).toktype = .OP ∧
      ((Tokenizer.new (utf16 "a-b+c")).nth 3).toktype = .OP ∧ ((Tokenizer.new (utf16 "a-b+c")).nth 5).toktype = .EOF ∧
      operators ((Tokenizer.new (utf16 "a-b+c")).nth 1).text = some
          { name := "sub", sym := utf16 "-", symbols := [utf16 "-", utf16 "−"], rassoc := false, precedence := 8, prefixOk := true, postfixOk := false, infixOk := true, bare := false } ∧
      operators ((Tokenizer.new (utf16 "a-b+c")).nth 3).text = some
          { name := "add", sym := utf16 "+", symbols := [utf16 "+"], rassoc := false, precedence := 8, prefixOk := true, postfixOk := false, infixOk := true, bare := false } ∧
      levelOf ((Tokenizer.new (utf16 "a-b+c")).nth 1).text = some 3 ∧ levelOf ((Tokenizer.new (utf16 "a-b+c")).nth 3).text = some 3) ∧
      (((Tokenizer.new (utf16 "a-b+c")).after 0).next).isOk = true ∧ (((Tokenizer.new (utf16 "a-b+c")).after 1).next).isOk = true ∧
      (((Tokenizer.new (utf16 "a-b+c")).after 2).next).isOk = true ∧ (((Tokenizer.new (utf16 "a-b+c")).after 3).next).isOk = true ∧
      (((Tokenizer.new (utf16 "a-b+c")).after 4).next).isOk = true ∧ (((Tokenizer.new (utf16 "a-b+c")).after 5).next).isOk = true := by decide!
  have K : (((Tokenizer.new (utf16 "a^b^c")).nth 0).toktype = .ID ∧ ((Tokenizer.new (utf16 "a^b^c")).nth 2).toktype = .ID ∧
      ((Tokenizer.new (utf16 "a^b^c")).nth 4).toktype = .ID ∧ ((Tokenizer.new (utf16 "a^b^c")).nth 1).toktype = .OP ∧
      ((Tokenizer.new (utf16 "a^b^c")).nth 3).toktype = .OP ∧ ((Tokenizer.new (utf16 "a^b^c")).nth 5).toktype = .EOF ∧
      operators ((Tokenizer.new (utf16 "a^b^c")).nth 1).text = some
          { name := "pow", sym := utf16 "^", symbols := [utf16 "^"], rassoc := true, precedence := 4, prefixOk := false, postfixOk := false, infixOk := true, bare := false } ∧
      operators ((Tokenizer.new (utf16 "a^b^c")).nth 3).text = some
          { name := "pow", sym := utf16 "^", symbols := [utf16 "^"], rassoc := true, precedence := 4, prefixOk := false, postfixOk := false, infixOk := true, bare := false } ∧
      levelOf ((Tokenizer.new (utf16 "a^b^c")).nth 1).text = some 1 ∧ levelOf ((Tokenizer.new (utf16 "a^b^c")).nth 3).text = some 1) ∧
      (((Tokenizer.new (utf16 "a^b^c")).after 0).next).isOk = true ∧ (((Tokenizer.new (utf16 "a^b^c")).after 1).next).isOk = true ∧
      (((Tokenizer.new (utf16 "a^b^c")).after 2).next).isOk = true ∧ (((Tokenizer.new (utf16 "a^b^c")).after 3).next).isOk = true ∧
      (((Tokenizer.new (utf16 "a^b^c")).after 4).next).isOk = true ∧ (((Tokenizer.new (utf16 "a^b^c")).after 5).next).isOk = true := by decide!
  obtain ⟨⟨ha, hb, hc, ho1, ho2, he, hd1, hd2, hl1, hl2⟩, h0, h1, h2, h3, h4, h5⟩ := H
  obtain ⟨⟨ka, kb, kc, ko1, ko2, ke, kd1, kd2, kl1, kl2⟩, k0, k1, k2, k3, k4, k5⟩ := K
  exact ⟨(same_level_associativity 0 ((Tokenizer.new (utf16 "a-b+c")).after 0) ((Tokenizer.new (utf16 "a-b+c")).after (0 + 1)) ((Tokenizer.new (utf16 "a-b+c")).after (1 + 1))
      ((Tokenizer.new (utf16 "a-b+c")).after (2 + 1)) ((Tokenizer.new (utf16 "a-b+c")).after (3 + 1)) ((Tokenizer.new (utf16 "a-b+c")).after (4 + 1)) ((Tokenizer.new (utf16 "a-b+c")).after (5 + 1)) none
      ((Tokenizer.new (utf16 "a-b+c")).nth 0) ((Tokenizer.new (utf16 "a-b+c")).nth 2) ((Tokenizer.new (utf16 "a-b+c")).nth 4) ((Tokenizer.new (utf16 "a-b+c")).nth 1) ((Tokenizer.new (utf16 "a-b+c")).nth 3) ((Tokenizer.new (utf16 "a-b+c")).nth 5)
      { name := "sub", sym := utf16 "-", symbols := [utf16 "-", utf16 "−"], rassoc := false, precedence := 8, prefixOk := true, postfixOk := false, infixOk := true, bare := false }
      { name := "add", sym := utf16 "+", symbols := [utf16 "+"], rassoc := false, precedence := 8, prefixOk := true, postfixOk := false, infixOk := true, bare := false }
      3 _ ha hb hc ho1 ho2 he hd1 hd2 rfl rfl hl1 hl2 rfl
      (Tokenizer.next_after (Tokenizer.new (utf16 "a-b+c")) 0 h0) (Tokenizer.next_after (Tokenizer.new (utf16 "a-b+c")) 1 h1)
      (Tokenizer.next_after (Tokenizer.new (utf16 "a-b+c")) 2 h2) (Tokenizer.next_after (Tokenizer.new (utf16 "a-b+c")) 3 h3)
      (Tokenizer.next_after (Tokenizer.new (utf16 "a-b+c")) 4 h4) (Tokenizer.next_after (Tokenizer.new (utf16 "a-b+c")) 5 h5)).1 rfl,
    (same_level_associativity 0 ((Tokenizer.new (utf16 "a^b^c")).after 0) ((Tokenizer.new (utf16 "a^b^c")).after (0 + 1)) ((Tokenizer.new (utf16 "a^b^c")).after (1 + 1))
      ((Tokenizer.new (utf16 "a^b^c")).after (2 + 1)) ((Tokenizer.new (utf16 "a^b^c")).after (3 + 1)) ((Tokenizer.new (utf16 "a^b^c")).after (4 + 1)) ((Tokenizer.new (utf16 "a^b^c")).after (5 + 1)) none
      ((Tokenizer.new (utf16 "a^b^c")).nth 0) ((Tokenizer.new (utf16 "a^b^c")).nth 2) ((Tokenizer.new (utf16 "a^b^c")).nth 4) ((Tokenizer.new (utf16 "a^b^c")).nth 1) ((Tokenizer.new (utf16 "a^b^c")).nth 3) ((Tokenizer.new (utf16 "a^b^c")).nth 5)
      { name := "pow", sym := utf16 "^", symbols := [utf16 "^"], rassoc := true, precedence := 4, prefixOk := false, postfixOk := false, infixOk := true, bare := false }
      { name := "pow", sym := utf16 "^", symbols := [utf16 "^"], rassoc := true, precedence := 4, prefixOk := false, postfixOk := false, infixOk := true, bare := false }
      1 _ ka kb kc ko1 ko2 ke kd1 kd2 rfl rfl kl1 kl2 rfl
      (Tokenizer.next_after (Tokenizer.new (utf16 "a^b^c")) 0 k0) (Tokenizer.next_after (Tokenizer.new (utf16 "a^b^c")) 1 k1)
      (Tokenizer.next_after (Tokenizer.new (utf16 "a^b^c")) 2 k2) (Tokenizer.next_after (Tokenizer.new (utf16 "a^b^c")) 3 k3)
      (Tokenizer.next_after (Tokenizer.new (utf16 "a^b^c")) 4 k4) (Tokenizer.next_after (Tokenizer.new (utf16 "a^b^c")) 5 k5)).2.1 rfl⟩
/-- The opening brackets with their closers, as `case 'BRA'` computes them. -/
theorem bracket_closer :
    ∀ e ∈ [(utf16 "(", utf16 ")"), (utf16 "[", utf16 "]"), (utf16 "\x7b", utf16 "\x7d"),
        (utf16 "|", utf16 "|")],
      ¬ (indexOf brackets e.1 % 2 = 1) ∧ charAt brackets (indexOf brackets e.1 + 1) = e.2 := by
  decide

/-- One round of the loop of `parseRec` on an opening bracket whose group the nested call has
parsed. -/
theorem parseLoop_BRA (fuel : Nat) (tokens t1 t2 : Tokenizer) (closing : Option JSString)
    (seq : List Node) (tok : Token) (closer : JSString) (sub : ParseRecResult)
    (hnext : tokens.next = .ok (tok, t1)) (hbra : tok.toktype = .BRA)
    (hpair : (tok.text, closer) ∈ [(utf16 "(", utf16 ")"), (utf16 "[", utf16 "]"),
      (utf16 "\x7b", utf16 "\x7d"), (utf16 "|", utf16 "|")])
    (hclosing : closing ≠ some tok.text)
    (hsub : parseRec fuel t1 (some closer) = .ok (sub, t2)) :
    parseLoop (fuel + 1) tokens closing seq =
      if sub.closedBy.text ≠ closer then .throw (mismatchError tok sub.closedBy)
      else
        match (if seq.length % 2 = 0 then
            (bracketValue (tok.text ++ sub.closedBy.text) (groupElements sub.expr) tok).bind
              fun node => .ok (seq ++ [node])
          else bracketCall (tok.text ++ sub.closedBy.text) (groupElements sub.expr) tok seq) with
        | .fuel => .fuel
        | .throw e => .throw e
        | .ok seq1 => parseLoop fuel t2 closing seq1 := by
  have h := bracket_closer _ hpair
  simp only at h
  rw [parseLoop]
  simp only [hnext, hbra, h.1, Ne.symm hclosing, or_self, if_false, h.2]
  rw [parseRec] at hsub
  simp only [hsub]

theorem postprocess_paren (e : Node) :
    postprocess (.obj { ctype := some "paren" } [e] [] none) = postprocess e := by
  rw [postprocess]
  simp only [parentFirst, postprocessArgs, postprocessModifs]
  cases postprocess e <;> simp [parentLast]

/-- C6: in value position, a correctly closed `(...)` or `[...]` group is classified by the
number of elements of its content, flattened along the right spine of its top-level comma
chain: none gives the node `list` with value `[]`; one element in `( )` gives a node `paren`,
which `postprocess` replaces by its (postprocessed) element; one element in `[ ]`, and two or
more in either, give a function node with oper `genList`, no modifs, and the elements as args
in source order. -/
theorem bracket_group_in_value_position (fuel : Nat) (tokens t1 t2 : Tokenizer)
    (closing : Option JSString) (seq : List Node) (tok : Token) (closer : JSString)
    (sub : ParseRecResult)
    (hnext : tokens.next = .ok (tok, t1)) (hbra : tok.toktype = .BRA)
    (hpair : tok.text = utf16 "(" ∧ closer = utf16 ")" ∨ tok.text = utf16 "[" ∧ closer = utf16 "]")
    (hclosing : closing ≠ some tok.text)
    (hsub : parseRec fuel t1 (some closer) = .ok (sub, t2))
    (hclosed : sub.closedBy.text = closer)
    (hvalue : seq.length % 2 = 0) :
    (groupElements sub.expr = [] →
      parseLoop (fuel + 1) tokens closing seq = parseLoop fuel t2 closing
        (seq ++ [.obj { ctype := some "list", value := some .emptyList } [] [] none])) ∧
    (∀ e, tok.text = utf16 "(" → groupElements sub.expr = [e] →
      parseLoop (fuel + 1) tokens closing seq = parseLoop fuel t2 closing
        (seq ++ [.obj { ctype := some "paren" } [e] [] none]) ∧
      postprocess (.obj { ctype := some "paren" } [e] [] none) = postprocess e) ∧
    (tok.text = utf16 "[" ∧ (groupElements sub.expr).length = 1 ∨
        2 ≤ (groupElements sub.expr).length →
      parseLoop (fuel + 1) tokens closing seq = parseLoop fuel t2 closing
        (seq ++ [.obj { ctype := some "function", oper := some (utf16 "genList") }
          (groupElements sub.expr) [] none])) ∧
    (groupElements .null = [] ∧
      (∀ f x y m o, f.ctype = some "infix" → f.oper = some (utf16 ",") →
        groupElements (.obj f [x, y] m o) = x :: commaChain y) ∧
      (∀ f a m o, ¬ (f.ctype = some "infix" ∧ f.oper = some (utf16 ",")) →
        commaChain (.obj f a m o) = [.obj f a m o]) ∧
      commaChain .null = [.null]) := by
  have hp : (tok.text, closer) ∈ [(utf16 "(", utf16 ")"), (utf16 "[", utf16 "]"),
      (utf16 "\x7b", utf16 "\x7d"), (utf16 "|", utf16 "|")] := by
    rcases hpair with ⟨h1, h2⟩ | ⟨h1, h2⟩ <;> simp [h1, h2]
  have hstep := parseLoop_BRA fuel tokens t1 t2 closing seq tok closer sub hnext hbra hp
    hclosing hsub
  simp only [hclosed, ne_eq, not_true_eq_false, if_false, hvalue, if_true] at hstep
  have e1 : utf16 "()" ≠ utf16 "||" := by decide
  have e2 : utf16 "()" ≠ utf16 "\x7b\x7d" := by decide
  have e3 : utf16 "()" ≠ utf16 "[]" := by decide
  have e4 : utf16 "[]" ≠ utf16 "||" := by decide
  have e5 : utf16 "[]" ≠ utf16 "\x7b\x7d" := by decide
  have hpe : tok.text = utf16 "(" ∧ tok.text ++ closer = utf16 "()" ∨
      tok.text = utf16 "[" ∧ tok.text ++ closer = utf16 "[]" := by
    rcases hpair with ⟨h1, h2⟩ | ⟨h1, h2⟩
    · exact Or.inl ⟨h1, by rw [h1, h2]; decide⟩
    · exact Or.inr ⟨h1, by rw [h1, h2]; decide⟩
  have hne : utf16 "[" ≠ utf16 "(" := by decide
  refine ⟨?_, ?_, ?_, ?_⟩
  · intro h0
    rw [hstep, h0]
    rcases hpe with ⟨_, h2⟩ | ⟨_, h2⟩ <;> simp [h2, bracketValue, e1, e2, e3, e4, e5]
  · intro e h1 he
    refine ⟨?_, postprocess_paren e⟩
    rw [hstep, he]
    rcases hpe with ⟨_, h2⟩ | ⟨h3, _⟩
    · simp [h2, bracketValue, e1, e2, e3]
    · rw [h1] at h3; exact absurd h3.symm hne
  · intro hn
    rw [hstep]
    have h6 : groupElements sub.expr ≠ [] := by
      intro h; rw [h] at hn; simp at hn
    rcases hpe with ⟨h1, h2⟩ | ⟨h1, h2⟩
    · have h3 : 2 ≤ (groupElements sub.expr).length := by
        rcases hn with ⟨h3, _⟩ | h3
        · rw [h1] at h3; exact absurd h3.symm hne
        · exact h3
      have h4 : (groupElements sub.expr).length ≠ 1 := by omega
      simp [h2, bracketValue, h4, h6, e1, e2, e3]
    · simp [h2, bracketValue, h6, e4, e5]
  · refine ⟨rfl, ?_, ?_, rfl⟩
    · intro f x y m o h1 h2
      simp [groupElements, Node.truthy, commaChain, h1, h2]
    · intro f a m o h
      unfold commaChain
      simp only [h, if_false]

theorem nodes_eq (n : Nat) (a b : List Node) (h : listEqWith (Node.eqTo n) a b = true) :
    a = b :=
  listEqWith_sound _ (Node.eqTo_sound n) a b h

set_option maxHeartbeats 1000000 in
/-- The content of the group `(a,b,c)` flattens to the three elements `a`, `b`, `c`, and the
group is a function node `genList` with these as args; `(a)` is `a`, `[a]` is `genList` of `a`,
`()` is the empty list. -/
theorem bracket_group_in_value_position_witness :
    groupElements (parseRec 7 ((Tokenizer.new (utf16 "(a,b,c)")).after (0 + 1)) (some (utf16 ")"))).value.1.expr =
      [variableNode ((Tokenizer.new (utf16 "(a,b,c)")).nth 1), variableNode ((Tokenizer.new (utf16 "(a,b,c)")).nth 3), variableNode ((Tokenizer.new (utf16 "(a,b,c)")).nth 5)] ∧
    parseLoop (7 + 1) ((Tokenizer.new (utf16 "(a,b,c)")).after 0) none [] =
      parseLoop 7 (parseRec 7 ((Tokenizer.new (utf16 "(a,b,c)")).after (0 + 1)) (some (utf16 ")"))).value.2 none
        ([] ++ [.obj { ctype := some "function", oper := some (utf16 "genList") }
          (groupElements (parseRec 7 ((Tokenizer.new (utf16 "(a,b,c)")).after (0 + 1)) (some (utf16 ")"))).value.1.expr) [] none]) ∧
    parse (utf16 "(a,b,c)") = some (.node
      (.obj { ctype := some "function", oper := some (utf16 "genList") }
        [.obj { ctype := some "variable", name := some (utf16 "a") } [] [] none,
         .obj { ctype := some "variable", name := some (utf16 "b") } [] [] none,
         .obj { ctype := some "variable", name := some (utf16 "c") } [] [] none] [] none)) ∧
    parse (utf16 "(a)") = some (.node
      (.obj { ctype := some "variable", name := some (utf16 "a") } [] [] none)) ∧
    parse (utf16 "[a]") = some (.node
      (.obj { ctype := some "function", oper := some (utf16 "genList") }
        [.obj { ctype := some "variable", name := some (utf16 "a") } [] [] none] [] none)) ∧
    parse (utf16 "()") = some (.node
      (.obj { ctype := some "list", value := some .emptyList } [] [] none)) := by
  have H : (((Tokenizer.new (utf16 "(a,b,c)")).after 0).next).isOk = true ∧ ((Tokenizer.new (utf16 "(a,b,c)")).nth 0).toktype = .BRA ∧
      ((Tokenizer.new (utf16 "(a,b,c)")).nth 0).text = utf16 "(" ∧ (parseRec 7 ((Tokenizer.new (utf16 "(a,b,c)")).after (0 + 1)) (some (utf16 ")"))).isOk = true ∧
      (parseRec 7 ((Tokenizer.new (utf16 "(a,b,c)")).after (0 + 1)) (some (utf16 ")"))).value.1.closedBy.text = utf16 ")" ∧
      2 ≤ (groupElements (parseRec 7 ((Tokenizer.new (utf16 "(a,b,c)")).after (0 + 1)) (some (utf16 ")"))).value.1.expr).length ∧
      listEqWith (Node.eqTo 3) (groupElements (parseRec 7 ((Tokenizer.new (utf16 "(a,b,c)")).after (0 + 1)) (some (utf16 ")"))).value.1.expr)
        [variableNode ((Tokenizer.new (utf16 "(a,b,c)")).nth 1), variableNode ((Tokenizer.new (utf16 "(a,b,c)")).nth 3), variableNode ((Tokenizer.new (utf16 "(a,b,c)")).nth 5)] = true := by
    decide!
  obtain ⟨h0, hbra, htext, hsub, hclosed, hlen, hel⟩ := H
  exact ⟨nodes_eq 3 _ _ hel,
    (bracket_group_in_value_position 7 ((Tokenizer.new (utf16 "(a,b,c)")).after 0) ((Tokenizer.new (utf16 "(a,b,c)")).after (0 + 1)) (parseRec 7 ((Tokenizer.new (utf16 "(a,b,c)")).after (0 + 1)) (some (utf16 ")"))).value.2 none []
      ((Tokenizer.new (utf16 "(a,b,c)")).nth 0) (utf16 ")") (parseRec 7 ((Tokenizer.new (utf16 "(a,b,c)")).after (0 + 1)) (some (utf16 ")"))).value.1 (Tokenizer.next_after (Tokenizer.new (utf16 "(a,b,c)")) 0 h0) hbra
      (Or.inl ⟨htext, rfl⟩) (by simp) (Res.eq_ok_pair _ hsub) hclosed rfl).2.2.1 (Or.inr hlen),
    parse_eq_node 3 _ _ (by decide!), parse_eq_node 3 _ _ (by decide!),
    parse_eq_node 3 _ _ (by decide!), parse_eq_node 3 _ _ (by decide!)⟩

/-- C7: in value position, a `|...|` group with exactly one element `e` gives a function node
with oper `abs_infix` and args `[e]`, one with exactly two elements a function node with oper
`dist_infix` and these as args; with any other number of elements `parseRec` throws the error
"Don't support |…| with n arguments". -/
theorem absolute_value_brackets (fuel : Nat) (tokens t1 t2 : Tokenizer)
    (closing : Option JSString) (seq : List Node) (tok : Token) (sub : ParseRecResult)
    (hnext : tokens.next = .ok (tok, t1)) (hbra : tok.toktype = .BRA)
    (htext : tok.text = utf16 "|") (hclosing : closing ≠ some tok.text)
    (hsub : parseRec fuel t1 (some (utf16 "|")) = .ok (sub, t2))
    (hclosed : sub.closedBy.text = utf16 "|")
    (hvalue : seq.length % 2 = 0) :
    (∀ e, groupElements sub.expr = [e] →
      parseLoop (fuel + 1) tokens closing seq = parseLoop fuel t2 closing
        (seq ++ [.obj { ctype := some "function", oper := some (utf16 "abs_infix") }
          [e] [] none])) ∧
    (∀ e1 e2, groupElements sub.expr = [e1, e2] →
      parseLoop (fuel + 1) tokens closing seq = parseLoop fuel t2 closing
        (seq ++ [.obj { ctype := some "function", oper := some (utf16 "dist_infix") }
          [e1, e2] [] none])) ∧
    ((groupElements sub.expr).length ≠ 1 → (groupElements sub.expr).length ≠ 2 →
      parseLoop (fuel + 1) tokens closing seq = .throw (ParseError
        (utf16 "Don't support |…| with " ++ numToString (groupElements sub.expr).length ++
          utf16 " arguments")
        (some tok.start) none)) := by
  have hp : (tok.text, utf16 "|") ∈ [(utf16 "(", utf16 ")"), (utf16 "[", utf16 "]"),
      (utf16 "\x7b", utf16 "\x7d"), (utf16 "|", utf16 "|")] := by
    simp [htext]
  have hstep := parseLoop_BRA fuel tokens t1 t2 closing seq tok (utf16 "|") sub hnext hbra hp
    hclosing hsub
  have hpe : tok.text ++ utf16 "|" = utf16 "||" := by rw [htext]; decide
  simp only [hclosed, ne_eq, not_true_eq_false, if_false, hvalue, if_true, hpe] at hstep
  refine ⟨?_, ?_, ?_⟩
  · intro e he
    rw [hstep, he]
    simp [bracketValue]
  · intro e1 e2 he
    rw [hstep, he]
    simp [bracketValue]
  · intro h1 h2
    rw [hstep]
    simp [bracketValue, h1, h2]

set_option maxHeartbeats 1000000 in
/-- The group `|a,b|` has the two elements `a` and `b` and is a function node `dist_infix`;
`|a|` is `abs_infix` of `a`; `||` and `|a,b,c|` are errors. -/
theorem absolute_value_brackets_witness :
    parseLoop (5 + 1) ((Tokenizer.new (utf16 "|a,b|")).after 0) none [] =
      parseLoop 5 (parseRec 5 ((Tokenizer.new (utf16 "|a,b|")).after (0 + 1)) (some (utf16 "|"))).value.2 none
        ([] ++ [.obj { ctype := some "function", oper := some (utf16 "dist_infix") }
          [variableNode ((Tokenizer.new (utf16 "|a,b|")).nth 1), variableNode ((Tokenizer.new (utf16 "|a,b|")).nth 3)] [] none]) ∧
    parse (utf16 "|a,b|") = some (.node
      (.obj { ctype := some "function", oper := some (utf16 "dist_infix") }
        [.obj { ctype := some "variable", name := some (utf16 "a") } [] [] none,
         .obj { ctype := some "variable", name := some (utf16 "b") } [] [] none] [] none)) ∧
    parse (utf16 "|a|") = some (.node
      (.obj { ctype := some "function", oper := some (utf16 "abs_infix") }
        [.obj { ctype := some "variable", name := some (utf16 "a") } [] [] none] [] none)) ∧
    parse (utf16 "||") = some (.error (ParseError (utf16 "Don't support |…| with 0 arguments")
      (some ⟨1, 0, 0⟩) none)) ∧
    parse (utf16 "|a,b,c|") = some (.error
      (ParseError (utf16 "Don't support |…| with 3 arguments") (some ⟨1, 0, 0⟩) none)) := by
  have H : (((Tokenizer.new (utf16 "|a,b|")).after 0).next).isOk = true ∧ ((Tokenizer.new (utf16 "|a,b|")).nth 0).toktype = .BRA ∧
      ((Tokenizer.new (utf16 "|a,b|")).nth 0).text = utf16 "|" ∧ (parseRec 5 ((Tokenizer.new (utf16 "|a,b|")).after (0 + 1)) (some (utf16 "|"))).isOk = true ∧
      (parseRec 5 ((Tokenizer.new (utf16 "|a,b|")).after (0 + 1)) (some (utf16 "|"))).value.1.closedBy.text = utf16 "|" ∧
      listEqWith (Node.eqTo 3) (groupElements (parseRec 5 ((Tokenizer.new (utf16 "|a,b|")).after (0 + 1)) (some (utf16 "|"))).value.1.expr)
        [variableNode ((Tokenizer.new (utf16 "|a,b|")).nth 1), variableNode ((Tokenizer.new (utf16 "|a,b|")).nth 3)] = true := by
    decide!
  obtain ⟨h0, hbra, htext, hsub, hclosed, hel⟩ := H
  exact ⟨(absolute_value_brackets 5 ((Tokenizer.new (utf16 "|a,b|")).after 0) ((Tokenizer.new (utf16 "|a,b|")).after (0 + 1)) (parseRec 5 ((Tokenizer.new (utf16 "|a,b|")).after (0 + 1)) (some (utf16 "|"))).value.2 none []
      ((Tokenizer.new (utf16 "|a,b|")).nth 0) (parseRec 5 ((Tokenizer.new (utf16 "|a,b|")).after (0 + 1)) (some (utf16 "|"))).value.1 (Tokenizer.next_after (Tokenizer.new (utf16 "|a,b|")) 0 h0) hbra htext (by simp)
      (Res.eq_ok_pair _ hsub) hclosed rfl).2.1 _ _ (nodes_eq 3 _ _ hel),
    parse_eq_node 3 _ _ (by decide!), parse_eq_node 3 _ _ (by decide!),
    parse_eq_error _ _ (by decide!), parse_eq_error _ _ (by decide!)⟩

/-- C9, as the code has it: when the nested call of `parseRec` for the group opened by a
bracket `b` returns, and the token that ended it is not the matching closer of `b`, `parseRec`
throws the error whose description is "Opening b at r:c closed by X at r2:c2", `r:c` being the
start of `b`, `X` the text of the ending token, or `EOF` when that text is empty, and `r2:c2` the
start of the ending token; when the top-level call returns at a token that is not the
end of input, `parse` returns the error "Closing bracket never opened." located at that token.
(A nested or top-level call that fails while reducing its pending operators throws that
failure instead.) -/
theorem mismatched_bracket_error :
    (∀ (fuel : Nat) (tokens t1 t2 : Tokenizer) (closing : Option JSString) (seq : List Node)
      (tok : Token) (closer : JSString) (sub : ParseRecResult),
      tokens.next = .ok (tok, t1) → tok.toktype = .BRA →
      (tok.text, closer) ∈ [(utf16 "(", utf16 ")"), (utf16 "[", utf16 "]"),
        (utf16 "\x7b", utf16 "\x7d"), (utf16 "|", utf16 "|")] →
      closing ≠ some tok.text →
      parseRec fuel t1 (some closer) = .ok (sub, t2) →
      sub.closedBy.text ≠ closer →
      parseLoop (fuel + 1) tokens closing seq = .throw (.parseError
        (utf16 "Opening " ++ tok.text ++
          utf16 " at " ++ numToString tok.start.row ++ utf16 ":" ++ numToString tok.start.col ++
          utf16 " closed by " ++
          (if sub.closedBy.text = [] then utf16 "EOF" else sub.closedBy.text) ++
          utf16 " at " ++ numToString sub.closedBy.start.row ++ utf16 ":" ++
          numToString sub.closedBy.start.col)
        (utf16 "Opening " ++ tok.text ++
          utf16 " at " ++ numToString tok.start.row ++ utf16 ":" ++ numToString tok.start.col ++
          utf16 " closed by " ++
          (if sub.closedBy.text = [] then utf16 "EOF" else sub.closedBy.text) ++
          utf16 " at " ++ numToString sub.closedBy.start.row ++ utf16 ":" ++
          numToString sub.closedBy.start.col)
        none none)) ∧
    (∀ (code : JSString) (res : ParseRecResult) (t : Tokenizer),
      parseRec (code.length + 1) (Tokenizer.new code) none = .ok (res, t) →
      res.closedBy.toktype ≠ .EOF →
      parse code = some (.error (ParseError (utf16 "Closing bracket never opened.")
        (some res.closedBy.start) (some res.closedBy.text)))) := by
  constructor
  · intro fuel tokens t1 t2 closing seq tok closer sub hnext hbra hp hclosing hsub hmis
    rw [parseLoop_BRA fuel tokens t1 t2 closing seq tok closer sub hnext hbra hp hclosing hsub]
    simp only [ne_eq, hmis, not_false_eq_true, if_true]
    rfl
  · intro code res t hrec hne
    simp only [parse, parseWith, hrec, ne_eq, hne, not_false_eq_true, if_true]

set_option maxHeartbeats 1000000 in
/-- The input `(a]` is the error "Opening ( at 1:0 closed by ] at 1:2", the input `(a` the error
"Opening ( at 1:0 closed by EOF at 2:0", and `a)` the error "Closing bracket never opened." at
1:1. -/
theorem mismatched_bracket_error_witness :
    parseLoop (3 + 1) ((Tokenizer.new (utf16 "(a]")).after 0) none [] = .throw (.parseError
        (utf16 "Opening " ++ ((Tokenizer.new (utf16 "(a]")).nth 0).text ++
          utf16 " at " ++ numToString ((Tokenizer.new (utf16 "(a]")).nth 0).start.row ++ utf16 ":" ++
          numToString ((Tokenizer.new (utf16 "(a]")).nth 0).start.col ++
          utf16 " closed by " ++
          (if (parseRec 3 ((Tokenizer.new (utf16 "(a]")).after (0 + 1)) (some (utf16 ")"))).value.1.closedBy.text = [] then utf16 "EOF"
            else (parseRec 3 ((Tokenizer.new (utf16 "(a]")).after (0 + 1)) (some (utf16 ")"))).value.1.closedBy.text) ++
          utf16 " at " ++ numToString (parseRec 3 ((Tokenizer.new (utf16 "(a]")).after (0 + 1)) (some (utf16 ")"))).value.1.closedBy.start.row ++ utf16 ":" ++
          numToString (parseRec 3 ((Tokenizer.new (utf16 "(a]")).after (0 + 1)) (some (utf16 ")"))).value.1.closedBy.start.col)
        (utf16 "Opening " ++ ((Tokenizer.new (utf16 "(a]")).nth 0).text ++
          utf16 " at " ++ numToString ((Tokenizer.new (utf16 "(a]")).nth 0).start.row ++ utf16 ":" ++
          numToString ((Tokenizer.new (utf16 "(a]")).nth 0).start.col ++
          utf16 " closed by " ++
          (if (parseRec 3 ((Tokenizer.new (utf16 "(a]")).after (0 + 1)) (some (utf16 ")"))).value.1.closedBy.text = [] then utf16 "EOF"
            else (parseRec 3 ((Tokenizer.new (utf16 "(a]")).after (0 + 1)) (some (utf16 ")"))).value.1.closedBy.text) ++
          utf16 " at " ++ numToString (parseRec 3 ((Tokenizer.new (utf16 "(a]")).after (0 + 1)) (some (utf16 ")"))).value.1.closedBy.start.row ++ utf16 ":" ++
          numToString (parseRec 3 ((Tokenizer.new (utf16 "(a]")).after (0 + 1)) (some (utf16 ")"))).value.1.closedBy.start.col)
        none none) ∧
    parse (utf16 "(a]") = some (.error (.parseError
      (utf16 "Opening ( at 1:0 closed by ] at 1:2") (utf16 "Opening ( at 1:0 closed by ] at 1:2")
      none none)) ∧
    parse (utf16 "(a") = some (.error (.parseError
      (utf16 "Opening ( at 1:0 closed by EOF at 2:0")
      (utf16 "Opening ( at 1:0 closed by EOF at 2:0") none none)) ∧
    parse (utf16 "a)") = some (.error (ParseError (utf16 "Closing bracket never opened.")
      (some (parseRec ((utf16 "a)").length + 1) (Tokenizer.new (utf16 "a)"))
        none).value.1.closedBy.start)
      (some (parseRec ((utf16 "a)").length + 1) (Tokenizer.new (utf16 "a)"))
        none).value.1.closedBy.text))) ∧
    parse (utf16 "a)") = some (.error (.parseError
      (utf16 "Closing bracket never opened. at 1:1: ‘)’") (utf16 "Closing bracket never opened.")
      (some ⟨1, 1, 1⟩) (some (utf16 ")")))) := by
  have H : (((Tokenizer.new (utf16 "(a]")).after 0).next).isOk = true ∧ ((Tokenizer.new (utf16 "(a]")).nth 0).toktype = .BRA ∧
      ((Tokenizer.new (utf16 "(a]")).nth 0).text = utf16 "(" ∧ (parseRec 3 ((Tokenizer.new (utf16 "(a]")).after (0 + 1)) (some (utf16 ")"))).isOk = true ∧
      (parseRec 3 ((Tokenizer.new (utf16 "(a]")).after (0 + 1)) (some (utf16 ")"))).value.1.closedBy.text ≠ utf16 ")" := by
    decide!
  have K : (parseRec ((utf16 "a)").length + 1) (Tokenizer.new (utf16 "a)")) none).isOk = true ∧
      (parseRec ((utf16 "a)").length + 1) (Tokenizer.new (utf16 "a)"))
        none).value.1.closedBy.toktype ≠ .EOF := by
    decide!
  obtain ⟨h0, hbra, htext, hsub, hclosed⟩ := H
  exact ⟨mismatched_bracket_error.1 3 ((Tokenizer.new (utf16 "(a]")).after 0) ((Tokenizer.new (utf16 "(a]")).after (0 + 1)) (parseRec 3 ((Tokenizer.new (utf16 "(a]")).after (0 + 1)) (some (utf16 ")"))).value.2 none []
      ((Tokenizer.new (utf16 "(a]")).nth 0) (utf16 ")") (parseRec 3 ((Tokenizer.new (utf16 "(a]")).after (0 + 1)) (some (utf16 ")"))).value.1 (Tokenizer.next_after (Tokenizer.new (utf16 "(a]")) 0 h0) hbra
      (by rw [htext]; simp) (by simp) (Res.eq_ok_pair _ hsub) hclosed,
    parse_eq_error _ _ (by decide!), parse_eq_error _ _ (by decide!),
    mismatched_bracket_error.2 (utf16 "a)") _ _ (Res.eq_ok_pair _ K.1) K.2,
    parse_eq_error _ _ (by decide!)⟩

/-- C9 as stated fails: in `(a+]` the group opened by `(` is ended by `]`, and in `+)` a closing
bracket comes with no opener, yet the errors are those of the pending operator, "Operator may
not be used postfix" and "Operator without operands". -/
theorem mismatched_bracket_error_counterexample :
    parse (utf16 "(a+]") = some (.error (ParseError (utf16 "Operator may not be used postfix")
      (some ⟨1, 2, 2⟩) (some (utf16 "+")))) ∧
    parse (utf16 "+)") = some (.error (ParseError (utf16 "Operator without operands")
      (some ⟨1, 0, 0⟩) (some (utf16 "+")))) ∧
    (ParseError (utf16 "Operator may not be used postfix")
      (some ⟨1, 2, 2⟩) (some (utf16 "+"))).description ≠
        some (utf16 "Opening ( at 1:0 closed by ] at 1:3") ∧
    (ParseError (utf16 "Operator without operands")
      (some ⟨1, 0, 0⟩) (some (utf16 "+"))).description ≠
        some (utf16 "Closing bracket never opened.") :=
  ⟨parse_eq_error _ _ (by decide!), parse_eq_error _ _ (by decide!), by decide!, by decide!⟩

theorem callArguments_ok (lst args : List Node) (modifs : List (JSString × Node))
    (h : ∀ e ∈ lst, isArrow e = true → (modifierEntry e).isSome = true) :
    callArguments lst args modifs = .ok
      (args ++ lst.filter (fun e => !isArrow e),
        (lst.filterMap modifierEntry).foldl (fun m kv => setProperty m kv.1 kv.2) modifs) := by
  induction lst generalizing args modifs with
  | nil => simp [callArguments]
  | cons e lst ih =>
    have ih2 := fun a m => ih a m (fun x hx => h x (List.mem_cons_of_mem _ hx))
    have he := h e (List.mem_cons_self _ _)
    cases e with
    | null => simp [callArguments, ih2, isArrow, modifierEntry]
    | undefined => simp [callArguments, ih2, isArrow, modifierEntry]
    | obj f ea em eo =>
      by_cases hf : f.ctype = some "infix" ∧ f.oper = some (utf16 "->")
      · have harrow : isArrow (.obj f ea em eo) = true := by simp [isArrow, hf.1, hf.2]
        have hsome := he harrow
        simp only [callArguments, hf, and_self, if_true]
        simp only [modifierEntry, hf, and_self, if_true] at hsome
        rw [List.getD_eq_getElem?_getD] at hsome ⊢
        cases hid : ea[0]?.getD .undefined with
        | null => simp [hid] at hsome
        | undefined => simp [hid] at hsome
        | obj id ida idm ido =>
          simp only [hid] at hsome ⊢
          by_cases hv : id.ctype = some "variable"
          · simp [hv, ih2, harrow, modifierEntry, hf, hid]
          · simp [hv] at hsome
      · have harrow : isArrow (.obj f ea em eo) = false := by
          simp only [isArrow, Bool.and_eq_false_imp, decide_eq_true_eq, decide_eq_false_iff_not]
          exact fun h1 h2 => hf ⟨h1, h2⟩
        simp [callArguments, hf, ih2, harrow, modifierEntry]

theorem callArguments_throw (pre post args : List Node) (modifs : List (JSString × Node))
    (f id : Fields) (ea ida : List Node) (em idm : List (JSString × Node)) (eo ido : Option Node)
    (h : ∀ e ∈ pre, isArrow e = true → (modifierEntry e).isSome = true)
    (hf : f.ctype = some "infix" ∧ f.oper = some (utf16 "->"))
    (hid : ea.getD 0 .undefined = .obj id ida idm ido) (hv : id.ctype ≠ some "variable") :
    callArguments (pre ++ .obj f ea em eo :: post) args modifs =
      .throw (ParseError (utf16 "Modifier name must be an identifier") f.start none) := by
  rw [List.getD_eq_getElem?_getD] at hid
  induction pre generalizing args modifs with
  | nil => simp [callArguments, hf, hid, hv]
  | cons e pre ih =>
    have ih2 := fun a m => ih a m (fun x hx => h x (List.mem_cons_of_mem _ hx))
    have he := h e (List.mem_cons_self _ _)
    cases e with
    | null => simp [callArguments, ih2]
    | undefined => simp [callArguments, ih2]
    | obj g ga gm go =>
      by_cases hg : g.ctype = some "infix" ∧ g.oper = some (utf16 "->")
      · have harrow : isArrow (.obj g ga gm go) = true := by simp [isArrow, hg.1, hg.2]
        have hsome := he harrow
        simp only [List.cons_append, callArguments, hg, and_self, if_true]
        simp only [modifierEntry, hg, and_self, if_true] at hsome
        rw [List.getD_eq_getElem?_getD] at hsome ⊢
        cases hgid : ga[0]?.getD .undefined with
        | null => simp [hgid] at hsome
        | undefined => simp [hgid] at hsome
        | obj gid gida gidm gido =>
          simp only [hgid] at hsome ⊢
          by_cases hgv : gid.ctype = some "variable"
          · simp [hgv, ih2]
          · simp [hgv] at hsome
      · simp [callArguments, hg, ih2]

/-- C8, as the code has it: a bracket group `(...)` or `[...]` in operator position after a
variable node `f` turns `f` into a function node, provided every group element that is an infix
node of `->` has a variable node on its left: each such element becomes the entry
`modifs[name] = right operand`, every element that is not an infix node of `->` is appended to
`args` in source order, and `oper` is the name of `f`, `$` and the number of args.  An infix
node of `->` whose left operand is an object that is not a variable node makes `parseRec` throw
"Modifier name must be an identifier"; a preceding node that is not a variable node makes it
throw "Function name must be an identifier". -/
theorem function_call_group (fuel : Nat) (tokens t1 t2 : Tokenizer)
    (closing : Option JSString) (seq : List Node) (tok : Token) (closer : JSString)
    (sub : ParseRecResult) (fname : Fields) (fa : List Node) (fm : List (JSString × Node))
    (fo : Option Node)
    (hnext : tokens.next = .ok (tok, t1)) (hbra : tok.toktype = .BRA)
    (hpair : tok.text = utf16 "(" ∧ closer = utf16 ")" ∨ tok.text = utf16 "[" ∧ closer = utf16 "]")
    (hclosing : closing ≠ some tok.text)
    (hsub : parseRec fuel t1 (some closer) = .ok (sub, t2))
    (hclosed : sub.closedBy.text = closer)
    (hpos : seq.length % 2 = 1) (hlast : seq.getLast? = some (.obj fname fa fm fo)) :
    (∀ name, fname.ctype = some "variable" → fname.name = some name →
      (∀ e ∈ groupElements sub.expr, isArrow e = true → (modifierEntry e).isSome = true) →
      parseLoop (fuel + 1) tokens closing seq = parseLoop fuel t2 closing
        (seq.dropLast ++ [.obj
          { fname with
            ctype := some "function",
            oper := some (name ++ utf16 "$" ++
              numToString ((groupElements sub.expr).filter fun e => !isArrow e).length) }
          ((groupElements sub.expr).filter fun e => !isArrow e)
          (((groupElements sub.expr).filterMap modifierEntry).foldl
            (fun m kv => setProperty m kv.1 kv.2) [])
          fo])) ∧
    (fname.ctype = some "variable" →
      ∀ (pre post : List Node) (f id : Fields) (ea ida : List Node)
        (em idm : List (JSString × Node)) (eo ido : Option Node),
      groupElements sub.expr = pre ++ .obj f ea em eo :: post →
      (∀ e ∈ pre, isArrow e = true → (modifierEntry e).isSome = true) →
      f.ctype = some "infix" → f.oper = some (utf16 "->") →
      ea.getD 0 .undefined = .obj id ida idm ido → id.ctype ≠ some "variable" →
      parseLoop (fuel + 1) tokens closing seq =
        .throw (ParseError (utf16 "Modifier name must be an identifier") f.start none)) ∧
    (fname.ctype ≠ some "variable" →
      parseLoop (fuel + 1) tokens closing seq =
        .throw (ParseError (utf16 "Function name must be an identifier") fname.start none)) := by
  have hp : (tok.text, closer) ∈ [(utf16 "(", utf16 ")"), (utf16 "[", utf16 "]"),
      (utf16 "\x7b", utf16 "\x7d"), (utf16 "|", utf16 "|")] := by
    rcases hpair with ⟨h1, h2⟩ | ⟨h1, h2⟩ <;> simp [h1, h2]
  have hstep := parseLoop_BRA fuel tokens t1 t2 closing seq tok closer sub hnext hbra hp
    hclosing hsub
  have hodd : ¬ seq.length % 2 = 0 := by omega
  have hpe : tok.text ++ closer ≠ utf16 "\x7b\x7d" := by
    rcases hpair with ⟨h1, h2⟩ | ⟨h1, h2⟩ <;> rw [h1, h2] <;> decide
  simp only [hclosed, ne_eq, not_true_eq_false, if_false, hodd, bracketCall, hpe, hlast]
    at hstep
  refine ⟨?_, ?_, ?_⟩
  · intro name hv hname hmods
    rw [hstep]
    simp [hv, hname, callArguments_ok _ _ _ hmods]
  · intro hv pre post f id ea ida em idm eo ido hlst hpre hf1 hf2 hid hnv
    rw [hstep, hlst, callArguments_throw pre post [] [] f id ea ida em idm eo ido hpre
      ⟨hf1, hf2⟩ hid hnv]
    simp [hv]
  · intro hv
    rw [hstep]
    simp [hv]

set_option maxHeartbeats 1000000 in
/-- In `f(a, name->b)` the group after `f` has the elements `a` and `name->b`: `f` becomes a
function node with oper `f$1`, args `[a]` and modifs `name: b`; `f(a,b)` has oper `f$2`;
`2(a)` is the error "Function name must be an identifier". -/
theorem function_call_group_witness :
    parseLoop (7 + 1) ((Tokenizer.new (utf16 "f(a, name->b)")).after 1) none [variableNode ((Tokenizer.new (utf16 "f(a, name->b)")).nth 0)] =
      parseLoop 7 (parseRec 7 ((Tokenizer.new (utf16 "f(a, name->b)")).after (1 + 1)) (some (utf16 ")"))).value.2 none
        ([variableNode ((Tokenizer.new (utf16 "f(a, name->b)")).nth 0)].dropLast ++ [.obj
          { ((Tokenizer.new (utf16 "f(a, name->b)")).nth 0).toFields with
            ctype := some "function",
            name := some ((Tokenizer.new (utf16 "f(a, name->b)")).nth 0).text,
            oper := some (((Tokenizer.new (utf16 "f(a, name->b)")).nth 0).text ++ utf16 "$" ++
              numToString ((groupElements (parseRec 7 ((Tokenizer.new (utf16 "f(a, name->b)")).after (1 + 1)) (some (utf16 ")"))).value.1.expr).filter
                fun e => !isArrow e).length) }
          ((groupElements (parseRec 7 ((Tokenizer.new (utf16 "f(a, name->b)")).after (1 + 1)) (some (utf16 ")"))).value.1.expr).filter fun e => !isArrow e)
          (((groupElements (parseRec 7 ((Tokenizer.new (utf16 "f(a, name->b)")).after (1 + 1)) (some (utf16 ")"))).value.1.expr).filterMap modifierEntry).foldl
            (fun m kv => setProperty m kv.1 kv.2) [])
          none]) ∧
    parse (utf16 "f(a, name->b)") = some (.node
      (.obj { ctype := some "function", name := some (utf16 "f"), oper := some (utf16 "f$1") }
        [.obj { ctype := some "variable", name := some (utf16 "a") } [] [] none]
        [(utf16 "name", .obj { ctype := some "variable", name := some (utf16 "b") } [] [] none)]
        none)) ∧
    parse (utf16 "f(a,b)") = some (.node
      (.obj { ctype := some "function", name := some (utf16 "f"), oper := some (utf16 "f$2") }
        [.obj { ctype := some "variable", name := some (utf16 "a") } [] [] none,
         .obj { ctype := some "variable", name := some (utf16 "b") } [] [] none] [] none)) ∧
    parse (utf16 "2(a)") = some (.error
      (ParseError (utf16 "Function name must be an identifier") (some ⟨1, 0, 0⟩) none)) := by
  have H : (((Tokenizer.new (utf16 "f(a, name->b)")).after 1).next).isOk = true ∧ ((Tokenizer.new (utf16 "f(a, name->b)")).nth 1).toktype = .BRA ∧
      ((Tokenizer.new (utf16 "f(a, name->b)")).nth 1).text = utf16 "(" ∧ (parseRec 7 ((Tokenizer.new (utf16 "f(a, name->b)")).after (1 + 1)) (some (utf16 ")"))).isOk = true ∧
      (parseRec 7 ((Tokenizer.new (utf16 "f(a, name->b)")).after (1 + 1)) (some (utf16 ")"))).value.1.closedBy.text = utf16 ")" ∧
      (groupElements (parseRec 7 ((Tokenizer.new (utf16 "f(a, name->b)")).after (1 + 1)) (some (utf16 ")"))).value.1.expr).all
        (fun e => !isArrow e || (modifierEntry e).isSome) = true := by
    decide!
  obtain ⟨h0, hbra, htext, hsub, hclosed, hmods⟩ := H
  exact ⟨(function_call_group 7 ((Tokenizer.new (utf16 "f(a, name->b)")).after 1) ((Tokenizer.new (utf16 "f(a, name->b)")).after (1 + 1)) (parseRec 7 ((Tokenizer.new (utf16 "f(a, name->b)")).after (1 + 1)) (some (utf16 ")"))).value.2 none
      [variableNode ((Tokenizer.new (utf16 "f(a, name->b)")).nth 0)] ((Tokenizer.new (utf16 "f(a, name->b)")).nth 1) (utf16 ")") (parseRec 7 ((Tokenizer.new (utf16 "f(a, name->b)")).after (1 + 1)) (some (utf16 ")"))).value.1
      { ((Tokenizer.new (utf16 "f(a, name->b)")).nth 0).toFields with ctype := some "variable", name := some ((Tokenizer.new (utf16 "f(a, name->b)")).nth 0).text }
      [] [] none (Tokenizer.next_after (Tokenizer.new (utf16 "f(a, name->b)")) 1 h0) hbra
      (Or.inl ⟨htext, rfl⟩) (by simp) (Res.eq_ok_pair _ hsub) hclosed rfl rfl).1
      ((Tokenizer.new (utf16 "f(a, name->b)")).nth 0).text rfl rfl
      (by
        intro e he ha
        have := List.all_eq_true.mp hmods e he
        simpa [ha] using this),
    parse_eq_node 3 _ _ (by decide!), parse_eq_node 3 _ _ (by decide!),
    parse_eq_error _ _ (by decide!)⟩

/-- C8 as stated fails: in `f(1->2)` the element `1->2` is not an infix node of `->` with an
identifier on its left, yet it is not appended to the args of `f`: the result is the error
"Modifier name must be an identifier". -/
theorem function_call_group_counterexample :
    parse (utf16 "f(1->2)") = some (.error
      (ParseError (utf16 "Modifier name must be an identifier") (some ⟨1, 3, 3⟩) none)) :=
  parse_eq_error _ _ (by decide!)

/-! ## The length of a match -/

theorem spanLen_le (p : Nat → Bool) (s : JSString) : spanLen p s ≤ s.length := by
  induction s with
  | nil => simp [spanLen]
  | cons c s ih =>
    simp only [spanLen]
    split
    · simp only [List.length_cons]; omega
    · simp

theorem whitespaceToken_pos (s : JSString) (n : Nat) (h : whitespaceToken s = some n) :
    0 < n ∧ s ≠ [] := by
  unfold whitespaceToken at h
  split at h
  · simp at h
  · rename_i hne
    simp only [Option.some.injEq] at h
    subst h
    refine ⟨by omega, ?_⟩
    rintro rfl
    simp [spanLen] at hne

theorem lineComment_pos (s : JSString) (n : Nat) (h : lineComment s = some n) :
    0 < n ∧ s ≠ [] := by
  unfold lineComment at h
  split at h
  · simp only [Option.some.injEq] at h
    subst h
    exact ⟨by omega, by simp⟩
  · simp at h

theorem startComment_pos (s : JSString) (n : Nat) (h : startComment s = some n) :
    0 < n ∧ s ≠ [] := by
  unfold startComment at h
  split at h
  · simp only [Option.some.injEq] at h
    subst h
    exact ⟨by omega, by simp⟩
  · simp at h

theorem reNumber_pos (s : JSString) (n : Nat) (h : reNumber s = some n) : 0 < n ∧ s ≠ [] := by
  cases s with
  | nil => simp [reNumber] at h
  | cons c s =>
    refine ⟨?_, by simp⟩
    simp only [reNumber] at h
    split at h
    · simp only [Option.some.injEq] at h
      omega
    · split at h
      · split at h
        · simp at h
        · simp only [Option.some.injEq] at h
          omega
      · simp at h

theorem anyOfGroup_pos (lst : List JSString) (hl : ∀ u ∈ lst, u ≠ []) (s : JSString) (n : Nat)
    (h : anyOfGroup lst s = some n) : 0 < n ∧ s ≠ [] := by
  unfold anyOfGroup at h
  split at h
  · simp at h
  · rename_i u hu
    simp only [Option.some.injEq] at h
    have hmem := List.mem_of_find?_eq_some hu
    have hpre := List.find?_some hu
    have hne := hl u hmem
    subst h
    refine ⟨List.length_pos.mpr hne, ?_⟩
    rintro rfl
    cases u with
    | nil => exact hne rfl
    | cons a u => simp [List.isPrefixOf] at hpre

theorem scriptNum_pos (sign digit : JSString) (s : JSString) (n : Nat)
    (h : scriptNum sign digit s = some n) : 0 < n ∧ s ≠ [] := by
  cases s with
  | nil => simp [scriptNum] at h
  | cons c s =>
    refine ⟨?_, by simp⟩
    simp only [scriptNum] at h
    split at h
    · split at h
      · split at h
        · simp only [Option.some.injEq] at h; omega
        · simp at h
      · split at h
        · simp only [Option.some.injEq] at h; omega
        · split at h
          · simp only [Option.some.injEq] at h; omega
          · simp at h
    · split at h
      · simp only [Option.some.injEq] at h; omega
      · simp at h

theorem reIdentifier_pos (s : JSString) (n : Nat) (h : reIdentifier s = some n) :
    0 < n ∧ s ≠ [] := by
  cases s with
  | nil => simp [reIdentifier] at h
  | cons c s =>
    refine ⟨?_, by simp⟩
    simp only [reIdentifier] at h
    split at h
    · simp only [Option.some.injEq] at h; omega
    · split at h
      · simp only [Option.some.injEq] at h; omega
      · split at h
        · simp at h
        · simp only [Option.some.injEq] at h; omega

theorem stringLiteral_pos (s : JSString) (n : Nat) (h : stringLiteral s = some n) :
    0 < n ∧ s ≠ [] := by
  cases s with
  | nil => simp [stringLiteral] at h
  | cons c s =>
    refine ⟨?_, by simp⟩
    simp only [stringLiteral] at h
    split at h
    · split at h
      · simp at h
      · simp only [Option.some.injEq] at h; omega
    · simp at h

theorem operatorSymbols_ne_nil : ∀ u ∈ operatorSymbols, u ≠ [] := by decide

theorem brackets_ne_nil : ∀ u ∈ brackets.map (fun c => [c]), u ≠ [] := by decide

/-- A match of `reNextToken` is the empty match of `$` at the end of the input (group 11), or a
match of at least one unit by one of the groups 1 to 10. -/
theorem reNextToken_cases (s : JSString) (n g : Nat) (h : reNextToken s = some (n, g)) :
    (g = 11 ∧ n = 0 ∧ s = []) ∨ (1 ≤ g ∧ g ≤ 10 ∧ 0 < n ∧ s ≠ []) := by
  obtain ⟨k, hk, hg, hk2, -⟩ := firstMatch_group _ _ _ _ _ h
  have hk' : k < 11 := by simpa [tokenPatterns] using hk
  interval_cases k <;> simp only [tokenPatterns, List.getElem_cons_zero, List.getElem_cons_succ]
    at hk2
  · exact Or.inr ⟨by omega, by omega, whitespaceToken_pos _ _ hk2⟩
  · exact Or.inr ⟨by omega, by omega, lineComment_pos _ _ hk2⟩
  · exact Or.inr ⟨by omega, by omega, startComment_pos _ _ hk2⟩
  · exact Or.inr ⟨by omega, by omega, reNumber_pos _ _ hk2⟩
  · exact Or.inr ⟨by omega, by omega, anyOfGroup_pos _ operatorSymbols_ne_nil _ _ hk2⟩
  · exact Or.inr ⟨by omega, by omega, anyOfGroup_pos _ brackets_ne_nil _ _ hk2⟩
  · exact Or.inr ⟨by omega, by omega, scriptNum_pos _ _ _ _ hk2⟩
  · exact Or.inr ⟨by omega, by omega, scriptNum_pos _ _ _ _ hk2⟩
  · exact Or.inr ⟨by omega, by omega, reIdentifier_pos _ _ hk2⟩
  · exact Or.inr ⟨by omega, by omega, stringLiteral_pos _ _ hk2⟩
  · left
    refine ⟨by omega, ?_⟩
    cases s with
    | nil => simp [endOfInput] at hk2; exact ⟨hk2.symm, rfl⟩
    | cons c s => simp [endOfInput] at hk2
/-! ## Positions at the end of the input -/

/-- C13: on the input `a`, which has no newline, the token `a` starts at row 1, column 0, as
the rule of rows and columns gives it, but its end, at offset 1, and both positions of the
end-of-input token that follows are reported as row 2, column 0, where the rule gives row 1,
column 1: the entry `input.length` of `bols` is taken for the beginning of a line. -/
theorem token_positions_at_end_of_input :
    ((Tokenizer.new (utf16 "a")).nth 0).start = posAt (utf16 "a") 0 ∧
    ((Tokenizer.new (utf16 "a")).nth 0).end_ = { row := 2, col := 0, pos := 1 } ∧
    ((Tokenizer.new (utf16 "a")).nth 1).toktype = .EOF ∧
    ((Tokenizer.new (utf16 "a")).nth 1).start = { row := 2, col := 0, pos := 1 } ∧
    ((Tokenizer.new (utf16 "a")).nth 1).end_ = { row := 2, col := 0, pos := 1 } ∧
    posAt (utf16 "a") 1 = { row := 1, col := 1, pos := 1 } := by
  decide!

/-! ## The target of a definition -/

/-- C16: `f(a,) := 1`, a definition whose target has an omitted argument, is not answered with
the error 'Function argument must be an identifier': reading `arg.start` of the argument `null`
throws a `TypeError`, which has no `description`; a number as argument and a parenthesised
target give the two errors of the check. -/
theorem define_target_omitted_argument :
    parse (utf16 "f(a,) := 1") = some (.error .typeError) ∧
    Err.description .typeError = none ∧
    (parse (utf16 "f(a,1) := 1")).map (fun r =>
      match r with
      | .error e => e.description
      | .node _ => none) = some (some (utf16 "Function argument must be an identifier")) ∧
    (parse (utf16 "(f) := 1")).map (fun r =>
      match r with
      | .error e => e.description
      | .node _ => none) =
      some (some (utf16 ":= can only be used to define functions or variables")) := by
  refine ⟨parse_eq_error _ _ (by decide!), rfl, by decide!, by decide!⟩
/-! ## The reduction rule -/

theorem operators_even_table : ∀ s ∈ opTable.operators.map Prod.fst,
    (operators s).all (fun d => d.precedence % 2 = 0 && d.precedence ≤ 26) = true := by
  decide!

theorem operators_even (s : JSString) (d : OpDescr) (h : operators s = some d) :
    d.precedence % 2 = 0 ∧ d.precedence ≤ 26 := by
  have := operators_even_table s (operators_mem s d h)
  rw [h] at this
  simpa using this

/-- The run of `parseRec` on the tokens `a p b q c` when the pending `p` is reduced as `q`
comes in. -/
theorem parseRec_reduce_first (fuel : Nat) (t0 t1 t2 t3 t4 t5 t6 : Tokenizer)
    (closing : Option JSString) (a b c p q eof : Token) (dp dq : OpDescr)
    (ha : a.toktype = .ID) (hb : b.toktype = .ID) (hc : c.toktype = .ID)
    (hp : p.toktype = .OP) (hq : q.toktype = .OP) (he : eof.toktype = .EOF)
    (hdp : operators p.text = some dp) (hdq : operators q.text = some dq)
    (hip : dp.infixOk = true) (hiq : dq.infixOk = true)
    (hred : (if dp.rassoc then dp.precedence + 1 else dp.precedence) ≤ dq.precedence)
    (h0 : t0.next = .ok (a, t1)) (h1 : t1.next = .ok (p, t2)) (h2 : t2.next = .ok (b, t3))
    (h3 : t3.next = .ok (q, t4)) (h4 : t4.next = .ok (c, t5)) (h5 : t5.next = .ok (eof, t6)) :
    parseRec (fuel + 6) t0 closing = .ok (
      { expr := infixNode q dq (infixNode p dp (variableNode a) (variableNode b)) (variableNode c),
        closedBy := eof }, t6) := by
  rw [parseRec, parseLoop_ID _ _ _ _ _ _ h0 ha (by simp), List.nil_append,
    parseLoop_OP _ _ _ _ _ _ _ h1 hp (caseOP_one p dp _ hdp),
    parseLoop_ID _ _ _ _ _ _ h2 hb (by simp), List.cons_append, List.cons_append,
    List.nil_append]
  simp only [variableNode]
  rw [parseLoop_OP _ _ _ _ _ _ _ h3 hq
      (caseOP_reduce q p dq dp _ _ _ _ _ _ _ _ hdq hred (by rfl) hip),
    parseLoop_ID _ _ _ _ _ _ h4 hc (by simp)]
  simp only [List.cons_append, List.nil_append, variableNode, infixNode]
  rw [parseLoop_EOF _ _ _ _ _ _ _ h5 he
      (finishRec_three eof q dq _ _ _ _ _ _ _ _ (by rfl) hiq)]
  rfl

/-- C18, as amended: `case 'OP'` reduces the pending triple `x q y` exactly when the precedence
number of the pending operator `q` (one more than declared if `q` is right-associative) is less
than or equal to the declared one of the incoming operator, and shifts otherwise, so that the
lower precedence number binds tighter: for infix operators `p`, `q` with
`precedence(p) < precedence(q)` and identifier tokens `a`, `b`, `c`, the tokens `a p b q c`
parse (in `parseRec`) to infix `q` with args `[infix p [a, b], c]`. -/
theorem reduce_when_pending_not_above_incoming :
    (∀ (tok q : Token) (d dq : OpDescr) (x y : Fields) (xa ya : List Node)
      (xm ym : List (JSString × Node)) (xo yo : Option Node),
      operators tok.text = some d → x.isSuperscript = false → dq.infixOk = true →
      caseOP tok [.obj x xa xm xo, pendingOperator q dq, .obj y ya ym yo] =
        if (if dq.rassoc then dq.precedence + 1 else dq.precedence) ≤ d.precedence then
          .ok [infixNode q dq (.obj x xa xm xo) (.obj y ya ym yo), pendingOperator tok d]
        else
          .ok [.obj x xa xm xo, pendingOperator q dq, .obj y ya ym yo, pendingOperator tok d]) ∧
    (∀ (fuel : Nat) (t0 t1 t2 t3 t4 t5 t6 : Tokenizer) (closing : Option JSString)
      (a b c p q eof : Token) (dp dq : OpDescr),
      a.toktype = .ID → b.toktype = .ID → c.toktype = .ID →
      p.toktype = .OP → q.toktype = .OP → eof.toktype = .EOF →
      operators p.text = some dp → operators q.text = some dq →
      dp.infixOk = true → dq.infixOk = true → dp.precedence < dq.precedence →
      t0.next = .ok (a, t1) → t1.next = .ok (p, t2) → t2.next = .ok (b, t3) →
      t3.next = .ok (q, t4) → t4.next = .ok (c, t5) → t5.next = .ok (eof, t6) →
      parseRec (fuel + 6) t0 closing = .ok (
        { expr := infixNode q dq (infixNode p dp (variableNode a) (variableNode b))
            (variableNode c),
          closedBy := eof }, t6)) := by
  constructor
  · intro tok q d dq x y xa ya xm ym xo yo hd hx hq
    by_cases hle : (if dq.rassoc then dq.precedence + 1 else dq.precedence) ≤ d.precedence
    · rw [if_pos hle]
      exact caseOP_reduce tok q d dq x y xa ya xm ym xo yo hd hle hx hq
    · rw [if_neg hle]
      exact caseOP_shift tok q d dq _ _ hd (by omega)
  · intro fuel t0 t1 t2 t3 t4 t5 t6 closing a b c p q eof dp dq ha hb hc hp hq he hdp hdq hip hiq
      hlt h0 h1 h2 h3 h4 h5
    have e1 := (operators_even _ _ hdp).1
    have e2 := (operators_even _ _ hdq).1
    exact parseRec_reduce_first fuel t0 t1 t2 t3 t4 t5 t6 closing a b c p q eof dp dq ha hb hc hp
      hq he hdp hdq hip hiq (by split <;> omega) h0 h1 h2 h3 h4 h5

/-- The input `a*b+c`: `*` has the lower precedence number, and the tree is infix `+` with
args `[infix * [a, b], c]`. -/
theorem reduce_when_pending_not_above_incoming_witness :
    ParseRecResult.sketch (parseRec (0 + 6) ((Tokenizer.new (utf16 "a*b+c")).after 0) none) =
      "(infix + (infix * a b) c)" := by
  have H : (((Tokenizer.new (utf16 "a*b+c")).nth 0).toktype = .ID ∧
      ((Tokenizer.new (utf16 "a*b+c")).nth 2).toktype = .ID ∧
      ((Tokenizer.new (utf16 "a*b+c")).nth 4).toktype = .ID ∧
      ((Tokenizer.new (utf16 "a*b+c")).nth 1).toktype = .OP ∧
      ((Tokenizer.new (utf16 "a*b+c")).nth 3).toktype = .OP ∧
      ((Tokenizer.new (utf16 "a*b+c")).nth 5).toktype = .EOF ∧
      operators ((Tokenizer.new (utf16 "a*b+c")).nth 1).text = some
        ⟨"mul", [42], [[42], [8290], [8901], [183]], false, 6, false, false, true, false⟩ ∧
      operators ((Tokenizer.new (utf16 "a*b+c")).nth 3).text = some
        ⟨"add", [43], [[43]], false, 8, true, false, true, false⟩) ∧
      (((Tokenizer.new (utf16 "a*b+c")).after 0).next).isOk = true ∧
      (((Tokenizer.new (utf16 "a*b+c")).after 1).next).isOk = true ∧
      (((Tokenizer.new (utf16 "a*b+c")).after 2).next).isOk = true ∧
      (((Tokenizer.new (utf16 "a*b+c")).after 3).next).isOk = true ∧
      (((Tokenizer.new (utf16 "a*b+c")).after 4).next).isOk = true ∧
      (((Tokenizer.new (utf16 "a*b+c")).after 5).next).isOk = true ∧
      ParseRecResult.sketch (.ok (
        { expr := infixNode ((Tokenizer.new (utf16 "a*b+c")).nth 3)
            ⟨"add", [43], [[43]], false, 8, true, false, true, false⟩
            (infixNode ((Tokenizer.new (utf16 "a*b+c")).nth 1)
              ⟨"mul", [42], [[42], [8290], [8901], [183]], false, 6, false, false, true, false⟩
              (variableNode ((Tokenizer.new (utf16 "a*b+c")).nth 0))
              (variableNode ((Tokenizer.new (utf16 "a*b+c")).nth 2)))
            (variableNode ((Tokenizer.new (utf16 "a*b+c")).nth 4)),
          closedBy := (Tokenizer.new (utf16 "a*b+c")).nth 5 },
        (Tokenizer.new (utf16 "a*b+c")).after (5 + 1))) = "(infix + (infix * a b) c)" := by
    decide!
  obtain ⟨⟨ha, hb, hc, hp, hq, he, hdp, hdq⟩, h0, h1, h2, h3, h4, h5, hs⟩ := H
  rw [reduce_when_pending_not_above_incoming.2 0 ((Tokenizer.new (utf16 "a*b+c")).after 0)
    ((Tokenizer.new (utf16 "a*b+c")).after (0 + 1)) ((Tokenizer.new (utf16 "a*b+c")).after (1 + 1))
    ((Tokenizer.new (utf16 "a*b+c")).after (2 + 1)) ((Tokenizer.new (utf16 "a*b+c")).after (3 + 1))
    ((Tokenizer.new (utf16 "a*b+c")).after (4 + 1)) ((Tokenizer.new (utf16 "a*b+c")).after (5 + 1))
    none
    ((Tokenizer.new (utf16 "a*b+c")).nth 0) ((Tokenizer.new (utf16 "a*b+c")).nth 2)
    ((Tokenizer.new (utf16 "a*b+c")).nth 4) ((Tokenizer.new (utf16 "a*b+c")).nth 1)
    ((Tokenizer.new (utf16 "a*b+c")).nth 3) ((Tokenizer.new (utf16 "a*b+c")).nth 5)
    ⟨"mul", [42], [[42], [8290], [8901], [183]], false, 6, false, false, true, false⟩
    ⟨"add", [43], [[43]], false, 8, true, false, true, false⟩
    ha hb hc hp hq he hdp hdq rfl rfl (by decide)
    (Tokenizer.next_after (Tokenizer.new (utf16 "a*b+c")) 0 h0)
    (Tokenizer.next_after (Tokenizer.new (utf16 "a*b+c")) 1 h1)
    (Tokenizer.next_after (Tokenizer.new (utf16 "a*b+c")) 2 h2)
    (Tokenizer.next_after (Tokenizer.new (utf16 "a*b+c")) 3 h3)
    (Tokenizer.next_after (Tokenizer.new (utf16 "a*b+c")) 4 h4)
    (Tokenizer.next_after (Tokenizer.new (utf16 "a*b+c")) 5 h5)]
  exact hs

/-- The claim as stated fails on `a*b+c`: the precedence number 6 of `*` is less than the 8 of
`+`, and the tree is not infix `*` with args `[a, infix + [b, c]]` but infix `+` with args
`[infix * [a, b], c]`. -/
theorem reduce_when_pending_not_above_incoming_counterexample :
    ((operators (utf16 "*")).map fun d => d.precedence) = some 6 ∧
    ((operators (utf16 "+")).map fun d => d.precedence) = some 8 ∧
    ParseRecResult.sketch (parseRec 6 (Tokenizer.new (utf16 "a*b+c")) none) ≠
      "(infix * a (infix + b c))" ∧
    ParseRecResult.sketch (parseRec 6 (Tokenizer.new (utf16 "a*b+c")) none) =
      "(infix + (infix * a b) c)" := by
  decide!
/-! ## Field access -/

theorem postprocessArgs_two (a b a1 b1 : Node) (ha : postprocess a = .ok a1)
    (hb : postprocess b = .ok b1) : postprocessArgs [a, b] = .ok [a1, b1] := by
  simp [postprocessArgs, ha, hb]

/-- C15: postprocessing an infix node of the operator `.` whose operands postprocess to `l` and
`r`: when `r` is a variable node the result is a node of ctype `field` whose `obj` is `l` and
whose `key` is the name of `r`; in every other case (`r` an object of another ctype, or not an
object) it fails with 'Field name must be identifier'. -/
theorem field_access_postprocess (f : Fields) (a b l r : Node)
    (modifs modifs1 : List (JSString × Node)) (o : Option Node)
    (hc : f.ctype = some "infix") (ho : f.oper = some (utf16 "."))
    (ha : postprocess a = .ok l) (hb : postprocess b = .ok r)
    (hm : postprocessModifs modifs = .ok modifs1) :
    (∀ (g : Fields) (ga : List Node) (gm : List (JSString × Node)) (go : Option Node),
      r = .obj g ga gm go → g.ctype = some "variable" →
      postprocess (.obj f [a, b] modifs o) =
        .ok (.obj (stripTransient { f with ctype := some "field", key := g.name }) [l, r] modifs1
          (some l))) ∧
    ((∀ (g : Fields) (ga : List Node) (gm : List (JSString × Node)) (go : Option Node),
      r = .obj g ga gm go → g.ctype ≠ some "variable") →
      postprocess (.obj f [a, b] modifs o) =
        .throw (ParseError (utf16 "Field name must be identifier") f.start f.text)) := by
  have hpf : parentFirst f [a, b] = .ok () := by
    have h1 : f.oper ≠ some (utf16 ":=") := by rw [ho]; decide
    have h2 : f.oper ≠ some (utf16 ",") := by rw [ho]; decide
    simp [parentFirst, hc, h1, h2]
  have hargs := postprocessArgs_two a b l r ha hb
  constructor
  · intro g ga gm go hr hg
    subst hr
    rw [postprocess]
    simp only [hpf, hargs, hm]
    have hp : f.ctype ≠ some "paren" := by rw [hc]; decide
    simp [parentLast, hp, hc, ho, hg]
  · intro hr
    rw [postprocess]
    simp only [hpf, hargs, hm]
    have hp : f.ctype ≠ some "paren" := by rw [hc]; decide
    cases r with
    | null => simp [parentLast, hp, hc, ho]
    | undefined => simp [parentLast, hp, hc, ho]
    | obj g ga gm go =>
      have hg := hr g ga gm go rfl
      simp [parentLast, hp, hc, ho, hg]

/-- The inputs `a.b.c`, which is the field `c` of the field `b` of `a`, and `a.f(x)`, whose
right operand is a function node. -/
theorem field_access_postprocess_witness :
    ParseOutput.sketch (parse (utf16 "a.b.c")) = "(field . (field . a b) c)" ∧
    ParseOutput.sketch (parse (utf16 "a.f(x)")) = "error: Field name must be identifier" ∧
    postprocess (.obj { ctype := some "infix", oper := some (utf16 ".") }
        [.obj { ctype := some "variable", name := some (utf16 "a") } [] [] none,
         .obj { ctype := some "variable", name := some (utf16 "b") } [] [] none] [] none) =
      .ok (.obj
        (stripTransient { ctype := some "field", oper := some (utf16 "."), key := some [98] })
        [.obj (stripTransient { ctype := some "variable", name := some (utf16 "a") }) [] [] none,
         .obj (stripTransient { ctype := some "variable", name := some (utf16 "b") }) [] [] none]
        [] (some (.obj (stripTransient { ctype := some "variable", name := some (utf16 "a") })
          [] [] none))) :=
  ⟨by decide!, by decide!,
    (field_access_postprocess { ctype := some "infix", oper := some (utf16 ".") }
      (.obj { ctype := some "variable", name := some (utf16 "a") } [] [] none)
      (.obj { ctype := some "variable", name := some (utf16 "b") } [] [] none)
      (.obj (stripTransient { ctype := some "variable", name := some (utf16 "a") }) [] [] none)
      (.obj (stripTransient { ctype := some "variable", name := some (utf16 "b") }) [] [] none)
      [] [] none rfl rfl (by simp [postprocess, parentFirst, postprocessArgs, postprocessModifs, parentLast, stripTransient])
      (by simp [postprocess, parentFirst, postprocessArgs, postprocessModifs, parentLast, stripTransient])
      (by simp [postprocessModifs])).1 _ _ _ _ rfl rfl⟩
/-! ## Subscripts and superscripts -/

theorem operators_pow_take :
    operators (utf16 "^") = some ⟨"pow", [94], [[94]], true, 4, false, false, true, false⟩ ∧
    operators (utf16 "_") = some ⟨"take", [95], [[95]], false, 2, false, false, true, false⟩ := by
  decide!

/-- The call of `subsup` on a sequence that holds one operand. -/
theorem subsup_one (tok : Token) (sym dict : JSString) (d : OpDescr) (x : Fields)
    (xa : List Node) (xm : List (JSString × Node)) (xo : Option Node)
    (hd : operators sym = some d) (hi : d.infixOk = true) (hx : x.isSuperscript = false) :
    subsup [.obj x xa xm xo] tok sym dict = .ok [scriptNode tok d dict (.obj x xa xm xo) false] := by
  simp [subsup, hd, padNull, applyWhileLe, applyLoop, applyOperator, Node.truthy, hx, hi,
    scriptNode, scriptNumber, Res.bind]

theorem parseLoop_SUP (fuel : Nat) (tokens t1 : Tokenizer) (closing : Option JSString)
    (seq seq1 : List Node) (tok : Token) (h : tokens.next = .ok (tok, t1))
    (htt : tok.toktype = .SUP)
    (hs : (subsup seq tok (utf16 "^") supDict).bind markSuperscript = .ok seq1) :
    parseLoop (fuel + 1) tokens closing seq = parseLoop fuel t1 closing seq1 := by
  rw [parseLoop]
  simp only [h, htt]
  simp only [supDict] at hs
  simp only [hs]

theorem parseLoop_SUB (fuel : Nat) (tokens t1 : Tokenizer) (closing : Option JSString)
    (seq seq1 : List Node) (tok : Token) (h : tokens.next = .ok (tok, t1))
    (htt : tok.toktype = .SUB) (hs : subsup seq tok (utf16 "_") subDict = .ok seq1) :
    parseLoop (fuel + 1) tokens closing seq = parseLoop fuel t1 closing seq1 := by
  rw [parseLoop]
  simp only [h, htt]
  simp only [subDict] at hs
  simp only [hs]

/-- What `case 'SUP'` makes of a sequence that holds one operand. -/
theorem caseSUP_one (tok : Token) (x : Fields) (xa : List Node) (xm : List (JSString × Node))
    (xo : Option Node) (hx : x.isSuperscript = false) :
    (subsup [.obj x xa xm xo] tok (utf16 "^") supDict).bind markSuperscript =
      .ok [scriptNode tok ⟨"pow", [94], [[94]], true, 4, false, false, true, false⟩ supDict
        (.obj x xa xm xo) true] := by
  rw [subsup_one tok _ _ _ x xa xm xo operators_pow_take.1 rfl hx]
  simp [markSuperscript, scriptNode]

/-- The check of `applyOperator` for a left operand that a superscript has produced. -/
theorem applyOperator_after_superscript (rest : List Node) (q : Token) (dq : OpDescr)
    (l y : Fields) (la ya : List Node) (lm ym : List (JSString × Node)) (lo yo : Option Node)
    (n : Nat) (hl : l.isSuperscript = true) (hp : l.precedence = some n) :
    applyOperator (rest ++ [.obj l la lm lo, pendingOperator q dq, .obj y ya ym yo]) =
      if (if dq.rassoc then dq.precedence + 1 else dq.precedence) ≤ n then
        .throw (ParseError (utf16 "Operator not allowed after superscript") (some q.start)
          (some q.text))
      else if dq.infixOk then
        .ok (rest ++ [infixNode q dq (.obj l la lm lo) (.obj y ya ym yo)])
      else .throw (ParseError (utf16 "Operator may not be used infix") (some q.start)
          (some q.text)) := by
  by_cases hle : (if dq.rassoc then dq.precedence + 1 else dq.precedence) ≤ n
  · simp [applyOperator, pendingOperator, Node.truthy, hl, hp, hle, Token.toFields, Res.bind]
  · by_cases hi : dq.infixOk = true
    · simp [applyOperator, pendingOperator, infixNode, Node.truthy, hl, hp, hle, hi,
        Token.toFields, Res.bind]
    · simp [applyOperator, pendingOperator, Node.truthy, hl, hp, hle, hi, Token.toFields,
        Res.bind]
/-- The end of `parseRec` on an operand that a superscript has produced, an operator and an
operand. -/
theorem finishRec_after_superscript (tok s q : Token) (dq : OpDescr) (x : Node) (y : Fields)
    (ya : List Node) (ym : List (JSString × Node)) (yo : Option Node) :
    finishRec [scriptNode s ⟨"pow", [94], [[94]], true, 4, false, false, true, false⟩ supDict
        x true, pendingOperator q dq, .obj y ya ym yo] tok =
      if (if dq.rassoc then dq.precedence + 1 else dq.precedence) ≤ 5 then
        .throw (ParseError (utf16 "Operator not allowed after superscript") (some q.start)
          (some q.text))
      else if dq.infixOk then
        .ok { expr := infixNode q dq
                (scriptNode s ⟨"pow", [94], [[94]], true, 4, false, false, true, false⟩ supDict
                  x true) (.obj y ya ym yo),
              closedBy := tok }
      else .throw (ParseError (utf16 "Operator may not be used infix") (some q.start)
          (some q.text)) := by
  have ha := applyOperator_after_superscript [] q dq
    { op := some ⟨"pow", [94], [[94]], true, 4, false, false, true, false⟩,
      precedence := some 5, start := some s.start, end_ := some s.end_, text := some s.text,
      ctype := some "infix", oper := some [94], isSuperscript := true }
    y [x, scriptNumber s supDict] ya [] ym none yo 5 rfl rfl
  simp only [List.nil_append] at ha
  have hs : scriptNode s ⟨"pow", [94], [[94]], true, 4, false, false, true, false⟩ supDict
        x true = .obj
    { op := some ⟨"pow", [94], [[94]], true, 4, false, false, true, false⟩,
      precedence := some 5, start := some s.start, end_ := some s.end_, text := some s.text,
      ctype := some "infix", oper := some [94], isSuperscript := true }
    [x, scriptNumber s supDict] [] none := rfl
  rw [hs]
  by_cases hle : (if dq.rassoc then dq.precedence + 1 else dq.precedence) ≤ 5
  · rw [if_pos hle] at ha
    simp [finishRec, padNull, applyLoop, ha, hle]
  · rw [if_neg hle] at ha
    by_cases hi : dq.infixOk = true
    · rw [if_pos hi] at ha
      simp [finishRec, padNull, applyLoop, ha, hle, hi]
    · rw [if_neg hi] at ha
      simp [finishRec, padNull, applyLoop, ha, hle, hi]

/-- The call of `subsup` for a subscript run on a sequence that holds one operand, which a
superscript has produced. -/
theorem subsup_after_superscript (tok s : Token) (x : Node) (dict : JSString) :
    subsup [scriptNode s ⟨"pow", [94], [[94]], true, 4, false, false, true, false⟩ supDict
        x true] tok (utf16 "_") dict =
      .throw (ParseError (utf16 "Operator not allowed after superscript") (some tok.start)
        (some tok.text)) := by
  simp [subsup, operators_pow_take.2, padNull, applyWhileLe, applyLoop, applyOperator,
    Node.truthy, scriptNode, Res.bind]

theorem parseLoop_SUB_throw (fuel : Nat) (tokens t1 : Tokenizer) (closing : Option JSString)
    (seq : List Node) (tok : Token) (e : Err) (h : tokens.next = .ok (tok, t1))
    (htt : tok.toktype = .SUB) (hs : subsup seq tok (utf16 "_") subDict = .throw e) :
    parseLoop (fuel + 1) tokens closing seq = .throw e := by
  rw [parseLoop]
  simp only [h, htt]
  simp only [subDict] at hs
  simp only [hs]

/-- C19: for the tokens `x s` with `x` an identifier and `s` a superscript run.  When an
operator `o` and an identifier `y` follow, parsing fails with 'Operator not allowed after
superscript', reported at `o`, exactly when the precedence number of `o` (one more than declared
if right-associative) is at most that of the power operator, which is 5; every infix operator
above that is accepted and gets the superscript node as left operand.  When a subscript run `u`
follows, parsing fails with the same error, reported at `u`.  When `s` is a subscript run, every
infix operator is accepted after it.  The registered symbols at or below the power operator that
take a left operand, as infix or postfix operators, are `:`, `.`, `°`, `_` and `^`; the one other
symbol at or below it is `√`, which is prefix only. -/
theorem superscript_blocks_tighter_operators (fuel : Nat) (t0 t1 t2 : Tokenizer)
    (closing : Option JSString) (x s : Token)
    (hx : x.toktype = .ID) (h0 : t0.next = .ok (x, t1)) (h1 : t1.next = .ok (s, t2)) :
    (∀ (t3 t4 t5 : Tokenizer) (o y eof : Token) (d : OpDescr),
      o.toktype = .OP → y.toktype = .ID → eof.toktype = .EOF → operators o.text = some d →
      t2.next = .ok (o, t3) → t3.next = .ok (y, t4) → t4.next = .ok (eof, t5) →
      (s.toktype = .SUP →
        ((if d.rassoc then d.precedence + 1 else d.precedence) ≤ 5 →
          parseRec (fuel + 5) t0 closing =
            .throw (ParseError (utf16 "Operator not allowed after superscript") (some o.start)
              (some o.text))) ∧
        (5 < (if d.rassoc then d.precedence + 1 else d.precedence) → d.infixOk = true →
          parseRec (fuel + 5) t0 closing = .ok (
            { expr := infixNode o d
                (scriptNode s ⟨"pow", [94], [[94]], true, 4, false, false, true, false⟩ supDict
                  (variableNode x) true)
                (variableNode y),
              closedBy := eof }, t5))) ∧
      (s.toktype = .SUB → d.infixOk = true →
        parseRec (fuel + 5) t0 closing = .ok (
          { expr := infixNode o d
              (scriptNode s ⟨"take", [95], [[95]], false, 2, false, false, true, false⟩ subDict
                (variableNode x) false)
              (variableNode y),
            closedBy := eof }, t5))) ∧
    (∀ (t3 : Tokenizer) (u : Token), s.toktype = .SUP → u.toktype = .SUB →
      t2.next = .ok (u, t3) →
      parseRec (fuel + 3) t0 closing =
        .throw (ParseError (utf16 "Operator not allowed after superscript") (some u.start)
          (some u.text))) ∧
    (opTable.operators.map Prod.fst).filter (fun sym =>
      (operators sym).any fun e =>
        decide ((if e.rassoc then e.precedence + 1 else e.precedence) ≤ 5) &&
          (e.infixOk || e.postfixOk)) =
      [utf16 ":", utf16 ".", utf16 "°", utf16 "_", utf16 "^"] ∧
    (opTable.operators.map Prod.fst).filter (fun sym =>
      (operators sym).any fun e => (if e.rassoc then e.precedence + 1 else e.precedence) ≤ 5) =
      [utf16 ":", utf16 ".", utf16 "°", utf16 "_", utf16 "^", utf16 "√"] ∧
    (operators (utf16 "√")).map (fun e => (e.prefixOk, e.infixOk, e.postfixOk)) =
      some (true, false, false) := by
  refine ⟨?_, ?_, by decide!, by decide!, by decide!⟩
  · intro t3 t4 t5 o y eof d ho hy he hd h2 h3 h4
    have hsup : s.toktype = .SUP → parseRec (fuel + 5) t0 closing =
        (finishRec [scriptNode s ⟨"pow", [94], [[94]], true, 4, false, false, true, false⟩
            supDict (variableNode x) true, pendingOperator o d, variableNode y] eof).bind
          fun res => .ok (res, t5) := by
      intro hs
      rw [parseRec, parseLoop_ID _ _ _ _ _ _ h0 hx (by simp), List.nil_append]
      simp only [variableNode]
      rw [parseLoop_SUP _ _ _ _ _ _ _ h1 hs (caseSUP_one s _ _ _ _ (by rfl)),
        parseLoop_OP _ _ _ _ _ _ _ h2 ho (caseOP_one o d _ hd),
        parseLoop_ID _ _ _ _ _ _ h3 hy (by simp)]
      simp only [List.cons_append, List.nil_append, variableNode]
      rw [parseLoop]
      simp only [h4, he]
      cases finishRec _ eof <;> rfl
    refine ⟨fun hs => ⟨fun hle => ?_, fun hgt hi => ?_⟩, fun hs hi => ?_⟩
    · rw [hsup hs]
      simp only [variableNode]
      rw [finishRec_after_superscript, if_pos hle, Res.bind_throw]
    · rw [hsup hs]
      simp only [variableNode]
      rw [finishRec_after_superscript, if_neg (by omega), if_pos hi, Res.bind_ok]
    · rw [parseRec, parseLoop_ID _ _ _ _ _ _ h0 hx (by simp), List.nil_append]
      simp only [variableNode]
      rw [parseLoop_SUB _ _ _ _ _ _ _ h1 hs
          (subsup_one s _ _ _ _ _ _ _ operators_pow_take.2 rfl (by rfl)),
        parseLoop_OP _ _ _ _ _ _ _ h2 ho (caseOP_one o d _ hd),
        parseLoop_ID _ _ _ _ _ _ h3 hy (by simp)]
      simp only [List.cons_append, List.nil_append, variableNode, scriptNode]
      rw [parseLoop_EOF _ _ _ _ _ _ _ h4 he
          (finishRec_three eof o d _ _ _ _ _ _ _ _ (by rfl) hi)]
  · intro t3 u hs hu h2
    rw [parseRec, parseLoop_ID _ _ _ _ _ _ h0 hx (by simp), List.nil_append]
    simp only [variableNode]
    rw [parseLoop_SUP _ _ _ _ _ _ _ h1 hs (caseSUP_one s _ _ _ _ (by rfl))]
    exact parseLoop_SUB_throw _ _ _ _ _ _ _ h2 hu (subsup_after_superscript u s _ _)
/-- The input `x²*y`: the operator `*`, of precedence number 6, is accepted after the
superscript, and the tree is infix `*` with args `[infix ^ [x, 2], y]`; `x²^y`, `x²:y`, `x²°` and
`x²₁` are rejected and `x₁^y` is accepted. -/
theorem superscript_blocks_tighter_operators_witness :
    ParseRecResult.sketch (parseRec (0 + 5) ((Tokenizer.new (utf16 "x²*y")).after 0) none) =
      "(infix * (infix ^ x 2) y)" ∧
    ParseOutput.sketch (parse (utf16 "x²^y")) = "error: Operator not allowed after superscript" ∧
    ParseOutput.sketch (parse (utf16 "x²:y")) = "error: Operator not allowed after superscript" ∧
    ParseOutput.sketch (parse (utf16 "x²°")) = "error: Operator not allowed after superscript" ∧
    ParseOutput.sketch (parse (utf16 "x²₁")) = "error: Operator not allowed after superscript" ∧
    ParseOutput.sketch (parse (utf16 "x²+y")) = "(infix + (infix ^ x 2) y)" ∧
    ParseOutput.sketch (parse (utf16 "x₁^y")) = "(infix ^ (infix _ x 1) y)" := by
  refine ⟨?_, by decide!, by decide!, by decide!, by decide!, by decide!, by decide!⟩
  have H : (((Tokenizer.new (utf16 "x²*y")).nth 0).toktype = .ID ∧
      ((Tokenizer.new (utf16 "x²*y")).nth 2).toktype = .OP ∧
      ((Tokenizer.new (utf16 "x²*y")).nth 3).toktype = .ID ∧
      ((Tokenizer.new (utf16 "x²*y")).nth 4).toktype = .EOF ∧
      operators ((Tokenizer.new (utf16 "x²*y")).nth 2).text = some
        ⟨"mul", [42], [[42], [8290], [8901], [183]], false, 6, false, false, true, false⟩ ∧
      ((Tokenizer.new (utf16 "x²*y")).nth 1).toktype = .SUP) ∧
      (((Tokenizer.new (utf16 "x²*y")).after 0).next).isOk = true ∧
      (((Tokenizer.new (utf16 "x²*y")).after 1).next).isOk = true ∧
      (((Tokenizer.new (utf16 "x²*y")).after 2).next).isOk = true ∧
      (((Tokenizer.new (utf16 "x²*y")).after 3).next).isOk = true ∧
      (((Tokenizer.new (utf16 "x²*y")).after 4).next).isOk = true ∧
      ParseRecResult.sketch (.ok (
        { expr := infixNode ((Tokenizer.new (utf16 "x²*y")).nth 2)
            ⟨"mul", [42], [[42], [8290], [8901], [183]], false, 6, false, false, true, false⟩
            (scriptNode ((Tokenizer.new (utf16 "x²*y")).nth 1)
              ⟨"pow", [94], [[94]], true, 4, false, false, true, false⟩ supDict
              (variableNode ((Tokenizer.new (utf16 "x²*y")).nth 0)) true)
            (variableNode ((Tokenizer.new (utf16 "x²*y")).nth 3)),
          closedBy := ((Tokenizer.new (utf16 "x²*y")).nth 4) },
        ((Tokenizer.new (utf16 "x²*y")).after (4 + 1)))) = "(infix * (infix ^ x 2) y)" := by
    decide!
  obtain ⟨⟨hx, ho, hy, he, hd, hs⟩, h0, h1, h2, h3, h4, hsk⟩ := H
  rw [((((superscript_blocks_tighter_operators 0 ((Tokenizer.new (utf16 "x²*y")).after 0)
    ((Tokenizer.new (utf16 "x²*y")).after (0 + 1)) ((Tokenizer.new (utf16 "x²*y")).after (1 + 1))
    none
    ((Tokenizer.new (utf16 "x²*y")).nth 0) ((Tokenizer.new (utf16 "x²*y")).nth 1)
    hx
    (Tokenizer.next_after (Tokenizer.new (utf16 "x²*y")) 0 h0)
    (Tokenizer.next_after (Tokenizer.new (utf16 "x²*y")) 1 h1)).1
    ((Tokenizer.new (utf16 "x²*y")).after (2 + 1)) ((Tokenizer.new (utf16 "x²*y")).after (3 + 1))
    ((Tokenizer.new (utf16 "x²*y")).after (4 + 1))
    ((Tokenizer.new (utf16 "x²*y")).nth 2) ((Tokenizer.new (utf16 "x²*y")).nth 3)
    ((Tokenizer.new (utf16 "x²*y")).nth 4)
    ⟨"mul", [42], [[42], [8290], [8901], [183]], false, 6, false, false, true, false⟩
    ho hy he hd
    (Tokenizer.next_after (Tokenizer.new (utf16 "x²*y")) 2 h2)
    (Tokenizer.next_after (Tokenizer.new (utf16 "x²*y")) 3 h3)
    (Tokenizer.next_after (Tokenizer.new (utf16 "x²*y")) 4 h4)).1 hs).2 (by decide) rfl)]
  exact hsk
/-! ## The number of a subscript or superscript run -/

theorem digitsValue_map (digits : JSString) (ds : JSString)
    (h : ∀ c ∈ ds, digits.indexOf c < 10) (acc : Nat) :
    digitsValue (ds.map fun c => 48 + digits.indexOf c) acc = some (spelledNat digits ds acc) := by
  induction ds generalizing acc with
  | nil => rfl
  | cons c s ih =>
    have hc := h c (by simp)
    have hd : isDigit (48 + digits.indexOf c) = true := by
      simp only [isDigit, Bool.and_eq_true, decide_eq_true_eq]
      omega
    simp only [List.map_cons, digitsValue, hd, if_true, spelledNat, Nat.add_sub_cancel_left]
    exact ih (fun d hd => h d (by simp [hd])) _

theorem dstDigits_map (dict digits : JSString) (ds : JSString)
    (hdict : ∀ c ∈ digits,
      charAt (utf16 "0123456789+-") (indexOf dict [c]) = [48 + digits.indexOf c])
    (h : ∀ c ∈ ds, c ∈ digits) :
    dstDigits dict ds = ds.map fun c => 48 + digits.indexOf c := by
  induction ds with
  | nil => rfl
  | cons c s ih =>
    have ih := ih (fun d hd => h d (by simp [hd]))
    simp only [dstDigits] at ih ⊢
    simp only [List.flatMap_cons, List.map_cons, ih, hdict c (h c (by simp))]
    rfl

theorem roundToDouble_small (n : Nat) (h : n < 2 ^ 53) : roundToDouble n = some n := by
  have he : doubleExponent n n = 0 := by
    cases n with
    | zero => rfl
    | succ k =>
      unfold doubleExponent
      rw [if_pos h]
  have hlt : n < doubleLimit := by
    have h2 : 2 ^ 53 < doubleLimit := by decide
    omega
  unfold roundToDouble
  simp [he, hlt, Nat.mod_one]

theorem unsignedNumber_map (ds : JSString) (digits : JSString) (negative : Bool)
    (hne : ds ≠ []) (h : ∀ c ∈ ds, digits.indexOf c < 10) (hs : spelledNat digits ds 0 < 2 ^ 53) :
    unsignedNumber (ds.map fun c => 48 + digits.indexOf c) negative =
      .finite (if negative then -(spelledNat digits ds 0 : Int) else spelledNat digits ds 0) := by
  cases ds with
  | nil => exact absurd rfl hne
  | cons c s =>
    have hv := digitsValue_map digits (c :: s) h 0
    simp only [List.map_cons] at hv
    simp only [unsignedNumber, List.map_cons, hv, roundToDouble_small _ hs]

/-- The number that the unary plus makes of the numeral of a run of glyphs. -/
theorem toNumber_run (dict digits : JSString) (plus minus : Nat)
    (hdict : ∀ c ∈ digits,
      charAt (utf16 "0123456789+-") (indexOf dict [c]) = [48 + digits.indexOf c])
    (hplus : charAt (utf16 "0123456789+-") (indexOf dict [plus]) = [43])
    (hminus : charAt (utf16 "0123456789+-") (indexOf dict [minus]) = [45])
    (hlen : digits.length = 10)
    (run : JSString) (hrun : isScriptRun digits plus minus run = true)
    (hs : (spelledInteger digits plus minus run).natAbs < 2 ^ 53) :
    toNumber (dstDigits dict run) = .finite (spelledInteger digits plus minus run) := by
  have hidx : ∀ ds : JSString, (∀ c ∈ ds, c ∈ digits) → ∀ c ∈ ds, digits.indexOf c < 10 := by
    intro ds h c hc
    rw [← hlen]
    exact List.indexOf_lt_length.mpr (h c hc)
  cases run with
  | nil => simp [isScriptRun] at hrun
  | cons c s =>
    simp only [isScriptRun] at hrun
    by_cases hm : c = minus
    · subst hm
      simp only [or_true, if_true, Bool.and_eq_true, Bool.not_eq_true', List.isEmpty_eq_false,
        List.all_eq_true, decide_eq_true_eq] at hrun
      have hsne : s ≠ [] := by
        intro h
        simp [h] at hrun
      have hd := dstDigits_map dict digits s hdict hrun.2
      have hcons : dstDigits dict (c :: s) = 45 :: dstDigits dict s := by
        simp only [dstDigits, List.flatMap_cons, hminus]
        rfl
      simp only [spelledInteger, if_true] at hs ⊢
      have hs' : spelledNat digits s 0 < 2 ^ 53 := by simpa using hs
      rw [hcons, hd]
      have := unsignedNumber_map s digits true hsne (hidx s hrun.2) hs'
      simpa [toNumber] using this
    · by_cases hp : c = plus
      · subst hp
        simp only [true_or, if_true, Bool.and_eq_true, Bool.not_eq_true',
          List.isEmpty_eq_false, List.all_eq_true, decide_eq_true_eq] at hrun
        have hsne : s ≠ [] := by
          intro h
          simp [h] at hrun
        have hd := dstDigits_map dict digits s hdict hrun.2
        have hcons : dstDigits dict (c :: s) = 43 :: dstDigits dict s := by
          simp only [dstDigits, List.flatMap_cons, hplus]
          rfl
        simp only [spelledInteger, hm, if_false, if_true] at hs ⊢
        have hs' : spelledNat digits s 0 < 2 ^ 53 := by simpa using hs
        rw [hcons, hd]
        have := unsignedNumber_map s digits false hsne (hidx s hrun.2) hs'
        simpa [toNumber] using this
      · simp only [hp, hm, or_self, if_false, List.all_eq_true, decide_eq_true_eq] at hrun
        have hd := dstDigits_map dict digits (c :: s) hdict hrun
        simp only [spelledInteger, hm, hp, if_false] at hs ⊢
        have hs' : spelledNat digits (c :: s) 0 < 2 ^ 53 := by simpa using hs
        rw [hd]
        have := unsignedNumber_map (c :: s) digits false (by simp) (hidx _ hrun) hs'
        have hlt := hidx _ hrun c (by simp)
        simp only [List.map_cons] at this ⊢
        unfold toNumber
        split
        · rename_i heq
          simp only [List.cons.injEq] at heq
          omega
        · rename_i heq
          simp only [List.cons.injEq] at heq
          omega
        · simpa using this
theorem scriptDict_table :
    (∀ c ∈ supDigit,
      charAt (utf16 "0123456789+-") (indexOf supDict [c]) = [48 + supDigit.indexOf c]) ∧
    charAt (utf16 "0123456789+-") (indexOf supDict [0x207A]) = [43] ∧
    charAt (utf16 "0123456789+-") (indexOf supDict [0x207B]) = [45] ∧
    supDigit.length = 10 ∧
    (∀ c ∈ subDigit,
      charAt (utf16 "0123456789+-") (indexOf subDict [c]) = [48 + subDigit.indexOf c]) ∧
    charAt (utf16 "0123456789+-") (indexOf subDict [0x208A]) = [43] ∧
    charAt (utf16 "0123456789+-") (indexOf subDict [0x208B]) = [45] ∧
    subDigit.length = 10 := by
  decide

/-- C20, as amended: for an operand `x` that is not itself the result of a superscript,
`case 'SUP'` yields the infix node of `^` with args `[x, number node]` and `case 'SUB'` the
infix node of `_` with args `[x, number node]`; the number node has `imag` 0 and as `real` the
unary plus of the numeral `dstDigits`, which for a run of an optional sign glyph and digit
glyphs is the signed decimal integer that the glyphs spell whenever that integer is below
`2 ^ 53` in magnitude. -/
theorem script_run_number :
    (∀ (tok : Token) (x : Fields) (xa : List Node) (xm : List (JSString × Node))
      (xo : Option Node), x.isSuperscript = false →
      (subsup [.obj x xa xm xo] tok (utf16 "^") supDict).bind markSuperscript =
        .ok [scriptNode tok ⟨"pow", [94], [[94]], true, 4, false, false, true, false⟩ supDict
          (.obj x xa xm xo) true] ∧
      subsup [.obj x xa xm xo] tok (utf16 "_") subDict =
        .ok [scriptNode tok ⟨"take", [95], [[95]], false, 2, false, false, true, false⟩ subDict
          (.obj x xa xm xo) false]) ∧
    (∀ run : JSString, isScriptRun supDigit 0x207A 0x207B run = true →
      (spelledInteger supDigit 0x207A 0x207B run).natAbs < 2 ^ 53 →
      toNumber (dstDigits supDict run) = .finite (spelledInteger supDigit 0x207A 0x207B run)) ∧
    (∀ run : JSString, isScriptRun subDigit 0x208A 0x208B run = true →
      (spelledInteger subDigit 0x208A 0x208B run).natAbs < 2 ^ 53 →
      toNumber (dstDigits subDict run) = .finite (spelledInteger subDigit 0x208A 0x208B run)) := by
  obtain ⟨h1, h2, h3, h4, h5, h6, h7, h8⟩ := scriptDict_table
  refine ⟨fun tok x xa xm xo hx => ⟨caseSUP_one tok x xa xm xo hx,
      subsup_one tok _ _ _ x xa xm xo operators_pow_take.2 rfl hx⟩,
    fun run hrun hs => toNumber_run supDict supDigit _ _ h1 h2 h3 h4 run hrun hs,
    fun run hrun hs => toNumber_run subDict subDigit _ _ h5 h6 h7 h8 run hrun hs⟩

/-- The runs of `x⁻¹²`, also with spaces and tabs between the glyphs, and `x₁₂`: the numbers
are -12 and 12. -/
theorem script_run_number_witness :
    (isScriptRun supDigit 0x207A 0x207B (utf16 "⁻¹²") = true ∧
      spelledInteger supDigit 0x207A 0x207B (utf16 "⁻¹²") = -12 ∧
      toNumber (dstDigits supDict (utf16 "⁻¹²")) =
        .finite (spelledInteger supDigit 0x207A 0x207B (utf16 "⁻¹²"))) ∧
    (isScriptRun subDigit 0x208A 0x208B (utf16 "₁₂") = true ∧
      spelledInteger subDigit 0x208A 0x208B (utf16 "₁₂") = 12 ∧
      toNumber (dstDigits subDict (utf16 "₁₂")) =
        .finite (spelledInteger subDigit 0x208A 0x208B (utf16 "₁₂"))) ∧
    ParseOutput.sketch (parse (utf16 "x⁻¹²")) = "(infix ^ x -12)" ∧
    ParseOutput.sketch (parse (utf16 "x ⁻ ¹\t²")) = "(infix ^ x -12)" ∧
    ParseOutput.sketch (parse (utf16 "x₁₂")) = "(infix _ x 12)" :=
  ⟨⟨by decide, by decide,
      script_run_number.2.1 (utf16 "⁻¹²") (by decide) (by decide)⟩,
    ⟨by decide, by decide,
      script_run_number.2.2 (utf16 "₁₂") (by decide) (by decide)⟩,
    by decide!, by decide!, by decide!⟩

/-- The claim as stated fails on `x⁹⁰⁰⁷¹⁹⁹²⁵⁴⁷⁴⁰⁹⁹³`: the glyphs spell `2 ^ 53 + 1`, and the
unary plus of the numeral is the double `2 ^ 53`. -/
theorem script_run_number_counterexample :
    isScriptRun supDigit 0x207A 0x207B (utf16 "⁹⁰⁰⁷¹⁹⁹²⁵⁴⁷⁴⁰⁹⁹³") = true ∧
    spelledInteger supDigit 0x207A 0x207B (utf16 "⁹⁰⁰⁷¹⁹⁹²⁵⁴⁷⁴⁰⁹⁹³") = 9007199254740993 ∧
    ParseOutput.sketch (parse (utf16 "x⁹⁰⁰⁷¹⁹⁹²⁵⁴⁷⁴⁰⁹⁹³")) = "(infix ^ x 9007199254740993)" ∧
    toNumber (dstDigits supDict (utf16 "⁹⁰⁰⁷¹⁹⁹²⁵⁴⁷⁴⁰⁹⁹³")) = .finite 9007199254740992 ∧
    toNumber (dstDigits supDict (utf16 "⁹⁰⁰⁷¹⁹⁹²⁵⁴⁷⁴⁰⁹⁹³")) ≠
      .finite (spelledInteger supDigit 0x207A 0x207B (utf16 "⁹⁰⁰⁷¹⁹⁹²⁵⁴⁷⁴⁰⁹⁹³")) := by
  decide!
/-! ## The reduction loops -/

theorem Res.bind_eq_ok {α β : Type} (r : Res α) (f : α → Res β) (b : β)
    (h : r.bind f = .ok b) : ∃ a, r = .ok a ∧ f a = .ok b := by
  cases r with
  | ok a => exact ⟨a, rfl, h⟩
  | throw e => simp at h
  | fuel => simp at h

theorem applyOperator_length (seq seq1 : List Node) (h : applyOperator seq = .ok seq1) :
    seq1.length + 2 = seq.length := by
  unfold applyOperator at h
  split at h
  · rename_i rhs op a omodifs oobj lhs rest hrev
    have hlen : seq.length = rest.length + 3 := by
      have := congrArg List.length hrev
      simpa using this
    obtain ⟨u, -, h2⟩ := Res.bind_eq_ok _ _ _ h
    split at h2
    · simp at h2
    · simp only [Res.ok.injEq] at h2
      subst h2
      simp [hlen]
  · simp at h

theorem applyLoop_zero (cond : List Node → Res Bool) (seq : List Node) :
    applyLoop cond 0 seq =
      if seq.length < 3 then .ok seq
      else
        match cond seq with
        | .fuel => .fuel
        | .throw e => .throw e
        | .ok false => .ok seq
        | .ok true => .fuel := by
  rw [applyLoop]

theorem applyLoop_succ (cond : List Node → Res Bool) (fuel : Nat) (seq : List Node) :
    applyLoop cond (fuel + 1) seq =
      if seq.length < 3 then .ok seq
      else
        match cond seq with
        | .fuel => .fuel
        | .throw e => .throw e
        | .ok false => .ok seq
        | .ok true =>
          match applyOperator seq with
          | .fuel => .fuel
          | .throw e => .throw e
          | .ok seq1 => applyLoop cond fuel seq1 := by
  rw [applyLoop]

/-- A reduction loop ends on a sequence on which it has nothing more to do. -/
theorem applyLoop_done (cond : List Node → Res Bool) (fuel : Nat) (seq s : List Node)
    (h : applyLoop cond fuel seq = .ok s) :
    (s.length < 3 ∨ cond s = .ok false) ∧ s.length % 2 = seq.length % 2 ∧
      s.length ≤ seq.length := by
  induction fuel generalizing seq with
  | zero =>
    rw [applyLoop_zero] at h
    split at h
    · simp only [Res.ok.injEq] at h
      subst h
      exact ⟨Or.inl ‹_›, rfl, le_refl _⟩
    · split at h
      · simp at h
      · simp at h
      · rename_i hc
        simp only [Res.ok.injEq] at h
        subst h
        exact ⟨Or.inr hc, rfl, le_refl _⟩
      · simp at h
  | succ n ih =>
    rw [applyLoop_succ] at h
    split at h
    · simp only [Res.ok.injEq] at h
      subst h
      exact ⟨Or.inl ‹_›, rfl, le_refl _⟩
    · split at h
      · simp at h
      · simp at h
      · rename_i hc
        simp only [Res.ok.injEq] at h
        subst h
        exact ⟨Or.inr hc, rfl, le_refl _⟩
      · split at h
        · simp at h
        · simp at h
        · rename_i seq1 ha
          have hl := applyOperator_length _ _ ha
          obtain ⟨h1, h2, h3⟩ := ih seq1 h
          exact ⟨h1, by omega, by omega⟩

theorem applyLoop_stable (cond : List Node → Res Bool) (fuel : Nat) (s : List Node)
    (h : s.length < 3 ∨ cond s = .ok false) : applyLoop cond fuel s = .ok s := by
  cases fuel with
  | zero =>
    rw [applyLoop_zero]
    rcases h with h | h
    · simp [h]
    · simp [h]
  | succ n =>
    rw [applyLoop_succ]
    rcases h with h | h
    · simp [h]
    · simp [h]

theorem padNull_parity (seq : List Node) : (padNull seq).length % 2 = 1 := by
  unfold padNull
  split
  · simp only [List.length_append, List.length_singleton]
    omega
  · omega

/-- The reduction loop of `case 'OP'`, run a second time for the same precedence, changes
nothing. -/
theorem applyWhileLe_twice (prec : Nat) (seq s : List Node)
    (h : applyWhileLe prec (padNull seq) = .ok s) :
    padNull s = s ∧ applyWhileLe prec s = .ok s := by
  unfold applyWhileLe at h
  obtain ⟨h1, h2, -⟩ := applyLoop_done _ _ _ _ h
  have hp := padNull_parity seq
  refine ⟨padNull_odd s (by omega), ?_⟩
  exact applyLoop_stable _ _ _ h1
/-! ## The operator `:=_` written as `:=` and `_` -/

theorem operators_define :
    operators (utf16 ":=") = some ⟨"define", [58, 61], [[58, 61]], true, 20, false, false, true, false⟩ ∧
    operators (utf16 ":=_") =
      some ⟨"undefine", [58, 61, 95], [[58, 61, 95]], true, 20, false, true, false, false⟩ := by
  decide!

theorem parseLoop_OP_bind (fuel : Nat) (tokens t1 : Tokenizer) (closing : Option JSString)
    (seq : List Node) (tok : Token) (h : tokens.next = .ok (tok, t1))
    (htt : tok.toktype = .OP) :
    parseLoop (fuel + 1) tokens closing seq =
      (caseOP tok seq).bind (parseLoop fuel t1 closing) := by
  rw [parseLoop]
  simp only [h, htt]
  cases caseOP tok seq <;> rfl

/-- C21: an operator token `_` that comes directly after an operator token `:=` is merged with
it into the operator `:=_`: after the two tokens the sequence of `parseRec` is the one that the
single operator token `:=_` (at the place of the `_`) gives on the sequence before them, and a
failure of the one is the failure of the other; so the loop goes on from the two tokens as from
the single one. -/
theorem define_underscore_merged (d u : Token) (seq : List Node)
    (hd : d.text = utf16 ":=") (hdt : d.toktype = .OP) (hu : u.text = utf16 "_") :
    (caseOP d seq).bind (caseOP u) = caseOP { u with text := utf16 ":=_" } seq ∧
    ∀ (fuel : Nat) (t0 t1 t2 : Tokenizer) (closing : Option JSString),
      t0.next = .ok (d, t1) → t1.next = .ok (u, t2) → u.toktype = .OP →
      parseLoop (fuel + 2) t0 closing seq =
        (caseOP { u with text := utf16 ":=_" } seq).bind (parseLoop fuel t2 closing) := by
  have key : (caseOP d seq).bind (caseOP u) = caseOP { u with text := utf16 ":=_" } seq := by
    have hm1 : mergesWithDefine
        ⟨"define", [58, 61], [[58, 61]], true, 20, false, false, true, false⟩ seq = .ok false := by
      simp [mergesWithDefine, utf16]
    have hm2 : mergesWithDefine
        ⟨"undefine", [58, 61, 95], [[58, 61, 95]], true, 20, false, true, false, false⟩ seq =
        .ok false := by
      simp [mergesWithDefine, utf16]
    have hl : caseOP d seq = (applyWhileLe 20 (padNull seq)).bind fun s =>
        .ok (s ++ [.obj { d.toFields with
          text := some (utf16 ":="),
          op := some ⟨"define", [58, 61], [[58, 61]], true, 20, false, false, true, false⟩,
          precedence := some 21 } [] [] none]) := by
      simp only [caseOP, hd, operators_define.1, hm1, Res.bind_ok]
      rfl
    have hr : caseOP { u with text := utf16 ":=_" } seq =
        (applyWhileLe 20 (padNull seq)).bind fun s =>
        .ok (s ++ [.obj { u.toFields with
          text := some (utf16 ":=_"),
          op := some
            ⟨"undefine", [58, 61, 95], [[58, 61, 95]], true, 20, false, true, false, false⟩,
          precedence := some 21 } [] [] none]) := by
      simp only [caseOP, operators_define.2, hm2, Res.bind_ok]
      rfl
    rw [hl, hr]
    cases hw : applyWhileLe 20 (padNull seq) with
    | fuel => rfl
    | throw e => rfl
    | ok s =>
      obtain ⟨hpad, hagain⟩ := applyWhileLe_twice 20 seq s hw
      have hodd : s.length % 2 = 1 := by
        have := padNull_parity s
        rwa [hpad] at this
      simp only [Res.bind_ok]
      have htake : operators u.text =
          some ⟨"take", [95], [[95]], false, 2, false, false, true, false⟩ := by
        rw [hu]
        exact operators_pow_take.2
      have hm3 : mergesWithDefine ⟨"take", [95], [[95]], false, 2, false, false, true, false⟩
          (s ++ [.obj { d.toFields with
            text := some (utf16 ":="),
            op := some ⟨"define", [58, 61], [[58, 61]], true, 20, false, false, true, false⟩,
            precedence := some 21 } [] [] none]) = .ok true := by
        have h2 : (s.length + 1) % 2 = 0 := by omega
        simp [mergesWithDefine, utf16, h2, Token.toFields, hdt]
      simp only [caseOP, htake, hm3, Res.bind_ok, operators_define.2, if_true,
        List.dropLast_concat, hpad, hagain]
      rfl
  refine ⟨key, ?_⟩
  intro fuel t0 t1 t2 closing h0 h1 hut
  rw [← key, parseLoop_OP_bind _ _ _ _ _ _ h0 hdt]
  cases hc : caseOP d seq with
  | fuel => rfl
  | throw e => rfl
  | ok s =>
    simp only [Res.bind_ok]
    exact parseLoop_OP_bind _ _ _ _ _ _ h1 hut
/-- The input `x := _`: the tokens `:=` and `_` give the sequence that the token `:=_` gives,
and the tree is infix `:=_` with args `[x, void]`, as for `x :=_`, also with a comment between
`:=` and `_`; with an operand after them both spellings fail in the same way. -/
theorem define_underscore_merged_witness :
    (((Tokenizer.new (utf16 "x := _")).nth 1).text = utf16 ":=" ∧
      ((Tokenizer.new (utf16 "x := _")).nth 2).text = utf16 "_") ∧
    (caseOP ((Tokenizer.new (utf16 "x := _")).nth 1) [variableNode ((Tokenizer.new (utf16 "x := _")).nth 0)]).bind
        (caseOP ((Tokenizer.new (utf16 "x := _")).nth 2)) =
      caseOP { ((Tokenizer.new (utf16 "x := _")).nth 2) with text := utf16 ":=_" }
        [variableNode ((Tokenizer.new (utf16 "x := _")).nth 0)] ∧
    ParseOutput.sketch (parse (utf16 "x := _")) = "(infix :=_ x (void))" ∧
    ParseOutput.sketch (parse (utf16 "x :=_")) = "(infix :=_ x (void))" ∧
    ParseOutput.sketch (parse (utf16 "x := /* c */ _")) = "(infix :=_ x (void))" ∧
    ParseOutput.sketch (parse (utf16 "x := _ y")) = "error: Operator may not be used infix" ∧
    ParseOutput.sketch (parse (utf16 "x :=_ y")) = "error: Operator may not be used infix" := by
  have H : ((Tokenizer.new (utf16 "x := _")).nth 1).text = utf16 ":=" ∧
      ((Tokenizer.new (utf16 "x := _")).nth 1).toktype = .OP ∧
      ((Tokenizer.new (utf16 "x := _")).nth 2).text = utf16 "_" := by
    decide!
  obtain ⟨hd, hdt, hu⟩ := H
  exact ⟨⟨hd, hu⟩,
    (define_underscore_merged ((Tokenizer.new (utf16 "x := _")).nth 1)
      ((Tokenizer.new (utf16 "x := _")).nth 2)
      [variableNode ((Tokenizer.new (utf16 "x := _")).nth 0)] hd hdt hu).1,
    by decide!, by decide!, by decide!, by decide!, by decide!⟩
/-! ## Spaces and tabs inside a token -/

theorem nextInternal_text (t t1 : Tokenizer) (tok : Token)
    (h : t.nextInternal = .ok (tok, t1)) : tok.text = removeSpaces tok.raw := by
  unfold Tokenizer.nextInternal at h
  split at h
  · simp at h
  · split at h
    · simp at h
    · simp only [Res.ok.injEq, Prod.mk.injEq] at h
      rw [← h.1]

theorem nextLoop_text (fuel : Nat) (t t1 : Tokenizer) (tok : Token)
    (h : Tokenizer.nextLoop fuel t = .ok (tok, t1)) : tok.text = removeSpaces tok.raw := by
  induction fuel generalizing t with
  | zero => simp [Tokenizer.nextLoop] at h
  | succ n ih =>
    rw [Tokenizer.nextLoop] at h
    split at h
    · simp at h
    · simp at h
    · rename_i tok0 t0 hn
      split at h
      · split at h
        · simp at h
        · exact ih _ h
      · split at h
        · exact ih _ h
        · simp only [Res.ok.injEq, Prod.mk.injEq] at h
          rw [← h.1]
          exact nextInternal_text _ _ _ hn

/-- C22: the text of every token that the tokenizer returns is its raw text with every space
and tab removed; the node that the parser makes of a string literal has as value the raw text
between the quotes. -/
theorem token_text_without_spaces :
    (∀ (t t1 : Tokenizer) (tok : Token), t.next = .ok (tok, t1) →
      tok.text = removeSpaces tok.raw) ∧
    (∀ (fuel : Nat) (tokens t1 : Tokenizer) (closing : Option JSString) (seq : List Node)
      (tok : Token), tokens.next = .ok (tok, t1) → tok.toktype = .STR → seq.length % 2 = 0 →
      parseLoop (fuel + 1) tokens closing seq =
        parseLoop fuel t1 closing (seq ++ [.obj { tok.toFields with
          ctype := some "string",
          value := some (.string (substring tok.raw 1 (tok.raw.length - 1))) } [] [] none])) := by
  constructor
  · intro t t1 tok h
    exact nextLoop_text _ _ _ _ h
  · intro fuel tokens t1 closing seq tok h htt hs
    rw [parseLoop]
    simp only [h, htt, caseValue, hs]
    simp

/-- The inputs `1 000`, one number token with text `1000`, and `a b`, one identifier token with
text `ab`, which is parsed to the variable `ab`; the string literal `"a b"` keeps its space. -/
theorem token_text_without_spaces_witness :
    (((Tokenizer.new (utf16 "1 000")).nth 0).text =
        removeSpaces ((Tokenizer.new (utf16 "1 000")).nth 0).raw ∧
      ((Tokenizer.new (utf16 "1 000")).nth 0).toktype = .NUM ∧
      ((Tokenizer.new (utf16 "1 000")).nth 0).raw = utf16 "1 000" ∧
      ((Tokenizer.new (utf16 "1 000")).nth 0).text = utf16 "1000" ∧
      ((Tokenizer.new (utf16 "1 000")).nth 1).toktype = .EOF) ∧
    (((Tokenizer.new (utf16 "a \tb")).nth 0).toktype = .ID ∧
      ((Tokenizer.new (utf16 "a \tb")).nth 0).raw = utf16 "a \tb" ∧
      ((Tokenizer.new (utf16 "a \tb")).nth 0).text = utf16 "ab" ∧
      ((Tokenizer.new (utf16 "a \tb")).nth 1).toktype = .EOF) ∧
    parse (utf16 "a b") = some (.node (.obj
      { ctype := some "variable", name := some (utf16 "ab"), isSuperscript := false }
      [] [] none)) ∧
    parse (utf16 "\"a b\"") = some (.node (.obj
      { ctype := some "string", value := some (.string (utf16 "a b")) } [] [] none)) := by
  have H : (((Tokenizer.new (utf16 "1 000")).after 0).next).isOk = true ∧
      ((Tokenizer.new (utf16 "1 000")).nth 0).toktype = .NUM ∧
      ((Tokenizer.new (utf16 "1 000")).nth 0).raw = utf16 "1 000" ∧
      ((Tokenizer.new (utf16 "1 000")).nth 0).text = utf16 "1000" ∧
      ((Tokenizer.new (utf16 "1 000")).nth 1).toktype = .EOF ∧
      ((Tokenizer.new (utf16 "a \tb")).nth 0).toktype = .ID ∧
      ((Tokenizer.new (utf16 "a \tb")).nth 0).raw = utf16 "a \tb" ∧
      ((Tokenizer.new (utf16 "a \tb")).nth 0).text = utf16 "ab" ∧
      ((Tokenizer.new (utf16 "a \tb")).nth 1).toktype = .EOF := by
    decide!
  obtain ⟨h0, h1, h2, h3, h4, h5, h6, h7, h8⟩ := H
  exact ⟨⟨token_text_without_spaces.1 ((Tokenizer.new (utf16 "1 000")).after 0)
        ((Tokenizer.new (utf16 "1 000")).after (0 + 1)) ((Tokenizer.new (utf16 "1 000")).nth 0)
        (Tokenizer.next_after (Tokenizer.new (utf16 "1 000")) 0 h0), h1, h2, h3, h4⟩,
    ⟨h5, h6, h7, h8⟩, parse_eq_node 4 _ _ (by decide!), parse_eq_node 4 _ _ (by decide!)⟩
/-! ## A prefix operator after an operator -/

theorem prefix_not_take_table : ∀ s ∈ opTable.operators.map Prod.fst,
    (operators s).all (fun d => !d.prefixOk || d.sym != utf16 "_") = true := by
  decide!

theorem prefix_not_take (s : JSString) (d : OpDescr) (h : operators s = some d)
    (hp : d.prefixOk = true) : d.sym ≠ utf16 "_" := by
  have := prefix_not_take_table s (operators_mem s d h)
  rw [h] at this
  simpa [hp] using this

theorem applyOperator_prefixed (rest : List Node) (q : Token) (dq : OpDescr)
    (y : Fields) (ya : List Node) (ym : List (JSString × Node)) (yo : Option Node)
    (hq : dq.prefixOk = true) :
    applyOperator (rest ++ [.null, pendingOperator q dq, .obj y ya ym yo]) =
      .ok (rest ++ [infixNode q dq .null (.obj y ya ym yo)]) := by
  simp [applyOperator, pendingOperator, infixNode, Node.truthy, hq, Token.toFields, Res.bind]

theorem applyOperator_postfix_refused (rest : List Node) (p : Token) (dp : OpDescr)
    (x : Fields) (xa : List Node) (xm : List (JSString × Node)) (xo : Option Node)
    (hx : x.isSuperscript = false) (hp : dp.postfixOk = false) :
    applyOperator (rest ++ [.obj x xa xm xo, pendingOperator p dp, .null]) =
      .throw (ParseError (utf16 "Operator may not be used postfix") (some p.start)
        (some p.text)) := by
  simp [applyOperator, pendingOperator, Node.truthy, hx, hp, Token.toFields, Res.bind]

theorem applyOperator_infix_refused (rest : List Node) (p : Token) (dp : OpDescr)
    (x y : Fields) (xa ya : List Node) (xm ym : List (JSString × Node)) (xo yo : Option Node)
    (hx : x.isSuperscript = false) (hp : dp.infixOk = false) :
    applyOperator (rest ++ [.obj x xa xm xo, pendingOperator p dp, .obj y ya ym yo]) =
      .throw (ParseError (utf16 "Operator may not be used infix") (some p.start)
        (some p.text)) := by
  simp [applyOperator, pendingOperator, Node.truthy, hx, hp, Token.toFields, Res.bind]

/-- What `case 'OP'` makes of an operand and a pending operator when a prefix-capable operator
comes in. -/
theorem caseOP_after_operator (q p : Token) (dq dp : OpDescr)
    (x : Fields) (xa : List Node) (xm : List (JSString × Node)) (xo : Option Node)
    (hdq : operators q.text = some dq) (hpre : dq.prefixOk = true)
    (hx : x.isSuperscript = false) (hpost : dp.postfixOk = false) :
    caseOP q [.obj x xa xm xo, pendingOperator p dp] =
      if (if dp.rassoc then dp.precedence + 1 else dp.precedence) ≤ dq.precedence then
        .throw (ParseError (utf16 "Operator may not be used postfix") (some p.start)
          (some p.text))
      else .ok [.obj x xa xm xo, pendingOperator p dp, .null, pendingOperator q dq] := by
  have hm : mergesWithDefine dq [.obj x xa xm xo, pendingOperator p dp] = .ok false := by
    have := prefix_not_take _ _ hdq hpre
    simp [mergesWithDefine, this]
  have hpad : padNull [.obj x xa xm xo, pendingOperator p dp] =
      [.obj x xa xm xo, pendingOperator p dp, .null] := by
    simp [padNull]
  have h3 := pendingLe_three dq.precedence (.obj x xa xm xo) .null p dp []
  have h4 := applyOperator_postfix_refused [] p dp x xa xm xo hx hpost
  simp only [List.nil_append] at h3 h4
  by_cases hle : (if dp.rassoc then dp.precedence + 1 else dp.precedence) ≤ dq.precedence
  · rw [if_pos hle]
    simp [caseOP, hdq, hm, hpad, applyWhileLe, applyLoop, h3, h4, hle]
  · rw [if_neg hle]
    simp [caseOP, hdq, hm, hpad, applyWhileLe, applyLoop, h3, hle]
    simp [pendingOperator, Token.toFields]

/-- The end of `parseRec` on an operand, an operator, and a prefix operator with its operand. -/
theorem finishRec_prefix_operand (tok p q : Token) (dp dq : OpDescr)
    (x y : Fields) (xa ya : List Node) (xm ym : List (JSString × Node)) (xo yo : Option Node)
    (hx : x.isSuperscript = false) (hq : dq.prefixOk = true) :
    finishRec [.obj x xa xm xo, pendingOperator p dp, .null, pendingOperator q dq,
        .obj y ya ym yo] tok =
      if dp.infixOk then
        .ok { expr := infixNode p dp (.obj x xa xm xo) (infixNode q dq .null (.obj y ya ym yo)),
              closedBy := tok }
      else .throw (ParseError (utf16 "Operator may not be used infix") (some p.start)
        (some p.text)) := by
  have h4 := applyOperator_prefixed [.obj x xa xm xo, pendingOperator p dp] q dq y ya ym yo hq
  simp only [List.cons_append, List.nil_append] at h4
  by_cases hi : dp.infixOk = true
  · have h5 := applyOperator_infix [] p dp x
      { q.toFields with
        op := some dq,
        precedence := some (if dq.rassoc then dq.precedence + 1 else dq.precedence),
        ctype := some "infix", oper := some dq.sym }
      xa [.null, .obj y ya ym yo] xm [] xo none hx hi
    simp only [List.nil_append] at h5
    rw [if_pos hi]
    simp [finishRec, padNull, applyLoop, h4]
    simp only [infixNode] at h5 ⊢
    simp [h5]
  · have hi' : dp.infixOk = false := by simpa using hi
    have h5 := applyOperator_infix_refused [] p dp x
      { q.toFields with
        op := some dq,
        precedence := some (if dq.rassoc then dq.precedence + 1 else dq.precedence),
        ctype := some "infix", oper := some dq.sym }
      xa [.null, .obj y ya ym yo] xm [] xo none hx hi'
    simp only [List.nil_append] at h5
    rw [if_neg hi]
    simp [finishRec, padNull, applyLoop, h4]
    simp only [infixNode] at h5 ⊢
    simp [h5]

/-- C23, as amended: for the tokens `a p q b` with `a`, `b` identifiers, `p` an operator that
does not permit postfix use and `q` a prefix-capable operator: if the precedence number of `p`
(one more than declared if right-associative) is at most the declared one of `q`, parsing fails
with 'Operator may not be used postfix' reported at `p`; if it is greater and `p` permits infix
use, the tree is infix `p` with args `[a, q applied as prefix to b]`; if it is greater and `p`
does not permit infix use, parsing fails with 'Operator may not be used infix' reported at
`p`. -/
theorem prefix_after_operator (fuel : Nat) (t0 t1 t2 t3 t4 t5 : Tokenizer)
    (closing : Option JSString) (a p q b eof : Token) (dp dq : OpDescr)
    (ha : a.toktype = .ID) (hp : p.toktype = .OP) (hq : q.toktype = .OP)
    (hb : b.toktype = .ID) (he : eof.toktype = .EOF)
    (hdp : operators p.text = some dp) (hdq : operators q.text = some dq)
    (hpost : dp.postfixOk = false) (hpre : dq.prefixOk = true)
    (h0 : t0.next = .ok (a, t1)) (h1 : t1.next = .ok (p, t2)) (h2 : t2.next = .ok (q, t3))
    (h3 : t3.next = .ok (b, t4)) (h4 : t4.next = .ok (eof, t5)) :
    ((if dp.rassoc then dp.precedence + 1 else dp.precedence) ≤ dq.precedence →
      parseRec (fuel + 5) t0 closing =
        .throw (ParseError (utf16 "Operator may not be used postfix") (some p.start)
          (some p.text))) ∧
    (dq.precedence < (if dp.rassoc then dp.precedence + 1 else dp.precedence) →
      dp.infixOk = true →
      parseRec (fuel + 5) t0 closing = .ok (
        { expr := infixNode p dp (variableNode a) (infixNode q dq .null (variableNode b)),
          closedBy := eof }, t5)) ∧
    (dq.precedence < (if dp.rassoc then dp.precedence + 1 else dp.precedence) →
      dp.infixOk = false →
      parseRec (fuel + 5) t0 closing =
        .throw (ParseError (utf16 "Operator may not be used infix") (some p.start)
          (some p.text))) := by
  have hstart : parseRec (fuel + 5) t0 closing =
      (caseOP q [variableNode a, pendingOperator p dp]).bind (parseLoop (fuel + 2) t3 closing) := by
    rw [parseRec, parseLoop_ID _ _ _ _ _ _ h0 ha (by simp), List.nil_append,
      parseLoop_OP _ _ _ _ _ _ _ h1 hp (caseOP_one p dp _ hdp),
      parseLoop_OP_bind _ _ _ _ _ _ h2 hq]
  have hc := caseOP_after_operator q p dq dp
    { a.toFields with ctype := some "variable", name := some a.text } [] [] none hdq hpre
    (by rfl) hpost
  have hf := finishRec_prefix_operand eof p q dp dq
    { a.toFields with ctype := some "variable", name := some a.text }
    { b.toFields with ctype := some "variable", name := some b.text } [] [] [] [] none none
    (by rfl) hpre
  simp only [variableNode] at hstart ⊢
  rw [hstart, hc]
  refine ⟨fun hle => ?_, fun hgt hi => ?_, fun hgt hi => ?_⟩
  · rw [if_pos hle, Res.bind_throw]
  · rw [if_neg (by omega), Res.bind_ok, parseLoop_ID _ _ _ _ _ _ h3 hb (by simp)]
    simp only [List.cons_append, List.nil_append, variableNode]
    rw [if_pos hi] at hf
    rw [parseLoop_EOF _ _ _ _ _ _ _ h4 he hf]
  · rw [if_neg (by omega), Res.bind_ok, parseLoop_ID _ _ _ _ _ _ h3 hb (by simp)]
    simp only [List.cons_append, List.nil_append, variableNode]
    rw [if_neg (by simp [hi])] at hf
    rw [parseLoop]
    simp only [h4, he, hf]
/-- The input `a = -b`: the precedence number 21 of the pending `=` is greater than the 8 of
`-`, and the tree is infix `=` with args `[a, infix - [null, b]]`; `a < -b` is accepted as
well, and `a * -b`, `a + -b` and `a ^ -b` are refused. -/
theorem prefix_after_operator_witness :
    ParseRecResult.sketch (parseRec (0 + 5) ((Tokenizer.new (utf16 "a = -b")).after 0) none) =
      "(infix = a (infix - null b))" ∧
    ParseOutput.sketch (parse (utf16 "a < -b")) = "(infix < a (infix - (void) b))" ∧
    ParseOutput.sketch (parse (utf16 "a * -b")) = "error: Operator may not be used postfix" ∧
    ParseOutput.sketch (parse (utf16 "a + -b")) = "error: Operator may not be used postfix" ∧
    ParseOutput.sketch (parse (utf16 "a ^ -b")) = "error: Operator may not be used postfix" := by
  refine ⟨?_, by decide!, by decide!, by decide!, by decide!⟩
  have H : (((Tokenizer.new (utf16 "a = -b")).nth 0).toktype = .ID ∧
      ((Tokenizer.new (utf16 "a = -b")).nth 1).toktype = .OP ∧
      ((Tokenizer.new (utf16 "a = -b")).nth 2).toktype = .OP ∧
      ((Tokenizer.new (utf16 "a = -b")).nth 3).toktype = .ID ∧
      ((Tokenizer.new (utf16 "a = -b")).nth 4).toktype = .EOF ∧
      operators ((Tokenizer.new (utf16 "a = -b")).nth 1).text = some
        ⟨"assign", [61], [[61]], true, 20, false, false, true, false⟩ ∧
      operators ((Tokenizer.new (utf16 "a = -b")).nth 2).text = some
        ⟨"sub", [45], [[45], [8722]], false, 8, true, false, true, false⟩) ∧
      (((Tokenizer.new (utf16 "a = -b")).after 0).next).isOk = true ∧
      (((Tokenizer.new (utf16 "a = -b")).after 1).next).isOk = true ∧
      (((Tokenizer.new (utf16 "a = -b")).after 2).next).isOk = true ∧
      (((Tokenizer.new (utf16 "a = -b")).after 3).next).isOk = true ∧
      (((Tokenizer.new (utf16 "a = -b")).after 4).next).isOk = true ∧
      ParseRecResult.sketch (.ok (
        { expr := infixNode ((Tokenizer.new (utf16 "a = -b")).nth 1)
            ⟨"assign", [61], [[61]], true, 20, false, false, true, false⟩
            (variableNode ((Tokenizer.new (utf16 "a = -b")).nth 0))
            (infixNode ((Tokenizer.new (utf16 "a = -b")).nth 2)
              ⟨"sub", [45], [[45], [8722]], false, 8, true, false, true, false⟩
              .null (variableNode ((Tokenizer.new (utf16 "a = -b")).nth 3))),
          closedBy := ((Tokenizer.new (utf16 "a = -b")).nth 4) },
        ((Tokenizer.new (utf16 "a = -b")).after (4 + 1)))) = "(infix = a (infix - null b))" := by
    decide!
  obtain ⟨⟨ha, hp, hq, hb, he, hdp, hdq⟩, h0, h1, h2, h3, h4, hsk⟩ := H
  rw [(prefix_after_operator 0 ((Tokenizer.new (utf16 "a = -b")).after 0)
    ((Tokenizer.new (utf16 "a = -b")).after (0 + 1)) ((Tokenizer.new (utf16 "a = -b")).after (1 + 1))
    ((Tokenizer.new (utf16 "a = -b")).after (2 + 1)) ((Tokenizer.new (utf16 "a = -b")).after (3 + 1))
    ((Tokenizer.new (utf16 "a = -b")).after (4 + 1)) none
    ((Tokenizer.new (utf16 "a = -b")).nth 0) ((Tokenizer.new (utf16 "a = -b")).nth 1)
    ((Tokenizer.new (utf16 "a = -b")).nth 2) ((Tokenizer.new (utf16 "a = -b")).nth 3)
    ((Tokenizer.new (utf16 "a = -b")).nth 4)
    ⟨"assign", [61], [[61]], true, 20, false, false, true, false⟩
    ⟨"sub", [45], [[45], [8722]], false, 8, true, false, true, false⟩
    ha hp hq hb he hdp hdq rfl rfl
    (Tokenizer.next_after (Tokenizer.new (utf16 "a = -b")) 0 h0)
    (Tokenizer.next_after (Tokenizer.new (utf16 "a = -b")) 1 h1)
    (Tokenizer.next_after (Tokenizer.new (utf16 "a = -b")) 2 h2)
    (Tokenizer.next_after (Tokenizer.new (utf16 "a = -b")) 3 h3)
    (Tokenizer.next_after (Tokenizer.new (utf16 "a = -b")) 4 h4)).2.1 (by decide) rfl]
  exact hsk

/-- The claim as stated fails on `a ! √ b`: `!` does not permit postfix use, `√` is
prefix-capable, and the precedence number 8 of `!` is greater than the 4 of `√`, but the input
is not parsed to infix `!` with args `[a, √ b]`: `!` does not permit infix use either, and
parsing fails. -/
theorem prefix_after_operator_counterexample :
    operators (utf16 "!") = some ⟨"neg", [33], [[33], [172]], false, 8, true, false, false, false⟩ ∧
    operators (utf16 "√") = some ⟨"sqrt", [8730], [[8730]], true, 4, true, false, false, false⟩ ∧
    ParseRecResult.sketch (parseRec 5 (Tokenizer.new (utf16 "a ! √ b")) none) =
      "error: Operator may not be used infix" ∧
    ParseOutput.sketch (parse (utf16 "a ! √ b")) = "error: Operator may not be used infix" := by
  decide!
/-! ## Nested comments -/

theorem commentEnd_eq_depthScan (n : Nat) : ∀ (s : JSString) (i depth : Nat), s.length ≤ n →
    commentEnd s i depth = depthScan (commentMarkers s i) depth := by
  induction n with
  | zero =>
    intro s i depth hs
    cases s with
    | nil => rfl
    | cons c s => simp at hs
  | succ n ih =>
    intro s i depth hs
    match s with
    | [] => rfl
    | [_] => rfl
    | c :: d :: s =>
      simp only [List.length_cons] at hs
      by_cases h1 : c = 42 ∧ d = 47
      · have h2 : ¬ (c = 47 ∧ d = 42) := by omega
        simp only [commentEnd, commentMarkers, h1, h2, and_self, if_true, if_false, depthScan]
        split
        · rfl
        · exact ih s _ _ (by omega)
      · by_cases h2 : c = 47 ∧ d = 42
        · simp only [commentEnd, commentMarkers, h1, h2, and_self, if_true, if_false, depthScan]
          exact ih s _ _ (by omega)
        · simp only [commentEnd, commentMarkers, h1, h2, if_false]
          exact ih (d :: s) _ _ (by simp only [List.length_cons]; omega)

/-- C11: the scan of a multi-line comment is the depth counter run over the markers `/*` and
`*/` found from left to right without overlap: when `nextInternal` returns the start `/*` of a
comment, `next` goes on just after the first `*/` that brings the depth, which starts at 1, to
0, and fails with 'Unterminated comment', located at the start of that `/*`, if the input ends
before. -/
theorem nested_comment_scan :
    (∀ (s : JSString) (i depth : Nat),
      commentEnd s i depth = depthScan (commentMarkers s i) depth) ∧
    (∀ (fuel : Nat) (t t1 : Tokenizer) (tok : Token), t.nextInternal = .ok (tok, t1) →
      tok.toktype = .START_COMMENT →
      (depthScan (commentMarkers (t1.input.drop (tok.start.pos + 2)) (tok.start.pos + 2)) 1 =
          none →
        Tokenizer.nextLoop (fuel + 1) t =
          .throw (ParseError (utf16 "Unterminated comment") (some tok.start) (some tok.text))) ∧
      (∀ e : Nat,
        depthScan (commentMarkers (t1.input.drop (tok.start.pos + 2)) (tok.start.pos + 2)) 1 =
          some e →
        Tokenizer.nextLoop (fuel + 1) t =
          Tokenizer.nextLoop fuel ({ t1 with lastIndex := e }.advanceTo e))) := by
  refine ⟨fun s i depth => commentEnd_eq_depthScan s.length s i depth (le_refl _), ?_⟩
  intro fuel t t1 tok h htt
  constructor
  · intro hn
    rw [← commentEnd_eq_depthScan _ _ _ _ (le_refl _)] at hn
    rw [Tokenizer.nextLoop]
    simp only [h, htt, if_true, hn]
  · intro e he
    rw [← commentEnd_eq_depthScan _ _ _ _ (le_refl _)] at he
    rw [Tokenizer.nextLoop]
    simp only [h, htt, if_true, he]

/-- The input `/* a /* b */ c */ d`, whose comment ends after the second `*/`, so that the
first token is `d`, and the input `x /* a /* b */`, one `*/` short, on which the second call of
`next` fails with 'Unterminated comment' located at the first `/*`. -/
theorem nested_comment_scan_witness :
    Tokenizer.nextLoop (0 + 1) (Tokenizer.new (utf16 "/* a /* b */")) =
      .throw (ParseError (utf16 "Unterminated comment") (some { row := 1, col := 0, pos := 0 })
        (some (utf16 "/*"))) ∧
    ((Tokenizer.new (utf16 "/* a /* b */ c */ d")).nth 0).toktype = .ID ∧
    ((Tokenizer.new (utf16 "/* a /* b */ c */ d")).nth 0).start =
      { row := 1, col := 18, pos := 18 } ∧
    ((Tokenizer.new (utf16 "x /* a /* b */")).after 1).next =
      .throw (ParseError (utf16 "Unterminated comment") (some { row := 1, col := 2, pos := 2 })
        (some (utf16 "/*"))) := by
  have H : (Tokenizer.new (utf16 "/* a /* b */")).nextInternal.isOk = true ∧
      (Tokenizer.new (utf16 "/* a /* b */")).nextInternal.value.1.toktype = .START_COMMENT ∧
      depthScan (commentMarkers
        ((Tokenizer.new (utf16 "/* a /* b */")).nextInternal.value.2.input.drop
          ((Tokenizer.new (utf16 "/* a /* b */")).nextInternal.value.1.start.pos + 2))
        ((Tokenizer.new (utf16 "/* a /* b */")).nextInternal.value.1.start.pos + 2)) 1 = none ∧
      (Tokenizer.new (utf16 "/* a /* b */")).nextInternal.value.1.start =
        { row := 1, col := 0, pos := 0 } ∧
      (Tokenizer.new (utf16 "/* a /* b */")).nextInternal.value.1.text = utf16 "/*" := by
    decide!
  obtain ⟨h0, h1, h2, h3, h4⟩ := H
  refine ⟨?_, by decide!, by decide!, by decide!⟩
  have := (nested_comment_scan.2 0 (Tokenizer.new (utf16 "/* a /* b */"))
    (Tokenizer.new (utf16 "/* a /* b */")).nextInternal.value.2
    (Tokenizer.new (utf16 "/* a /* b */")).nextInternal.value.1
    (Res.eq_ok_pair _ h0) h1).1 h2
  rw [h3, h4] at this
  exact this
/-! ## One call of `nextInternal` and of `next` -/

/-- What a successful call of `nextInternal` returns: the match of `reNextToken` at the
current offset. -/
theorem nextInternal_spec (t t1 : Tokenizer) (tok : Token)
    (h : t.nextInternal = .ok (tok, t1)) :
    ∃ n g, reNextToken (t.input.drop t.pos) = some (n, g) ∧
      tok.start = t.curPos ∧ tok.end_ = t1.curPos ∧
      tok.raw = substring t.input t.pos (t.pos + n) ∧
      tok.toktype = tokenTypes.getD g .ANY ∧
      t1.pos = t.pos + n ∧ t1.lastIndex = t.pos + n ∧ t1.input = t.input := by
  unfold Tokenizer.nextInternal at h
  split at h
  · simp at h
  · rename_i m hm
    split at h
    · simp at h
    · rename_i hidx
      simp only [ne_eq, Decidable.not_not] at hidx
      simp only [Res.ok.injEq, Prod.mk.injEq] at h
      obtain ⟨htok, ht1⟩ := h
      unfold exec at hm
      split at hm
      · simp at hm
      · obtain ⟨k, hk1, hk2⟩ := execFrom_spec _ _ _ hm
        rw [List.drop_drop] at hk2
        have hpos : t.lastIndex + k = t.pos := by omega
        rw [hpos] at hk2
        refine ⟨m.len, m.group, hk2, ?_, ?_, ?_, ?_, ?_, ?_, ?_⟩
        · rw [← htok]
        · rw [← htok, ← ht1]
        · rw [← htok, hidx]
        · rw [← htok]
        · rw [← ht1]
          simp [Tokenizer.advanceBy, Tokenizer.advanceTo]
        · rw [← ht1]
          simp [Tokenizer.advanceBy, Tokenizer.advanceTo, hidx]
        · rw [← ht1]
          simp [Tokenizer.advanceBy, Tokenizer.advanceTo]

theorem nextInternal_ne_fuel (t : Tokenizer) : t.nextInternal ≠ .fuel := by
  unfold Tokenizer.nextInternal
  split
  · simp
  · split <;> simp

theorem tokenTypes_table :
    tokenTypes.getD 1 .ANY = .WS ∧ tokenTypes.getD 2 .ANY = .COMMENT ∧
    tokenTypes.getD 3 .ANY = .START_COMMENT ∧ tokenTypes.getD 4 .ANY = .NUM ∧
    tokenTypes.getD 5 .ANY = .OP ∧ tokenTypes.getD 6 .ANY = .BRA ∧
    tokenTypes.getD 7 .ANY = .SUB ∧ tokenTypes.getD 8 .ANY = .SUP ∧
    tokenTypes.getD 9 .ANY = .ID ∧ tokenTypes.getD 10 .ANY = .STR ∧
    tokenTypes.getD 11 .ANY = .EOF := by
  decide

/-- The kind of a token of `nextInternal`: the end-of-input token is the empty match at the end
of the input, every other token has at least one unit and is of one of the ten other kinds. -/
theorem nextInternal_kind (t t1 : Tokenizer) (tok : Token)
    (h : t.nextInternal = .ok (tok, t1)) :
    (tok.toktype = .EOF ∧ t1.pos = t.pos ∧ t.input.drop t.pos = []) ∨
    (tok.toktype ≠ .EOF ∧ tok.toktype ≠ .ANY ∧ t.pos < t1.pos ∧ t.input.drop t.pos ≠ []) := by
  obtain ⟨n, g, hre, -, -, -, htt, hp, -, -⟩ := nextInternal_spec t t1 tok h
  rcases reNextToken_cases _ _ _ hre with ⟨hg, hn, hs⟩ | ⟨hg1, hg2, hn, hs⟩
  · left
    subst hg
    exact ⟨by rw [htt]; rfl, by omega, hs⟩
  · right
    refine ⟨?_, ?_, by omega, hs⟩
    · rw [htt]
      interval_cases g <;> decide
    · rw [htt]
      interval_cases g <;> decide

theorem commentEnd_ge (n : Nat) : ∀ (s : JSString) (i depth e : Nat), s.length ≤ n →
    commentEnd s i depth = some e → i + 2 ≤ e := by
  induction n with
  | zero =>
    intro s i depth e hs h
    cases s with
    | nil => simp [commentEnd] at h
    | cons c s => simp at hs
  | succ n ih =>
    intro s i depth e hs h
    match s with
    | [] => simp [commentEnd] at h
    | [_] => simp [commentEnd] at h
    | c :: d :: s =>
      simp only [List.length_cons] at hs
      simp only [commentEnd] at h
      split at h
      · split at h
        · simp only [Option.some.injEq] at h
          omega
        · have := ih s _ _ _ (by omega) h
          omega
      · split at h
        · have := ih s _ _ _ (by omega) h
          omega
        · have := ih (d :: s) _ _ _ (by simp only [List.length_cons]; omega) h
          omega

/-- What a successful call of `next` returns, whatever the state before it. -/
theorem nextLoop_spec (fuel : Nat) : ∀ (t t1 : Tokenizer) (tok : Token),
    Tokenizer.nextLoop fuel t = .ok (tok, t1) →
    t1.input = t.input ∧ t1.lastIndex = t1.pos ∧ t.pos ≤ tok.start.pos ∧
      tok.end_.pos = t1.pos ∧ tok.raw = substring t.input tok.start.pos tok.end_.pos ∧
      tok.toktype ≠ .WS ∧ tok.toktype ≠ .COMMENT ∧ tok.toktype ≠ .START_COMMENT ∧
      tok.toktype ≠ .ANY ∧
      ((tok.toktype = .EOF ∧ tok.end_.pos = tok.start.pos ∧ t.input.drop tok.start.pos = []) ∨
       (tok.toktype ≠ .EOF ∧ tok.start.pos < tok.end_.pos ∧
          t.input.drop tok.start.pos ≠ [])) := by
  induction fuel with
  | zero =>
    intro t t1 tok h
    simp [Tokenizer.nextLoop] at h
  | succ n ih =>
    intro t t1 tok h
    rw [Tokenizer.nextLoop] at h
    split at h
    · simp at h
    · simp at h
    · rename_i tok0 t0 hn
      obtain ⟨m, g, hre, hstart, hend, hraw, htt, hp, hli, hin⟩ := nextInternal_spec t t0 tok0 hn
      have hkind := nextInternal_kind t t0 tok0 hn
      have hsp : tok0.start.pos = t.pos := by rw [hstart]; rfl
      split at h
      · rename_i hsc
        split at h
        · simp at h
        · rename_i e he
          have hge := commentEnd_ge _ _ _ _ _ (le_refl _) he
          obtain ⟨h1, h2, h3, h4⟩ := ih _ _ _ h
          simp only [Tokenizer.advanceTo] at h1 h3 h4
          simp only [hin] at h4
          exact ⟨by rw [h1, hin], h2, by omega, h4⟩
      · rename_i hsc
        split at h
        · obtain ⟨h1, h2, h3, h4⟩ := ih _ _ _ h
          refine ⟨by rw [h1, hin], h2, by omega, h4.1, ?_⟩
          rw [hin] at h4
          exact h4.2
        · rename_i hws
          simp only [Res.ok.injEq, Prod.mk.injEq] at h
          obtain ⟨e1, e2⟩ := h
          subst e1 e2
          have hep : tok0.end_.pos = t0.pos := by rw [hend]; rfl
          refine ⟨hin, by omega, by omega, hep, ?_, ?_, ?_, hsc, ?_, ?_⟩
          · rw [hraw, hsp, hep, hp]
          · intro hw
            exact hws (Or.inl hw)
          · intro hw
            exact hws (Or.inr hw)
          · rcases hkind with hk | hk
            · rw [hk.1]; decide
            · exact hk.2.1
          · rcases hkind with hk | hk
            · left
              exact ⟨hk.1, by omega, by rw [hsp]; exact hk.2.2⟩
            · right
              exact ⟨hk.1, by omega, by rw [hsp]; exact hk.2.2.2⟩
theorem execFrom_le (s : JSString) (i : Nat) (m : Match) (h : execFrom s i = some m) :
    m.index ≤ i + s.length := by
  induction s generalizing i with
  | nil =>
    simp only [execFrom] at h
    split at h
    · simp only [Option.some.injEq] at h
      subst h
      simp
    · simp at h
  | cons c s ih =>
    simp only [execFrom] at h
    split at h
    · simp only [Option.some.injEq] at h
      subst h
      simp
    · have := ih (i + 1) h
      simp only [List.length_cons]
      omega

theorem nextInternal_le (t t1 : Tokenizer) (tok : Token)
    (h : t.nextInternal = .ok (tok, t1)) : t.pos ≤ t.input.length := by
  unfold Tokenizer.nextInternal at h
  split at h
  · simp at h
  · rename_i m hm
    split at h
    · simp at h
    · rename_i hidx
      simp only [ne_eq, Decidable.not_not] at hidx
      unfold exec at hm
      split at hm
      · simp at hm
      · have := execFrom_le _ _ _ hm
        simp only [List.length_drop] at this
        omega

theorem nextLoop_le (fuel : Nat) : ∀ (t t1 : Tokenizer) (tok : Token),
    Tokenizer.nextLoop fuel t = .ok (tok, t1) → tok.start.pos ≤ t.input.length := by
  induction fuel with
  | zero =>
    intro t t1 tok h
    simp [Tokenizer.nextLoop] at h
  | succ n ih =>
    intro t t1 tok h
    rw [Tokenizer.nextLoop] at h
    split at h
    · simp at h
    · simp at h
    · rename_i tok0 t0 hn
      obtain ⟨m, g, hre, hstart, hend, hraw, htt, hp, hli, hin⟩ := nextInternal_spec t t0 tok0 hn
      have hle := nextInternal_le t t0 tok0 hn
      split at h
      · split at h
        · simp at h
        · have := ih _ _ _ h
          simpa [Tokenizer.advanceTo, hin] using this
      · split at h
        · have := ih _ _ _ h
          rwa [hin] at this
        · simp only [Res.ok.injEq, Prod.mk.injEq] at h
          rw [← h.1, hstart]
          exact hle

/-- The loop of `next` ends within the rounds that the rest of the input allows. -/
theorem nextLoop_ne_fuel (fuel : Nat) : ∀ t : Tokenizer, t.input.length - t.pos < fuel →
    Tokenizer.nextLoop fuel t ≠ .fuel := by
  induction fuel with
  | zero =>
    intro t h
    omega
  | succ n ih =>
    intro t h
    rw [Tokenizer.nextLoop]
    split
    · rename_i hn
      exact absurd hn (nextInternal_ne_fuel t)
    · simp
    · rename_i tok0 t0 hn
      obtain ⟨m, g, hre, hstart, hend, hraw, htt, hp, hli, hin⟩ := nextInternal_spec t t0 tok0 hn
      have hkind := nextInternal_kind t t0 tok0 hn
      have hsp : tok0.start.pos = t.pos := by rw [hstart]; rfl
      have hlen : ∀ s : JSString, t.input.drop t.pos = s → s ≠ [] → t.pos < t.input.length := by
        intro s hs hne
        by_contra hcon
        exact hne (by rw [← hs]; exact List.drop_eq_nil_of_le (by omega))
      split
      · rename_i hsc
        split
        · simp
        · rename_i e he
          have hge := commentEnd_ge _ _ _ _ _ (le_refl _) he
          rcases hkind with hk | hk
          · rw [hk.1] at hsc
            exact absurd hsc (by decide)
          · have := hlen _ rfl hk.2.2.2
            apply ih
            simp only [Tokenizer.advanceTo, hin]
            omega
      · split
        · rcases hkind with hk | hk
          · rename_i hws
            rw [hk.1] at hws
            exact absurd hws (by decide)
          · have := hlen _ rfl hk.2.2.2
            apply ih
            rw [hin]
            omega
        · simp

theorem next_ne_fuel (t : Tokenizer) : t.next ≠ .fuel :=
  nextLoop_ne_fuel _ t (by omega)

/-- A call of `next` at the end of the input returns the end-of-input token and stays there. -/
theorem nextLoop_at_end (fuel : Nat) (t : Tokenizer) (hl : t.lastIndex = t.pos)
    (hp : t.pos = t.input.length) :
    ∃ tok t1, Tokenizer.nextLoop (fuel + 1) t = .ok (tok, t1) ∧ tok.toktype = .EOF ∧
      tok.start.pos = t.pos ∧ tok.end_.pos = t.pos ∧ tok.raw = [] := by
  have hex : exec t.input t.lastIndex = some { index := t.pos, len := 0, group := 11 } := by
    unfold exec
    rw [hl, hp, if_neg (by omega), List.drop_length]
    rfl
  have hni : t.nextInternal = .ok (
      { start := t.curPos, end_ := ({ t with lastIndex := t.pos + 0 }.advanceBy 0).curPos,
        raw := substring t.input t.pos (t.pos + 0),
        text := removeSpaces (substring t.input t.pos (t.pos + 0)), toktype := .EOF },
      { t with lastIndex := t.pos + 0 }.advanceBy 0) := by
    unfold Tokenizer.nextInternal
    rw [hex]
    simp only [ne_eq, not_true_eq_false, if_false]
    rfl
  have hloop : Tokenizer.nextLoop (fuel + 1) t = .ok (
      { start := t.curPos, end_ := ({ t with lastIndex := t.pos + 0 }.advanceBy 0).curPos,
        raw := substring t.input t.pos (t.pos + 0),
        text := removeSpaces (substring t.input t.pos (t.pos + 0)), toktype := .EOF },
      { t with lastIndex := t.pos + 0 }.advanceBy 0) := by
    rw [Tokenizer.nextLoop]
    simp only [hni]
    simp
  exact ⟨_, _, hloop, rfl, rfl,
    by simp [Tokenizer.curPos, Tokenizer.advanceBy, Tokenizer.advanceTo], by simp [substring]⟩
/-! ## The sequence of tokens -/

/-- The invariants of the sequence of tokens.  For every call of `next` that returns a token: the token is not of kind WS, COMMENT or
START_COMMENT; its raw text is `input.substring(start.pos, end.pos)`; it starts at or after the
offset that the tokenizer had reached, which is the end of the token of the previous call; the
tokenizer is then at the end of the token; a token other than the end-of-input token has
`end.pos > start.pos`; and after an end-of-input token the next call returns an end-of-input
token at the same offsets again. -/
theorem token_sequence_invariants :
    (∀ (t t1 : Tokenizer) (tok : Token), t.next = .ok (tok, t1) →
      tok.toktype ≠ .WS ∧ tok.toktype ≠ .COMMENT ∧ tok.toktype ≠ .START_COMMENT ∧
      tok.raw = substring t.input tok.start.pos tok.end_.pos ∧
      t.pos ≤ tok.start.pos ∧ t1.pos = tok.end_.pos ∧ t1.input = t.input ∧
      (tok.toktype ≠ .EOF → tok.start.pos < tok.end_.pos) ∧
      (tok.toktype = .EOF → ∃ tok2 t2, t1.next = .ok (tok2, t2) ∧ tok2.toktype = .EOF ∧
        tok2.start.pos = tok.start.pos ∧ tok2.end_.pos = tok.end_.pos ∧ tok2.raw = tok.raw)) ∧
    (∀ (t t1 t2 : Tokenizer) (tok tok2 : Token), t.next = .ok (tok, t1) →
      t1.next = .ok (tok2, t2) → tok.end_.pos ≤ tok2.start.pos) := by
  have main : ∀ (t t1 : Tokenizer) (tok : Token), t.next = .ok (tok, t1) →
      t1.input = t.input ∧ t1.lastIndex = t1.pos ∧ t.pos ≤ tok.start.pos ∧
      tok.end_.pos = t1.pos ∧ tok.raw = substring t.input tok.start.pos tok.end_.pos ∧
      tok.toktype ≠ .WS ∧ tok.toktype ≠ .COMMENT ∧ tok.toktype ≠ .START_COMMENT ∧
      tok.toktype ≠ .ANY ∧
      ((tok.toktype = .EOF ∧ tok.end_.pos = tok.start.pos ∧ t.input.drop tok.start.pos = []) ∨
       (tok.toktype ≠ .EOF ∧ tok.start.pos < tok.end_.pos ∧
          t.input.drop tok.start.pos ≠ [])) :=
    fun t t1 tok h => nextLoop_spec _ t t1 tok h
  constructor
  · intro t t1 tok h
    obtain ⟨h1, h2, h3, h4, h5, h6, h7, h8, -, h10⟩ := main t t1 tok h
    have hle := nextLoop_le _ t t1 tok h
    refine ⟨h6, h7, h8, h5, h3, h4.symm, h1, ?_, ?_⟩
    · intro hne
      rcases h10 with hk | hk
      · exact absurd hk.1 hne
      · exact hk.2.1
    · intro heof
      rcases h10 with hk | hk
      · have hlen : t.input.length ≤ tok.start.pos := by
          by_contra hcon
          have := List.drop_eq_nil_iff.mp hk.2.2
          omega
        have hp : t1.pos = t1.input.length := by rw [h1]; omega
        obtain ⟨tok2, t2, e1, e2, e3, e4, e5⟩ := nextLoop_at_end t1.input.length t1 h2 hp
        refine ⟨tok2, t2, e1, e2, by omega, by omega, ?_⟩
        rw [e5, h5, hk.2.1]
        simp [substring]
      · exact absurd heof hk.1
  · intro t t1 t2 tok tok2 h h'
    obtain ⟨-, -, -, h4, -⟩ := main t t1 tok h
    obtain ⟨-, -, h3, -⟩ := main t1 t2 tok2 h'
    omega

/-- The input `a /* c */ + 1`: the first call of `next` returns the identifier `a`, the second
the operator `+`, which starts after the comment, and the calls after the number return the
end-of-input token. -/
theorem token_sequence_invariants_witness :
    (((Tokenizer.new (utf16 "a /* c */ + 1")).nth 1).toktype = .OP ∧
      ((Tokenizer.new (utf16 "a /* c */ + 1")).nth 1).raw = utf16 "+" ∧
      ((Tokenizer.new (utf16 "a /* c */ + 1")).nth 0).end_.pos = 1 ∧
      ((Tokenizer.new (utf16 "a /* c */ + 1")).nth 1).start.pos = 10 ∧
      ((Tokenizer.new (utf16 "a /* c */ + 1")).nth 3).toktype = .EOF ∧
      ((Tokenizer.new (utf16 "a /* c */ + 1")).nth 4).toktype = .EOF) ∧
    ((Tokenizer.new (utf16 "a /* c */ + 1")).nth 0).end_.pos ≤
      ((Tokenizer.new (utf16 "a /* c */ + 1")).nth 1).start.pos := by
  have H : (((Tokenizer.new (utf16 "a /* c */ + 1")).nth 1).toktype = .OP ∧
      ((Tokenizer.new (utf16 "a /* c */ + 1")).nth 1).raw = utf16 "+" ∧
      ((Tokenizer.new (utf16 "a /* c */ + 1")).nth 0).end_.pos = 1 ∧
      ((Tokenizer.new (utf16 "a /* c */ + 1")).nth 1).start.pos = 10 ∧
      ((Tokenizer.new (utf16 "a /* c */ + 1")).nth 3).toktype = .EOF ∧
      ((Tokenizer.new (utf16 "a /* c */ + 1")).nth 4).toktype = .EOF) ∧
      (((Tokenizer.new (utf16 "a /* c */ + 1")).after 0).next).isOk = true ∧
      (((Tokenizer.new (utf16 "a /* c */ + 1")).after 1).next).isOk = true := by
    decide!
  obtain ⟨hf, h0, h1⟩ := H
  exact ⟨hf, token_sequence_invariants.2 ((Tokenizer.new (utf16 "a /* c */ + 1")).after 0)
    ((Tokenizer.new (utf16 "a /* c */ + 1")).after (0 + 1))
    ((Tokenizer.new (utf16 "a /* c */ + 1")).after (1 + 1))
    ((Tokenizer.new (utf16 "a /* c */ + 1")).nth 0)
    ((Tokenizer.new (utf16 "a /* c */ + 1")).nth 1)
    (Tokenizer.next_after (Tokenizer.new (utf16 "a /* c */ + 1")) 0 h0)
    (Tokenizer.next_after (Tokenizer.new (utf16 "a /* c */ + 1")) 1 h1)⟩

/-- C12: on the empty input the end-of-input tokens that `next` returns are not at the same
position: the token of the first call starts at row 1, column 0 and ends at row 2, column 0,
and the token of every later call starts and ends at row 2, column 0, all of them at offset 0,
which the rule of rows and columns puts at row 1, column 0.  The entry `input.length` of
`bols` makes the end of the input the beginning of a line, which `advanceTo` passes when the
first token is read.  On the input `a` the end-of-input tokens of the second and of the third
call are equal. -/
theorem eof_token_rows_on_empty_input :
    (Tokenizer.new (utf16 "")).nth 0 =
      { start := { row := 1, col := 0, pos := 0 }, end_ := { row := 2, col := 0, pos := 0 },
        raw := [], text := [], toktype := .EOF } ∧
    (Tokenizer.new (utf16 "")).nth 1 =
      { start := { row := 2, col := 0, pos := 0 }, end_ := { row := 2, col := 0, pos := 0 },
        raw := [], text := [], toktype := .EOF } ∧
    (Tokenizer.new (utf16 "")).nth 2 = (Tokenizer.new (utf16 "")).nth 1 ∧
    ((Tokenizer.new (utf16 "")).nth 1).start ≠ ((Tokenizer.new (utf16 "")).nth 0).start ∧
    posAt (utf16 "") 0 = { row := 1, col := 0, pos := 0 } ∧
    ((Tokenizer.new (utf16 "a")).nth 1).toktype = .EOF ∧
    (Tokenizer.new (utf16 "a")).nth 2 = (Tokenizer.new (utf16 "a")).nth 1 := by
  decide!

/-! ## Inputs of whitespace and comments -/

theorem execFrom_of_match (s : JSString) (i n g : Nat) (h : reNextToken s = some (n, g)) :
    execFrom s i = some { index := i, len := n, group := g } := by
  cases s with
  | nil => simp [execFrom, h]
  | cons c s => simp [execFrom, h]

/-- A call of `nextInternal` where `reNextToken` matches at the current offset. -/
theorem nextInternal_of_match (t : Tokenizer) (n g : Nat) (hl : t.lastIndex = t.pos)
    (hp : t.pos ≤ t.input.length) (h : reNextToken (t.input.drop t.pos) = some (n, g)) :
    t.nextInternal = .ok (
      { start := t.curPos, end_ := ({ t with lastIndex := t.pos + n }.advanceBy n).curPos,
        raw := substring t.input t.pos (t.pos + n),
        text := removeSpaces (substring t.input t.pos (t.pos + n)),
        toktype := tokenTypes.getD g .ANY },
      { t with lastIndex := t.pos + n }.advanceBy n) := by
  have hex : exec t.input t.lastIndex = some { index := t.pos, len := n, group := g } := by
    unfold exec
    rw [hl, if_neg (by omega)]
    exact execFrom_of_match _ _ _ _ h
  unfold Tokenizer.nextInternal
  rw [hex]
  simp only [ne_eq, not_true_eq_false, if_false]

theorem commentMarkers_shift (n : Nat) : ∀ (s : JSString) (i : Nat), s.length ≤ n →
    commentMarkers s i = (commentMarkers s 0).map fun m => (m.1, m.2 + i) := by
  induction n with
  | zero =>
    intro s i hs
    cases s with
    | nil => rfl
    | cons c s => simp at hs
  | succ n ih =>
    intro s i hs
    match s with
    | [] => rfl
    | [_] => rfl
    | c :: d :: s =>
      simp only [List.length_cons] at hs
      simp only [commentMarkers]
      split
      · rw [ih s (i + 2) (by omega), ih s (0 + 2) (by omega)]
        simp only [List.map_cons, List.map_map, List.cons.injEq, Prod.mk.injEq, true_and]
        refine ⟨by omega, List.map_congr_left fun m _ => ?_⟩
        simp only [Function.comp, Prod.mk.injEq, true_and]
        omega
      · split
        · rw [ih s (i + 2) (by omega), ih s (0 + 2) (by omega)]
          simp only [List.map_cons, List.map_map, List.cons.injEq, Prod.mk.injEq, true_and]
          refine ⟨by omega, List.map_congr_left fun m _ => ?_⟩
          simp only [Function.comp, Prod.mk.injEq, true_and]
          omega
        · rw [ih (d :: s) (i + 1) (by simp only [List.length_cons]; omega),
            ih (d :: s) (0 + 1) (by simp only [List.length_cons]; omega)]
          simp only [List.map_map]
          refine List.map_congr_left fun m _ => ?_
          simp only [Function.comp, Prod.mk.injEq, true_and]
          omega

theorem depthScan_shift (i : Nat) : ∀ (ms : List (Bool × Nat)) (depth : Nat),
    depthScan (ms.map fun m => (m.1, m.2 + i)) depth = (depthScan ms depth).map (· + i) := by
  intro ms
  induction ms with
  | nil => intro depth; rfl
  | cons m ms ih =>
    intro depth
    obtain ⟨b, e⟩ := m
    cases b with
    | true => simp only [List.map_cons, depthScan]; exact ih _
    | false =>
      simp only [List.map_cons, depthScan]
      split
      · rfl
      · exact ih _

theorem commentMarkers_le (n : Nat) : ∀ (s : JSString) (i : Nat), s.length ≤ n →
    ∀ m ∈ commentMarkers s i, m.2 ≤ i + s.length := by
  induction n with
  | zero =>
    intro s i hs m hm
    cases s with
    | nil => simp [commentMarkers] at hm
    | cons c s => simp at hs
  | succ n ih =>
    intro s i hs m hm
    match s with
    | [] => simp [commentMarkers] at hm
    | [_] => simp [commentMarkers] at hm
    | c :: d :: s =>
      simp only [List.length_cons] at hs ⊢
      simp only [commentMarkers] at hm
      split at hm
      · rcases List.mem_cons.mp hm with h | h
        · rw [h]; simp only; omega
        · have := ih s _ (by omega) m h
          omega
      · split at hm
        · rcases List.mem_cons.mp hm with h | h
          · rw [h]; simp only; omega
          · have := ih s _ (by omega) m h
            omega
        · have := ih (d :: s) _ (by simp only [List.length_cons]; omega) m hm
          simp only [List.length_cons] at this
          omega

theorem depthScan_mem : ∀ (ms : List (Bool × Nat)) (depth e : Nat),
    depthScan ms depth = some e → ∃ m ∈ ms, m.2 = e := by
  intro ms
  induction ms with
  | nil => intro depth e h; simp [depthScan] at h
  | cons m ms ih =>
    intro depth e h
    obtain ⟨b, e0⟩ := m
    cases b with
    | true =>
      simp only [depthScan] at h
      obtain ⟨m, hm, he⟩ := ih _ _ h
      exact ⟨m, by simp [hm], he⟩
    | false =>
      simp only [depthScan] at h
      split at h
      · simp only [Option.some.injEq] at h
        exact ⟨(false, e0), by simp, h⟩
      · obtain ⟨m, hm, he⟩ := ih _ _ h
        exact ⟨m, by simp [hm], he⟩
theorem reNextToken_whitespace (c : Nat) (r : JSString) (h : isWhitespace c = true) :
    reNextToken (c :: r) = some (spanLen isWhitespace (c :: r), 1) := by
  simp [reNextToken, tokenPatterns, firstMatch, whitespaceToken, spanLen, h]

theorem reNextToken_lineComment (r : JSString) :
    reNextToken (47 :: 47 :: r) =
      some (2 + spanLen (fun c => !isLineTerminator c) r, 2) := by
  have hw : whitespaceToken (47 :: 47 :: r) = none := by
    simp [whitespaceToken, spanLen, isWhitespace]
  simp [reNextToken, tokenPatterns, firstMatch, hw, lineComment]

theorem reNextToken_startComment (r : JSString) :
    reNextToken (47 :: 42 :: r) = some (2, 3) := by
  have hw : whitespaceToken (47 :: 42 :: r) = none := by
    simp [whitespaceToken, spanLen, isWhitespace]
  simp [reNextToken, tokenPatterns, firstMatch, hw, lineComment, startComment]

theorem blankWithin_succ (n : Nat) (s : JSString) :
    blankWithin (n + 1) s =
      match s with
      | [] => true
      | 47 :: 47 :: r => blankWithin n (r.drop (spanLen (fun c => !isLineTerminator c) r))
      | 47 :: 42 :: r =>
        match depthScan (commentMarkers r 0) 1 with
        | some e => blankWithin n (r.drop e)
        | none => false
      | c :: r =>
        if isWhitespace c then blankWithin n ((c :: r).drop (spanLen isWhitespace (c :: r)))
        else false := by
  rfl

/-- On an input that from the current offset on consists of whitespace and comments, `next`
returns the end-of-input token. -/
theorem nextLoop_blank (n : Nat) : ∀ t : Tokenizer, t.lastIndex = t.pos →
    t.pos ≤ t.input.length → blankWithin n (t.input.drop t.pos) = true →
    ∃ tok t1, Tokenizer.nextLoop n t = .ok (tok, t1) ∧ tok.toktype = .EOF := by
  induction n with
  | zero =>
    intro t hl hp hb
    simp [blankWithin] at hb
  | succ n ih =>
    intro t hl hp hb
    rw [blankWithin_succ] at hb
    split at hb
    · rename_i hs
      have hpe : t.pos = t.input.length := by
        have := List.drop_eq_nil_iff.mp hs
        omega
      obtain ⟨tok, t1, h1, h2, -⟩ := nextLoop_at_end n t hl hpe
      exact ⟨tok, t1, h1, h2⟩
    · rename_i r hs
      have hre := reNextToken_lineComment r
      rw [← hs] at hre
      have hni := nextInternal_of_match t _ _ hl hp hre
      have hlen : 2 + spanLen (fun c => !isLineTerminator c) r ≤ t.input.length - t.pos := by
        have h1 := spanLen_le (fun c => !isLineTerminator c) r
        have h2 := congrArg List.length hs
        simp only [List.length_drop, List.length_cons] at h2
        omega
      rw [Tokenizer.nextLoop]
      simp only [hni]
      rw [if_neg (by decide), if_pos (by decide)]
      apply ih
      · simp [Tokenizer.advanceBy, Tokenizer.advanceTo]
      · simp only [Tokenizer.advanceBy, Tokenizer.advanceTo]
        omega
      · simp only [Tokenizer.advanceBy, Tokenizer.advanceTo]
        rw [← List.drop_drop, hs, Nat.add_comm 2]
        exact hb
    · rename_i r hs
      split at hb
      · rename_i e he
        have hre := reNextToken_startComment r
        rw [← hs] at hre
        have hni := nextInternal_of_match t _ _ hl hp hre
        have hr : t.input.drop (t.pos + 2) = r := by
          rw [← List.drop_drop, hs]
          rfl
        have hce : commentEnd (t.input.drop (t.pos + 2)) (t.pos + 2) 1 =
            some (e + (t.pos + 2)) := by
          rw [hr, commentEnd_eq_depthScan _ _ _ _ (le_refl _),
            commentMarkers_shift _ _ _ (le_refl _), depthScan_shift, he]
          rfl
        have hele : e ≤ r.length := by
          obtain ⟨m, hm, hme⟩ := depthScan_mem _ _ _ he
          have := commentMarkers_le _ _ _ (le_refl _) m hm
          omega
        have hrl : r.length + (t.pos + 2) = t.input.length := by
          have h2 := congrArg List.length hr
          simp only [List.length_drop] at h2
          have h3 := congrArg List.length hs
          simp only [List.length_drop, List.length_cons] at h3
          omega
        rw [Tokenizer.nextLoop]
        simp only [hni]
        rw [if_pos (by decide)]
        simp only [Tokenizer.advanceBy, Tokenizer.advanceTo, Tokenizer.curPos, hce]
        apply ih
        · rfl
        · simp only
          omega
        · simp only
          rw [Nat.add_comm e, ← List.drop_drop, hr]
          exact hb
      · simp at hb
    · rename_i c r hn1 hn2 hs
      split at hb
      · rename_i hc
        have hre := reNextToken_whitespace c r hc
        rw [← hs] at hre
        have hni := nextInternal_of_match t _ _ hl hp hre
        have hlen : spanLen isWhitespace (t.input.drop t.pos) ≤ t.input.length - t.pos := by
          have h1 := spanLen_le isWhitespace (t.input.drop t.pos)
          simpa using h1
        rw [Tokenizer.nextLoop]
        simp only [hni]
        rw [if_neg (by decide), if_pos (by decide)]
        apply ih
        · simp [Tokenizer.advanceBy, Tokenizer.advanceTo]
        · simp only [Tokenizer.advanceBy, Tokenizer.advanceTo]
          omega
        · simp only [Tokenizer.advanceBy, Tokenizer.advanceTo]
          rw [← List.drop_drop, hs]
          exact hb
      · simp at hb

/-- C2 (amended): for every input that consists only of spaces, tabs, newlines (the class
`[ \t\n]` of `whitespaceToken`) and comments, the empty input included, `parse` returns the node
`cvoid`, of ctype void. -/
theorem blank_input_is_void (code : JSString) (h : isBlank code = true) :
    parse code = some (.node cvoid) ∧ cvoid = .obj { ctype := some "void" } [] [] none := by
  refine ⟨?_, rfl⟩
  obtain ⟨tok, t1, h1, h2⟩ := nextLoop_blank (code.length + 1) (Tokenizer.new code) rfl
    (Nat.zero_le _) h
  have hn : (Tokenizer.new code).next = .ok (tok, t1) := h1
  have hf : finishRec [] tok = .ok { expr := .null, closedBy := tok } := by
    simp [finishRec, padNull, applyLoop]
  have hp := parseLoop_EOF code.length (Tokenizer.new code) t1 none [] tok _ hn h2 hf
  simp [parse, parseWith, parseRec, hp, h2, postprocess]

/-- The empty input, and an input of spaces, a newline, a single-line comment and a nested
multi-line comment. -/
theorem blank_input_is_void_witness :
    (isBlank (utf16 "") = true ∧ parse (utf16 "") = some (.node cvoid)) ∧
    (isBlank (utf16 "  // c\n\t/* a /* b */ */ ") = true ∧
      parse (utf16 "  // c\n\t/* a /* b */ */ ") = some (.node cvoid)) ∧
    isBlank (utf16 " /* a") = false ∧ isBlank (utf16 " a ") = false :=
  ⟨⟨by decide, (blank_input_is_void (utf16 "") (by decide)).1⟩,
    ⟨by decide, (blank_input_is_void (utf16 "  // c\n\t/* a /* b */ */ ") (by decide)).1⟩,
    by decide, by decide⟩

/-- The inputs of one carriage return, of a space, a carriage return and a newline, of one form
feed and of one no-break space consist only of whitespace, and `parse` returns an error node for
them: `whitespaceToken` is `[ \t\n]+`, and no other pattern of `reNextToken` matches these
units. -/
theorem blank_input_is_void_counterexample :
    parse (utf16 "\r") =
      some (.error (ParseError (utf16 "Invalid token") (some { row := 1, col := 0, pos := 0 })
        (some (utf16 "\r")))) ∧
    ParseOutput.sketch (parse (utf16 "\r")) = "error: Invalid token" ∧
    ParseOutput.sketch (parse (utf16 " \r\n")) = "error: Invalid token" ∧
    ParseOutput.sketch (parse [12]) = "error: Invalid token" ∧
    ParseOutput.sketch (parse [160]) = "error: Invalid token" ∧
    isBlank (utf16 "\r") = false ∧ isWhitespace 13 = false ∧ isWhitespace 12 = false ∧
    isWhitespace 160 = false := by
  refine ⟨parse_eq_error _ _ (by decide!), by decide!, by decide!, by decide!, by decide!,
    by decide!, by decide!, by decide!, by decide!⟩

/-! ## An operator before an identifier -/

theorem specialUnits_not_start : ∀ c ∈ specialUnits, isIdentifierStart c = false := by
  decide!

theorem special_table :
    (∀ u ∈ operatorSymbols, ∀ c ∈ u, c ∈ specialUnits) ∧
    (∀ c ∈ brackets, c ∈ specialUnits) ∧
    (∀ c ∈ supDigit ++ utf16 "⁺⁻" ++ subDigit ++ utf16 "₊₋", c ∈ specialUnits) ∧
    (∀ u ∈ opTable.operators.map Prod.fst, operatorHead u = true ∧
      anyOfGroup operatorSymbols u = some u.length ∧ removeSpaces u = u) := by
  decide!

theorem not_special (c : Nat) (h : isIdentifierStart c = true) : c ∉ specialUnits := by
  intro hm
  have := specialUnits_not_start c hm
  rw [h] at this
  exact absurd this (by decide)

theorem not_special_class (c : Nat) (h : c ∉ specialUnits) :
    isWhitespace c = false ∧ isDigit c = false ∧ isInTokenWhitespace c = false ∧ c ≠ 46 ∧
      c ≠ 47 ∧ c ≠ 42 ∧ c ≠ 34 := by
  have hm : ∀ x : Nat, x ∈ specialUnits → c ≠ x := by
    intro x hx hc
    exact h (hc ▸ hx)
  have h47 := hm 47 (by decide)
  have h42 := hm 42 (by decide)
  have h46 := hm 46 (by decide)
  have h34 := hm 34 (by decide)
  have h32 := hm 32 (by decide)
  have h9 := hm 9 (by decide)
  have h10 := hm 10 (by decide)
  have h48 := hm 48 (by decide)
  have h49 := hm 49 (by decide)
  have h50 := hm 50 (by decide)
  have h51 := hm 51 (by decide)
  have h52 := hm 52 (by decide)
  have h53 := hm 53 (by decide)
  have h54 := hm 54 (by decide)
  have h55 := hm 55 (by decide)
  have h56 := hm 56 (by decide)
  have h57 := hm 57 (by decide)
  refine ⟨?_, ?_, ?_, h46, h47, h42, h34⟩
  · simp [isWhitespace, h32, h9, h10]
  · simp only [isDigit, Bool.and_eq_false_imp, decide_eq_true_eq, decide_eq_false_iff_not]
    omega
  · simp [isInTokenWhitespace, h32, h9]

theorem isPrefixOf_append_cons (u s r : JSString) (c : Nat) (h : c ∉ u) :
    u.isPrefixOf (s ++ c :: r) = u.isPrefixOf s := by
  induction u generalizing s with
  | nil => simp
  | cons x u ih =>
    have hx : x ≠ c := fun e => h (by simp [e])
    have hu : c ∉ u := fun e => h (by simp [e])
    cases s with
    | nil => simp [List.isPrefixOf, hx]
    | cons y s => simp [List.isPrefixOf, ih s hu]

theorem anyOfGroup_append_cons (lst : List JSString) (s r : JSString) (c : Nat)
    (h : ∀ u ∈ lst, c ∉ u) : anyOfGroup lst (s ++ c :: r) = anyOfGroup lst s := by
  have hf : lst.find? (fun sym => sym.isPrefixOf (s ++ c :: r)) =
      lst.find? (fun sym => sym.isPrefixOf s) := by
    induction lst with
    | nil => rfl
    | cons u lst ih =>
      simp only [List.find?, isPrefixOf_append_cons u s r c (h u (by simp))]
      rw [ih (fun v hv => h v (by simp [hv]))]
  unfold anyOfGroup
  rw [hf]

theorem anyOfGroup_none (lst : List JSString) (c : Nat) (r : JSString)
    (h : ∀ u ∈ lst, u ≠ [] ∧ c ∉ u) : anyOfGroup lst (c :: r) = none := by
  have hf : lst.find? (fun sym => sym.isPrefixOf (c :: r)) = none := by
    rw [List.find?_eq_none]
    intro u hu
    obtain ⟨hne, hc⟩ := h u hu
    cases u with
    | nil => exact absurd rfl hne
    | cons x u =>
      have hx : x ≠ c := fun e => hc (by simp [e])
      simp [List.isPrefixOf, hx]
  unfold anyOfGroup
  rw [hf]

theorem spaceSeq_stop (p : Nat → Bool) (c : Nat) (r : JSString) (k : Nat)
    (h1 : isInTokenWhitespace c = false) (h2 : p c = false) : spaceSeq p (c :: r) k = 0 := by
  simp [spaceSeq, h1, h2]

/-- An operator symbol directly before an identifier is read as that operator token. -/
theorem reNextToken_operator_identifier (s r : JSString) (c : Nat)
    (hs : s ∈ opTable.operators.map Prod.fst) (hc : c ∉ specialUnits) :
    reNextToken (s ++ c :: r) = some (s.length, 5) := by
  obtain ⟨h1, -, -, h4⟩ := special_table
  obtain ⟨hhead, hany, -⟩ := h4 s hs
  obtain ⟨c1, c2, c3, c4, c5, c6, -⟩ := not_special_class c hc
  have hop : anyOfGroup operatorSymbols (s ++ c :: r) = some s.length := by
    rw [anyOfGroup_append_cons _ _ _ _ (fun u hu hcu => hc (h1 u hu c hcu)), hany]
  have hpre : whitespaceToken (s ++ c :: r) = none ∧ lineComment (s ++ c :: r) = none ∧
      startComment (s ++ c :: r) = none ∧ reNumber (s ++ c :: r) = none := by
    match s, hhead with
    | [x], hh =>
      simp only [operatorHead, Bool.and_eq_true, Bool.not_eq_true'] at hh
      refine ⟨?_, ?_, ?_, ?_⟩
      · simp [whitespaceToken, spanLen, hh.1]
      · simp only [List.singleton_append, lineComment]
        split
        · rename_i heq
          simp only [List.cons.injEq] at heq
          exact absurd heq.2.1 c5
        · rfl
      · simp only [List.singleton_append, startComment]
        split
        · rename_i heq
          simp only [List.cons.injEq] at heq
          exact absurd heq.2.1 c6
        · rfl
      · simp [reNumber, hh.2, spaceSeq_stop isDigit c r 0 c3 c2]
    | x :: y :: s', hh =>
      simp only [operatorHead, Bool.and_eq_true, Bool.not_eq_true', Bool.and_eq_false_imp,
        Bool.or_eq_false_iff, decide_eq_true_eq, decide_eq_false_iff_not] at hh
      obtain ⟨⟨⟨hw, hd⟩, hcm⟩, hnum⟩ := hh
      refine ⟨?_, ?_, ?_, ?_⟩
      · simp [whitespaceToken, spanLen, hw]
      · simp only [List.cons_append, lineComment]
        split
        · rename_i heq
          simp only [List.cons.injEq] at heq
          exact absurd heq.2.1 (hcm heq.1).1
        · rfl
      · simp only [List.cons_append, startComment]
        split
        · rename_i heq
          simp only [List.cons.injEq] at heq
          exact absurd heq.2.1 (hcm heq.1).2
        · rfl
      · simp only [List.cons_append, reNumber, hd, Bool.false_eq_true, if_false]
        split
        · rename_i h46
          have := hnum h46
          simp [spaceSeq_stop isDigit y (s' ++ c :: r) 0 this.1 this.2]
        · rfl
  simp [reNextToken, tokenPatterns, firstMatch, hpre.1, hpre.2.1, hpre.2.2.1, hpre.2.2.2, hop]
theorem reIdentifier_start (c : Nat) (r : JSString) (n : Nat)
    (h : reIdentifier (c :: r) = some n) : isIdentifierStart c = true := by
  simp only [reIdentifier] at h
  unfold isIdentifierStart
  split at h
  · rename_i h35
    simp [h35]
  · split at h
    · rename_i h39
      simp [h39]
    · split at h
      · simp at h
      · rename_i hu
        cases r with
        | nil =>
          simp only [unicodeLetters] at hu
          by_cases hb : isBmpLetter c = true
          · simp [hb]
          · simp [hb] at hu
        | cons d r =>
          simp only [unicodeLetters] at hu
          by_cases hb : isBmpLetter c = true
          · simp [hb]
          · by_cases ha : isAstralLetter c d = true
            · simp only [isAstralLetter, Bool.or_eq_true, List.any_eq_true, Bool.and_eq_true,
                decide_eq_true_eq] at ha
              rcases ha with ⟨a, ha1, ha2, -⟩ | ⟨⟨ha1, -⟩, -⟩
              · have : astralLetters.any (fun a => decide (a.1 = c)) = true := by
                  simp only [List.any_eq_true, decide_eq_true_eq]
                  exact ⟨a, ha1, ha2⟩
                simp [this]
              · simp [ha1]
            · simp [hb, ha] at hu

/-- An identifier is read as an identifier token. -/
theorem reNextToken_identifier (c : Nat) (r : JSString) (n : Nat)
    (h : reIdentifier (c :: r) = some n) : reNextToken (c :: r) = some (n, 9) := by
  have hc := not_special c (reIdentifier_start c r n h)
  obtain ⟨h1, h2, h3, -⟩ := special_table
  obtain ⟨c1, c2, c3, c4, c5, c6, -⟩ := not_special_class c hc
  have hw : whitespaceToken (c :: r) = none := by simp [whitespaceToken, spanLen, c1]
  have hl : lineComment (c :: r) = none := by
    unfold lineComment
    split
    · rename_i heq
      simp only [List.cons.injEq] at heq
      exact absurd heq.1 c5
    · rfl
  have hsc : startComment (c :: r) = none := by
    unfold startComment
    split
    · rename_i heq
      simp only [List.cons.injEq] at heq
      exact absurd heq.1 c5
    · rfl
  have hn : reNumber (c :: r) = none := by simp [reNumber, c2, c4]
  have hop : anyOfGroup operatorSymbols (c :: r) = none :=
    anyOfGroup_none _ _ _ fun u hu => ⟨operatorSymbols_ne_nil u hu, fun hcu => hc (h1 u hu c hcu)⟩
  have hbr : anyOfGroup (brackets.map fun c => [c]) (c :: r) = none := by
    apply anyOfGroup_none
    intro u hu
    simp only [List.mem_map] at hu
    obtain ⟨b, hb, rfl⟩ := hu
    refine ⟨by simp, fun hcb => hc (h2 c ?_)⟩
    simp only [List.mem_singleton] at hcb
    rw [hcb]
    exact hb
  have hscript : ∀ sign digit : JSString, (∀ x ∈ digit ++ sign, x ∈ specialUnits) →
      scriptNum sign digit (c :: r) = none := by
    intro sign digit hsd
    have hd : c ∉ digit := fun hm => hc (hsd c (by simp [hm]))
    have hs : c ∉ sign := fun hm => hc (hsd c (by simp [hm]))
    simp [scriptNum, hd, hs]
  have hsub : subNum (c :: r) = none :=
    hscript _ _ fun x hx => h3 x (by
      simp only [List.mem_append] at hx ⊢
      tauto)
  have hsup : supNum (c :: r) = none :=
    hscript _ _ fun x hx => h3 x (by
      simp only [List.mem_append] at hx ⊢
      tauto)
  simp [reNextToken, tokenPatterns, firstMatch, hw, hl, hsc, hn, hop, hbr, hsub, hsup, h]
/-- A call of `next` where `reNextToken` matches a token that is neither whitespace nor a
comment at the current offset. -/
theorem next_of_match (t : Tokenizer) (n g : Nat) (hl : t.lastIndex = t.pos)
    (hp : t.pos ≤ t.input.length) (h : reNextToken (t.input.drop t.pos) = some (n, g))
    (hg1 : 4 ≤ g) (hg2 : g ≤ 11) :
    t.next = .ok (
      { start := t.curPos, end_ := ({ t with lastIndex := t.pos + n }.advanceBy n).curPos,
        raw := substring t.input t.pos (t.pos + n),
        text := removeSpaces (substring t.input t.pos (t.pos + n)),
        toktype := tokenTypes.getD g .ANY },
      { t with lastIndex := t.pos + n }.advanceBy n) := by
  have hni := nextInternal_of_match t n g hl hp h
  have hk : tokenTypes.getD g .ANY ≠ .START_COMMENT ∧ tokenTypes.getD g .ANY ≠ .WS ∧
      tokenTypes.getD g .ANY ≠ .COMMENT := by
    interval_cases g <;> decide
  unfold Tokenizer.next
  rw [Tokenizer.nextLoop]
  simp only [hni]
  rw [if_neg hk.1, if_neg (not_or.mpr ⟨hk.2.1, hk.2.2⟩)]

theorem caseOP_nil (tok : Token) (d : OpDescr) (hd : operators tok.text = some d) :
    caseOP tok [] = .ok [.null, pendingOperator tok d] := by
  simp [caseOP, hd, mergesWithDefine, padNull, applyWhileLe, applyLoop, pendingOperator,
    Token.toFields]

theorem applyOperator_prefix_refused (rest : List Node) (p : Token) (dp : OpDescr)
    (y : Fields) (ya : List Node) (ym : List (JSString × Node)) (yo : Option Node)
    (hp : dp.prefixOk = false) :
    applyOperator (rest ++ [.null, pendingOperator p dp, .obj y ya ym yo]) =
      .throw (ParseError (utf16 "Operator may not be used prefix") (some p.start)
        (some p.text)) := by
  simp [applyOperator, pendingOperator, Node.truthy, hp, Token.toFields, Res.bind]

/-- The statement of `next_of_match` without the state in full. -/
theorem next_of_match_ex (t : Tokenizer) (n g : Nat) (hl : t.lastIndex = t.pos)
    (hp : t.pos ≤ t.input.length) (h : reNextToken (t.input.drop t.pos) = some (n, g))
    (hg1 : 4 ≤ g) (hg2 : g ≤ 11) :
    ∃ tok t1, t.next = .ok (tok, t1) ∧ tok.start = t.curPos ∧
      tok.text = removeSpaces (substring t.input t.pos (t.pos + n)) ∧
      tok.toktype = tokenTypes.getD g .ANY ∧
      t1.pos = t.pos + n ∧ t1.lastIndex = t1.pos ∧ t1.input = t.input :=
  ⟨_, _, next_of_match t n g hl hp h hg1 hg2, rfl, rfl, rfl,
    by simp [Tokenizer.advanceBy, Tokenizer.advanceTo],
    by simp [Tokenizer.advanceBy, Tokenizer.advanceTo],
    by simp [Tokenizer.advanceBy, Tokenizer.advanceTo]⟩

/-- The run of `parseRec` on an operator that does not permit prefix use, an identifier and the
end of the input. -/
theorem parseRec_prefix_refused (fuel : Nat) (t0 t1 t2 t3 : Tokenizer)
    (closing : Option JSString) (p a eof : Token) (d : OpDescr)
    (hp : p.toktype = .OP) (ha : a.toktype = .ID) (he : eof.toktype = .EOF)
    (hd : operators p.text = some d) (hpre : d.prefixOk = false)
    (h0 : t0.next = .ok (p, t1)) (h1 : t1.next = .ok (a, t2)) (h2 : t2.next = .ok (eof, t3)) :
    parseRec (fuel + 3) t0 closing =
      .throw (ParseError (utf16 "Operator may not be used prefix") (some p.start)
        (some p.text)) := by
  have hf := applyOperator_prefix_refused [] p d
    { a.toFields with ctype := some "variable", name := some a.text } [] [] none hpre
  simp only [List.nil_append] at hf
  rw [parseRec, parseLoop_OP _ _ _ _ _ _ _ h0 hp (caseOP_nil _ d hd),
    parseLoop_ID _ _ _ _ _ _ h1 ha (by simp)]
  simp only [List.cons_append, List.nil_append, variableNode]
  rw [parseLoop]
  simp only [h2, he]
  simp [finishRec, padNull, applyLoop, hf]

/-- C5: for every registered operator symbol `s` whose descriptor does not permit prefix use and
every identifier `a`, `parse` of `s` followed by `a` is the error 'Operator may not be used
prefix', located at the operator, row 1, column 0; the symbols that permit prefix use are
`√`, `+`, `-`, `−`, `!`, `¬`, `;` and `,`. -/
theorem prefix_use_refused (s a : JSString) (d : OpDescr) (hd : operators s = some d)
    (hp : d.prefixOk = false) (ha : reIdentifier a = some a.length) :
    parse (s ++ a) = some (.error (ParseError (utf16 "Operator may not be used prefix")
      (some { row := 1, col := 0, pos := 0 }) (some s))) ∧
    (opTable.operators.map Prod.fst).filter (fun sym =>
      (operators sym).any fun e => e.prefixOk) =
      [utf16 "√", utf16 "+", utf16 "-", utf16 "−", utf16 "!", utf16 "¬", utf16 ";",
        utf16 ","] := by
  refine ⟨?_, by decide!⟩
  have hs := operators_mem s d hd
  obtain ⟨-, -, -, h4⟩ := special_table
  obtain ⟨hhead, -, hrs⟩ := h4 s hs
  match a, ha with
  | [], ha => simp [reIdentifier] at ha
  | c :: r, ha =>
    have hc := not_special c (reIdentifier_start c r _ ha)
    have hsl : 0 < s.length := by
      cases s with
      | nil => simp [operatorHead] at hhead
      | cons x s => simp
    -- the operator token
    obtain ⟨p, t1, h0, hps, hpt, hpk, hp1, hl1, hi1⟩ :=
      next_of_match_ex (Tokenizer.new (s ++ c :: r)) s.length 5 rfl (Nat.zero_le _)
        (reNextToken_operator_identifier s r c hs hc) (by omega) (by omega)
    have hptext : p.text = s := by
      rw [hpt]
      simp [Tokenizer.new, substring, hrs]
    have hpos1 : t1.pos = s.length := by
      rw [hp1]
      simp [Tokenizer.new]
    have hin1 : t1.input = s ++ c :: r := hi1
    -- the identifier token
    obtain ⟨x, t2, h1, -, -, hxk, hp2, hl2, hi2⟩ :=
      next_of_match_ex t1 (c :: r).length 9 hl1 (by rw [hpos1, hin1]; simp)
        (by rw [hpos1, hin1, List.drop_left]; exact reNextToken_identifier c r _ ha)
        (by omega) (by omega)
    -- the end of the input
    obtain ⟨eof, t3, h2, he, -⟩ := nextLoop_at_end (s ++ c :: r).length t2 hl2
      (by rw [hp2, hi2, hpos1, hin1]; simp)
    have h2' : t2.next = .ok (eof, t3) := by
      unfold Tokenizer.next
      rw [hi2, hin1]
      exact h2
    obtain ⟨k, hk⟩ : ∃ k, (s ++ c :: r).length + 1 = k + 3 := by
      refine ⟨(s ++ c :: r).length - 2, ?_⟩
      simp only [List.length_append, List.length_cons]
      omega
    have hpar := parseRec_prefix_refused k (Tokenizer.new (s ++ c :: r)) t1 t2 t3 none p x eof d
      (by rw [hpk]; rfl) (by rw [hxk]; rfl) he (by rw [hptext]; exact hd) hp h0 h1 h2'
    have hstart : p.start = { row := 1, col := 0, pos := 0 } := by
      rw [hps]
      rfl
    rw [hstart, hptext] at hpar
    simp only [parse, parseWith, hk, hpar]

/-- The input `*x`, and `:=_abc`, whose operator is the longest symbol that the input starts
with. -/
theorem prefix_use_refused_witness :
    (reIdentifier (utf16 "x") = some (utf16 "x").length ∧
      parse (utf16 "*" ++ utf16 "x") = some (.error (ParseError
        (utf16 "Operator may not be used prefix") (some { row := 1, col := 0, pos := 0 })
        (some (utf16 "*"))))) ∧
    parse (utf16 ":=_" ++ utf16 "abc") = some (.error (ParseError
      (utf16 "Operator may not be used prefix") (some { row := 1, col := 0, pos := 0 })
      (some (utf16 ":=_")))) ∧
    ParseOutput.sketch (parse (utf16 "-x")) = "(infix - (void) x)" :=
  ⟨⟨by decide!,
      (prefix_use_refused (utf16 "*") (utf16 "x")
        ⟨"mul", [42], [[42], [8290], [8901], [183]], false, 6, false, false, true, false⟩
        (by decide!) rfl (by decide!)).1⟩,
    (prefix_use_refused (utf16 ":=_") (utf16 "abc")
      ⟨"undefine", [58, 61, 95], [[58, 61, 95]], true, 20, false, true, false, false⟩
      (by decide!) rfl (by decide!)).1,
    by decide!⟩
/-! ## Runs that do not use up their fuel -/

theorem Res.bind_ne_fuel {α β : Type} (r : Res α) (f : α → Res β) (h : r ≠ .fuel)
    (hf : ∀ a, f a ≠ .fuel) : r.bind f ≠ .fuel := by
  cases r with
  | ok a => exact hf a
  | throw e => simp
  | fuel => exact absurd rfl h

theorem fixity_ne_fuel (op : Option OpDescr) (allowed : OpDescr → Bool) (e : Err) :
    (match op with
      | none => Res.throw Err.typeError
      | some d => if allowed d then Res.ok () else Res.throw e) ≠ .fuel := by
  cases op with
  | none => simp
  | some d => by_cases h : allowed d = true <;> simp [h]

theorem applyOperator_ne_fuel (seq : List Node) : applyOperator seq ≠ .fuel := by
  unfold applyOperator
  split
  · rename_i rhs op a omodifs oobj lhs rest hrev
    apply Res.bind_ne_fuel
    · dsimp only
      split
      · apply Res.bind_ne_fuel
        · split
          · split <;> simp
          · simp
        · intro _
          split
          · exact fixity_ne_fuel _ _ _
          · exact fixity_ne_fuel _ _ _
      · split
        · exact fixity_ne_fuel _ _ _
        · exact fixity_ne_fuel _ _ _
    · intro _
      split <;> simp
  · simp

theorem pendingLe_ne_fuel (prec : Nat) (seq : List Node) : pendingLe prec seq ≠ .fuel := by
  unfold pendingLe
  split
  · split <;> simp
  · simp

/-- A reduction loop ends within as many rounds as its sequence has elements. -/
theorem applyLoop_ne_fuel (cond : List Node → Res Bool) (hc : ∀ s, cond s ≠ .fuel)
    (fuel : Nat) : ∀ seq : List Node, seq.length ≤ 2 * fuel + 2 →
    applyLoop cond fuel seq ≠ .fuel := by
  induction fuel with
  | zero =>
    intro seq hl
    rw [applyLoop_zero, if_pos (by omega)]
    simp
  | succ n ih =>
    intro seq hl
    rw [applyLoop_succ]
    split
    · simp
    · split
      · rename_i h
        exact absurd h (hc seq)
      · simp
      · simp
      · split
        · rename_i h
          exact absurd h (applyOperator_ne_fuel seq)
        · simp
        · rename_i seq1 h
          have := applyOperator_length _ _ h
          exact ih seq1 (by omega)

theorem applyWhileLe_ne_fuel (prec : Nat) (seq : List Node) :
    applyWhileLe prec seq ≠ .fuel :=
  applyLoop_ne_fuel _ (pendingLe_ne_fuel prec) _ _ (by omega)

theorem mergesWithDefine_ne_fuel (op : OpDescr) (seq : List Node) :
    mergesWithDefine op seq ≠ .fuel := by
  unfold mergesWithDefine
  split
  · split
    · split
      · split <;> simp
      · simp
    · simp
  · simp

theorem caseOP_ne_fuel (tok : Token) (seq : List Node) : caseOP tok seq ≠ .fuel := by
  unfold caseOP
  split
  · simp
  · apply Res.bind_ne_fuel _ _ (mergesWithDefine_ne_fuel _ _)
    intro merge
    apply Res.bind_ne_fuel
    · split
      · split <;> simp
      · simp
    · intro x
      apply Res.bind_ne_fuel _ _ (applyWhileLe_ne_fuel _ _)
      intro _
      simp

theorem caseValue_ne_fuel (tok : Token) (f : Fields) (seq : List Node) :
    caseValue tok f seq ≠ .fuel := by
  unfold caseValue
  split <;> simp

theorem subsup_ne_fuel (seq : List Node) (tok : Token) (op dict : JSString) :
    subsup seq tok op dict ≠ .fuel := by
  unfold subsup
  split
  · simp
  · apply Res.bind_ne_fuel _ _ (applyWhileLe_ne_fuel _ _)
    intro _
    exact applyOperator_ne_fuel _

theorem markSuperscript_ne_fuel (seq : List Node) : markSuperscript seq ≠ .fuel := by
  unfold markSuperscript
  split <;> simp

theorem bracketValue_ne_fuel (pair : JSString) (lst : List Node) (tok : Token) :
    bracketValue pair lst tok ≠ .fuel := by
  unfold bracketValue
  split
  · split
    · simp
    · split <;> simp
  · split
    · simp
    · split
      · simp
      · split <;> simp

theorem callArguments_ne_fuel : ∀ (lst args : List Node) (modifs : List (JSString × Node)),
    callArguments lst args modifs ≠ .fuel := by
  intro lst
  induction lst with
  | nil => intro args modifs; simp [callArguments]
  | cons e rest ih =>
    intro args modifs
    cases e with
    | null => simp only [callArguments]; exact ih _ _
    | undefined => simp only [callArguments]; exact ih _ _
    | obj f eargs em eo =>
      simp only [callArguments]
      split
      · split
        · split
          · simp
          · exact ih _ _
        · simp
      · exact ih _ _

theorem bracketCall_ne_fuel (pair : JSString) (lst : List Node) (tok : Token)
    (seq : List Node) : bracketCall pair lst tok seq ≠ .fuel := by
  unfold bracketCall
  split
  · simp
  · split
    · split
      · simp
      · apply Res.bind_ne_fuel _ _ (callArguments_ne_fuel _ _ _)
        intro _
        simp
    · simp

theorem finishRec_ne_fuel (seq : List Node) (tok : Token) : finishRec seq tok ≠ .fuel := by
  unfold finishRec
  apply Res.bind_ne_fuel
  · exact applyLoop_ne_fuel _ (fun _ => by simp) _ _ (by omega)
  · intro _
    simp
/-- The loop of `parseRec` ends within the rounds and nested calls that the rest of the input
allows, and leaves the tokenizer on the same input, not before the offset where it was. -/
theorem parseLoop_ne_fuel (fuel : Nat) : ∀ (t : Tokenizer) (closing : Option JSString)
    (seq : List Node), t.input.length - t.pos < fuel →
    parseLoop fuel t closing seq ≠ .fuel ∧
      ∀ res t', parseLoop fuel t closing seq = .ok (res, t') →
        t'.input = t.input ∧ t.pos ≤ t'.pos := by
  induction fuel with
  | zero => intro t closing seq h; omega
  | succ n ih =>
    intro t closing seq h
    rw [parseLoop]
    cases hnx : t.next with
    | fuel => exact absurd hnx (next_ne_fuel t)
    | throw e => simp
    | ok r =>
      obtain ⟨tok, t1⟩ := r
      obtain ⟨h1, h2, h3, h4, h5, h6, h7, h8, h9, h10⟩ := nextLoop_spec _ t t1 tok hnx
      have hlt : tok.toktype ≠ .EOF → t1.input.length - t1.pos < n ∧ t.pos < t1.pos := by
        intro hne
        rcases h10 with hk | hk
        · exact absurd hk.1 hne
        · have hlen : tok.start.pos < t.input.length := by
            by_contra hcon
            exact hk.2.2 (List.drop_eq_nil_of_le (by omega))
          rw [h1]
          omega
      have cont : ∀ (r : Res (List Node)) (tk : Tokenizer) (cl : Option JSString),
          r ≠ .fuel → tk.input = t.input → t.pos ≤ tk.pos →
          tk.input.length - tk.pos < n →
          (match r with
            | .fuel => .fuel
            | .throw e => .throw e
            | .ok seq => parseLoop n tk cl seq) ≠ Res.fuel ∧
          ∀ (res : ParseRecResult) (t' : Tokenizer), (match r with
            | .fuel => Res.fuel
            | .throw e => Res.throw e
            | .ok seq => parseLoop n tk cl seq) = .ok (res, t') →
            t'.input = t.input ∧ t.pos ≤ t'.pos := by
        intro r tk cl hr hi hp hl
        cases r with
        | fuel => exact absurd rfl hr
        | throw e => simp
        | ok s =>
          obtain ⟨i1, i2⟩ := ih tk cl s hl
          refine ⟨i1, fun res t' hh => ?_⟩
          obtain ⟨a, b⟩ := i2 res t' hh
          exact ⟨by rw [a, hi], by omega⟩
      have leave : (match finishRec seq tok with
            | .fuel => .fuel
            | .throw e => .throw e
            | .ok res => .ok (res, t1)) ≠ (Res.fuel : Res (ParseRecResult × Tokenizer)) ∧
          ∀ (res : ParseRecResult) (t' : Tokenizer), (match finishRec seq tok with
            | .fuel => .fuel
            | .throw e => .throw e
            | .ok res => .ok (res, t1)) = (Res.ok (res, t') : Res (ParseRecResult × Tokenizer)) →
            t'.input = t.input ∧ t.pos ≤ t'.pos := by
        cases hf : finishRec seq tok with
        | fuel => exact absurd hf (finishRec_ne_fuel _ _)
        | throw e => simp
        | ok res =>
          simp only [ne_eq, reduceCtorEq, not_false_eq_true, Res.ok.injEq, Prod.mk.injEq,
            true_and, and_imp]
          intro res' t' _ ht
          rw [← ht]
          exact ⟨h1, by omega⟩
      simp only []
      cases htt : tok.toktype
      case EOF => exact leave
      case ANY => exact absurd htt h9
      case WS => exact absurd htt h6
      case COMMENT => exact absurd htt h7
      case START_COMMENT => exact absurd htt h8
      case OP =>
        have hl := hlt (by rw [htt]; decide)
        exact cont _ t1 closing (caseOP_ne_fuel _ _) h1 (by omega) hl.1
      case ID =>
        have hl := hlt (by rw [htt]; decide)
        exact cont _ t1 closing (caseValue_ne_fuel _ _ _) h1 (by omega) hl.1
      case NUM =>
        have hl := hlt (by rw [htt]; decide)
        exact cont _ t1 closing (caseValue_ne_fuel _ _ _) h1 (by omega) hl.1
      case STR =>
        have hl := hlt (by rw [htt]; decide)
        exact cont _ t1 closing (caseValue_ne_fuel _ _ _) h1 (by omega) hl.1
      case SUB =>
        have hl := hlt (by rw [htt]; decide)
        exact cont _ t1 closing (subsup_ne_fuel _ _ _ _) h1 (by omega) hl.1
      case SUP =>
        have hl := hlt (by rw [htt]; decide)
        exact cont _ t1 closing
          (Res.bind_ne_fuel _ _ (subsup_ne_fuel _ _ _ _) (fun _ => markSuperscript_ne_fuel _))
          h1 (by omega) hl.1
      case BRA =>
        have hl := hlt (by rw [htt]; decide)
        simp only []
        split
        · exact leave
        · obtain ⟨j1, j2⟩ := ih t1 (some (charAt brackets (indexOf brackets tok.text + 1))) [] hl.1
          cases hsub : parseLoop n t1 (some (charAt brackets (indexOf brackets tok.text + 1))) []
            with
          | fuel => exact absurd hsub j1
          | throw e => simp
          | ok r2 =>
            obtain ⟨sub, t2⟩ := r2
            obtain ⟨k1, k2⟩ := j2 sub t2 hsub
            simp only []
            split
            · simp
            · refine cont _ t2 closing ?_ (by rw [k1, h1]) (by omega) (by rw [k1]; omega)
              split
              · exact Res.bind_ne_fuel _ _ (bracketValue_ne_fuel _ _ _) (fun _ => by simp)
              · exact bracketCall_ne_fuel _ _ _ _
theorem checkDefineArguments_ne_fuel (exprStart : Option Pos) :
    ∀ args : List Node, checkDefineArguments exprStart args ≠ .fuel := by
  intro args
  induction args with
  | nil => simp [checkDefineArguments]
  | cons a rest ih =>
    simp only [checkDefineArguments]
    apply Res.bind_ne_fuel
    · cases a with
      | null => simp [checkDefineArgument]
      | undefined => simp [checkDefineArgument]
      | obj f x y z =>
        simp only [checkDefineArgument]
        split <;> simp
    · intro _
      exact ih

theorem parentFirst_ne_fuel (f : Fields) (args : List Node) : parentFirst f args ≠ .fuel := by
  unfold parentFirst
  split
  · split
    · split
      · split
        · exact checkDefineArguments_ne_fuel _ _
        · split <;> simp
      · simp
    · split <;> simp
  · simp

theorem parentLast_ne_fuel (f : Fields) (args : List Node) (modifs : List (JSString × Node))
    (o : Option Node) : parentLast f args modifs o ≠ .fuel := by
  unfold parentLast
  split
  · simp
  · split
    · split
      · split <;> simp
      · simp
    · simp

mutual
theorem postprocess_ne_fuel : ∀ n : Node, postprocess n ≠ .fuel
  | .null => by simp [postprocess]
  | .undefined => by simp [postprocess]
  | .obj f args modifs o => by
    have h1 := postprocessArgs_ne_fuel args
    have h2 := postprocessModifs_ne_fuel modifs
    rw [postprocess]
    split
    · rename_i h
      exact absurd h (parentFirst_ne_fuel _ _)
    · simp
    · split
      · rename_i h
        exact absurd h h1
      · simp
      · split
        · rename_i h
          exact absurd h h2
        · simp
        · exact parentLast_ne_fuel _ _ _ _
theorem postprocessArgs_ne_fuel : ∀ l : List Node, postprocessArgs l ≠ .fuel
  | [] => by simp [postprocessArgs]
  | a :: rest => by
    have h1 := postprocess_ne_fuel a
    have h2 := postprocessArgs_ne_fuel rest
    rw [postprocessArgs]
    split
    · rename_i h
      exact absurd h h1
    · simp
    · split
      · rename_i h
        exact absurd h h2
      · simp
      · simp
theorem postprocessModifs_ne_fuel : ∀ l : List (JSString × Node), postprocessModifs l ≠ .fuel
  | [] => by simp [postprocessModifs]
  | (key, a) :: rest => by
    have h1 := postprocess_ne_fuel a
    have h2 := postprocessModifs_ne_fuel rest
    rw [postprocessModifs]
    split
    · rename_i h
      exact absurd h h1
    · simp
    · split
      · rename_i h
        exact absurd h h2
      · simp
      · simp
end

/-- C1: for every input, `parse` returns a value: an error node, of ctype `error`, when the
tokenizer, `parseRec`, the check of the closing token or `postprocess` throws, and otherwise the
tree that `postprocess` returns. -/
theorem parse_returns_a_node (code : JSString) :
    (∃ e, parse code = some (.error e) ∧ (ParseOutput.error e).ctype = some "error" ∧
      (parseRec (code.length + 1) (Tokenizer.new code) none = .throw e ∨
        ∃ res t, parseRec (code.length + 1) (Tokenizer.new code) none = .ok (res, t) ∧
          ((res.closedBy.toktype ≠ .EOF ∧
              e = ParseError (utf16 "Closing bracket never opened.") (some res.closedBy.start)
                (some res.closedBy.text)) ∨
            (res.closedBy.toktype = .EOF ∧ postprocess res.expr = .throw e)))) ∨
    (∃ res t n, parseRec (code.length + 1) (Tokenizer.new code) none = .ok (res, t) ∧
      res.closedBy.toktype = .EOF ∧ postprocess res.expr = .ok n ∧
      parse code = some (.node n)) := by
  have hnf := (parseLoop_ne_fuel (code.length + 1) (Tokenizer.new code) none []
    (by simp [Tokenizer.new])).1
  unfold parse parseWith
  cases hp : parseRec (code.length + 1) (Tokenizer.new code) none with
  | fuel => exact absurd hp hnf
  | throw e => exact Or.inl ⟨e, rfl, rfl, Or.inl rfl⟩
  | ok r =>
    obtain ⟨res, t⟩ := r
    simp only []
    by_cases hc : res.closedBy.toktype = .EOF
    · rw [if_neg (by simp [hc])]
      cases hpp : postprocess res.expr with
      | fuel => exact absurd hpp (postprocess_ne_fuel _)
      | throw e => exact Or.inl ⟨e, rfl, rfl, Or.inr ⟨res, t, rfl, Or.inr ⟨hc, hpp⟩⟩⟩
      | ok n => exact Or.inr ⟨res, t, n, rfl, hc, hpp, rfl⟩
    · rw [if_pos hc]
      exact Or.inl ⟨_, rfl, rfl, Or.inr ⟨res, t, rfl, Or.inl ⟨hc, rfl⟩⟩⟩
/-! ## The trees that `parse` returns -/

theorem allArgs_getD (p : Fields → Bool) (l : List Node) (i : Nat) (h : Node.allArgs p l = true)
    (hi : i < l.length) : (l.getD i .undefined).all p = true := by
  induction l generalizing i with
  | nil => simp at hi
  | cons a rest ih =>
    simp only [Node.allArgs, Bool.and_eq_true] at h
    cases i with
    | zero => simpa using h.1
    | succ j =>
      have := ih j h.2 (by simpa using hi)
      simpa using this

mutual
/-- What `postprocess` makes of an operand of `parseRec`: a tree all of whose nodes satisfy `p`,
for a property `p` that `cvoid`, the field nodes and the other nodes that pass the parent-first
checks have once their transient properties are deleted. -/
theorem postprocess_all (p : Fields → Bool) (h0 : p { ctype := some "void" } = true)
    (h1 : ∀ (f : Fields) (args : List Node), f.rawShape args = true →
      f.ctype ≠ some "paren" → parentFirst f args = .ok () → p (stripTransient f) = true)
    (h2 : ∀ (f : Fields) (key : Option JSString),
      p (stripTransient { f with ctype := some "field", key := key }) = true) :
    ∀ (n r : Node), n.raw = true → postprocess n = .ok r → r.all p = true
  | .null, r, _, h => by
    simp only [postprocess, Res.ok.injEq] at h
    subst h
    simp [cvoid, Node.all, Node.allArgs, Node.allModifs, Node.allObj, h0]
  | .undefined, r, hr, _ => by simp [Node.raw] at hr
  | .obj f args modifs o, r, hr, h => by
    simp only [Node.raw, Bool.and_eq_true, Option.isNone_iff_eq_none] at hr
    obtain ⟨⟨⟨hshape, ho⟩, hargs⟩, hmod⟩ := hr
    rw [postprocess] at h
    split at h
    · simp at h
    · simp at h
    · rename_i u hpf
      split at h
      · simp at h
      · simp at h
      · rename_i args1 ha
        split at h
        · simp at h
        · simp at h
        · rename_i modifs1 hm
          obtain ⟨ia, il⟩ := postprocessArgs_all p h0 h1 h2 args args1 hargs ha
          have im := postprocessModifs_all p h0 h1 h2 modifs modifs1 hmod hm
          unfold parentLast at h
          split at h
          · rename_i hparen
            simp only [Res.ok.injEq] at h
            subst h
            have hlen : args.length = 1 := by
              simp only [Fields.rawShape, hparen] at hshape
              have := hshape
              simp only [Bool.and_eq_true, Bool.or_eq_true, bne_iff_ne, ne_eq,
                not_true_eq_false, false_or, beq_iff_eq] at this
              exact this.2
            exact allArgs_getD p args1 0 ia (by omega)
          · rename_i hnp
            split at h
            · rename_i hdot
              have hlen : args.length = 2 := by
                simp only [Fields.rawShape, hdot.1] at hshape
                have := hshape
                simp only [Bool.and_eq_true, Bool.or_eq_true, bne_iff_ne, ne_eq,
                  not_true_eq_false, false_or, beq_iff_eq] at this
                exact this.1.2
              split at h
              · split at h
                · simp only [Res.ok.injEq] at h
                  subst h
                  simp only [Node.all, h2, ia, im, Node.allObj, Bool.and_self, Bool.true_and]
                  exact allArgs_getD p args1 0 ia (by omega)
                · simp at h
              · simp at h
            · simp only [Res.ok.injEq] at h
              subst h
              subst ho
              have hu : parentFirst f args = .ok () := hpf
              simp [Node.all, h1 f args hshape hnp hu, ia, im, Node.allObj]
/-- What `postprocess` makes of the args of a node. -/
theorem postprocessArgs_all (p : Fields → Bool) (h0 : p { ctype := some "void" } = true)
    (h1 : ∀ (f : Fields) (args : List Node), f.rawShape args = true →
      f.ctype ≠ some "paren" → parentFirst f args = .ok () → p (stripTransient f) = true)
    (h2 : ∀ (f : Fields) (key : Option JSString),
      p (stripTransient { f with ctype := some "field", key := key }) = true) :
    ∀ (l l1 : List Node), Node.rawArgs l = true → postprocessArgs l = .ok l1 →
      Node.allArgs p l1 = true ∧ l1.length = l.length
  | [], l1, _, h => by
    simp only [postprocessArgs, Res.ok.injEq] at h
    subst h
    simp [Node.allArgs]
  | a :: rest, l1, hr, h => by
    simp only [Node.rawArgs, Bool.and_eq_true] at hr
    rw [postprocessArgs] at h
    split at h
    · simp at h
    · simp at h
    · rename_i a1 ha
      split at h
      · simp at h
      · simp at h
      · rename_i rest1 hrest
        simp only [Res.ok.injEq] at h
        subst h
        have i1 := postprocess_all p h0 h1 h2 a a1 hr.1 ha
        obtain ⟨i2, i3⟩ := postprocessArgs_all p h0 h1 h2 rest rest1 hr.2 hrest
        simp [Node.allArgs, i1, i2, i3]
/-- What `postprocess` makes of the modifs of a node. -/
theorem postprocessModifs_all (p : Fields → Bool) (h0 : p { ctype := some "void" } = true)
    (h1 : ∀ (f : Fields) (args : List Node), f.rawShape args = true →
      f.ctype ≠ some "paren" → parentFirst f args = .ok () → p (stripTransient f) = true)
    (h2 : ∀ (f : Fields) (key : Option JSString),
      p (stripTransient { f with ctype := some "field", key := key }) = true) :
    ∀ (l l1 : List (JSString × Node)), Node.rawModifs l = true → postprocessModifs l = .ok l1 →
      Node.allModifs p l1 = true
  | [], l1, _, h => by
    simp only [postprocessModifs, Res.ok.injEq] at h
    subst h
    simp [Node.allModifs]
  | (key, a) :: rest, l1, hr, h => by
    simp only [Node.rawModifs, Bool.and_eq_true] at hr
    rw [postprocessModifs] at h
    split at h
    · simp at h
    · simp at h
    · rename_i a1 ha
      split at h
      · simp at h
      · simp at h
      · rename_i rest1 hrest
        simp only [Res.ok.injEq] at h
        subst h
        have i1 := postprocess_all p h0 h1 h2 a a1 hr.1 ha
        have i2 := postprocessModifs_all p h0 h1 h2 rest rest1 hr.2 hrest
        simp [Node.allModifs, i1, i2]
end

/-! ## The sequence of `parseRec` -/

theorem seqRaw_append_even : ∀ (pre l : List Node), pre.length % 2 = 0 →
    seqRaw (pre ++ l) = (seqRaw pre && seqRaw l)
  | [], l, _ => by simp [seqRaw]
  | [e], l, h => by simp at h
  | e :: q :: pre, l, h => by
    have ih := seqRaw_append_even pre l (by simp only [List.length_cons] at h; omega)
    simp only [List.cons_append, seqRaw, List.append_eq, ih, Bool.and_assoc]

theorem seqRaw_append_odd : ∀ (pre : List Node) (q : Node) (l : List Node),
    pre.length % 2 = 1 → seqRaw (pre ++ q :: l) = (seqRaw pre && q.pending && seqRaw l)
  | [], q, l, h => by simp at h
  | [e], q, l, _ => by simp [seqRaw]
  | e :: q0 :: pre, q, l, h => by
    have ih := seqRaw_append_odd pre q l (by simp only [List.length_cons] at h; omega)
    simp only [List.cons_append, seqRaw, List.append_eq, ih, Bool.and_assoc]

theorem seqRaw_padNull (seq : List Node) (h : seqRaw seq = true) :
    seqRaw (padNull seq) = true := by
  unfold padNull
  split
  · rename_i he
    rw [seqRaw_append_even _ _ he, h]
    simp [seqRaw, Node.raw]
  · exact h

theorem operators_descr_mem (s : JSString) (d : OpDescr) (h : operators s = some d) :
    d ∈ opTable.descrs := by
  unfold operators at h
  split at h
  · simp at h
  · exact List.getElem?_mem h

/-- What a pending operator is. -/
theorem pending_obj (f : Fields) (a : List Node) (m : List (JSString × Node))
    (o : Option Node) (h : Node.pending (.obj f a m o) = true) :
    m = [] ∧ o = none ∧ ∃ d, f.op = some d ∧ d ∈ opTable.descrs ∧
      f.precedence = some (d.precedence + (if d.rassoc then 1 else 0)) := by
  simp only [Node.pending, Bool.and_eq_true, List.isEmpty_iff, Option.isNone_iff_eq_none] at h
  obtain ⟨⟨hm, ho⟩, hp⟩ := h
  refine ⟨hm, ho, ?_⟩
  split at hp
  · rename_i d q hd hq
    simp only [Bool.and_eq_true, decide_eq_true_eq, beq_iff_eq] at hp
    exact ⟨d, hd, hp.1, by rw [hq, hp.2]⟩
  · simp at hp

theorem pending_of (f : Fields) (a : List Node) (d : OpDescr) (hd : d ∈ opTable.descrs)
    (hop : f.op = some d)
    (hp : f.precedence = some (if d.rassoc then d.precedence + 1 else d.precedence)) :
    Node.pending (.obj f a [] none) = true := by
  have : (if d.rassoc then d.precedence + 1 else d.precedence) =
      d.precedence + (if d.rassoc then 1 else 0) := by
    split <;> rfl
  simp [Node.pending, hop, hp, hd, this]

/-- `applyOperator` keeps the sequence of `parseRec` well-formed. -/
theorem applyOperator_raw (seq seq1 : List Node) (hs : seqRaw seq = true)
    (hodd : seq.length % 2 = 1) (h : applyOperator seq = .ok seq1) : seqRaw seq1 = true := by
  unfold applyOperator at h
  split at h
  · rename_i rhs op a omodifs oobj lhs rest hrev
    have hseq : seq = rest.reverse ++ [lhs, .obj op a omodifs oobj, rhs] := by
      have := congrArg List.reverse hrev
      simpa using this
    have hlen : rest.reverse.length % 2 = 0 := by
      have := congrArg List.length hseq
      simp only [List.length_append, List.length_cons, List.length_nil] at this
      omega
    rw [hseq, seqRaw_append_even _ _ hlen] at hs
    simp only [seqRaw, Bool.and_eq_true] at hs
    obtain ⟨hpre, ⟨hl, hpend⟩, hr⟩ := hs
    obtain ⟨hm, ho, -⟩ := pending_obj _ _ _ _ hpend
    obtain ⟨u, -, h2⟩ := Res.bind_eq_ok _ _ _ h
    split at h2
    · simp at h2
    · simp only [Res.ok.injEq] at h2
      subst h2
      subst hm ho
      simp only [List.reverse_cons]
      rw [seqRaw_append_even _ _ hlen, hpre]
      simp [seqRaw, Node.raw, Fields.rawShape, rawCtypes, Node.rawArgs, Node.rawModifs, hl, hr]
  · simp at h

theorem applyLoop_raw (cond : List Node → Res Bool) (fuel : Nat) : ∀ (seq s : List Node),
    seqRaw seq = true → seq.length % 2 = 1 → applyLoop cond fuel seq = .ok s →
    seqRaw s = true := by
  induction fuel with
  | zero =>
    intro seq s hs hodd h
    rw [applyLoop_zero] at h
    split at h
    · simp only [Res.ok.injEq] at h
      rw [← h]; exact hs
    · split at h
      · simp at h
      · simp at h
      · simp only [Res.ok.injEq] at h
        rw [← h]; exact hs
      · simp at h
  | succ n ih =>
    intro seq s hs hodd h
    rw [applyLoop_succ] at h
    split at h
    · simp only [Res.ok.injEq] at h
      rw [← h]; exact hs
    · split at h
      · simp at h
      · simp at h
      · simp only [Res.ok.injEq] at h
        rw [← h]; exact hs
      · split at h
        · simp at h
        · simp at h
        · rename_i seq1 ha
          have hl := applyOperator_length _ _ ha
          exact ih seq1 s (applyOperator_raw _ _ hs hodd ha) (by omega) h

theorem seqRaw_dropLast (seq : List Node) (h : seqRaw seq = true) (hne : seq ≠ [])
    (he : seq.length % 2 = 0) : seqRaw seq.dropLast = true ∧ seq.dropLast.length % 2 = 1 := by
  have hl : seq.dropLast.length % 2 = 1 := by
    have := List.length_pos.mpr hne
    simp only [List.length_dropLast]
    omega
  have hd := List.dropLast_append_getLast hne
  rw [← hd, seqRaw_append_odd _ _ _ hl] at h
  simp only [Bool.and_eq_true] at h
  exact ⟨h.1.1, hl⟩

theorem seqRaw_push_pending (s : List Node) (q : Node) (h : seqRaw s = true)
    (hodd : s.length % 2 = 1) (hq : q.pending = true) : seqRaw (s ++ [q]) = true := by
  rw [seqRaw_append_odd _ _ _ hodd, h, hq]
  rfl

theorem seqRaw_push_operand (s : List Node) (e : Node) (h : seqRaw s = true)
    (he : s.length % 2 = 0) (hr : e.raw = true) : seqRaw (s ++ [e]) = true := by
  rw [seqRaw_append_even _ _ he, h]
  simpa [seqRaw] using hr

theorem applyWhileLe_raw (prec : Nat) (seq s : List Node) (hs : seqRaw seq = true)
    (h : applyWhileLe prec (padNull seq) = .ok s) : seqRaw s = true ∧ s.length % 2 = 1 := by
  unfold applyWhileLe at h
  have hp := padNull_parity seq
  obtain ⟨-, h2, -⟩ := applyLoop_done _ _ _ _ h
  exact ⟨applyLoop_raw _ _ _ _ (seqRaw_padNull _ hs) hp h, by omega⟩

theorem mergesWithDefine_true (op : OpDescr) (seq : List Node)
    (h : mergesWithDefine op seq = .ok true) : seq ≠ [] ∧ seq.length % 2 = 0 := by
  unfold mergesWithDefine at h
  split at h
  · rename_i hc
    simp only [Bool.and_eq_true, bne_iff_ne, ne_eq, beq_iff_eq, decide_eq_true_eq] at hc
    exact ⟨fun e => hc.1.2 (by simp [e]), hc.2⟩
  · simp at h

/-- `case 'OP'` keeps the sequence of `parseRec` well-formed. -/
theorem caseOP_raw (tok : Token) (seq s : List Node) (hs : seqRaw seq = true)
    (h : caseOP tok seq = .ok s) : seqRaw s = true := by
  unfold caseOP at h
  split at h
  · simp at h
  · rename_i op0 hop
    obtain ⟨merge, hm, h2⟩ := Res.bind_eq_ok _ _ _ h
    obtain ⟨x, hx, h3⟩ := Res.bind_eq_ok _ _ _ h2
    obtain ⟨op, text, seq'⟩ := x
    have hseq' : seqRaw seq' = true ∧ op ∈ opTable.descrs := by
      split at hx
      · rename_i hmt
        split at hx
        · simp at hx
        · rename_i opu hu
          simp only [Res.ok.injEq, Prod.mk.injEq] at hx
          rw [← hx.2.2, ← hx.1]
          rw [hmt] at hm
          obtain ⟨hne, he⟩ := mergesWithDefine_true _ _ hm
          exact ⟨(seqRaw_dropLast _ hs hne he).1, operators_descr_mem _ _ hu⟩
      · simp only [Res.ok.injEq, Prod.mk.injEq] at hx
        rw [← hx.2.2, ← hx.1]
        exact ⟨hs, operators_descr_mem _ _ hop⟩
    obtain ⟨s2, hw, h4⟩ := Res.bind_eq_ok _ _ _ h3
    obtain ⟨i1, i2⟩ := applyWhileLe_raw _ _ _ hseq'.1 hw
    simp only [Res.ok.injEq] at h4
    rw [← h4]
    exact seqRaw_push_pending _ _ i1 i2 (pending_of _ _ op hseq'.2 rfl rfl)

theorem caseValue_raw (tok : Token) (f : Fields) (seq s : List Node) (hs : seqRaw seq = true)
    (hf : f.rawShape [] = true) (h : caseValue tok f seq = .ok s) : seqRaw s = true := by
  unfold caseValue at h
  split at h
  · simp at h
  · rename_i hodd
    simp only [Res.ok.injEq] at h
    rw [← h]
    exact seqRaw_push_operand _ _ hs (by omega)
      (by simp [Node.raw, hf, Node.rawArgs, Node.rawModifs])

theorem subsup_raw (seq s : List Node) (tok : Token) (op dict : JSString)
    (hs : seqRaw seq = true) (h : subsup seq tok op dict = .ok s) :
    seqRaw s = true ∧ s.length % 2 = 1 := by
  unfold subsup at h
  split at h
  · simp at h
  · rename_i d hd
    obtain ⟨s2, hw, h2⟩ := Res.bind_eq_ok _ _ _ h
    obtain ⟨i1, i2⟩ := applyWhileLe_raw _ _ _ hs hw
    have hl := applyOperator_length _ _ h2
    simp only [List.length_append, List.length_cons, List.length_nil] at hl
    refine ⟨applyOperator_raw _ _ ?_ ?_ h2, by omega⟩
    · rw [seqRaw_append_odd _ _ _ i2, i1]
      have hmem := operators_descr_mem _ _ hd
      simp [Node.pending, seqRaw, Node.raw, Fields.rawShape, rawCtypes, Node.rawArgs,
        Node.rawModifs, Token.toFields, hmem]
    · simp only [List.length_append, List.length_cons, List.length_nil]
      omega

theorem markSuperscript_raw (seq s : List Node) (hs : seqRaw seq = true)
    (hodd : seq.length % 2 = 1) (h : markSuperscript seq = .ok s) : seqRaw s = true := by
  unfold markSuperscript at h
  split at h
  · rename_i f a m o hlast
    simp only [Res.ok.injEq] at h
    have hne : seq ≠ [] := by
      intro e
      simp [e] at hodd
    have hl : seq.dropLast.length % 2 = 0 := by
      have := List.length_pos.mpr hne
      simp only [List.length_dropLast]
      omega
    have hd := List.dropLast_append_getLast hne
    have hg : seq.getLast hne = .obj f a m o := by
      rw [List.getLast?_eq_getLast _ hne] at hlast
      simpa using hlast
    rw [← hd, seqRaw_append_even _ _ hl, hg] at hs
    rw [← h, seqRaw_append_even _ _ hl]
    simp only [Bool.and_eq_true, seqRaw, Node.raw, Fields.rawShape] at hs ⊢
    exact hs
  · simp at h

theorem rawArgs_append (l : List Node) (e : Node) (h : Node.rawArgs l = true)
    (he : e.raw = true) : Node.rawArgs (l ++ [e]) = true := by
  induction l with
  | nil => simp [Node.rawArgs, he]
  | cons a rest ih =>
    simp only [Node.rawArgs, Bool.and_eq_true] at h
    simp [Node.rawArgs, h.1, ih h.2]

theorem rawArgs_getD (l : List Node) (i : Nat) (h : Node.rawArgs l = true)
    (hi : i < l.length) : (l.getD i .undefined).raw = true := by
  induction l generalizing i with
  | nil => simp at hi
  | cons a rest ih =>
    simp only [Node.rawArgs, Bool.and_eq_true] at h
    cases i with
    | zero => simpa using h.1
    | succ j =>
      have := ih j h.2 (by simpa using hi)
      simpa using this

/-- The args of an infix node that `parseRec` has built: two operands. -/
theorem raw_infix_args (f : Fields) (args : List Node) (m : List (JSString × Node))
    (o : Option Node) (h : Node.raw (.obj f args m o) = true) (hc : f.ctype = some "infix") :
    ∃ a b, args = [a, b] ∧ a.raw = true ∧ b.raw = true := by
  simp only [Node.raw, Fields.rawShape, hc, Bool.and_eq_true, Bool.or_eq_true, bne_iff_ne,
    ne_eq, not_true_eq_false, false_or, beq_iff_eq] at h
  obtain ⟨⟨⟨⟨⟨-, hlen⟩, -⟩, -⟩, hargs⟩, -⟩ := h
  match args, hlen, hargs with
  | [a, b], _, hargs =>
    simp only [Node.rawArgs, Bool.and_eq_true, and_true] at hargs
    exact ⟨a, b, rfl, hargs.1, hargs.2⟩

theorem commaChain_raw : ∀ e : Node, e.raw = true → Node.rawArgs (commaChain e) = true
  | .null, _ => by simp [commaChain, Node.rawArgs, Node.raw]
  | .undefined, h => by simp [Node.raw] at h
  | .obj f args m o, h => by
    unfold commaChain
    split
    · rename_i hc
      obtain ⟨a, b, hab, ha, hb⟩ := raw_infix_args f args m o h hc.1
      subst hab
      have ih := commaChain_raw b hb
      simp [Node.rawArgs, ha, ih]
    · simp [Node.rawArgs, h]

theorem groupElements_raw (e : Node) (h : e.raw = true) :
    Node.rawArgs (groupElements e) = true := by
  unfold groupElements
  split
  · exact commaChain_raw e h
  · rfl

theorem bracketValue_raw (pair : JSString) (lst : List Node) (tok : Token) (node : Node)
    (hl : Node.rawArgs lst = true) (h : bracketValue pair lst tok = .ok node) :
    node.raw = true := by
  unfold bracketValue at h
  split at h
  · split at h
    · simp only [Res.ok.injEq] at h
      rw [← h]
      simp [Node.raw, Fields.rawShape, rawCtypes, hl, Node.rawModifs]
    · split at h
      · simp only [Res.ok.injEq] at h
        rw [← h]
        simp [Node.raw, Fields.rawShape, rawCtypes, hl, Node.rawModifs]
      · simp at h
  · split at h
    · simp at h
    · split at h
      · rename_i hp
        simp only [Res.ok.injEq] at h
        rw [← h]
        simp [Node.raw, Fields.rawShape, rawCtypes, hl, Node.rawModifs, hp.2]
      · split at h
        · simp only [Res.ok.injEq] at h
          rw [← h]
          simp [Node.raw, Fields.rawShape, rawCtypes, Node.rawArgs, Node.rawModifs]
        · simp only [Res.ok.injEq] at h
          rw [← h]
          simp [Node.raw, Fields.rawShape, rawCtypes, hl, Node.rawModifs]

theorem rawModifs_setProperty (modifs : List (JSString × Node)) (key : JSString) (v : Node)
    (h : Node.rawModifs modifs = true) (hv : v.raw = true) :
    Node.rawModifs (setProperty modifs key v) = true := by
  have happ : ∀ l : List (JSString × Node), Node.rawModifs l = true →
      Node.rawModifs (l ++ [(key, v)]) = true := by
    intro l
    induction l with
    | nil => intro _; simp [Node.rawModifs, hv]
    | cons e rest ih =>
      intro hl
      obtain ⟨k, a⟩ := e
      simp only [Node.rawModifs, Bool.and_eq_true] at hl
      simp [Node.rawModifs, hl.1, ih hl.2]
  have hmap : ∀ l : List (JSString × Node), Node.rawModifs l = true →
      Node.rawModifs (l.map fun e => if e.1 == key then (key, v) else e) = true := by
    intro l
    induction l with
    | nil => intro _; rfl
    | cons e rest ih =>
      intro hl
      obtain ⟨k, a⟩ := e
      simp only [Node.rawModifs, Bool.and_eq_true] at hl
      simp only [List.map_cons]
      have ih2 := ih hl.2
      split
      · simp only [Node.rawModifs, hv, Bool.true_and]
        exact ih2
      · simp only [Node.rawModifs, hl.1, Bool.true_and]
        exact ih2
  unfold setProperty
  split
  · exact hmap _ h
  · exact happ _ h

theorem callArguments_raw : ∀ (lst args : List Node) (modifs : List (JSString × Node))
    (r : List Node × List (JSString × Node)), Node.rawArgs lst = true →
    Node.rawArgs args = true → Node.rawModifs modifs = true →
    callArguments lst args modifs = .ok r →
    Node.rawArgs r.1 = true ∧ Node.rawModifs r.2 = true := by
  intro lst
  induction lst with
  | nil =>
    intro args modifs r _ ha hm h
    simp only [callArguments, Res.ok.injEq] at h
    rw [← h]
    exact ⟨ha, hm⟩
  | cons e rest ih =>
    intro args modifs r hl ha hm h
    simp only [Node.rawArgs, Bool.and_eq_true] at hl
    cases e with
    | null =>
      simp only [callArguments] at h
      exact ih _ _ r hl.2 (rawArgs_append _ _ ha hl.1) hm h
    | undefined =>
      simp only [callArguments] at h
      exact ih _ _ r hl.2 (rawArgs_append _ _ ha hl.1) hm h
    | obj f eargs em eo =>
      simp only [callArguments] at h
      split at h
      · rename_i hc
        obtain ⟨a, b, hab, har, hbr⟩ := raw_infix_args f eargs em eo hl.1 hc.1
        subst hab
        split at h
        · split at h
          · simp at h
          · refine ih _ _ r hl.2 ha (rawModifs_setProperty _ _ _ hm ?_) h
            simpa using hbr
        · simp at h
      · exact ih _ _ r hl.2 (rawArgs_append _ _ ha hl.1) hm h

theorem bracketCall_raw (pair : JSString) (lst : List Node) (tok : Token) (seq s : List Node)
    (hs : seqRaw seq = true) (hodd : seq.length % 2 = 1) (hl : Node.rawArgs lst = true)
    (h : bracketCall pair lst tok seq = .ok s) : seqRaw s = true := by
  unfold bracketCall at h
  split at h
  · simp at h
  · split at h
    · rename_i fname fa fm o hlast
      split at h
      · simp at h
      · obtain ⟨r, hr, h2⟩ := Res.bind_eq_ok _ _ _ h
        obtain ⟨i1, i2⟩ := callArguments_raw lst [] [] r hl rfl rfl hr
        obtain ⟨args, modifs⟩ := r
        simp only [Res.ok.injEq] at h2
        have hne : seq ≠ [] := by
          intro e
          simp [e] at hodd
        have hlen : seq.dropLast.length % 2 = 0 := by
          have := List.length_pos.mpr hne
          simp only [List.length_dropLast]
          omega
        have hd := List.dropLast_append_getLast hne
        have hg : seq.getLast hne = .obj fname fa fm o := by
          rw [List.getLast?_eq_getLast _ hne] at hlast
          simpa using hlast
        rw [← hd, seqRaw_append_even _ _ hlen, hg] at hs
        rw [← h2, seqRaw_append_even _ _ hlen]
        simp only [Bool.and_eq_true, seqRaw, Node.raw, Option.isNone_iff_eq_none] at hs ⊢
        simp only at i1 i2
        refine ⟨hs.1, ⟨⟨?_, hs.2.1.1.2⟩, i1⟩, i2⟩
        simp [Fields.rawShape, rawCtypes]
    · simp at h

theorem finishRec_raw (seq : List Node) (tok : Token) (res : ParseRecResult)
    (hs : seqRaw seq = true) (h : finishRec seq tok = .ok res) : res.expr.raw = true := by
  unfold finishRec at h
  obtain ⟨s, hl, h2⟩ := Res.bind_eq_ok _ _ _ h
  have hp := padNull_parity seq
  obtain ⟨d1, d2, -⟩ := applyLoop_done _ _ _ _ hl
  have hr := applyLoop_raw _ _ _ _ (seqRaw_padNull _ hs) hp hl
  simp only [Res.ok.injEq] at h2
  rw [← h2]
  have hlen : s.length = 1 := by
    rcases d1 with d | d
    · omega
    · simp at d
  match s, hlen, hr with
  | [e], _, hr => simpa [seqRaw] using hr

/-! ## The nodes of a returned tree -/

/-- The expression that `parseRec` returns is an operand: a tree of nodes of the raw shapes. -/
theorem parseLoop_raw (fuel : Nat) : ∀ (t : Tokenizer) (closing : Option JSString)
    (seq : List Node), seqRaw seq = true →
    ∀ (res : ParseRecResult) (t' : Tokenizer),
      parseLoop fuel t closing seq = .ok (res, t') → res.expr.raw = true := by
  induction fuel with
  | zero =>
    intro t closing seq _ res t' h
    simp [parseLoop] at h
  | succ n ih =>
    intro t closing seq hs res t' h
    rw [parseLoop] at h
    cases hnx : t.next with
    | fuel => simp [hnx] at h
    | throw e => simp [hnx] at h
    | ok r =>
      obtain ⟨tok, t1⟩ := r
      simp only [hnx] at h
      have cont : ∀ (r : Res (List Node)) (tk : Tokenizer),
          (∀ s, r = .ok s → seqRaw s = true) →
          (match r with
            | .fuel => Res.fuel
            | .throw e => Res.throw e
            | .ok seq => parseLoop n tk closing seq) = .ok (res, t') →
          res.expr.raw = true := by
        intro r tk hr hh
        cases r with
        | fuel => simp at hh
        | throw e => simp at hh
        | ok s => exact ih tk closing s (hr s rfl) res t' hh
      have leave : (match finishRec seq tok with
            | .fuel => Res.fuel
            | .throw e => Res.throw e
            | .ok res => Res.ok (res, t1)) = .ok (res, t') → res.expr.raw = true := by
        intro hh
        cases hf : finishRec seq tok with
        | fuel => simp [hf] at hh
        | throw e => simp [hf] at hh
        | ok res0 =>
          simp only [hf, Res.ok.injEq, Prod.mk.injEq] at hh
          rw [← hh.1]
          exact finishRec_raw _ _ _ hs hf
      cases htt : tok.toktype
      case EOF =>
        simp only [htt] at h
        exact leave h
      case ANY =>
        simp only [htt] at h
        exact ih _ _ _ hs res t' h
      case WS =>
        simp only [htt] at h
        exact ih _ _ _ hs res t' h
      case COMMENT =>
        simp only [htt] at h
        exact ih _ _ _ hs res t' h
      case START_COMMENT =>
        simp only [htt] at h
        exact ih _ _ _ hs res t' h
      case OP =>
        simp only [htt] at h
        exact cont _ t1 (fun s hr => caseOP_raw _ _ _ hs hr) h
      case ID =>
        simp only [htt] at h
        exact cont _ t1 (fun s hr => caseValue_raw _ _ _ _ hs (by rfl) hr) h
      case NUM =>
        simp only [htt] at h
        exact cont _ t1 (fun s hr => caseValue_raw _ _ _ _ hs (by rfl) hr) h
      case STR =>
        simp only [htt] at h
        exact cont _ t1 (fun s hr => caseValue_raw _ _ _ _ hs (by rfl) hr) h
      case SUB =>
        simp only [htt] at h
        exact cont _ t1 (fun s hr => (subsup_raw _ _ _ _ _ hs hr).1) h
      case SUP =>
        simp only [htt] at h
        refine cont _ t1 (fun s hr => ?_) h
        obtain ⟨s0, h0, h1⟩ := Res.bind_eq_ok _ _ _ hr
        obtain ⟨i1, i2⟩ := subsup_raw _ _ _ _ _ hs h0
        exact markSuperscript_raw _ _ i1 i2 h1
      case BRA =>
        simp only [htt] at h
        split at h
        · exact leave h
        · cases hsub : parseLoop n t1 (some (charAt brackets (indexOf brackets tok.text + 1))) []
            with
          | fuel => simp [hsub] at h
          | throw e => simp [hsub] at h
          | ok r2 =>
            obtain ⟨sub, t2⟩ := r2
            have hsr := ih _ _ _ (by rfl) sub t2 hsub
            simp only [hsub] at h
            split at h
            · simp at h
            · have hlst := groupElements_raw _ hsr
              refine cont _ t2 (fun s hr => ?_) h
              split at hr
              · rename_i hev
                obtain ⟨node, hn, h2⟩ := Res.bind_eq_ok _ _ _ hr
                simp only [Res.ok.injEq] at h2
                rw [← h2]
                exact seqRaw_push_operand _ _ hs hev (bracketValue_raw _ _ _ _ hlst hn)
              · rename_i hodd
                exact bracketCall_raw _ _ _ _ _ hs (by omega) hlst hr

theorem final_of_raw :
    Fields.final { ctype := some "void" } = true ∧
    (∀ (f : Fields) (args : List Node), f.rawShape args = true → f.ctype ≠ some "paren" →
      parentFirst f args = .ok () → Fields.final (stripTransient f) = true) ∧
    (∀ (f : Fields) (key : Option JSString),
      Fields.final (stripTransient { f with ctype := some "field", key := key }) = true) := by
  refine ⟨by decide, ?_, ?_⟩
  · intro f args hshape hnp _
    unfold Fields.rawShape at hshape
    split at hshape
    · rename_i c hc
      simp only [Bool.and_eq_true, decide_eq_true_eq] at hshape
      have hmem := hshape.1.1
      have hcp : c ≠ "paren" := fun e => hnp (by rw [hc, e])
      have hfin : c ∈ finalCtypes := by
        simp only [rawCtypes, List.mem_cons, List.mem_singleton, List.not_mem_nil,
          or_false] at hmem
        simp only [finalCtypes, List.mem_cons, List.mem_singleton, List.not_mem_nil, or_false]
        tauto
      simp [Fields.final, stripTransient, hc, hfin]
    · simp at hshape
  · intro f key
    simp [Fields.final, stripTransient, finalCtypes]

/-- C14: every node of a tree that `parse` returns, reached through `args`, the values of
`modifs` and `obj`, is an object (not `null`) whose ctype is one of void, number, string,
variable, function, field, infix, list, so not `paren`, and that has none of the transient
properties `start`, `end`, `toktype`, `op`, `raw`, `text`. -/
theorem returned_tree_is_final (code : JSString) (n : Node)
    (h : parse code = some (.node n)) : n.all Fields.final = true := by
  unfold parse parseWith at h
  cases hp : parseRec (code.length + 1) (Tokenizer.new code) none with
  | fuel => simp [hp] at h
  | throw e => simp [hp] at h
  | ok r =>
    obtain ⟨res, t⟩ := r
    simp only [hp] at h
    split at h
    · simp at h
    · cases hpp : postprocess res.expr with
      | fuel => simp [hpp] at h
      | throw e => simp [hpp] at h
      | ok m =>
        simp only [hpp, Option.some.injEq, ParseOutput.node.injEq] at h
        subst h
        have hraw := parseLoop_raw _ _ _ _ (by rfl) res t hp
        exact postprocess_all Fields.final final_of_raw.1 final_of_raw.2.1 final_of_raw.2.2
          _ _ hraw hpp

theorem ParseOutput.eq_tree (o : Option ParseOutput) (h : ParseOutput.isNode o = true) :
    o = some (.node (ParseOutput.tree o)) := by
  match o, h with
  | some (.node n), _ => rfl

/-- A call with a modifier, a superscript, a bracketed difference, a field access and a list:
the returned tree has the ctypes of the claim and no transient property, while the tree that
`parseRec` returned for the same input has a `paren` node. -/
theorem returned_tree_is_final_witness :
    parse (utf16 "f(a, n->b) + x² * (c.d - [1,2])") =
        some (.node (ParseOutput.tree (parse (utf16 "f(a, n->b) + x² * (c.d - [1,2])")))) ∧
      (ParseOutput.tree (parse (utf16 "f(a, n->b) + x² * (c.d - [1,2])"))).all Fields.final =
        true :=
  ⟨ParseOutput.eq_tree _ (by decide!),
    returned_tree_is_final (utf16 "f(a, n->b) + x² * (c.d - [1,2])") _
      (ParseOutput.eq_tree _ (by decide!))⟩

/-! ## The comma operator outside of bracket groups -/

/-- The loop of `parseRec` is the repetition of its rounds. -/
theorem parseLoop_round (fuel : Nat) (t : Tokenizer) (closing : Option JSString)
    (seq : List Node) :
    parseLoop (fuel + 1) t closing seq =
      (parseRound fuel t closing seq).bind fun r =>
        match r with
        | .next t1 s1 => parseLoop fuel t1 closing s1
        | .done res t1 => .ok (res, t1) := by
  rw [parseLoop]
  unfold parseRound
  cases hnx : t.next with
  | fuel => rfl
  | throw e => rfl
  | ok r =>
    obtain ⟨tok, t1⟩ := r
    have cont : ∀ (r : Res (List Node)) (tk : Tokenizer),
        (match r with
          | .fuel => Res.fuel
          | .throw e => Res.throw e
          | .ok seq => parseLoop fuel tk closing seq) =
        (match r with
          | .fuel => Res.fuel
          | .throw e => Res.throw e
          | .ok seq => Res.ok (Round.next tk seq)).bind fun r =>
            match r with
            | .next t1 s1 => parseLoop fuel t1 closing s1
            | .done res t1 => .ok (res, t1) := by
      intro r tk
      cases r <;> rfl
    have leave : (match finishRec seq tok with
          | .fuel => Res.fuel
          | .throw e => Res.throw e
          | .ok res => Res.ok (res, t1)) =
        (match finishRec seq tok with
          | .fuel => Res.fuel
          | .throw e => Res.throw e
          | .ok res => Res.ok (Round.done res t1)).bind fun r =>
            match r with
            | .next t1 s1 => parseLoop fuel t1 closing s1
            | .done res t1 => .ok (res, t1) := by
      cases finishRec seq tok <;> rfl
    simp only []
    cases htt : tok.toktype
    case EOF => exact leave
    case ANY => rfl
    case WS => rfl
    case COMMENT => rfl
    case START_COMMENT => rfl
    case OP => exact cont _ t1
    case ID => exact cont _ t1
    case NUM => exact cont _ t1
    case STR => exact cont _ t1
    case SUB => exact cont _ t1
    case SUP => exact cont _ t1
    case BRA =>
      simp only []
      split
      · exact leave
      · cases hsub : parseLoop fuel t1 (some (charAt brackets (indexOf brackets tok.text + 1))) []
          with
        | fuel => rfl
        | throw e => rfl
        | ok r2 =>
          obtain ⟨sub, t2⟩ := r2
          simp only []
          split
          · rfl
          · exact cont _ t2

/-- The outermost call of `parseRec` goes on from each of its states. -/
theorem roundState_run (code : JSString) : ∀ (k fuel : Nat) (t : Tokenizer) (seq : List Node),
    roundState code k = some (fuel, t, seq) →
    parseRec (code.length + 1) (Tokenizer.new code) none = parseLoop fuel t none seq := by
  intro k
  induction k with
  | zero =>
    intro fuel t seq h
    simp only [roundState, Option.some.injEq, Prod.mk.injEq] at h
    obtain ⟨h1, h2, h3⟩ := h
    subst h1 h2 h3
    rfl
  | succ n ih =>
    intro fuel t seq h
    rw [roundState] at h
    split at h
    · rename_i f0 t0 s0 hst
      split at h
      · rename_i t1 s1 hr
        simp only [Option.some.injEq, Prod.mk.injEq] at h
        obtain ⟨h1, h2, h3⟩ := h
        subst h1 h2 h3
        rw [ih _ _ _ hst, parseLoop_round, hr]
        rfl
      · simp at h
    · simp at h

theorem pendings_append_even : ∀ (pre l : List Node), pre.length % 2 = 0 →
    pendings (pre ++ l) = pendings pre ++ pendings l
  | [], l, _ => by simp [pendings]
  | [e], l, h => by simp at h
  | e :: q :: pre, l, h => by
    have ih := pendings_append_even pre l (by simp only [List.length_cons] at h; omega)
    simp only [List.cons_append, pendings, List.append_eq, ih]

theorem pendings_push_operand (pre : List Node) (e : Node) (h : pre.length % 2 = 0) :
    pendings (pre ++ [e]) = pendings pre := by
  rw [pendings_append_even _ _ h]
  simp [pendings]

theorem pendings_push_pending (s : List Node) (q : Node) (h : s.length % 2 = 1) :
    pendings (s ++ [q]) = pendings s ++ [q] := by
  have hne : s ≠ [] := by
    intro e
    simp [e] at h
  have hl : s.dropLast.length % 2 = 0 := by
    have := List.length_pos.mpr hne
    simp only [List.length_dropLast]
    omega
  have hd := List.dropLast_append_getLast hne
  rw [← hd, List.append_assoc, pendings_append_even _ _ hl, pendings_append_even _ _ hl]
  simp [pendings]

/-- A sequence of odd length ends in an operand. -/
theorem odd_split (s : List Node) (h : s.length % 2 = 1) :
    ∃ pre x, s = pre ++ [x] ∧ pre.length % 2 = 0 := by
  have hne : s ≠ [] := by
    intro e
    simp [e] at h
  refine ⟨s.dropLast, s.getLast hne, (List.dropLast_append_getLast hne).symm, ?_⟩
  have := List.length_pos.mpr hne
  simp only [List.length_dropLast]
  omega

/-- What `applyOperator` does to a sequence of odd length: it replaces the last operand, the
last pending operator and the operand before it by an infix node of the operator. -/
theorem applyOperator_shape (seq s : List Node) (hodd : seq.length % 2 = 1)
    (h : applyOperator seq = .ok s) :
    ∃ pre lhs rhs op a m o d, seq = pre ++ [lhs, .obj op a m o, rhs] ∧ pre.length % 2 = 0 ∧
      op.op = some d ∧
      s = pre ++ [.obj { op with ctype := some "infix", oper := some d.sym } [lhs, rhs] m o] := by
  unfold applyOperator at h
  split at h
  · rename_i rhs op a omodifs oobj lhs rest hrev
    have hseq : seq = rest.reverse ++ [lhs, .obj op a omodifs oobj, rhs] := by
      have := congrArg List.reverse hrev
      simpa using this
    have hlen : rest.reverse.length % 2 = 0 := by
      have := congrArg List.length hseq
      simp only [List.length_append, List.length_cons, List.length_nil] at this
      omega
    obtain ⟨u, -, h2⟩ := Res.bind_eq_ok _ _ _ h
    split at h2
    · simp at h2
    · rename_i d hd
      simp only [Res.ok.injEq] at h2
      refine ⟨rest.reverse, lhs, rhs, op, a, omodifs, oobj, d, hseq, hlen, hd, ?_⟩
      rw [← h2]
      simp
  · simp at h

theorem applyOperator_pendings (seq s : List Node) (hodd : seq.length % 2 = 1)
    (h : applyOperator seq = .ok s) : pendings s = (pendings seq).dropLast := by
  obtain ⟨pre, lhs, rhs, op, a, m, o, d, hseq, hpre, -, hs⟩ := applyOperator_shape _ _ hodd h
  rw [hs, hseq, pendings_append_even _ _ hpre, pendings_append_even _ _ hpre]
  simp [pendings]

/-- The test of the reduction loops looks at the last pending operator. -/
theorem pendingLe_pendings (prec : Nat) (seq : List Node) (hodd : seq.length % 2 = 1)
    (h3 : 3 ≤ seq.length) :
    ∃ q, (pendings seq).getLast? = some q ∧
      pendingLe prec seq = (match q with
        | .obj f _ _ _ =>
          match f.precedence with
          | some p => .ok (decide (p ≤ prec))
          | none => .ok false
        | _ => .throw .typeError) := by
  obtain ⟨pre1, rhs, h1, hp1⟩ := odd_split seq hodd
  have hl1 : pre1.length = seq.length - 1 := by
    have := congrArg List.length h1
    simp only [List.length_append, List.length_singleton] at this
    omega
  match pre1, hl1 with
  | [], hl1 => simp at hl1; omega
  | x :: r, hl1 =>
    have hne : (x :: r) ≠ [] := by simp
    have hd := List.dropLast_append_getLast hne
    generalize hq : (x :: r).getLast hne = q at hd
    generalize hpre : (x :: r).dropLast = pre2 at hd
    have hl2 : pre2.length % 2 = 1 := by
      have := congrArg List.length hd
      simp only [List.length_append, List.length_singleton] at this
      omega
    obtain ⟨pre, lhs, h2, hp⟩ := odd_split pre2 hl2
    have hseq : seq = pre ++ [lhs, q, rhs] := by
      rw [h1, ← hd, h2]
      simp
    refine ⟨q, ?_, ?_⟩
    · rw [hseq, pendings_append_even _ _ hp]
      simp [pendings]
    · unfold pendingLe
      rw [hseq]
      simp only [List.reverse_append, List.reverse_cons, List.reverse_nil, List.nil_append,
        List.cons_append, List.singleton_append]
      cases q <;> rfl

/-- A property that `applyOperator` keeps, in the rounds that a reduction loop makes, holds
after the loop. -/
theorem applyLoop_induct (cond : List Node → Res Bool) (P : List Node → Prop)
    (hstep : ∀ seq s, P seq → 3 ≤ seq.length → cond seq = .ok true →
      applyOperator seq = .ok s → P s) (fuel : Nat) :
    ∀ (seq s : List Node), P seq → applyLoop cond fuel seq = .ok s → P s := by
  induction fuel with
  | zero =>
    intro seq s hs h
    rw [applyLoop_zero] at h
    split at h
    · simp only [Res.ok.injEq] at h
      rw [← h]; exact hs
    · split at h
      · simp at h
      · simp at h
      · simp only [Res.ok.injEq] at h
        rw [← h]; exact hs
      · simp at h
  | succ n ih =>
    intro seq s hs h
    rw [applyLoop_succ] at h
    split at h
    · simp only [Res.ok.injEq] at h
      rw [← h]; exact hs
    · rename_i hlen
      split at h
      · simp at h
      · simp at h
      · simp only [Res.ok.injEq] at h
        rw [← h]; exact hs
      · rename_i hc
        split at h
        · simp at h
        · simp at h
        · rename_i seq1 ha
          exact ih seq1 s (hstep _ _ hs (by omega) hc ha) h

theorem pending_precedence_table : ∀ d ∈ opTable.descrs,
    d.precedence ≤ 26 ∧
      (d.precedence + (if d.rassoc then 1 else 0) ≤ 26 ∨
        (d.sym = utf16 "," ∧ d.precedence = 26 ∧ d.rassoc = true)) := by
  decide!

theorem order_congr (s1 s2 : List Node) (h : pendings s1 = pendings s2) :
    lowPending s1 = lowPending s2 ∧ commaPending s1 = commaPending s2 := by
  unfold lowPending commaPending
  rw [h]
  exact ⟨rfl, rfl⟩

theorem low_dropLast (s1 s2 : List Node) (h : pendings s2 = (pendings s1).dropLast)
    (hl : lowPending s1 = true) : lowPending s2 = true := by
  unfold lowPending at hl ⊢
  rw [h]
  rw [List.all_eq_true] at hl ⊢
  intro x hx
  exact hl x (List.dropLast_subset _ hx)

theorem comma_dropLast (s1 s2 : List Node) (h : pendings s2 = (pendings s1).dropLast)
    (hc : commaPending s1 = true) (h2 : 2 ≤ (pendings s1).length) :
    commaPending s2 = true := by
  unfold commaPending at hc ⊢
  rw [h]
  match hp : pendings s1, h2 with
  | p :: q :: r, _ =>
    rw [hp] at hc
    simpa using hc

theorem low_push (s : List Node) (q : Node) (p : Nat) (hodd : s.length % 2 = 1)
    (hl : lowPending s = true) (hq : q.precedence = some p) (hp : p ≤ 26) :
    lowPending (s ++ [q]) = true := by
  unfold lowPending at hl ⊢
  rw [pendings_push_pending _ _ hodd, List.all_append, hl]
  simp [hq, hp]

theorem comma_push (s : List Node) (q : Node) (hodd : s.length % 2 = 1)
    (hc : commaPending s = true) : commaPending (s ++ [q]) = true := by
  unfold commaPending at hc ⊢
  rw [pendings_push_pending _ _ hodd]
  match hp : pendings s with
  | [] => simp [hp] at hc
  | p :: r =>
    rw [hp] at hc
    simpa using hc

theorem low_last (s : List Node) (q : Node) (hl : lowPending s = true)
    (hq : (pendings s).getLast? = some q) :
    ∃ f a m o p, q = .obj f a m o ∧ f.precedence = some p ∧ p ≤ 26 := by
  unfold lowPending at hl
  rw [List.all_eq_true] at hl
  have := hl q (List.mem_of_getLast?_eq_some hq)
  match q, this with
  | .obj f a m o, this =>
    simp only [Node.precedence] at this
    split at this
    · rename_i p hp
      exact ⟨f, a, m, o, p, rfl, hp, by simpa using this⟩
    · simp at this

/-- A reduction loop leaves a pending comma where it is, the precedence of the incoming
operator being at most 26. -/
theorem applyLoop_comma (prec fuel : Nat) (hp : prec ≤ 26) (seq s : List Node)
    (hc : commaPending seq = true) (hodd : seq.length % 2 = 1)
    (h : applyLoop (pendingLe prec) fuel seq = .ok s) :
    commaPending s = true ∧ s.length % 2 = 1 := by
  refine applyLoop_induct (pendingLe prec)
    (fun x => commaPending x = true ∧ x.length % 2 = 1) ?_ fuel seq s ⟨hc, hodd⟩ h
  intro x y ⟨hx, hxo⟩ h3 hcond ha
  have hl := applyOperator_length _ _ ha
  refine ⟨comma_dropLast _ _ (applyOperator_pendings _ _ hxo ha) hx ?_, by omega⟩
  obtain ⟨q, hq, hle⟩ := pendingLe_pendings prec x hxo h3
  match hps : pendings x with
  | [] => simp [hps] at hq
  | [p] =>
    exfalso
    rw [hps] at hq
    simp only [List.getLast?_singleton, Option.some.injEq] at hq
    subst hq
    unfold commaPending at hx
    rw [hps] at hx
    simp only [beq_iff_eq] at hx
    rw [hcond] at hle
    match p, hx, hle with
    | .obj f _ _ _, hx, hle =>
      simp only [Node.precedence] at hx
      simp only [hx, Res.ok.injEq, Bool.true_eq, decide_eq_true_eq] at hle
      omega
  | p :: q :: r => simp

/-- A reduction loop keeps a sequence without a pending comma such, and reduces the whole of it
when the precedence of the incoming operator is 26. -/
theorem applyLoop_low (prec fuel : Nat) (seq s : List Node)
    (hc : lowPending seq = true) (hodd : seq.length % 2 = 1)
    (h : applyLoop (pendingLe prec) fuel seq = .ok s) :
    lowPending s = true ∧ s.length % 2 = 1 ∧ (prec = 26 → s.length = 1) := by
  have h1 : lowPending s = true ∧ s.length % 2 = 1 := by
    refine applyLoop_induct (pendingLe prec)
      (fun x => lowPending x = true ∧ x.length % 2 = 1) ?_ fuel seq s ⟨hc, hodd⟩ h
    intro x y ⟨hx, hxo⟩ h3 hcond ha
    have hl := applyOperator_length _ _ ha
    exact ⟨low_dropLast _ _ (applyOperator_pendings _ _ hxo ha) hx, by omega⟩
  refine ⟨h1.1, h1.2, ?_⟩
  intro hp
  obtain ⟨hd, -, -⟩ := applyLoop_done _ _ _ _ h
  rcases hd with hd | hd
  · omega
  · by_cases h3 : 3 ≤ s.length
    · exfalso
      obtain ⟨q, hq, hle⟩ := pendingLe_pendings prec s h1.2 h3
      obtain ⟨f, a, m, o, p, hqe, hpr, hp26⟩ := low_last _ _ h1.1 hq
      rw [hd, hqe] at hle
      simp only [hpr, Res.ok.injEq, Bool.false_eq, decide_eq_false_iff_not] at hle
      omega
    · omega

theorem pendings_padNull (seq : List Node) : pendings (padNull seq) = pendings seq := by
  unfold padNull
  split
  · rename_i he
    exact pendings_push_operand _ _ he
  · rfl

theorem pendings_dropLast_even (seq : List Node) (hne : seq ≠ []) (he : seq.length % 2 = 0) :
    pendings seq.dropLast = (pendings seq).dropLast := by
  have hl : seq.dropLast.length % 2 = 1 := by
    have := List.length_pos.mpr hne
    simp only [List.length_dropLast]
    omega
  have hd := List.dropLast_append_getLast hne
  have := pendings_push_pending seq.dropLast (seq.getLast hne) hl
  rw [hd] at this
  rw [this]
  simp

theorem pendings_last_even (seq : List Node) (hne : seq ≠ []) (he : seq.length % 2 = 0) :
    (pendings seq).getLast? = seq.getLast? := by
  have hl : seq.dropLast.length % 2 = 1 := by
    have := List.length_pos.mpr hne
    simp only [List.length_dropLast]
    omega
  have hd := List.dropLast_append_getLast hne
  have := pendings_push_pending seq.dropLast (seq.getLast hne) hl
  rw [hd] at this
  rw [this, List.getLast?_eq_getLast _ hne]
  simp

theorem pendings_replace_last (seq : List Node) (x : Node) (hodd : seq.length % 2 = 1) :
    pendings (seq.dropLast ++ [x]) = pendings seq := by
  obtain ⟨pre, y, hs, hp⟩ := odd_split seq hodd
  rw [hs]
  simp only [List.dropLast_concat]
  rw [pendings_push_operand _ _ hp, pendings_push_operand _ _ hp]

/-- Every pending operator of a well-formed sequence is one. -/
theorem seqRaw_pendings : ∀ (seq : List Node), seqRaw seq = true →
    ∀ q ∈ pendings seq, q.pending = true
  | [], _, q, hq => by simp [pendings] at hq
  | [e], _, q, hq => by simp [pendings] at hq
  | e :: p :: rest, h, q, hq => by
    simp only [seqRaw, Bool.and_eq_true] at h
    simp only [pendings, List.mem_cons] at hq
    rcases hq with hq | hq
    · rw [hq]; exact h.1.2
    · exact seqRaw_pendings rest h.2 q hq

/-- A pending operator whose `precedence` is 27 is a comma. -/
theorem pending_comma (f : Fields) (a : List Node) (m : List (JSString × Node))
    (o : Option Node) (h : Node.pending (.obj f a m o) = true)
    (hp : f.precedence = some 27) : ∃ d, f.op = some d ∧ d.sym = utf16 "," := by
  obtain ⟨-, -, d, hd, hmem, hprec⟩ := pending_obj _ _ _ _ h
  refine ⟨d, hd, ?_⟩
  rw [hp] at hprec
  simp only [Option.some.injEq] at hprec
  rcases (pending_precedence_table d hmem).2 with h1 | h1
  · omega
  · exact h1.1

theorem mergesWithDefine_last (op : OpDescr) (seq : List Node)
    (h : mergesWithDefine op seq = .ok true) :
    op.sym = utf16 "_" ∧
      ∃ l a m o d, seq.getLast? = some (.obj l a m o) ∧ l.op = some d ∧ d.sym = utf16 ":=" := by
  unfold mergesWithDefine at h
  split at h
  · rename_i hc
    simp only [Bool.and_eq_true, decide_eq_true_eq] at hc
    refine ⟨hc.1.1, ?_⟩
    split at h
    · rename_i l a m o hl
      split at h
      · split at h
        · simp at h
        · rename_i d hd
          simp only [Res.ok.injEq, decide_eq_true_eq] at h
          exact ⟨l, a, m, o, d, hl, hd, h⟩
      · simp at h
    · simp at h
  · simp at h

/-- The reduction loop of `case 'OP'` and the push of the incoming operator. -/
theorem push_after_loop (seq s2 : List Node) (op : OpDescr) (q : Node)
    (hmem : op ∈ opTable.descrs)
    (hq : q.precedence = some (if op.rassoc then op.precedence + 1 else op.precedence))
    (hw : applyWhileLe op.precedence (padNull seq) = .ok s2) :
    (commaPending seq = true → commaPending (s2 ++ [q]) = true) ∧
    (lowPending seq = true →
      lowPending (s2 ++ [q]) = true ∨ commaPending (s2 ++ [q]) = true) ∧
    (lowPending seq = true → op.precedence = 26 → op.rassoc = true →
      commaPending (s2 ++ [q]) = true) := by
  unfold applyWhileLe at hw
  have hpar := padNull_parity seq
  have hcg := order_congr _ _ (pendings_padNull seq)
  obtain ⟨h26, htab⟩ := pending_precedence_table op hmem
  have hsingle : lowPending seq = true → op.precedence = 26 → op.rassoc = true →
      commaPending (s2 ++ [q]) = true := by
    intro hl hp hr
    obtain ⟨-, -, i3⟩ := applyLoop_low _ _ _ _ (hcg.1 ▸ hl) hpar hw
    have h1 := i3 hp
    match s2, h1 with
    | [x], _ =>
      simp only [hp, hr, if_true] at hq
      simp [commaPending, pendings, hq]
  refine ⟨?_, ?_, hsingle⟩
  · intro hc
    obtain ⟨i1, i2⟩ := applyLoop_comma _ _ h26 _ _ (hcg.2 ▸ hc) hpar hw
    exact comma_push _ _ i2 i1
  · intro hl
    obtain ⟨i1, i2, -⟩ := applyLoop_low _ _ _ _ (hcg.1 ▸ hl) hpar hw
    rcases htab with h1 | h1
    · left
      refine low_push _ _ _ i2 i1 hq ?_
      cases hr : op.rassoc with
      | true =>
        simp only [hr, if_true] at h1 ⊢
        exact h1
      | false =>
        simp only [hr, Bool.false_eq_true, if_false] at h1 ⊢
        omega
    · right
      exact hsingle hl h1.2.1 h1.2.2

theorem operators_comma : ∀ d, operators (utf16 ",") = some d →
    d.sym = utf16 "," ∧ d.precedence = 26 ∧ d.rassoc = true := by
  decide!

/-- `case 'OP'` keeps a pending comma first, and puts a comma token there. -/
theorem caseOP_order (tok : Token) (seq s : List Node) (hs : seqRaw seq = true)
    (h : caseOP tok seq = .ok s) :
    (commaPending seq = true → commaPending s = true) ∧
    (lowPending seq = true → lowPending s = true ∨ commaPending s = true) ∧
    (tok.text = utf16 "," → lowPending seq = true → commaPending s = true) := by
  unfold caseOP at h
  split at h
  · simp at h
  · rename_i op0 hop
    obtain ⟨merge, hm, h2⟩ := Res.bind_eq_ok _ _ _ h
    obtain ⟨x, hx, h3⟩ := Res.bind_eq_ok _ _ _ h2
    obtain ⟨op, text, seq1⟩ := x
    obtain ⟨s2, hw, h4⟩ := Res.bind_eq_ok _ _ _ h3
    simp only [Res.ok.injEq] at h4
    cases merge with
    | false =>
      simp only [Bool.false_eq_true, if_false, Res.ok.injEq, Prod.mk.injEq] at hx
      obtain ⟨e1, -, e3⟩ := hx
      subst e1 e3
      have key : ∀ q, s2 ++ [q] = s →
          q.precedence = some (if op0.rassoc then op0.precedence + 1 else op0.precedence) →
          (commaPending seq = true → commaPending s = true) ∧
          (lowPending seq = true → lowPending s = true ∨ commaPending s = true) ∧
          (lowPending seq = true → op0.precedence = 26 → op0.rassoc = true →
            commaPending s = true) := by
        intro q hq hp
        rw [← hq]
        exact push_after_loop seq s2 op0 q (operators_descr_mem _ _ hop) hp hw
      obtain ⟨i1, i2, i3⟩ := key _ h4 rfl
      refine ⟨i1, i2, ?_⟩
      intro ht hl
      rw [ht] at hop
      obtain ⟨-, j2, j3⟩ := operators_comma _ hop
      exact i3 hl j2 j3
    | true =>
      simp only [if_true] at hx
      split at hx
      · simp at hx
      · rename_i opu hu
        simp only [Res.ok.injEq, Prod.mk.injEq] at hx
        obtain ⟨e1, -, e3⟩ := hx
        subst e1 e3
        obtain ⟨hsym, l, a, m, o, d, hlast, hd, hds⟩ := mergesWithDefine_last _ _ hm
        obtain ⟨hne, he⟩ := mergesWithDefine_true _ _ hm
        have hpd := pendings_dropLast_even seq hne he
        have key : ∀ q, s2 ++ [q] = s →
            q.precedence = some (if opu.rassoc then opu.precedence + 1 else opu.precedence) →
            (commaPending seq.dropLast = true → commaPending s = true) ∧
            (lowPending seq.dropLast = true → lowPending s = true ∨ commaPending s = true) := by
          intro q hq hp
          rw [← hq]
          obtain ⟨k1, k2, -⟩ :=
            push_after_loop seq.dropLast s2 opu q (operators_descr_mem _ _ hu) hp hw
          exact ⟨k1, k2⟩
        obtain ⟨i1, i2⟩ := key _ h4 rfl
        refine ⟨?_, ?_, ?_⟩
        · intro hc
          refine i1 (comma_dropLast _ _ hpd hc ?_)
          have hpl := pendings_last_even seq hne he
          rw [hlast] at hpl
          match hps : pendings seq with
          | [] => simp [hps] at hpl
          | [p] =>
            exfalso
            rw [hps] at hpl
            simp only [List.getLast?_singleton, Option.some.injEq] at hpl
            have hpend := seqRaw_pendings seq hs p (by simp [hps])
            unfold commaPending at hc
            rw [hps] at hc
            simp only [beq_iff_eq] at hc
            subst hpl
            obtain ⟨d1, hd1, hsym1⟩ := pending_comma _ _ _ _ hpend hc
            rw [hd] at hd1
            simp only [Option.some.injEq] at hd1
            subst hd1
            rw [hds] at hsym1
            revert hsym1
            decide
          | p :: q :: r => simp
        · intro hl
          exact i2 (low_dropLast _ _ hpd hl)
        · intro ht
          exfalso
          rw [ht] at hop
          obtain ⟨j1, -, -⟩ := operators_comma _ hop
          rw [hsym] at j1
          revert j1
          decide

theorem pendings_length : ∀ (seq : List Node), (pendings seq).length = seq.length / 2
  | [] => by simp [pendings]
  | [_] => by simp [pendings]
  | _ :: _ :: rest => by
    simp only [pendings, List.length_cons, pendings_length rest]
    omega

theorem caseValue_pendings (tok : Token) (f : Fields) (seq s : List Node)
    (h : caseValue tok f seq = .ok s) : pendings s = pendings seq := by
  unfold caseValue at h
  split at h
  · simp at h
  · simp only [Res.ok.injEq] at h
    rw [← h]
    exact pendings_push_operand _ _ (by omega)

theorem subsup_order (seq s : List Node) (tok : Token) (op dict : JSString)
    (h : subsup seq tok op dict = .ok s) :
    (commaPending seq = true → commaPending s = true) ∧
    (lowPending seq = true → lowPending s = true) := by
  unfold subsup at h
  split at h
  · simp at h
  · rename_i d hd
    obtain ⟨s2, hw, h2⟩ := Res.bind_eq_ok _ _ _ h
    unfold applyWhileLe at hw
    have hpar := padNull_parity seq
    obtain ⟨-, hs2, -⟩ := applyLoop_done _ _ _ _ hw
    have hodd2 : s2.length % 2 = 1 := by omega
    have hcg := order_congr _ _ (pendings_padNull seq)
    have hlen2 : ∀ (a b : Node), (s2 ++ [a, b]).length % 2 = 1 := by
      intro a b
      simp only [List.length_append, List.length_cons, List.length_nil]
      omega
    have hps : pendings s = pendings s2 := by
      rw [applyOperator_pendings _ _ (hlen2 _ _) h2]
      obtain ⟨pre, x, hx, hpre⟩ := odd_split s2 hodd2
      rw [hx, List.append_assoc, pendings_append_even _ _ hpre, pendings_append_even _ _ hpre]
      simp [pendings]
    have hcg2 := order_congr _ _ hps
    refine ⟨?_, ?_⟩
    · intro hc
      rw [hcg2.2]
      exact (applyLoop_comma _ _ (operators_even _ _ hd).2 _ _ (hcg.2 ▸ hc) hpar hw).1
    · intro hl
      rw [hcg2.1]
      exact (applyLoop_low _ _ _ _ (hcg.1 ▸ hl) hpar hw).1

theorem markSuperscript_pendings (seq s : List Node) (hodd : seq.length % 2 = 1)
    (h : markSuperscript seq = .ok s) : pendings s = pendings seq := by
  unfold markSuperscript at h
  split at h
  · simp only [Res.ok.injEq] at h
    rw [← h]
    exact pendings_replace_last _ _ hodd
  · simp at h

theorem bracketCall_pendings (pair : JSString) (lst : List Node) (tok : Token)
    (seq s : List Node) (hodd : seq.length % 2 = 1)
    (h : bracketCall pair lst tok seq = .ok s) : pendings s = pendings seq := by
  unfold bracketCall at h
  split at h
  · simp at h
  · split at h
    · split at h
      · simp at h
      · obtain ⟨x, -, h2⟩ := Res.bind_eq_ok _ _ _ h
        simp only [Res.ok.injEq] at h2
        rw [← h2]
        exact pendings_replace_last _ _ hodd
    · simp at h

/-- The end of `parseRec` on a sequence whose first pending operator is a comma: the
expression is an infix node of the comma. -/
theorem finishRec_comma (seq : List Node) (tok : Token) (res : ParseRecResult)
    (hs : seqRaw seq = true) (hc : commaPending seq = true)
    (h : finishRec seq tok = .ok res) : res.expr.isComma = true := by
  unfold finishRec at h
  obtain ⟨s, hl, h2⟩ := Res.bind_eq_ok _ _ _ h
  simp only [Res.ok.injEq] at h2
  rw [← h2]
  have hpar := padNull_parity seq
  have hcg := order_congr _ _ (pendings_padNull seq)
  have key := applyLoop_induct (fun _ => .ok true)
    (fun x => x.length % 2 = 1 ∧ seqRaw x = true ∧
      (commaPending x = true ∨ ∃ n, x = [n] ∧ n.isComma = true)) ?_ _ _ s
    ⟨hpar, seqRaw_padNull _ hs, Or.inl (hcg.2 ▸ hc)⟩ hl
  · obtain ⟨hodd, -, hor⟩ := key
    obtain ⟨hd, -, -⟩ := applyLoop_done _ _ _ _ hl
    rcases hor with hor | ⟨n, hn, hcomma⟩
    · exfalso
      have hlen := pendings_length s
      unfold commaPending at hor
      match hps : pendings s with
      | [] => simp [hps] at hor
      | p :: r =>
        rw [hps] at hlen
        simp only [List.length_cons] at hlen
        rcases hd with hd | hd
        · omega
        · simp at hd
    · rw [hn]
      exact hcomma
  · intro x y ⟨hxo, hxr, hx⟩ h3 _ ha
    have hly := applyOperator_length _ _ ha
    refine ⟨by omega, applyOperator_raw _ _ hxr hxo ha, ?_⟩
    rcases hx with hx | ⟨n, hn, -⟩
    · obtain ⟨pre, lhs, rhs, op, a, m, o, d, hseq, hpre, hd, hy⟩ :=
        applyOperator_shape _ _ hxo ha
      have hlen := pendings_length x
      by_cases h5 : 5 ≤ x.length
      · left
        exact comma_dropLast _ _ (applyOperator_pendings _ _ hxo ha) hx (by omega)
      · right
        have hp0 : pre = [] := by
          have := congrArg List.length hseq
          simp only [List.length_append, List.length_cons, List.length_nil] at this
          exact List.length_eq_zero.mp (by omega)
        subst hp0
        simp only [List.nil_append] at hseq hy
        subst hseq
        have hpend := seqRaw_pendings _ hxr (.obj op a m o) (by simp [pendings])
        have hprec : op.precedence = some 27 := by
          simpa [commaPending, pendings, Node.precedence] using hx
        obtain ⟨d1, hd1, hsym⟩ := pending_comma _ _ _ _ hpend hprec
        rw [hd] at hd1
        simp only [Option.some.injEq] at hd1
        subst hd1
        exact ⟨_, hy, by simp [Node.isComma, hsym]⟩
    · rw [hn] at h3
      simp at h3

/-- A round of the loop of `parseRec` after which the loop goes on: the sequence stays
well-formed, a pending comma stays the first pending operator, and a comma token becomes it. -/
theorem parseRound_next (fuel : Nat) (t t1 : Tokenizer) (closing : Option JSString)
    (seq s1 : List Node) (hs : seqRaw seq = true)
    (h : parseRound fuel t closing seq = .ok (.next t1 s1)) :
    seqRaw s1 = true ∧
    (commaPending seq = true → commaPending s1 = true) ∧
    (lowPending seq = true → lowPending s1 = true ∨ commaPending s1 = true) ∧
    (∀ tok t2, t.next = .ok (tok, t2) → tok.toktype = .OP → tok.text = utf16 "," →
      lowPending seq = true → commaPending s1 = true) := by
  unfold parseRound at h
  cases hnx : t.next with
  | fuel => simp [hnx] at h
  | throw e => simp [hnx] at h
  | ok r =>
    obtain ⟨tok, tk⟩ := r
    simp only [hnx] at h
    have same : ∀ s, pendings s = pendings seq → seqRaw s = true →
        seqRaw s = true ∧
        (commaPending seq = true → commaPending s = true) ∧
        (lowPending seq = true → lowPending s = true ∨ commaPending s = true) := by
      intro s hp hr
      obtain ⟨c1, c2⟩ := order_congr _ _ hp
      exact ⟨hr, fun hc => c2 ▸ hc, fun hl => Or.inl (c1 ▸ hl)⟩
    have cont : ∀ (r : Res (List Node)) (tk2 : Tokenizer),
        (∀ s, r = .ok s → seqRaw s = true ∧
          (commaPending seq = true → commaPending s = true) ∧
          (lowPending seq = true → lowPending s = true ∨ commaPending s = true)) →
        (match r with
          | .fuel => Res.fuel
          | .throw e => Res.throw e
          | .ok seq => Res.ok (Round.next tk2 seq)) = .ok (.next t1 s1) →
        seqRaw s1 = true ∧
          (commaPending seq = true → commaPending s1 = true) ∧
          (lowPending seq = true → lowPending s1 = true ∨ commaPending s1 = true) := by
      intro r tk2 hr hh
      cases r with
      | fuel => simp at hh
      | throw e => simp at hh
      | ok s =>
        simp only [Res.ok.injEq, Round.next.injEq] at hh
        rw [← hh.2]
        exact hr s rfl
    have leave : (match finishRec seq tok with
          | .fuel => Res.fuel
          | .throw e => Res.throw e
          | .ok res => Res.ok (Round.done res tk)) = .ok (.next t1 s1) → False := by
      intro hh
      cases hf : finishRec seq tok <;> simp [hf] at hh
    have noOP : tok.toktype ≠ .OP →
        seqRaw s1 = true ∧
          (commaPending seq = true → commaPending s1 = true) ∧
          (lowPending seq = true → lowPending s1 = true ∨ commaPending s1 = true) →
        seqRaw s1 = true ∧
        (commaPending seq = true → commaPending s1 = true) ∧
        (lowPending seq = true → lowPending s1 = true ∨ commaPending s1 = true) ∧
        (∀ tok2 t2, Res.ok (tok, tk) = Res.ok (tok2, t2) → tok2.toktype = .OP →
          tok2.text = utf16 "," → lowPending seq = true → commaPending s1 = true) := by
      intro hne ⟨a1, a2, a3⟩
      refine ⟨a1, a2, a3, ?_⟩
      intro tok2 t2 he hop
      simp only [Res.ok.injEq, Prod.mk.injEq] at he
      rw [← he.1] at hop
      exact absurd hop hne
    cases htt : tok.toktype
    case EOF =>
      simp only [htt] at h
      exact (leave h).elim
    case ANY =>
      simp only [htt, Res.ok.injEq, Round.next.injEq] at h
      obtain ⟨-, e⟩ := h
      subst e
      exact noOP (by simp [htt]) (same seq rfl hs)
    case WS =>
      simp only [htt, Res.ok.injEq, Round.next.injEq] at h
      obtain ⟨-, e⟩ := h
      subst e
      exact noOP (by simp [htt]) (same seq rfl hs)
    case COMMENT =>
      simp only [htt, Res.ok.injEq, Round.next.injEq] at h
      obtain ⟨-, e⟩ := h
      subst e
      exact noOP (by simp [htt]) (same seq rfl hs)
    case START_COMMENT =>
      simp only [htt, Res.ok.injEq, Round.next.injEq] at h
      obtain ⟨-, e⟩ := h
      subst e
      exact noOP (by simp [htt]) (same seq rfl hs)
    case OP =>
      simp only [htt] at h
      cases hc : caseOP tok seq with
      | fuel => simp [hc] at h
      | throw e => simp [hc] at h
      | ok s =>
        simp only [hc, Res.ok.injEq, Round.next.injEq] at h
        rw [← h.2]
        obtain ⟨i1, i2, i3⟩ := caseOP_order _ _ _ hs hc
        refine ⟨caseOP_raw _ _ _ hs hc, i1, i2, ?_⟩
        intro tok2 t2 he _ htx
        simp only [Res.ok.injEq, Prod.mk.injEq] at he
        rw [← he.1] at htx
        exact i3 htx
    case ID =>
      simp only [htt] at h
      exact noOP (by simp [htt]) (cont _ tk (fun s hr =>
        same s (caseValue_pendings _ _ _ _ hr) (caseValue_raw _ _ _ _ hs (by rfl) hr)) h)
    case NUM =>
      simp only [htt] at h
      exact noOP (by simp [htt]) (cont _ tk (fun s hr =>
        same s (caseValue_pendings _ _ _ _ hr) (caseValue_raw _ _ _ _ hs (by rfl) hr)) h)
    case STR =>
      simp only [htt] at h
      exact noOP (by simp [htt]) (cont _ tk (fun s hr =>
        same s (caseValue_pendings _ _ _ _ hr) (caseValue_raw _ _ _ _ hs (by rfl) hr)) h)
    case SUB =>
      simp only [htt] at h
      refine noOP (by simp [htt]) (cont _ tk (fun s hr => ?_) h)
      obtain ⟨j1, j2⟩ := subsup_order _ _ _ _ _ hr
      exact ⟨(subsup_raw _ _ _ _ _ hs hr).1, j1, fun hl => Or.inl (j2 hl)⟩
    case SUP =>
      simp only [htt] at h
      refine noOP (by simp [htt]) (cont _ tk (fun s hr => ?_) h)
      obtain ⟨s0, h0, hm⟩ := Res.bind_eq_ok _ _ _ hr
      obtain ⟨i1, i2⟩ := subsup_raw _ _ _ _ _ hs h0
      obtain ⟨j1, j2⟩ := subsup_order _ _ _ _ _ h0
      obtain ⟨c1, c2⟩ := order_congr _ _ (markSuperscript_pendings _ _ i2 hm)
      exact ⟨markSuperscript_raw _ _ i1 i2 hm, fun hc => c2 ▸ j1 hc,
        fun hl => Or.inl (c1 ▸ j2 hl)⟩
    case BRA =>
      simp only [htt] at h
      split at h
      · exact (leave h).elim
      · cases hsub : parseLoop fuel tk (some (charAt brackets (indexOf brackets tok.text + 1))) []
          with
        | fuel => simp [hsub] at h
        | throw e => simp [hsub] at h
        | ok r2 =>
          obtain ⟨sub, tk2⟩ := r2
          have hsr := parseLoop_raw _ _ _ _ (by rfl) sub tk2 hsub
          simp only [hsub] at h
          split at h
          · simp at h
          · have hlst := groupElements_raw _ hsr
            refine noOP (by simp [htt]) (cont _ tk2 (fun s hr => ?_) h)
            split at hr
            · rename_i hev
              obtain ⟨node, hn, h2⟩ := Res.bind_eq_ok _ _ _ hr
              simp only [Res.ok.injEq] at h2
              rw [← h2]
              exact same _ (pendings_push_operand _ _ hev)
                (seqRaw_push_operand _ _ hs hev (bracketValue_raw _ _ _ _ hlst hn))
            · rename_i hodd
              exact same _ (bracketCall_pendings _ _ _ _ _ (by omega) hr)
                (bracketCall_raw _ _ _ _ _ hs (by omega) hlst hr)

/-- A round of the loop of `parseRec` that ends the call, on a sequence whose first pending
operator is a comma: the expression is an infix node of the comma. -/
theorem parseRound_done (fuel : Nat) (t t1 : Tokenizer) (closing : Option JSString)
    (seq : List Node) (res : ParseRecResult) (hs : seqRaw seq = true)
    (hc : commaPending seq = true)
    (h : parseRound fuel t closing seq = .ok (.done res t1)) : res.expr.isComma = true := by
  unfold parseRound at h
  cases hnx : t.next with
  | fuel => simp [hnx] at h
  | throw e => simp [hnx] at h
  | ok r =>
    obtain ⟨tok, tk⟩ := r
    simp only [hnx] at h
    have cont : ∀ (r : Res (List Node)) (tk2 : Tokenizer),
        (match r with
          | .fuel => Res.fuel
          | .throw e => Res.throw e
          | .ok seq => Res.ok (Round.next tk2 seq)) = .ok (.done res t1) → False := by
      intro r tk2 hh
      cases r <;> simp at hh
    have leave : (match finishRec seq tok with
          | .fuel => Res.fuel
          | .throw e => Res.throw e
          | .ok res => Res.ok (Round.done res tk)) = .ok (.done res t1) →
        res.expr.isComma = true := by
      intro hh
      cases hf : finishRec seq tok with
      | fuel => simp [hf] at hh
      | throw e => simp [hf] at hh
      | ok res0 =>
        simp only [hf, Res.ok.injEq, Round.done.injEq] at hh
        rw [← hh.1]
        exact finishRec_comma _ _ _ hs hc hf
    cases htt : tok.toktype
    case EOF =>
      simp only [htt] at h
      exact leave h
    case ANY => simp [htt] at h
    case WS => simp [htt] at h
    case COMMENT => simp [htt] at h
    case START_COMMENT => simp [htt] at h
    case OP =>
      simp only [htt] at h
      exact (cont _ _ h).elim
    case ID =>
      simp only [htt] at h
      exact (cont _ _ h).elim
    case NUM =>
      simp only [htt] at h
      exact (cont _ _ h).elim
    case STR =>
      simp only [htt] at h
      exact (cont _ _ h).elim
    case SUB =>
      simp only [htt] at h
      exact (cont _ _ h).elim
    case SUP =>
      simp only [htt] at h
      exact (cont _ _ h).elim
    case BRA =>
      simp only [htt] at h
      split at h
      · exact leave h
      · cases hsub : parseLoop fuel tk (some (charAt brackets (indexOf brackets tok.text + 1))) []
          with
        | fuel => simp [hsub] at h
        | throw e => simp [hsub] at h
        | ok r2 =>
          obtain ⟨sub, tk2⟩ := r2
          simp only [hsub] at h
          split at h
          · simp at h
          · exact (cont _ _ h).elim

/-- From a sequence whose first pending operator is a comma, `parseRec` returns an infix node
of the comma. -/
theorem parseLoop_comma (fuel : Nat) : ∀ (t : Tokenizer) (closing : Option JSString)
    (seq : List Node), seqRaw seq = true → commaPending seq = true →
    ∀ (res : ParseRecResult) (t1 : Tokenizer),
      parseLoop fuel t closing seq = .ok (res, t1) → res.expr.isComma = true := by
  induction fuel with
  | zero =>
    intro t closing seq _ _ res t1 h
    simp [parseLoop] at h
  | succ n ih =>
    intro t closing seq hs hc res t1 h
    rw [parseLoop_round] at h
    obtain ⟨r, hr, h2⟩ := Res.bind_eq_ok _ _ _ h
    cases r with
    | next t2 s2 =>
      obtain ⟨i1, i2, -, -⟩ := parseRound_next _ _ _ _ _ _ hs hr
      exact ih _ _ _ i1 (i2 hc) res t1 h2
    | done res0 t2 =>
      simp only [Res.ok.injEq, Prod.mk.injEq] at h2
      rw [← h2.1]
      exact parseRound_done _ _ _ _ _ _ hs hc hr

/-- The sequence of the outermost call of `parseRec` is well-formed and has its pending commas
first. -/
theorem roundState_order (code : JSString) : ∀ (k fuel : Nat) (t : Tokenizer)
    (seq : List Node), roundState code k = some (fuel, t, seq) →
    seqRaw seq = true ∧ (lowPending seq = true ∨ commaPending seq = true) := by
  intro k
  induction k with
  | zero =>
    intro fuel t seq h
    simp only [roundState, Option.some.injEq, Prod.mk.injEq] at h
    rw [← h.2.2]
    exact ⟨by rfl, Or.inl (by rfl)⟩
  | succ n ih =>
    intro fuel t seq h
    rw [roundState] at h
    split at h
    · rename_i f0 t0 s0 hst
      split at h
      · rename_i t1 s1 hr
        simp only [Option.some.injEq, Prod.mk.injEq] at h
        obtain ⟨-, -, h3⟩ := h
        subst h3
        obtain ⟨i1, i2⟩ := ih _ _ _ hst
        obtain ⟨j1, j2, j3, -⟩ := parseRound_next _ _ _ _ _ _ i1 hr
        refine ⟨j1, ?_⟩
        rcases i2 with i2 | i2
        · exact j3 i2
        · exact Or.inr (j2 i2)
      · simp at h
    · simp at h

theorem parseRound_OP (fuel : Nat) (t t1 : Tokenizer) (closing : Option JSString)
    (seq : List Node) (tok : Token) (r : Round) (hnx : t.next = .ok (tok, t1))
    (hop : tok.toktype = .OP) (h : parseRound fuel t closing seq = .ok r) :
    ∃ s, r = .next t1 s := by
  unfold parseRound at h
  simp only [hnx, hop] at h
  cases hc : caseOP tok seq with
  | fuel => simp [hc] at h
  | throw e => simp [hc] at h
  | ok s =>
    simp only [hc, Res.ok.injEq] at h
    exact ⟨s, h.symm⟩

/-- What the outermost call of `parseRec` returns when it has read a comma operator token: an
infix node of the comma. -/
theorem parseRec_top_comma (code : JSString) (k : Nat) (tok : Token)
    (hk : topLevelToken code k = some tok) (hop : tok.toktype = .OP)
    (hc : tok.text = utf16 ",") (res : ParseRecResult) (t1 : Tokenizer)
    (h : parseRec (code.length + 1) (Tokenizer.new code) none = .ok (res, t1)) :
    res.expr.isComma = true := by
  unfold topLevelToken at hk
  split at hk
  · rename_i f t seq hst
    split at hk
    · rename_i tok0 t2 hnx
      simp only [Option.some.injEq] at hk
      subst hk
      rw [roundState_run code k _ _ _ hst, parseLoop_round] at h
      obtain ⟨r, hr, h2⟩ := Res.bind_eq_ok _ _ _ h
      obtain ⟨s2, hs2⟩ := parseRound_OP _ _ _ _ _ _ _ hnx hop hr
      subst hs2
      obtain ⟨i1, i2⟩ := roundState_order code k _ _ _ hst
      obtain ⟨j1, j2, -, j4⟩ := parseRound_next _ _ _ _ _ _ i1 hr
      have hcomma : commaPending s2 = true := by
        rcases i2 with i2 | i2
        · exact j4 _ _ hnx hop hc i2
        · exact j2 i2
      exact parseLoop_comma _ _ _ _ j1 hcomma res t1 h2
    · simp at hk
  · simp at hk

theorem parentFirst_comma (f : Fields) (args : List Node) (h1 : f.ctype = some "infix")
    (h2 : f.oper = some (utf16 ",")) :
    parentFirst f args =
      .throw (ParseError (utf16 "comma may only be used to delimit list elements")
        f.start none) := by
  have hne : f.oper ≠ some (utf16 ":=") := by
    rw [h2]
    decide
  unfold parentFirst
  rw [if_pos h1, if_neg hne, if_pos h2]

/-- Postprocessing an infix node of the comma throws. -/
theorem postprocess_comma (f : Fields) (a : List Node) (m : List (JSString × Node))
    (o : Option Node) (h : Node.isComma (.obj f a m o) = true) :
    postprocess (.obj f a m o) =
      .throw (ParseError (utf16 "comma may only be used to delimit list elements")
        f.start none) := by
  simp only [Node.isComma, Bool.and_eq_true, decide_eq_true_eq] at h
  rw [postprocess, parentFirst_comma f a h.1 h.2]

theorem notComma_of_raw :
    Fields.notComma { ctype := some "void" } = true ∧
    (∀ (f : Fields) (args : List Node), f.rawShape args = true → f.ctype ≠ some "paren" →
      parentFirst f args = .ok () → Fields.notComma (stripTransient f) = true) ∧
    (∀ (f : Fields) (key : Option JSString),
      Fields.notComma (stripTransient { f with ctype := some "field", key := key }) = true) := by
  refine ⟨by decide, ?_, ?_⟩
  · intro f args _ _ hpf
    by_cases h1 : f.ctype = some "infix"
    · by_cases h2 : f.oper = some (utf16 ",")
      · exfalso
        rw [parentFirst_comma f args h1 h2] at hpf
        simp at hpf
      · simp [Fields.notComma, stripTransient, h2]
    · simp [Fields.notComma, stripTransient, h1]
  · intro f key
    simp [Fields.notComma, stripTransient]

/-- No tree that `parse` returns contains an infix node with oper ','. -/
theorem returned_tree_no_comma (input : JSString) (n : Node)
    (h : parse input = some (.node n)) : n.all Fields.notComma = true := by
  unfold parse parseWith at h
  cases hp : parseRec (input.length + 1) (Tokenizer.new input) none with
  | fuel => simp [hp] at h
  | throw e => simp [hp] at h
  | ok r =>
    obtain ⟨res, t⟩ := r
    simp only [hp] at h
    split at h
    · simp at h
    · cases hpp : postprocess res.expr with
      | fuel => simp [hpp] at h
      | throw e => simp [hpp] at h
      | ok m =>
        simp only [hpp, Option.some.injEq, ParseOutput.node.injEq] at h
        subst h
        have hraw := parseLoop_raw _ _ _ _ (by rfl) res t hp
        exact postprocess_all Fields.notComma notComma_of_raw.1 notComma_of_raw.2.1
          notComma_of_raw.2.2 _ _ hraw hpp

/-- A comma operator token that the outermost call of `parseRec` reads, a comma outside of
every bracket group and of every comment, whatever stands around it: `parse` returns an error
node, which is the error that `parseRec` throws, or else, `parseRec` returning an infix node of
the comma, the error 'Closing bracket never opened.' when the call was ended by a closing bracket
and the error 'comma may only be used to delimit list elements' when it was ended by the end of
the input. -/
theorem top_level_comma_rejected (code : JSString) (k : Nat) (tok : Token)
    (hk : topLevelToken code k = some tok) (hop : tok.toktype = .OP)
    (hc : tok.text = utf16 ",") :
    ∃ e, parse code = some (.error e) ∧
      (parseRec (code.length + 1) (Tokenizer.new code) none = .throw e ∨
        ∃ res t f a m o,
          parseRec (code.length + 1) (Tokenizer.new code) none = .ok (res, t) ∧
          res.expr = .obj f a m o ∧ f.ctype = some "infix" ∧ f.oper = some (utf16 ",") ∧
          ((res.closedBy.toktype ≠ .EOF ∧
              e = ParseError (utf16 "Closing bracket never opened.") (some res.closedBy.start)
                (some res.closedBy.text)) ∨
            (res.closedBy.toktype = .EOF ∧
              e = ParseError (utf16 "comma may only be used to delimit list elements")
                f.start none))) := by
  have hnf := (parseLoop_ne_fuel (code.length + 1) (Tokenizer.new code) none []
    (by simp [Tokenizer.new])).1
  have hcomma := parseRec_top_comma code k tok hk hop hc
  unfold parse parseWith
  cases hp : parseRec (code.length + 1) (Tokenizer.new code) none with
  | fuel => exact absurd hp hnf
  | throw e => exact ⟨e, rfl, Or.inl rfl⟩
  | ok r =>
    obtain ⟨res, t⟩ := r
    have hic := hcomma res t hp
    simp only []
    match hex : res.expr, hic with
    | .obj f a m o, hic =>
      have hf : f.ctype = some "infix" ∧ f.oper = some (utf16 ",") := by
        simpa [Node.isComma] using hic
      by_cases hcl : res.closedBy.toktype = .EOF
      · rw [if_neg (by simp [hcl]), postprocess_comma f a m o hic]
        exact ⟨_, rfl, Or.inr ⟨res, t, f, a, m, o, rfl, hex, hf.1, hf.2,
          Or.inr ⟨hcl, rfl⟩⟩⟩
      · rw [if_pos hcl]
        exact ⟨_, rfl, Or.inr ⟨res, t, f, a, m, o, rfl, hex, hf.1, hf.2,
          Or.inl ⟨hcl, rfl⟩⟩⟩

/-! ## Two operands joined by a comma -/

theorem eraseArgs_eq_map : ∀ (l : List Node), Node.eraseArgs l = l.map Node.erase
  | [] => rfl
  | a :: rest => by simp [Node.eraseArgs, eraseArgs_eq_map rest]

theorem eraseModifs_eq_map : ∀ (l : List (JSString × Node)),
    Node.eraseModifs l = l.map fun e => (e.1, Node.erase e.2)
  | [] => rfl
  | (k, a) :: rest => by simp [Node.eraseModifs, eraseModifs_eq_map rest]

theorem erase_truthy (n : Node) : n.erase.truthy = n.truthy := by
  cases n <;> rfl

theorem Res.okMap_eq_some {α β : Type} (g : α → β) (r : Res α) (b : β)
    (h : r.okMap g = some b) : ∃ a, r = .ok a ∧ g a = b := by
  cases r with
  | ok a => exact ⟨a, rfl, by simpa [Res.okMap] using h⟩
  | throw e => simp [Res.okMap] at h
  | fuel => simp [Res.okMap] at h

/-- A function of the sequence whose outcome does not depend on the positions: what it returns
for two sequences that are equal without their positions. -/
theorem okMap_congr (F : List Node → Res (List Node))
    (hU : ∀ x, (F (x.map Node.erase)).okMap (List.map Node.erase) =
      (F x).okMap (List.map Node.erase))
    (x y : List Node) (hxy : y.map Node.erase = x.map Node.erase) :
    (F y).okMap (List.map Node.erase) = (F x).okMap (List.map Node.erase) := by
  rw [← hU y, ← hU x, hxy]

theorem sim_of_erase (F : List Node → Res (List Node))
    (hU : ∀ x, (F (x.map Node.erase)).okMap (List.map Node.erase) =
      (F x).okMap (List.map Node.erase))
    (x y s : List Node) (hxy : y.map Node.erase = x.map Node.erase) (h : F x = .ok s) :
    ∃ s1, F y = .ok s1 ∧ s1.map Node.erase = s.map Node.erase := by
  have := okMap_congr F hU x y hxy
  rw [h] at this
  exact Res.okMap_eq_some _ _ _ this


mutual
theorem erase_idem : ∀ n : Node, n.erase.erase = n.erase
  | .null => rfl
  | .undefined => rfl
  | .obj f a m o => by
    simp only [Node.erase]
    rw [eraseArgs_idem a, eraseModifs_idem m, eraseObj_idem o]
    rfl
theorem eraseArgs_idem : ∀ l : List Node, Node.eraseArgs (Node.eraseArgs l) = Node.eraseArgs l
  | [] => rfl
  | a :: r => by
    simp only [Node.eraseArgs]
    rw [erase_idem a, eraseArgs_idem r]
theorem eraseModifs_idem : ∀ l : List (JSString × Node),
    Node.eraseModifs (Node.eraseModifs l) = Node.eraseModifs l
  | [] => rfl
  | (k, a) :: r => by
    simp only [Node.eraseModifs]
    rw [erase_idem a, eraseModifs_idem r]
theorem eraseObj_idem : ∀ o : Option Node, Node.eraseObj (Node.eraseObj o) = Node.eraseObj o
  | none => rfl
  | some x => by
    simp only [Node.eraseObj]
    rw [erase_idem x]
end

theorem erase_comp : Node.erase ∘ Node.erase = Node.erase := by
  funext n
  exact erase_idem n

theorem map_erase_idem (l : List Node) : (l.map Node.erase).map Node.erase = l.map Node.erase := by
  rw [List.map_map, erase_comp]

theorem Res.ok_bind {α β : Type} (a : α) (f : α → Res β) : (Res.ok a).bind f = f a := rfl

/-- Two runs that end alike, followed by steps that end alike, end alike. -/
theorem okMap_bind {α β γ δ : Type} (g : α → γ) (k : β → δ) (r1 r2 : Res α)
    (f1 f2 : α → Res β) (hr : r1.okMap g = r2.okMap g)
    (hf : ∀ a1 a2, g a1 = g a2 → (f1 a1).okMap k = (f2 a2).okMap k) :
    (r1.bind f1).okMap k = (r2.bind f2).okMap k := by
  cases r1 <;> cases r2 <;> simp only [Res.okMap, Option.some.injEq] at hr <;>
    first
    | exact hf _ _ hr
    | rfl
    | simp at hr

theorem sim_length (x y : List Node) (h : y.map Node.erase = x.map Node.erase) :
    y.length = x.length := by
  have := congrArg List.length h
  simpa using this

theorem applyOperator_erase (seq : List Node) :
    (applyOperator (seq.map Node.erase)).okMap (List.map Node.erase) =
      (applyOperator seq).okMap (List.map Node.erase) := by
  unfold applyOperator
  rw [← List.map_reverse]
  generalize seq.reverse = r
  match r with
  | [] => rfl
  | [_] => rfl
  | [_, _] => simp [Res.okMap]
  | rhs :: .null :: lhs :: rest => rfl
  | rhs :: .undefined :: lhs :: rest => rfl
  | rhs :: .obj op a m o :: lhs :: rest =>
    simp only [List.map_cons, Node.erase, erase_truthy]
    cases hop : op.op with
    | none =>
      cases lhs <;> cases rhs <;>
        simp only [Node.erase, Node.truthy, Fields.erase, hop, Res.okMap, Res.bind,
          Bool.false_eq_true, if_false, if_true] <;>
        split_ifs <;> rfl
    | some d =>
      cases lhs <;> cases rhs <;>
        simp only [Node.erase, Node.truthy, Fields.erase, hop, Res.okMap, Res.bind,
          Bool.false_eq_true, if_false, if_true] <;>
        split_ifs <;>
        simp [Node.erase, Fields.erase, Node.eraseArgs, List.map_reverse, erase_comp,
          erase_idem, eraseArgs_idem, eraseModifs_idem, eraseObj_idem]

theorem applyOperator_sim (x y : List Node) (h : y.map Node.erase = x.map Node.erase) :
    (applyOperator y).okMap (List.map Node.erase) =
      (applyOperator x).okMap (List.map Node.erase) :=
  okMap_congr applyOperator applyOperator_erase x y h

theorem pendingLe_erase (p : Nat) (x : List Node) :
    pendingLe p (x.map Node.erase) = pendingLe p x := by
  unfold pendingLe
  rw [← List.map_reverse]
  generalize x.reverse = r
  match r with
  | [] => rfl
  | [_] => rfl
  | _ :: .null :: _ => rfl
  | _ :: .undefined :: _ => rfl
  | _ :: .obj f a m o :: _ => rfl

theorem pendingLe_sim (p : Nat) (x y : List Node) (h : y.map Node.erase = x.map Node.erase) :
    pendingLe p y = pendingLe p x := by
  rw [← pendingLe_erase p y, ← pendingLe_erase p x, h]

theorem applyLoop_sim (cond : List Node → Res Bool)
    (hc : ∀ x y, y.map Node.erase = x.map Node.erase → cond y = cond x) (fuel : Nat) :
    ∀ x y : List Node, y.map Node.erase = x.map Node.erase →
      (applyLoop cond fuel y).okMap (List.map Node.erase) =
        (applyLoop cond fuel x).okMap (List.map Node.erase) := by
  induction fuel with
  | zero =>
    intro x y h
    rw [applyLoop_zero, applyLoop_zero, hc x y h, sim_length x y h]
    split
    · simp [Res.okMap, h]
    · cases cond x with
      | fuel => rfl
      | throw e => rfl
      | ok b => cases b <;> simp [Res.okMap, h]
  | succ n ih =>
    intro x y h
    rw [applyLoop_succ, applyLoop_succ, hc x y h, sim_length x y h]
    split
    · simp [Res.okMap, h]
    · cases cond x with
      | fuel => rfl
      | throw e => rfl
      | ok b =>
        cases b
        · simp [Res.okMap, h]
        · have hop := applyOperator_sim x y h
          cases hx : applyOperator x <;> cases hy : applyOperator y <;>
            simp only [hx, hy, Res.okMap, Option.some.injEq] at hop ⊢ <;>
            first
            | exact ih _ _ hop
            | rfl
            | simp at hop

theorem padNull_sim (x y : List Node) (h : y.map Node.erase = x.map Node.erase) :
    (padNull y).map Node.erase = (padNull x).map Node.erase := by
  unfold padNull
  rw [sim_length x y h]
  split
  · simp [h, Node.erase]
  · exact h

theorem applyWhileLe_sim (p : Nat) (x y : List Node) (h : y.map Node.erase = x.map Node.erase) :
    (applyWhileLe p y).okMap (List.map Node.erase) =
      (applyWhileLe p x).okMap (List.map Node.erase) := by
  unfold applyWhileLe
  rw [sim_length x y h]
  exact applyLoop_sim _ (pendingLe_sim p) _ x y h

theorem getLast_erase (x : List Node) :
    (x.map Node.erase).getLast? = x.getLast?.map Node.erase := by
  simp [List.getLast?_map]

theorem mergesWithDefine_erase (op : OpDescr) (x : List Node) :
    mergesWithDefine op (x.map Node.erase) = mergesWithDefine op x := by
  unfold mergesWithDefine
  rw [getLast_erase, List.length_map]
  cases x.getLast? with
  | none => rfl
  | some l => cases l <;> rfl

theorem mergesWithDefine_sim (op : OpDescr) (x y : List Node)
    (h : y.map Node.erase = x.map Node.erase) :
    mergesWithDefine op y = mergesWithDefine op x := by
  rw [← mergesWithDefine_erase op y, ← mergesWithDefine_erase op x, h]

theorem shape_eq (tok tok' : Token) (h : tok'.shape = tok.shape) :
    tok'.toktype = tok.toktype ∧ tok'.text = tok.text ∧ tok'.raw = tok.raw := by
  simpa [Token.shape] using h

theorem dropLast_sim (x y : List Node) (h : y.map Node.erase = x.map Node.erase) :
    y.dropLast.map Node.erase = x.dropLast.map Node.erase := by
  have hl := sim_length x y h
  rw [List.dropLast_eq_take, List.dropLast_eq_take, List.map_take, List.map_take, h, hl]

theorem push_sim (x y : List Node) (a b : Node) (h : y.map Node.erase = x.map Node.erase)
    (hab : b.erase = a.erase) :
    (y ++ [b]).map Node.erase = (x ++ [a]).map Node.erase := by
  simp [h, hab]

theorem caseOP_sim (tok tok1 : Token) (hs : tok1.shape = tok.shape) (x y : List Node)
    (h : y.map Node.erase = x.map Node.erase) :
    (caseOP tok1 y).okMap (List.map Node.erase) =
      (caseOP tok x).okMap (List.map Node.erase) := by
  obtain ⟨h1, h2, h3⟩ := shape_eq tok tok1 hs
  unfold caseOP
  rw [h2]
  cases operators tok.text with
  | none => rfl
  | some op0 =>
    simp only []
    rw [mergesWithDefine_sim op0 x y h]
    cases mergesWithDefine op0 x with
    | fuel => rfl
    | throw e => rfl
    | ok merge =>
      rw [Res.ok_bind, Res.ok_bind]
      cases merge
      · simp only [Bool.false_eq_true, if_false, Res.ok_bind]
        refine okMap_bind _ _ _ _ _ _ (applyWhileLe_sim _ _ _ (padNull_sim x y h)) ?_
        intro a1 a2 ha
        simp only [Res.okMap, Option.some.injEq]
        exact push_sim _ _ _ _ ha (by simp [Node.erase, Fields.erase, Token.toFields, h1, h3])
      · simp only [if_true]
        cases operators (utf16 ":=_") with
        | none => rfl
        | some op =>
          simp only [Res.ok_bind]
          refine okMap_bind _ _ _ _ _ _
            (applyWhileLe_sim _ _ _ (padNull_sim _ _ (dropLast_sim x y h))) ?_
          intro a1 a2 ha
          simp only [Res.okMap, Option.some.injEq]
          exact push_sim _ _ _ _ ha (by simp [Node.erase, Fields.erase, Token.toFields, h1, h3])

theorem caseValue_sim (tok tok1 : Token) (f f1 : Fields) (hf : f1.erase = f.erase)
    (x y : List Node) (h : y.map Node.erase = x.map Node.erase) :
    (caseValue tok1 f1 y).okMap (List.map Node.erase) =
      (caseValue tok f x).okMap (List.map Node.erase) := by
  unfold caseValue
  rw [sim_length x y h]
  split
  · rfl
  · simp only [Res.okMap, Option.some.injEq]
    exact push_sim _ _ _ _ h (by simp [Node.erase, hf, Node.eraseArgs, Node.eraseModifs, Node.eraseObj])

theorem subsup_sim (tok tok1 : Token) (hs : tok1.shape = tok.shape) (op dict : JSString)
    (x y : List Node) (h : y.map Node.erase = x.map Node.erase) :
    (subsup y tok1 op dict).okMap (List.map Node.erase) =
      (subsup x tok op dict).okMap (List.map Node.erase) := by
  obtain ⟨h1, h2, h3⟩ := shape_eq tok tok1 hs
  unfold subsup
  cases operators op with
  | none => rfl
  | some d =>
    simp only []
    refine okMap_bind _ _ _ _ _ _ (applyWhileLe_sim _ _ _ (padNull_sim x y h)) ?_
    intro a1 a2 ha
    apply applyOperator_sim
    simp [ha, Node.erase, Fields.erase, Token.toFields, h1, h2, h3]

theorem markSuperscript_erase (x : List Node) :
    (markSuperscript (x.map Node.erase)).okMap (List.map Node.erase) =
      (markSuperscript x).okMap (List.map Node.erase) := by
  unfold markSuperscript
  rw [getLast_erase]
  cases x.getLast? with
  | none => rfl
  | some l =>
    cases l with
    | null => rfl
    | undefined => rfl
    | obj f a m o =>
      simp [Res.okMap, Node.erase, Fields.erase, map_erase_idem, erase_idem, erase_comp,
        eraseArgs_idem, eraseModifs_idem, eraseObj_idem]

theorem markSuperscript_sim (x y : List Node) (h : y.map Node.erase = x.map Node.erase) :
    (markSuperscript y).okMap (List.map Node.erase) =
      (markSuperscript x).okMap (List.map Node.erase) :=
  okMap_congr markSuperscript markSuperscript_erase x y h

theorem commaChain_erase : ∀ e : Node, commaChain e.erase = (commaChain e).map Node.erase
  | .null => rfl
  | .undefined => rfl
  | .obj f args m o => by
    by_cases hc : f.ctype = some "infix" ∧ f.oper = some (utf16 ",")
    · match args with
      | [] => simp [commaChain, Node.eraseArgs, Fields.erase, hc.1, hc.2, Node.erase]
      | [a] => simp [commaChain, Node.eraseArgs, Fields.erase, hc.1, hc.2, Node.erase]
      | a :: b :: r =>
        have ih := commaChain_erase b
        simp [commaChain, Node.eraseArgs, Fields.erase, hc.1, hc.2, Node.erase, ih]
    · have hc1 : ¬(f.erase.ctype = some "infix" ∧ f.erase.oper = some (utf16 ",")) := hc
      rw [Node.erase]
      unfold commaChain
      rw [if_neg hc, if_neg hc1]
      simp [Node.erase]

theorem groupElements_erase (e : Node) :
    groupElements e.erase = (groupElements e).map Node.erase := by
  unfold groupElements
  rw [erase_truthy]
  split
  · exact commaChain_erase e
  · rfl

theorem groupElements_sim (e e1 : Node) (h : e1.erase = e.erase) :
    (groupElements e1).map Node.erase = (groupElements e).map Node.erase := by
  rw [← groupElements_erase, ← groupElements_erase, h]

theorem bracketValue_sim (pair : JSString) (lst lst1 : List Node) (tok tok1 : Token)
    (h : lst1.map Node.erase = lst.map Node.erase) :
    (bracketValue pair lst1 tok1).okMap Node.erase =
      (bracketValue pair lst tok).okMap Node.erase := by
  have hl := sim_length lst lst1 h
  unfold bracketValue
  rw [hl]
  split_ifs <;>
    simp [Res.okMap, Node.erase, Fields.erase, eraseArgs_eq_map, h, Node.eraseModifs,
      Node.eraseObj, Node.eraseArgs]

theorem setProperty_erase (m : List (JSString × Node)) (k : JSString) (v : Node) :
    Node.eraseModifs (setProperty m k v) = setProperty (Node.eraseModifs m) k v.erase := by
  simp only [eraseModifs_eq_map, setProperty, List.any_map]
  have hcomp : ((fun e : JSString × Node => e.1 == k) ∘
      fun e : JSString × Node => (e.1, Node.erase e.2)) = fun e => e.1 == k := rfl
  rw [hcomp]
  split
  · simp only [List.map_map]
    apply List.map_congr_left
    intro e _
    simp only [Function.comp]
    split <;> rfl
  · simp

theorem getD_erase (l : List Node) (i : Nat) :
    (Node.eraseArgs l).getD i .undefined = (l.getD i .undefined).erase := by
  rw [eraseArgs_eq_map]
  induction l generalizing i with
  | nil => rfl
  | cons a r ih =>
    cases i with
    | zero => rfl
    | succ j => simpa using ih j

theorem callArguments_erase : ∀ (lst args : List Node) (modifs : List (JSString × Node)),
    (callArguments (lst.map Node.erase) (args.map Node.erase)
        (Node.eraseModifs modifs)).okMap eraseCall =
      (callArguments lst args modifs).okMap eraseCall := by
  intro lst
  induction lst with
  | nil =>
    intro args modifs
    simp [callArguments, Res.okMap, eraseCall, map_erase_idem, eraseModifs_idem, erase_idem]
  | cons e rest ih =>
    intro args modifs
    cases e with
    | null =>
      simp only [List.map_cons, Node.erase, callArguments]
      have := ih (args ++ [.null]) modifs
      simpa [Node.erase] using this
    | undefined =>
      simp only [List.map_cons, Node.erase, callArguments]
      have := ih (args ++ [.undefined]) modifs
      simpa [Node.erase] using this
    | obj f ea em eo =>
      simp only [List.map_cons, Node.erase, callArguments]
      by_cases hc : f.ctype = some "infix" ∧ f.oper = some (utf16 "->")
      · have hc1 : f.erase.ctype = some "infix" ∧ f.erase.oper = some (utf16 "->") := hc
        rw [if_pos hc, if_pos hc1, getD_erase, getD_erase]
        cases ea.getD 0 .undefined with
        | null => rfl
        | undefined => rfl
        | obj id ia im io =>
          simp only [Node.erase]
          by_cases hv : id.ctype ≠ some "variable"
          · have hv1 : id.erase.ctype ≠ some "variable" := hv
            rw [if_pos hv, if_pos hv1]
            rfl
          · have hv1 : ¬ id.erase.ctype ≠ some "variable" := hv
            rw [if_neg hv, if_neg hv1]
            have := ih args (setProperty modifs (id.name.getD (utf16 "undefined"))
              (ea.getD 1 .undefined))
            rw [setProperty_erase] at this
            exact this
      · have hc1 : ¬(f.erase.ctype = some "infix" ∧ f.erase.oper = some (utf16 "->")) := hc
        rw [if_neg hc, if_neg hc1]
        have := ih (args ++ [.obj f ea em eo]) modifs
        simpa [Node.erase] using this

theorem callArguments_sim (lst lst1 : List Node) (h : lst1.map Node.erase = lst.map Node.erase) :
    (callArguments lst1 [] []).okMap eraseCall = (callArguments lst [] []).okMap eraseCall := by
  have h1 := callArguments_erase lst1 [] []
  have h2 := callArguments_erase lst [] []
  simp only [List.map_nil, Node.eraseModifs] at h1 h2
  rw [← h1, ← h2, h]

theorem fields_of_erase (f f1 : Fields) (h : f1.erase = f.erase) :
    f1 = { f with start := f1.start, end_ := f1.end_ } := by
  cases f
  cases f1
  simp only [Fields.erase, Fields.mk.injEq] at h
  simp only [Fields.mk.injEq, true_and]
  tauto

theorem bracketCall_sim (pair : JSString) (lst lst1 : List Node) (tok tok1 : Token)
    (x y : List Node) (hl : lst1.map Node.erase = lst.map Node.erase)
    (h : y.map Node.erase = x.map Node.erase) :
    (bracketCall pair lst1 tok1 y).okMap (List.map Node.erase) =
      (bracketCall pair lst tok x).okMap (List.map Node.erase) := by
  have hg : y.getLast?.map Node.erase = x.getLast?.map Node.erase := by
    rw [← getLast_erase, ← getLast_erase, h]
  unfold bracketCall
  split
  · rfl
  · cases hx : x.getLast? with
    | none =>
      cases hy : y.getLast? with
      | none => rfl
      | some b => simp [hx, hy] at hg
    | some a =>
      cases hy : y.getLast? with
      | none => simp [hx, hy] at hg
      | some b =>
        simp only [hx, hy, Option.map_some', Option.some.injEq] at hg
        cases a with
        | null => cases b <;> first | rfl | simp [Node.erase] at hg
        | undefined => cases b <;> first | rfl | simp [Node.erase] at hg
        | obj f fa fm fo =>
          cases b with
          | null => simp [Node.erase] at hg
          | undefined => simp [Node.erase] at hg
          | obj f1 fa1 fm1 fo1 =>
            simp only [Node.erase, Node.obj.injEq] at hg
            obtain ⟨hf, -, -, ho⟩ := hg
            have hf1 := fields_of_erase f f1 hf
            simp only []
            by_cases hv : f.ctype ≠ some "variable"
            · have hv1 : f1.ctype ≠ some "variable" := by rw [hf1]; exact hv
              rw [if_pos hv, if_pos hv1]
              rfl
            · have hv1 : ¬ f1.ctype ≠ some "variable" := by rw [hf1]; exact hv
              rw [if_neg hv, if_neg hv1]
              refine okMap_bind eraseCall _ _ _ _ _ (callArguments_sim lst lst1 hl) ?_
              intro a1 a2 ha
              simp only [eraseCall, Prod.mk.injEq] at ha
              have hlen := sim_length _ _ ha.1
              simp only [Res.okMap, Option.some.injEq]
              refine push_sim _ _ _ _ (dropLast_sim x y h) ?_
              rw [hf1]
              simp [Node.erase, Fields.erase, eraseArgs_eq_map, ha.1, ha.2, ho, hlen]

theorem getD_map_erase (l : List Node) :
    (l.map Node.erase).getD 0 .undefined = (l.getD 0 .undefined).erase := by
  cases l <;> rfl

theorem finishRec_sim (tok tok1 : Token) (hs : tok1.shape = tok.shape) (x y : List Node)
    (h : y.map Node.erase = x.map Node.erase) :
    (finishRec y tok1).okMap ParseRecResult.shape =
      (finishRec x tok).okMap ParseRecResult.shape := by
  unfold finishRec
  have hp := padNull_sim x y h
  rw [sim_length _ _ hp]
  refine okMap_bind (List.map Node.erase) _ _ _ _ _
    (applyLoop_sim (fun _ => .ok true) (fun _ _ _ => rfl) _ _ _ hp) ?_
  intro a1 a2 ha
  simp only [Res.okMap, ParseRecResult.shape, Option.some.injEq, Prod.mk.injEq]
  refine ⟨?_, hs⟩
  rw [← getD_map_erase, ← getD_map_erase, ha]

theorem framed_cases (F : List Node) (h : framed F = true) :
    F = [] ∨ ∃ E c a m o d, F = [E, .obj c a m o] ∧ E.supOk = true ∧
      c.precedence = some 27 ∧ c.toktype = some .OP ∧ c.op = some d ∧ d.sym = utf16 "," ∧
      d.prefixOk = true ∧ d.postfixOk = true ∧ d.infixOk = true ∧ d.bare = true := by
  match F, h with
  | [], _ => exact Or.inl rfl
  | [E, .obj c a m o], h =>
    right
    simp only [framed, Node.commaFrame, Bool.and_eq_true, beq_iff_eq] at h
    obtain ⟨hE, ⟨hp, ht⟩, hd⟩ := h
    cases hop : c.op with
    | none => simp [hop] at hd
    | some d =>
      simp only [hop, Bool.and_eq_true, beq_iff_eq] at hd
      exact ⟨E, c, a, m, o, d, rfl, hE, hp, ht, hop, hd.1.1.1.1, hd.1.1.1.2, hd.1.1.2,
        hd.1.2, hd.2⟩
  | [E, .null], h => simp [framed, Node.commaFrame] at h
  | [E, .undefined], h => simp [framed, Node.commaFrame] at h
  | [_], h => simp [framed] at h
  | _ :: _ :: _ :: _, h => simp [framed] at h

theorem framed_length (F : List Node) (h : framed F = true) : F.length % 2 = 0 := by
  rcases framed_cases F h with h | ⟨E, c, a, m, o, d, h, -⟩ <;> simp [h]

theorem Res.bind_assoc {α β γ : Type} (r : Res α) (f : α → Res β) (g : β → Res γ) :
    (r.bind f).bind g = r.bind (fun a => (f a).bind g) := by
  cases r <;> rfl

theorem applyOperator_append (pre : List Node) (lhs op rhs : Node) :
    applyOperator (pre ++ [lhs, op, rhs]) =
      (applyOperator [lhs, op, rhs]).bind fun s => .ok (pre ++ s) := by
  unfold applyOperator
  simp only [List.reverse_append, List.reverse_cons, List.reverse_nil, List.nil_append,
    List.cons_append, List.singleton_append]
  cases op with
  | null => rfl
  | undefined => rfl
  | obj f a m o =>
    simp only [Res.bind_assoc]
    congr 1
    funext _
    cases f.op <;> simp [Res.bind]

theorem three_split (x : List Node) (h : 3 ≤ x.length) : ∃ pre l o r, x = pre ++ [l, o, r] := by
  have h1 : ∃ r o l rest, x.reverse = r :: o :: l :: rest := by
    match hx : x.reverse with
    | r :: o :: l :: rest => exact ⟨r, o, l, rest, rfl⟩
    | [] => have := congrArg List.length hx; simp only [List.length_reverse, List.length_cons, List.length_nil] at this; omega
    | [_] => have := congrArg List.length hx; simp only [List.length_reverse, List.length_cons, List.length_nil] at this; omega
    | [_, _] => have := congrArg List.length hx; simp only [List.length_reverse, List.length_cons, List.length_nil] at this; omega
  obtain ⟨r, o, l, rest, hx⟩ := h1
  refine ⟨rest.reverse, l, o, r, ?_⟩
  have := congrArg List.reverse hx
  simpa using this

theorem applyOperator_frame (F x : List Node) (h3 : 3 ≤ x.length) :
    applyOperator (F ++ x) = (applyOperator x).bind fun s => .ok (F ++ s) := by
  obtain ⟨pre, l, o, r, hx⟩ := three_split x h3
  subst hx
  rw [← List.append_assoc, applyOperator_append, applyOperator_append, Res.bind_assoc]
  congr 1
  funext s
  simp [Res.bind]

theorem pendingLe_frame (p : Nat) (F x : List Node) (h2 : 2 ≤ x.length) :
    pendingLe p (F ++ x) = pendingLe p x := by
  unfold pendingLe
  rw [List.reverse_append]
  match hx : x.reverse with
  | r :: o :: rest => cases o <;> rfl
  | [] => have := congrArg List.length hx; simp only [List.length_reverse, List.length_cons, List.length_nil] at this; omega
  | [_] => have := congrArg List.length hx; simp only [List.length_reverse, List.length_cons, List.length_nil] at this; omega

theorem applyLoop_mono (cond : List Node → Res Bool) (f : Nat) :
    ∀ (x r : List Node), applyLoop cond f x = .ok r →
      ∀ g, f ≤ g → applyLoop cond g x = .ok r := by
  induction f with
  | zero =>
    intro x r h g _
    rw [applyLoop_zero] at h
    have hd : x.length < 3 ∨ cond x = .ok false := by
      split at h
      · exact Or.inl ‹_›
      · split at h
        · simp at h
        · simp at h
        · exact Or.inr ‹_›
        · simp at h
    have hr : r = x := by
      rcases hd with hd | hd <;> simp [hd] at h <;> exact h.symm
    rw [hr]
    exact applyLoop_stable cond g x hd
  | succ n ih =>
    intro x r h g hg
    obtain ⟨k, rfl⟩ : ∃ k, g = k + 1 := ⟨g - 1, by omega⟩
    rw [applyLoop_succ] at h ⊢
    split
    · simpa [*] using h
    · rename_i hlen
      rw [if_neg hlen] at h
      cases hc : cond x with
      | fuel => simp [hc] at h
      | throw e => simp [hc] at h
      | ok b =>
        cases b
        · simpa [hc] using h
        · simp only [hc] at h ⊢
          cases ha : applyOperator x with
          | fuel => simp [ha] at h
          | throw e => simp [ha] at h
          | ok s1 =>
            simp only [ha] at h ⊢
            exact ih s1 r h k (by omega)

/-- A reduction loop on a sequence behind a start that its test does not see. -/
theorem applyLoop_frame (cond : List Node → Res Bool) (F : List Node)
    (hc : ∀ z, 3 ≤ z.length → cond (F ++ z) = cond z) (f : Nat) :
    ∀ (x s : List Node), x.length % 2 = 1 → applyLoop cond f x = .ok s →
      ∀ g r, applyLoop cond g (F ++ s) = .ok r → applyLoop cond (f + g) (F ++ x) = .ok r := by
  induction f with
  | zero =>
    intro x s _ h g r hr
    have hd := applyLoop_zero cond x
    rw [h] at hd
    have hs : s = x := by
      split at hd
      · simpa using hd
      · split at hd
        · simp at hd
        · simp at hd
        · simpa using hd
        · simp at hd
    rw [hs] at hr
    simpa using hr
  | succ n ih =>
    intro x s hodd h g r hr
    rw [applyLoop_succ] at h
    split at h
    · simp only [Res.ok.injEq] at h
      subst h
      exact applyLoop_mono cond g _ r hr _ (by omega)
    · rename_i hlen
      cases hcx : cond x with
      | fuel => simp [hcx] at h
      | throw e => simp [hcx] at h
      | ok b =>
        cases b
        · simp only [hcx, Res.ok.injEq] at h
          subst h
          exact applyLoop_mono cond g _ r hr _ (by omega)
        · simp only [hcx] at h
          cases ha : applyOperator x with
          | fuel => simp [ha] at h
          | throw e => simp [ha] at h
          | ok s1 =>
            simp only [ha] at h
            have hl := applyOperator_length _ _ ha
            have := ih s1 s (by omega) h g r hr
            have e : n + 1 + g = (n + g) + 1 := by omega
            rw [e, applyLoop_succ, if_neg (by simp; omega), hc x (by omega), hcx]
            simp only []
            rw [applyOperator_frame F x (by omega), ha]
            exact this

theorem odd_single (s : List Node) (h : s.length % 2 = 1) (h3 : s.length < 3) :
    ∃ e, s = [e] := by
  match s, h, h3 with
  | [e], _, _ => exact ⟨e, rfl⟩
  | [], h, _ => simp at h
  | [_, _], h, _ => simp at h
  | _ :: _ :: _ :: _, _, h3 => simp at h3; omega

theorem applyWhileLe_frame (p : Nat) (hp : p ≤ 26) (F x s : List Node)
    (hF : framed F = true) (hodd : x.length % 2 = 1) (h : applyWhileLe p x = .ok s) :
    applyWhileLe p (F ++ x) = .ok (F ++ s) := by
  unfold applyWhileLe at h ⊢
  obtain ⟨hd, hpar, -⟩ := applyLoop_done _ _ _ _ h
  have hst : applyLoop (pendingLe p) 0 (F ++ s) = .ok (F ++ s) := by
    apply applyLoop_stable
    by_cases h3 : s.length < 3
    · obtain ⟨e, he⟩ := odd_single s (by omega) h3
      subst he
      rcases framed_cases F hF with hF | ⟨E, c, a, m, o, d, hF, -, hc, -⟩
      · left; simp [hF]
      · right
        subst hF
        simp only [List.cons_append, List.nil_append, pendingLe, List.reverse_cons,
          List.reverse_nil, hc]
        simp
        omega
    · right
      rcases hd with hd | hd
      · exact absurd hd h3
      · rw [pendingLe_frame p F s (by omega)]
        exact hd
  have := applyLoop_frame (pendingLe p) F (fun z hz => pendingLe_frame p F z (by omega))
    _ x s hodd h 0 _ hst
  exact applyLoop_mono _ _ _ _ this _ (by simp)

theorem padNull_frame (F x : List Node) (hF : framed F = true) :
    padNull (F ++ x) = F ++ padNull x := by
  have := framed_length F hF
  unfold padNull
  rw [List.length_append]
  by_cases h : x.length % 2 = 0
  · rw [if_pos h, if_pos (by omega), List.append_assoc]
  · rw [if_neg h, if_neg (by omega)]

theorem getLast_frame (F x : List Node) (hx : x ≠ []) : (F ++ x).getLast? = x.getLast? := by
  rw [List.getLast?_append]
  cases h : x.getLast? with
  | none => simp [List.getLast?_eq_none_iff] at h; exact absurd h hx
  | some a => rfl

theorem dropLast_frame (F x : List Node) (hx : x ≠ []) :
    (F ++ x).dropLast = F ++ x.dropLast := by
  exact List.dropLast_append_of_ne_nil F hx

theorem mergesWithDefine_frame (op : OpDescr) (F x : List Node) (hF : framed F = true) :
    mergesWithDefine op (F ++ x) = mergesWithDefine op x := by
  have hlen := framed_length F hF
  by_cases hx : x = []
  · subst hx
    rcases framed_cases F hF with hF | ⟨E, c, a, m, o, d, hF, -, -, ht, hop, hd, -⟩
    · simp [hF]
    · subst hF
      have hne : d.sym ≠ utf16 ":=" := by rw [hd]; decide
      unfold mergesWithDefine
      by_cases hs : op.sym = utf16 "_" <;> simp [hs, ht, hop, hne]
  · unfold mergesWithDefine
    rw [getLast_frame F x hx, List.length_append]
    have h1 : x.length ≠ 0 := by simpa using hx
    have e1 : (F.length + x.length != 0) = (x.length != 0) := by
      have a1 : (F.length + x.length != 0) = true := by rw [bne_iff_ne]; omega
      have a2 : (x.length != 0) = true := by rw [bne_iff_ne]; exact h1
      rw [a1, a2]
    have e2 : ((F.length + x.length) % 2 == 0) = (x.length % 2 == 0) := by
      congr 1
      omega
    rw [e1, e2]

theorem operators_prec (s : JSString) (d : OpDescr) (h : operators s = some d) :
    d.precedence ≤ 26 :=
  (pending_precedence_table d (operators_descr_mem s d h)).1

theorem caseOP_frame (tok : Token) (F x s : List Node) (hF : framed F = true)
    (h : caseOP tok x = .ok s) : caseOP tok (F ++ x) = .ok (F ++ s) := by
  unfold caseOP at h ⊢
  cases hop : operators tok.text with
  | none => simp [hop] at h
  | some op0 =>
    simp only [hop] at h ⊢
    rw [mergesWithDefine_frame op0 F x hF]
    cases hm : mergesWithDefine op0 x with
    | fuel => simp [hm, Res.bind] at h
    | throw e => simp [hm, Res.bind] at h
    | ok merge =>
      rw [hm, Res.ok_bind] at h
      rw [Res.ok_bind]
      cases merge
      · simp only [Bool.false_eq_true, if_false, Res.ok_bind] at h ⊢
        obtain ⟨s0, hw, hs⟩ := Res.bind_eq_ok _ _ _ h
        simp only [Res.ok.injEq] at hs
        rw [padNull_frame F x hF,
          applyWhileLe_frame _ (operators_prec _ _ hop) F _ s0 hF (padNull_parity x) hw,
          Res.ok_bind, ← hs, List.append_assoc]
      · simp only [if_true] at h ⊢
        cases hop2 : operators (utf16 ":=_") with
        | none => simp [hop2, Res.bind] at h
        | some op =>
          simp only [hop2, Res.ok_bind] at h ⊢
          obtain ⟨-, l, a, m, o, d, hl, -⟩ := mergesWithDefine_last op0 x hm
          have hx : x ≠ [] := by
            intro e
            simp [e] at hl
          obtain ⟨s0, hw, hs⟩ := Res.bind_eq_ok _ _ _ h
          simp only [Res.ok.injEq] at hs
          rw [dropLast_frame F x hx, padNull_frame F _ hF,
            applyWhileLe_frame _ (operators_prec _ _ hop2) F _ s0 hF (padNull_parity _) hw,
            Res.ok_bind, ← hs, List.append_assoc]

theorem caseValue_frame (tok : Token) (f : Fields) (F x s : List Node) (hF : framed F = true)
    (h : caseValue tok f x = .ok s) : caseValue tok f (F ++ x) = .ok (F ++ s) := by
  have hl := framed_length F hF
  unfold caseValue at h ⊢
  rw [List.length_append]
  by_cases hp : x.length % 2 = 1
  · simp [hp] at h
  · rw [if_neg hp] at h
    rw [if_neg (by omega)]
    simp only [Res.ok.injEq] at h
    rw [← h, List.append_assoc]

theorem subsup_frame (tok : Token) (op dict : JSString) (F x s : List Node)
    (hF : framed F = true) (h : subsup x tok op dict = .ok s) :
    subsup (F ++ x) tok op dict = .ok (F ++ s) := by
  unfold subsup at h ⊢
  cases hop : operators op with
  | none => simp [hop] at h
  | some d =>
    simp only [hop] at h ⊢
    obtain ⟨s0, hw, hs⟩ := Res.bind_eq_ok _ _ _ h
    have hd := (applyLoop_done _ _ _ _ hw).2.1
    have hpar := padNull_parity x
    rw [padNull_frame F x hF,
      applyWhileLe_frame _ (operators_prec _ _ hop) F _ s0 hF (padNull_parity x) hw,
      Res.ok_bind, List.append_assoc, applyOperator_frame F _ (by
        simp only [List.length_append, List.length_cons, List.length_nil]
        omega), hs]
    rfl

theorem markSuperscript_frame (F x s : List Node) (h : markSuperscript x = .ok s) :
    markSuperscript (F ++ x) = .ok (F ++ s) := by
  have hx : x ≠ [] := by
    intro e
    subst e
    simp [markSuperscript] at h
  unfold markSuperscript at h ⊢
  rw [getLast_frame F x hx, dropLast_frame F x hx]
  cases hl : x.getLast? with
  | none => simp [hl] at h
  | some l =>
    cases l with
    | null => simp [hl] at h
    | undefined => simp [hl] at h
    | obj f a m o =>
      simp only [hl, Res.ok.injEq] at h ⊢
      rw [← h, List.append_assoc]

theorem bracketCall_frame (pair : JSString) (lst : List Node) (tok : Token) (F x s : List Node)
    (h : bracketCall pair lst tok x = .ok s) :
    bracketCall pair lst tok (F ++ x) = .ok (F ++ s) := by
  have hx : x ≠ [] := by
    intro e
    subst e
    unfold bracketCall at h
    split at h <;> simp at h
  unfold bracketCall at h ⊢
  rw [getLast_frame F x hx, dropLast_frame F x hx]
  by_cases hp : pair = utf16 "\x7b\x7d"
  · simp [hp] at h
  · rw [if_neg hp] at h ⊢
    cases hl : x.getLast? with
    | none => simp [hl] at h
    | some l =>
      cases l with
      | null => simp [hl] at h
      | undefined => simp [hl] at h
      | obj f a m o =>
        simp only [hl] at h ⊢
        by_cases hv : f.ctype ≠ some "variable"
        · simp [hv] at h
        · rw [if_neg hv] at h ⊢
          obtain ⟨p, hc, hs⟩ := Res.bind_eq_ok _ _ _ h
          rw [hc, Res.ok_bind]
          simp only [Res.ok.injEq] at hs ⊢
          rw [← hs, List.append_assoc]

theorem applyOperator_comma (E e : Node) (c : Fields) (a : List Node)
    (m : List (JSString × Node)) (o : Option Node) (d : OpDescr) (hE : E.supOk = true)
    (hp : c.precedence = some 27) (hop : c.op = some d) (h1 : d.prefixOk = true)
    (h2 : d.postfixOk = true) (h3 : d.infixOk = true) (h4 : d.bare = true) :
    applyOperator [E, .obj c a m o, e] =
      .ok [.obj { c with ctype := some "infix", oper := some d.sym } [E, e] m o] := by
  unfold applyOperator
  simp only [List.reverse_cons, List.reverse_nil, List.nil_append, List.cons_append,
    List.singleton_append, hop, hp]
  cases E with
  | null => cases e <;> simp [Node.truthy, Res.bind, h1, h2, h3, h4]
  | undefined => cases e <;> simp [Node.truthy, Res.bind, h1, h2, h3, h4]
  | obj l la lm lo =>
    simp only [Node.supOk, Bool.or_eq_true, Bool.not_eq_true'] at hE
    cases hq : l.precedence with
    | none => cases e <;> simp [Node.truthy, Res.bind, h1, h2, h3, h4, hq]
    | some q =>
      rw [hq] at hE
      simp only [decide_eq_true_eq] at hE
      by_cases hq2 : q ≤ 26
      · have hlt : ¬ (27 ≤ q) := by omega
        cases e <;> simp [Node.truthy, Res.bind, h1, h2, h3, h4, hq, hlt]
      · have hsup : l.isSuperscript = false := by
          rcases hE with hE | hE
          · exact hE
          · exact absurd hE hq2
        cases e <;> simp [Node.truthy, Res.bind, h1, h2, h3, h4, hq, hsup]

theorem finishRec_frame (tok : Token) (F x : List Node) (res : ParseRecResult)
    (hF : framed F = true) (hne : F ≠ []) (h : finishRec x tok = .ok res) :
    ∃ res1, finishRec (F ++ x) tok = .ok res1 ∧ res1.closedBy = tok ∧
      res1.expr.isComma = true := by
  rcases framed_cases F hF with
    hF0 | ⟨E, c, a, m, o, d, hFe, hE, hp, -, hop, hsym, h1, h2, h3, h4⟩
  · exact absurd hF0 hne
  · unfold finishRec at h ⊢
    obtain ⟨s0, hw, -⟩ := Res.bind_eq_ok _ _ _ h
    obtain ⟨hd, hpar, -⟩ := applyLoop_done _ _ _ _ hw
    have hlen : s0.length < 3 := by
      rcases hd with hd | hd
      · exact hd
      · simp at hd
    obtain ⟨e, he⟩ := odd_single s0 (by rw [hpar]; exact padNull_parity x) hlen
    subst he
    have hn := applyOperator_comma E e c a m o d hE hp hop h1 h2 h3 h4
    have hr : applyLoop (fun _ => Res.ok true) 1 (F ++ [e]) =
        .ok [.obj { c with ctype := some "infix", oper := some d.sym } [E, e] m o] := by
      rw [hFe, applyLoop_succ]
      simp only [List.cons_append, List.nil_append, List.length_cons, List.length_nil]
      rw [if_neg (by omega)]
      simp only [hn]
      rw [applyLoop_zero]
      simp
    have := applyLoop_frame (fun _ => Res.ok true) F (fun _ _ => rfl) _ (padNull x) [e]
      (padNull_parity x) hw 1 _ hr
    have h5 := applyLoop_mono _ _ _ _ this (padNull (F ++ x)).length (by
      rw [padNull_frame F x hF, List.length_append, hFe]
      simp
      omega)
    rw [padNull_frame F x hF] at h5 ⊢
    rw [h5]
    exact ⟨_, rfl, rfl, by simp [Node.isComma, hsym]⟩

theorem parseRound_leave (fuel : Nat) (t tk : Tokenizer) (tok : Token)
    (closing : Option JSString) (seq : List Node) (hnx : t.next = .ok (tok, tk))
    (hl : leaves tok closing = true) :
    parseRound fuel t closing seq =
      (finishRec seq tok).bind fun res => .ok (.done res tk) := by
  unfold parseRound
  simp only [hnx]
  unfold leaves at hl
  cases htt : tok.toktype <;> simp [htt] at hl ⊢ <;>
    first
    | (cases finishRec seq tok <;> rfl)
    | (rw [if_pos hl]; cases finishRec seq tok <;> rfl)

theorem parseRound_bracket (fuel : Nat) (t tk : Tokenizer) (tok : Token)
    (closing : Option JSString) (seq : List Node) (hnx : t.next = .ok (tok, tk))
    (hl : leaves tok closing = false) (hb : tok.toktype = .BRA) :
    parseRound fuel t closing seq =
      (parseLoop fuel tk (some (closerOf tok)) []).bind fun r =>
        if r.1.closedBy.text ≠ closerOf tok then .throw (mismatchError tok r.1.closedBy)
        else (bracketStep tok r.1 seq).bind fun s => .ok (.next r.2 s) := by
  unfold parseRound
  simp only [hnx, hb]
  unfold leaves at hl
  simp only [hb, beq_self_eq_true, Bool.true_and, Bool.or_eq_false_iff,
    decide_eq_false_iff_not] at hl
  rw [if_neg (by
    intro h
    rcases h with h | h
    · exact hl.2.1 h
    · exact hl.2.2 h)]
  unfold closerOf bracketStep
  cases parseLoop fuel tk (some (charAt brackets (indexOf brackets tok.text + 1))) [] with
  | fuel => rfl
  | throw e => rfl
  | ok r =>
    obtain ⟨sub, tk2⟩ := r
    simp only [Res.ok_bind]
    by_cases hct : sub.closedBy.text ≠ charAt brackets (indexOf brackets tok.text + 1)
    · rw [if_pos hct, if_pos hct]
    · rw [if_neg hct, if_neg hct]
      generalize (if seq.length % 2 = 0 then
        (bracketValue (tok.text ++ sub.closedBy.text) (groupElements sub.expr) tok).bind
          fun node => Res.ok (seq ++ [node])
        else bracketCall (tok.text ++ sub.closedBy.text) (groupElements sub.expr) tok seq) = r
      cases r <;> rfl

theorem parseRound_token (fuel : Nat) (t tk : Tokenizer) (tok : Token)
    (closing : Option JSString) (seq : List Node) (hnx : t.next = .ok (tok, tk))
    (he : tok.toktype ≠ .EOF) (hb : tok.toktype ≠ .BRA) :
    parseRound fuel t closing seq = (tokenStep tok seq).bind fun s => .ok (.next tk s) := by
  unfold parseRound tokenStep
  simp only [hnx]
  cases htt : tok.toktype <;> simp only [htt] at he hb ⊢ <;>
    first
    | rfl
    | exact absurd rfl he
    | exact absurd rfl hb
    | (cases caseOP tok seq <;> rfl)
    | (cases caseValue tok _ seq <;> rfl)
    | (cases subsup seq tok _ _ <;> rfl)
    | (cases (subsup seq tok _ _).bind markSuperscript <;> rfl)

theorem supOk_applied (op : Fields) (a b : List Node) (m m2 : List (JSString × Node))
    (o o2 : Option Node) (c : Option String) (s : Option JSString) :
    Node.supOk (.obj { op with ctype := c, oper := s } a m o) = Node.supOk (.obj op b m2 o2) :=
  rfl

theorem applyOperator_supOk (x s : List Node) (hodd : x.length % 2 = 1)
    (h : applyOperator x = .ok s) (hx : ∀ n ∈ x, Node.supOk n = true) :
    ∀ n ∈ s, Node.supOk n = true := by
  obtain ⟨pre, lhs, rhs, op, a, m, o, d, hseq, -, -, hs⟩ := applyOperator_shape x s hodd h
  subst hseq hs
  intro n hn
  simp only [List.mem_append, List.mem_singleton] at hn
  rcases hn with hn | hn
  · exact hx n (by simp [hn])
  · subst hn
    have := hx (.obj op a m o) (by simp)
    rw [supOk_applied op _ a m m o o]
    exact this

theorem applyLoop_supOk (cond : List Node → Res Bool) (fuel : Nat) (x s : List Node)
    (hodd : x.length % 2 = 1) (hx : ∀ n ∈ x, Node.supOk n = true)
    (h : applyLoop cond fuel x = .ok s) : ∀ n ∈ s, Node.supOk n = true := by
  have := applyLoop_induct cond (fun z => z.length % 2 = 1 ∧ ∀ n ∈ z, Node.supOk n = true)
    (fun z s1 hz h3 _ ha =>
      ⟨by have := applyOperator_length _ _ ha; omega, applyOperator_supOk z s1 hz.1 ha hz.2⟩)
    fuel x s ⟨hodd, hx⟩ h
  exact this.2

theorem padNull_supOk (x : List Node) (hx : ∀ n ∈ x, Node.supOk n = true) :
    ∀ n ∈ padNull x, Node.supOk n = true := by
  unfold padNull
  split
  · intro n hn
    simp only [List.mem_append, List.mem_singleton] at hn
    rcases hn with hn | hn
    · exact hx n hn
    · rw [hn]; rfl
  · exact hx

theorem caseOP_supOk (tok : Token) (x s : List Node) (hx : ∀ n ∈ x, Node.supOk n = true)
    (h : caseOP tok x = .ok s) : ∀ n ∈ s, Node.supOk n = true := by
  unfold caseOP at h
  cases hop : operators tok.text with
  | none => simp [hop] at h
  | some op0 =>
    simp only [hop] at h
    obtain ⟨merge, hm, h⟩ := Res.bind_eq_ok _ _ _ h
    obtain ⟨r, hr, h⟩ := Res.bind_eq_ok _ _ _ h
    obtain ⟨op, text, seq⟩ := r
    simp only at h
    obtain ⟨s0, hw, hs⟩ := Res.bind_eq_ok _ _ _ h
    simp only [Res.ok.injEq] at hs
    have hseq : ∀ n ∈ seq, Node.supOk n = true := by
      cases merge
      · simp only [Bool.false_eq_true, if_false, Res.ok.injEq, Prod.mk.injEq] at hr
        rw [← hr.2.2]
        exact hx
      · simp only [if_true] at hr
        cases hop2 : operators (utf16 ":=_") with
        | none => simp [hop2] at hr
        | some op2 =>
          simp only [hop2, Res.ok.injEq, Prod.mk.injEq] at hr
          rw [← hr.2.2]
          intro n hn
          exact hx n (List.mem_of_mem_dropLast hn)
    have h0 := applyLoop_supOk _ _ _ _ (padNull_parity seq) (padNull_supOk seq hseq) hw
    rw [← hs]
    intro n hn
    simp only [List.mem_append, List.mem_singleton] at hn
    rcases hn with hn | hn
    · exact h0 n hn
    · rw [hn]; rfl

theorem caseValue_supOk (tok : Token) (f : Fields) (x s : List Node)
    (hf : f.isSuperscript = false) (hx : ∀ n ∈ x, Node.supOk n = true)
    (h : caseValue tok f x = .ok s) : ∀ n ∈ s, Node.supOk n = true := by
  unfold caseValue at h
  split at h
  · simp at h
  · simp only [Res.ok.injEq] at h
    rw [← h]
    intro n hn
    simp only [List.mem_append, List.mem_singleton] at hn
    rcases hn with hn | hn
    · exact hx n hn
    · rw [hn]; simp [Node.supOk, hf]

theorem caret_precedence : ∀ d, operators (utf16 "^") = some d →
    d.precedence + (if d.rassoc then 1 else 0) ≤ 26 := by
  decide!

theorem length_push2_odd (s0 : List Node) (a b : Node) (h : s0.length % 2 = 1) :
    (s0 ++ [a, b]).length % 2 = 1 := by
  simp only [List.length_append, List.length_cons, List.length_nil]
  omega

/-- The sequence after `subsup` ends in the infix node of its operator. -/
theorem subsup_last (tok : Token) (op dict : JSString) (x s : List Node)
    (hx : ∀ n ∈ x, Node.supOk n = true) (h : subsup x tok op dict = .ok s) :
    (∀ n ∈ s, Node.supOk n = true) ∧
      ∃ pre f a m o d, s = pre ++ [.obj f a m o] ∧ operators op = some d ∧
        f.precedence = some (d.precedence + (if d.rassoc then 1 else 0)) := by
  unfold subsup at h
  cases hop : operators op with
  | none => simp [hop] at h
  | some d =>
    simp only [hop] at h
    obtain ⟨s0, hw, hs⟩ := Res.bind_eq_ok _ _ _ h
    have h0 := applyLoop_supOk _ _ _ _ (padNull_parity x) (padNull_supOk x hx) hw
    have hpar := (applyLoop_done _ _ _ _ hw).2.1
    have hp := padNull_parity x
    have hlen : s0.length % 2 = 1 := by omega
    refine ⟨applyOperator_supOk _ s ?_ hs ?_, ?_⟩
    · exact length_push2_odd _ _ _ hlen
    · intro n hn
      simp only [List.mem_append, List.mem_cons, List.mem_singleton, List.not_mem_nil,
        or_false] at hn
      rcases hn with hn | hn | hn
      · exact h0 n hn
      · rw [hn]; rfl
      · rw [hn]; rfl
    · obtain ⟨pre, lhs, rhs, f, a, m, o, d2, hseq, -, -, hs2⟩ :=
        applyOperator_shape _ _ (length_push2_odd _ _ _ hlen) hs
      have hrev := congrArg List.reverse hseq
      simp only [List.reverse_append, List.reverse_cons, List.reverse_nil, List.nil_append,
        List.cons_append, List.cons.injEq, List.singleton_append] at hrev
      obtain ⟨-, hf, -⟩ := hrev
      simp only [Node.obj.injEq] at hf
      refine ⟨pre, _, _, _, _, d, hs2, rfl, ?_⟩
      rw [← hf.1]

theorem supRound_supOk (tok : Token) (dict : JSString) (x s : List Node)
    (hx : ∀ n ∈ x, Node.supOk n = true)
    (h : (subsup x tok (utf16 "^") dict).bind markSuperscript = .ok s) :
    ∀ n ∈ s, Node.supOk n = true := by
  obtain ⟨s1, h1, h2⟩ := Res.bind_eq_ok _ _ _ h
  obtain ⟨hs1, pre, f, a, m, o, d, he, hop, hp⟩ := subsup_last tok _ dict x s1 hx h1
  have hle := caret_precedence d hop
  subst he
  unfold markSuperscript at h2
  rw [show (pre ++ [Node.obj f a m o]).getLast? = some (Node.obj f a m o) by simp] at h2
  simp only [List.dropLast_concat, Res.ok.injEq] at h2
  rw [← h2]
  intro n hn
  simp only [List.mem_append, List.mem_singleton] at hn
  rcases hn with hn | hn
  · exact hs1 n (by simp [hn])
  · rw [hn]
    simp [Node.supOk, hp]
    exact hle

theorem bracketValue_supOk (pair : JSString) (lst : List Node) (tok : Token) (node : Node)
    (h : bracketValue pair lst tok = .ok node) : Node.supOk node = true := by
  unfold bracketValue at h
  split_ifs at h <;> (simp only [Res.ok.injEq] at h; rw [← h]; rfl)

theorem bracketCall_supOk (pair : JSString) (lst : List Node) (tok : Token) (x s : List Node)
    (hx : ∀ n ∈ x, Node.supOk n = true) (h : bracketCall pair lst tok x = .ok s) :
    ∀ n ∈ s, Node.supOk n = true := by
  unfold bracketCall at h
  by_cases hp : pair = utf16 "\x7b\x7d"
  · simp [hp] at h
  · rw [if_neg hp] at h
    cases hl : x.getLast? with
    | none => simp [hl] at h
    | some l =>
      cases l with
      | null => simp [hl] at h
      | undefined => simp [hl] at h
      | obj f a m o =>
        simp only [hl] at h
        by_cases hv : f.ctype ≠ some "variable"
        · simp [hv] at h
        · rw [if_neg hv] at h
          obtain ⟨p, hc, hs⟩ := Res.bind_eq_ok _ _ _ h
          simp only [Res.ok.injEq] at hs
          rw [← hs]
          intro n hn
          simp only [List.mem_append, List.mem_singleton] at hn
          rcases hn with hn | hn
          · exact hx n (List.mem_of_mem_dropLast hn)
          · rw [hn]
            have := hx _ (List.mem_of_mem_getLast? hl)
            rw [supOk_applied f _ a _ m _ o]
            exact this

theorem tokenStep_supOk (tok : Token) (x s : List Node) (hx : ∀ n ∈ x, Node.supOk n = true)
    (h : tokenStep tok x = .ok s) : ∀ n ∈ s, Node.supOk n = true := by
  unfold tokenStep at h
  cases htt : tok.toktype <;> simp only [htt] at h
  case OP => exact caseOP_supOk tok x s hx h
  case ID => exact caseValue_supOk tok _ x s rfl hx h
  case NUM => exact caseValue_supOk tok _ x s rfl hx h
  case STR => exact caseValue_supOk tok _ x s rfl hx h
  case SUB => exact (subsup_last tok _ _ x s hx h).1
  case SUP => exact supRound_supOk tok _ x s hx h
  all_goals
    simp only [Res.ok.injEq] at h
    rw [← h]
    exact hx

theorem bracketStep_supOk (tok : Token) (sub : ParseRecResult) (x s : List Node)
    (hx : ∀ n ∈ x, Node.supOk n = true) (h : bracketStep tok sub x = .ok s) :
    ∀ n ∈ s, Node.supOk n = true := by
  unfold bracketStep at h
  simp only at h
  split at h
  · obtain ⟨node, hn, hs⟩ := Res.bind_eq_ok _ _ _ h
    simp only [Res.ok.injEq] at hs
    rw [← hs]
    intro n hmem
    simp only [List.mem_append, List.mem_singleton] at hmem
    rcases hmem with hmem | hmem
    · exact hx n hmem
    · rw [hmem]
      exact bracketValue_supOk _ _ _ _ hn
  · exact bracketCall_supOk _ _ _ x s hx h

theorem step_combine (F : List Node) (G G1 : List Node → Res (List Node))
    (hsim : ∀ x y, y.map Node.erase = x.map Node.erase →
      (G1 y).okMap (List.map Node.erase) = (G x).okMap (List.map Node.erase))
    (hframe : ∀ x s, G x = .ok s → G (F ++ x) = .ok (F ++ s))
    (x y s : List Node) (h : y.map Node.erase = (F ++ x).map Node.erase) (hG : G x = .ok s) :
    ∃ s1, G1 y = .ok s1 ∧ s1.map Node.erase = (F ++ s).map Node.erase := by
  have := hsim (F ++ x) y h
  rw [hframe x s hG] at this
  exact Res.okMap_eq_some _ _ _ this

theorem tokenStep_sim (F : List Node) (hF : framed F = true) (tok tok1 : Token)
    (hs : tok1.shape = tok.shape) (x y s : List Node)
    (h : y.map Node.erase = (F ++ x).map Node.erase) (hG : tokenStep tok x = .ok s) :
    ∃ s1, tokenStep tok1 y = .ok s1 ∧ s1.map Node.erase = (F ++ s).map Node.erase := by
  obtain ⟨h1, h2, h3⟩ := shape_eq tok tok1 hs
  unfold tokenStep at hG ⊢
  rw [h1]
  cases htt : tok.toktype <;> simp only [htt] at hG ⊢
  case OP =>
    exact step_combine F (caseOP tok) (caseOP tok1) (caseOP_sim tok tok1 hs)
      (fun x s => caseOP_frame tok F x s hF) x y s h hG
  case ID =>
    exact step_combine F (caseValue tok _) (caseValue tok1 _)
      (caseValue_sim tok tok1 _ _ (by simp [Fields.erase, Token.toFields, h1, h2, h3]))
      (fun x s => caseValue_frame tok _ F x s hF) x y s h hG
  case NUM =>
    exact step_combine F (caseValue tok _) (caseValue tok1 _)
      (caseValue_sim tok tok1 _ _ (by simp [Fields.erase, Token.toFields, h1, h2, h3]))
      (fun x s => caseValue_frame tok _ F x s hF) x y s h hG
  case STR =>
    exact step_combine F (caseValue tok _) (caseValue tok1 _)
      (caseValue_sim tok tok1 _ _ (by simp [Fields.erase, Token.toFields, h1, h2, h3]))
      (fun x s => caseValue_frame tok _ F x s hF) x y s h hG
  case SUB =>
    exact step_combine F (fun z => subsup z tok _ _) (fun z => subsup z tok1 _ _)
      (subsup_sim tok tok1 hs _ _) (fun x s => subsup_frame tok _ _ F x s hF) x y s h hG
  case SUP =>
    refine step_combine F (fun z => (subsup z tok _ _).bind markSuperscript)
      (fun z => (subsup z tok1 _ _).bind markSuperscript) ?_ ?_ x y s h hG
    · intro x y hxy
      exact okMap_bind _ _ _ _ _ _ (subsup_sim tok tok1 hs _ _ x y hxy)
        (fun a1 a2 ha => markSuperscript_sim a2 a1 ha)
    · intro x s hx
      obtain ⟨s0, h0, hm⟩ := Res.bind_eq_ok _ _ _ hx
      simp only []
      rw [subsup_frame tok _ _ F x s0 hF h0, Res.ok_bind]
      exact markSuperscript_frame F s0 s hm
  all_goals
    simp only [Res.ok.injEq] at hG
    rw [← hG]
    exact ⟨y, rfl, h⟩

theorem shape_fields (r r1 : ParseRecResult) (h : r1.shape = r.shape) :
    r1.expr.erase = r.expr.erase ∧ r1.closedBy.shape = r.closedBy.shape := by
  simpa [ParseRecResult.shape] using h

theorem bracketStep_sim (F : List Node) (hF : framed F = true) (tok tok1 : Token)
    (hs : tok1.shape = tok.shape) (sub sub1 : ParseRecResult) (hsub : sub1.shape = sub.shape)
    (x y s : List Node) (h : y.map Node.erase = (F ++ x).map Node.erase)
    (hG : bracketStep tok sub x = .ok s) :
    ∃ s1, bracketStep tok1 sub1 y = .ok s1 ∧ s1.map Node.erase = (F ++ s).map Node.erase := by
  obtain ⟨h1, h2, h3⟩ := shape_eq tok tok1 hs
  obtain ⟨he, hc⟩ := shape_fields sub sub1 hsub
  obtain ⟨-, hc2, -⟩ := shape_eq _ _ hc
  have hl := groupElements_sim sub.expr sub1.expr he
  have hlen : y.length = F.length + x.length := by
    have := sim_length _ _ h
    simpa using this
  have hFl := framed_length F hF
  unfold bracketStep at hG ⊢
  simp only [h2, hc2] at hG ⊢
  by_cases hev : x.length % 2 = 0
  · rw [if_pos hev] at hG
    rw [if_pos (by omega)]
    obtain ⟨node, hn, hpush⟩ := Res.bind_eq_ok _ _ _ hG
    simp only [Res.ok.injEq] at hpush
    have hv := bracketValue_sim (tok.text ++ sub.closedBy.text) _ _ tok tok1 hl
    rw [hn] at hv
    obtain ⟨node1, hn1, hne⟩ := Res.okMap_eq_some _ _ _ hv
    rw [hn1, Res.ok_bind, ← hpush, ← List.append_assoc]
    exact ⟨_, rfl, push_sim _ _ _ _ h hne⟩
  · rw [if_neg hev] at hG
    rw [if_neg (by omega)]
    exact step_combine F (bracketCall _ _ tok) (bracketCall _ _ tok1)
      (fun x y hxy => bracketCall_sim _ _ _ tok tok1 x y hl hxy)
      (fun x s => bracketCall_frame _ _ tok F x s) x y s h hG

theorem parseRound_ok_next (fuel : Nat) (t : Tokenizer) (closing : Option JSString)
    (seq : List Node) (r : Round) (h : parseRound fuel t closing seq = .ok r) :
    ∃ tok tk, t.next = .ok (tok, tk) := by
  unfold parseRound at h
  cases hnx : t.next with
  | fuel => simp [hnx] at h
  | throw e => simp [hnx] at h
  | ok p => exact ⟨p.1, p.2, rfl⟩

theorem leaves_not_eof (tok : Token) (closing : Option JSString)
    (h : leaves tok closing = false) : tok.toktype ≠ .EOF := by
  intro he
  simp [leaves, he] at h

theorem leaves_shape (tok tok1 : Token) (closing : Option JSString)
    (hs : tok1.shape = tok.shape) : leaves tok1 closing = leaves tok closing := by
  obtain ⟨h1, h2, -⟩ := shape_eq tok tok1 hs
  unfold leaves
  rw [h1, h2]

theorem closerOf_shape (tok tok1 : Token) (hs : tok1.shape = tok.shape) :
    closerOf tok1 = closerOf tok := by
  obtain ⟨-, h2, -⟩ := shape_eq tok tok1 hs
  unfold closerOf
  rw [h2]

theorem parseRound_supOk (fuel : Nat) (t t1 : Tokenizer) (closing : Option JSString)
    (x s1 : List Node) (hx : ∀ n ∈ x, Node.supOk n = true)
    (h : parseRound fuel t closing x = .ok (.next t1 s1)) : ∀ n ∈ s1, Node.supOk n = true := by
  obtain ⟨tok, tk, hnx⟩ := parseRound_ok_next _ _ _ _ _ h
  by_cases hl : leaves tok closing = true
  · rw [parseRound_leave fuel t tk tok closing x hnx hl] at h
    obtain ⟨res, -, hr⟩ := Res.bind_eq_ok _ _ _ h
    simp at hr
  · simp only [Bool.not_eq_true] at hl
    by_cases hb : tok.toktype = .BRA
    · rw [parseRound_bracket fuel t tk tok closing x hnx hl hb] at h
      obtain ⟨r, -, hr⟩ := Res.bind_eq_ok _ _ _ h
      split at hr
      · simp at hr
      · obtain ⟨s, hs, hr⟩ := Res.bind_eq_ok _ _ _ hr
        simp only [Res.ok.injEq, Round.next.injEq] at hr
        rw [← hr.2]
        exact bracketStep_supOk _ _ _ _ hx hs
    · rw [parseRound_token fuel t tk tok closing x hnx (leaves_not_eof _ _ hl) hb] at h
      obtain ⟨s, hs, hr⟩ := Res.bind_eq_ok _ _ _ h
      simp only [Res.ok.injEq, Round.next.injEq] at hr
      rw [← hr.2]
      exact tokenStep_supOk _ _ _ hx hs

theorem parseRound_fuel_succ (n : Nat)
    (ih : ∀ (t : Tokenizer) (closing : Option JSString) (seq : List Node),
      parseLoop n t closing seq ≠ .fuel →
        parseLoop (n + 1) t closing seq = parseLoop n t closing seq)
    (t : Tokenizer) (closing : Option JSString) (seq : List Node)
    (h : parseRound n t closing seq ≠ .fuel) :
    parseRound (n + 1) t closing seq = parseRound n t closing seq := by
  cases hnx : t.next with
  | fuel => unfold parseRound; simp only [hnx]
  | throw e => unfold parseRound; simp only [hnx]
  | ok p =>
    obtain ⟨tok, tk⟩ := p
    by_cases hl : leaves tok closing = true
    · rw [parseRound_leave _ t tk tok closing seq hnx hl,
        parseRound_leave _ t tk tok closing seq hnx hl]
    · simp only [Bool.not_eq_true] at hl
      by_cases hb : tok.toktype = .BRA
      · rw [parseRound_bracket _ t tk tok closing seq hnx hl hb] at h ⊢
        rw [parseRound_bracket _ t tk tok closing seq hnx hl hb]
        rw [ih tk _ _ (by
          intro hf
          rw [hf] at h
          exact h rfl)]
      · rw [parseRound_token _ t tk tok closing seq hnx (leaves_not_eof _ _ hl) hb,
          parseRound_token _ t tk tok closing seq hnx (leaves_not_eof _ _ hl) hb]

theorem parseLoop_fuel_succ (n : Nat) : ∀ (t : Tokenizer) (closing : Option JSString)
    (seq : List Node), parseLoop n t closing seq ≠ .fuel →
      parseLoop (n + 1) t closing seq = parseLoop n t closing seq := by
  induction n with
  | zero =>
    intro t closing seq h
    exact absurd (by rw [parseLoop]) h
  | succ n ih =>
    intro t closing seq h
    rw [parseLoop_round (n + 1), parseLoop_round n] at *
    have hr : parseRound n t closing seq ≠ .fuel := by
      intro hf
      rw [hf] at h
      exact h rfl
    rw [parseRound_fuel_succ n ih t closing seq hr]
    cases hp : parseRound n t closing seq with
    | fuel => exact absurd hp hr
    | throw e => rfl
    | ok r =>
      cases r with
      | done res t1 => rfl
      | next t1 s1 =>
        rw [hp] at h
        exact ih t1 closing s1 h

theorem parseLoop_mono (f g : Nat) (hfg : f ≤ g) (t : Tokenizer) (closing : Option JSString)
    (seq : List Node) (h : parseLoop f t closing seq ≠ .fuel) :
    parseLoop g t closing seq = parseLoop f t closing seq := by
  induction g with
  | zero =>
    have : f = 0 := by omega
    rw [this]
  | succ k ih =>
    by_cases hk : f = k + 1
    · rw [hk]
    · have e := ih (by omega)
      rw [parseLoop_fuel_succ k t closing seq (by rw [e]; exact h), e]

theorem parseLoop_mono_ok (f g : Nat) (hfg : f ≤ g) (t : Tokenizer)
    (closing : Option JSString) (seq : List Node) (r : ParseRecResult × Tokenizer)
    (h : parseLoop f t closing seq = .ok r) : parseLoop g t closing seq = .ok r := by
  rw [parseLoop_mono f g hfg t closing seq (by rw [h]; simp), h]

theorem tokenShapes_succ_ok (n : Nat) (t tk : Tokenizer) (tok : Token)
    (hnx : t.next = .ok (tok, tk)) :
    tokenShapes (n + 1) t =
      if tok.toktype = .EOF then some [tok.shape]
      else (tokenShapes n tk).map fun l => tok.shape :: l := by
  rw [tokenShapes]
  simp only [hnx]

theorem Stream_next (t : Tokenizer) (L : List (TokType × JSString × JSString))
    (hS : Stream t L) : ∃ tok tk, t.next = .ok (tok, tk) := by
  obtain ⟨n, hn⟩ := hS
  cases n with
  | zero => simp [tokenShapes] at hn
  | succ n =>
    rw [tokenShapes] at hn
    cases hnx : t.next with
    | fuel => simp [hnx] at hn
    | throw e => simp [hnx] at hn
    | ok p => exact ⟨p.1, p.2, rfl⟩

theorem Stream_step (t tk : Tokenizer) (tok : Token)
    (L : List (TokType × JSString × JSString)) (hS : Stream t L)
    (hnx : t.next = .ok (tok, tk)) :
    (tok.toktype = .EOF ∧ L = [tok.shape]) ∨
      (tok.toktype ≠ .EOF ∧ ∃ L1, L = tok.shape :: L1 ∧ Stream tk L1) := by
  obtain ⟨n, hn⟩ := hS
  cases n with
  | zero => simp [tokenShapes] at hn
  | succ n =>
    rw [tokenShapes_succ_ok n t tk tok hnx] at hn
    by_cases he : tok.toktype = .EOF
    · rw [if_pos he] at hn
      simp only [Option.some.injEq] at hn
      exact Or.inl ⟨he, hn.symm⟩
    · rw [if_neg he] at hn
      cases hk : tokenShapes n tk with
      | none => simp [hk] at hn
      | some L1 =>
        simp only [hk, Option.map_some', Option.some.injEq] at hn
        exact Or.inr ⟨he, L1, hn.symm, n, hk⟩

theorem tokenShapes_last (n : Nat) : ∀ (t : Tokenizer)
    (L : List (TokType × JSString × JSString)), tokenShapes n t = some L →
    ∃ P e, L = P ++ [e] ∧ e.1 = .EOF := by
  induction n with
  | zero =>
    intro t L h
    simp [tokenShapes] at h
  | succ n ih =>
    intro t L h
    obtain ⟨tok, tk, hnx⟩ := Stream_next t L ⟨n + 1, h⟩
    rw [tokenShapes_succ_ok n t tk tok hnx] at h
    by_cases he : tok.toktype = .EOF
    · rw [if_pos he] at h
      simp only [Option.some.injEq] at h
      exact ⟨[], tok.shape, by simpa using h.symm, he⟩
    · rw [if_neg he] at h
      cases hk : tokenShapes n tk with
      | none => simp [hk] at h
      | some L1 =>
        simp only [hk, Option.map_some', Option.some.injEq] at h
        obtain ⟨P, e, hP, hE⟩ := ih tk L1 hk
        exact ⟨tok.shape :: P, e, by rw [← h, hP]; rfl, hE⟩

theorem Agr_step (e : TokType × JSString × JSString)
    (Y : List (TokType × JSString × JSString)) (he : e.1 = .EOF) (t u tk : Tokenizer)
    (tok : Token) (hA : Agr e Y t u) (hnx : t.next = .ok (tok, tk))
    (hne : tok.toktype ≠ .EOF) :
    ∃ tok1 u1, u.next = .ok (tok1, u1) ∧ tok1.shape = tok.shape ∧ Agr e Y tk u1 := by
  obtain ⟨P, hst, hsu⟩ := hA
  rcases Stream_step t tk tok _ hst hnx with ⟨h1, -⟩ | ⟨-, L1, hL, hS1⟩
  · exact absurd h1 hne
  · cases P with
    | nil =>
      simp only [List.nil_append, List.cons.injEq] at hL
      exact absurd (by rw [← he, hL.1]; rfl) hne
    | cons p P1 =>
      simp only [List.cons_append, List.cons.injEq] at hL
      obtain ⟨hp, hL1⟩ := hL
      obtain ⟨tok1, u1, hnu⟩ := Stream_next u _ hsu
      rcases Stream_step u u1 tok1 _ hsu hnu with ⟨h2, h3⟩ | ⟨-, L2, hL2, hS2⟩
      · simp only [List.cons_append, List.cons.injEq] at h3
        have : tok.toktype = .EOF := by
          have e1 : tok.shape = tok1.shape := by rw [← hp, h3.1]
          have e2 := congrArg Prod.fst e1
          simp only [Token.shape] at e2
          rw [e2, h2]
        exact absurd this hne
      · simp only [List.cons_append, List.cons.injEq] at hL2
        refine ⟨tok1, u1, hnu, by rw [← hL2.1, hp], P1, ?_, ?_⟩
        · rw [hL1]
          exact hS1
        · rw [hL2.2]
          exact hS2

theorem Agr_end (e : TokType × JSString × JSString)
    (Y : List (TokType × JSString × JSString)) (t u tk : Tokenizer)
    (tok : Token) (hA : Agr e Y t u) (hnx : t.next = .ok (tok, tk))
    (hne : tok.toktype = .EOF) : Stream u Y ∧ tok.shape = e := by
  obtain ⟨P, hst, hsu⟩ := hA
  rcases Stream_step t tk tok _ hst hnx with ⟨-, h1⟩ | ⟨h1, -⟩
  · cases P with
    | nil =>
      simp only [List.nil_append, List.cons.injEq, and_true] at h1
      exact ⟨by simpa using hsu, h1.symm⟩
    | cons p P1 =>
      simp at h1
  · exact absurd hne h1

theorem Stream_head (u : Tokenizer) (x : TokType × JSString × JSString)
    (L : List (TokType × JSString × JSString)) (hS : Stream u (x :: L)) :
    ∃ tok1 u1, u.next = .ok (tok1, u1) ∧ tok1.shape = x ∧
      (tok1.toktype ≠ .EOF → Stream u1 L) := by
  obtain ⟨tok1, u1, hnu⟩ := Stream_next u _ hS
  rcases Stream_step u u1 tok1 _ hS hnu with ⟨h2, h3⟩ | ⟨-, L2, hL2, hS2⟩
  · simp only [List.cons.injEq] at h3
    exact ⟨tok1, u1, hnu, h3.1.symm, fun h => absurd h2 h⟩
  · simp only [List.cons.injEq] at hL2
    exact ⟨tok1, u1, hnu, hL2.1.symm, fun _ => by rw [hL2.2]; exact hS2⟩

theorem eof_text (t tk : Tokenizer) (tok : Token) (hnx : t.next = .ok (tok, tk))
    (he : tok.toktype = .EOF) : tok.text = [] := by
  unfold Tokenizer.next at hnx
  have hspec := nextLoop_spec _ t tk tok hnx
  have htext := nextLoop_text _ t tk tok hnx
  obtain ⟨-, -, -, -, hraw, -, -, -, -, hd⟩ := hspec
  rcases hd with ⟨-, hpos, -⟩ | ⟨hn, -⟩
  · rw [htext, hraw, hpos]
    simp [substring, removeSpaces]
  · exact absurd he hn

theorem indexOfFrom_range (needle : JSString) : ∀ (s : JSString) (i : Nat),
    indexOfFrom needle s i = -1 ∨
      ∃ k : Nat, indexOfFrom needle s i = (k : Int) ∧ (k < i + s.length ∨ s = []) := by
  intro s
  induction s with
  | nil =>
    intro i
    unfold indexOfFrom
    split
    · exact Or.inr ⟨i, rfl, Or.inr rfl⟩
    · exact Or.inl rfl
  | cons c s ih =>
    intro i
    unfold indexOfFrom
    split
    · exact Or.inr ⟨i, rfl, Or.inl (by simp)⟩
    · rename_i hpre
      rcases ih (i + 1) with h | ⟨k, hk, hlt | hnil⟩
      · exact Or.inl h
      · exact Or.inr ⟨k, hk, Or.inl (by simp only [List.length_cons]; omega)⟩
      · subst hnil
        unfold indexOfFrom at hk
        split at hk
        · rename_i hemp
          have : needle = [] := by simpa using hemp
          rw [this] at hpre
          simp at hpre
        · omega

theorem closer_ne (tok : Token) (h : ¬ indexOf brackets tok.text % 2 = 1) :
    closerOf tok ≠ [] := by
  unfold closerOf
  unfold indexOf at h ⊢
  rcases indexOfFrom_range tok.text brackets 0 with h1 | ⟨k, hk, hlt | hnil⟩
  · rw [h1] at h
    exact absurd (by decide) h
  · rw [hk] at h ⊢
    have h8 : k < 8 := by
      have : brackets.length = 8 := by decide
      omega
    have hev : k % 2 = 0 := by omega
    have hk2 : k = 0 ∨ k = 2 ∨ k = 4 ∨ k = 6 := by omega
    rcases hk2 with e | e | e | e <;> subst e <;> decide
  · exact absurd hnil (by decide)

theorem finishRec_closedBy (x : List Node) (tok : Token) (res : ParseRecResult)
    (h : finishRec x tok = .ok res) : res.closedBy = tok := by
  unfold finishRec at h
  obtain ⟨s, -, hs⟩ := Res.bind_eq_ok _ _ _ h
  simp only [Res.ok.injEq] at hs
  rw [← hs]

theorem isComma_erase (n : Node) : n.erase.isComma = n.isComma := by
  cases n <;> rfl

theorem supOk_erase (n : Node) : n.erase.supOk = n.supOk := by
  cases n <;> rfl

theorem supOk_of_sim (x y : List Node) (h : y.map Node.erase = x.map Node.erase)
    (hx : ∀ n ∈ x, Node.supOk n = true) : ∀ n ∈ y, Node.supOk n = true := by
  intro n hn
  have h1 : n.erase ∈ y.map Node.erase := List.mem_map_of_mem _ hn
  rw [h] at h1
  obtain ⟨m, hm, hme⟩ := List.mem_map.mp h1
  rw [← supOk_erase n, ← hme, supOk_erase m]
  exact hx m hm

theorem parseRound_done_inv (fuel : Nat) (t t1 : Tokenizer) (closing : Option JSString)
    (x : List Node) (res : ParseRecResult)
    (h : parseRound fuel t closing x = .ok (.done res t1)) :
    ∃ tok, t.next = .ok (tok, t1) ∧ leaves tok closing = true ∧ finishRec x tok = .ok res := by
  obtain ⟨tok, tk, hnx⟩ := parseRound_ok_next _ _ _ _ _ h
  by_cases hl : leaves tok closing = true
  · rw [parseRound_leave fuel t tk tok closing x hnx hl] at h
    obtain ⟨res0, hf, hr⟩ := Res.bind_eq_ok _ _ _ h
    simp only [Res.ok.injEq, Round.done.injEq] at hr
    rw [← hr.1, ← hr.2]
    exact ⟨tok, hnx, hl, hf⟩
  · simp only [Bool.not_eq_true] at hl
    by_cases hb : tok.toktype = .BRA
    · rw [parseRound_bracket fuel t tk tok closing x hnx hl hb] at h
      obtain ⟨r, -, hr⟩ := Res.bind_eq_ok _ _ _ h
      split at hr
      · simp at hr
      · obtain ⟨s, hs, hr⟩ := Res.bind_eq_ok _ _ _ hr
        simp at hr
    · rw [parseRound_token fuel t tk tok closing x hnx (leaves_not_eof _ _ hl) hb] at h
      obtain ⟨s, hs, hr⟩ := Res.bind_eq_ok _ _ _ h
      simp at hr

/-- A round of the loop of `parseRec` after which the loop goes on, on two states of the
tokenizer that agree and two sequences that are equal without their positions, the second behind
a start that the round leaves alone. -/
theorem round_sim (F : List Node) (hF : framed F = true) (e : TokType × JSString × JSString)
    (Y : List (TokType × JSString × JSString)) (he : e.1 = .EOF) (fuel : Nat)
    (Hn : ∀ (closer : JSString) (sub : ParseRecResult) (tk tk2 u1 : Tokenizer),
      Agr e Y tk u1 → parseLoop fuel tk (some closer) [] = .ok (sub, tk2) →
      sub.closedBy.text ≠ [] →
      ∃ fuel1 sub1 u2, parseLoop fuel1 u1 (some closer) [] = .ok (sub1, u2) ∧
        sub1.shape = sub.shape ∧ Agr e Y tk2 u2)
    (t u t1 : Tokenizer) (closing : Option JSString) (x y s1 : List Node)
    (hA : Agr e Y t u) (h : y.map Node.erase = (F ++ x).map Node.erase)
    (hr : parseRound fuel t closing x = .ok (.next t1 s1)) :
    ∃ fuel1 u1 s2, (∀ g, fuel1 ≤ g → parseRound g u closing y = .ok (.next u1 s2)) ∧
      s2.map Node.erase = (F ++ s1).map Node.erase ∧ Agr e Y t1 u1 := by
  obtain ⟨tok, tk, hnx⟩ := parseRound_ok_next _ _ _ _ _ hr
  by_cases hl : leaves tok closing = true
  · rw [parseRound_leave fuel t tk tok closing x hnx hl] at hr
    obtain ⟨res, -, hr⟩ := Res.bind_eq_ok _ _ _ hr
    simp at hr
  · simp only [Bool.not_eq_true] at hl
    have hne := leaves_not_eof _ _ hl
    obtain ⟨tok1, u1, hnu, hsh, hA1⟩ := Agr_step e Y he t u tk tok hA hnx hne
    have hl1 : leaves tok1 closing = false := by
      rw [leaves_shape _ _ _ hsh]
      exact hl
    obtain ⟨htt, -, -⟩ := shape_eq tok tok1 hsh
    by_cases hb : tok.toktype = .BRA
    · rw [parseRound_bracket fuel t tk tok closing x hnx hl hb] at hr
      obtain ⟨r, hsubr, hr⟩ := Res.bind_eq_ok _ _ _ hr
      obtain ⟨sub, tk2⟩ := r
      by_cases hct : sub.closedBy.text ≠ closerOf tok
      · simp [hct] at hr
      · simp only [hct, if_false] at hr
        obtain ⟨s, hs, hr⟩ := Res.bind_eq_ok _ _ _ hr
        simp only [Res.ok.injEq, Round.next.injEq] at hr
        obtain ⟨rfl, rfl⟩ := hr
        have hodd : ¬ indexOf brackets tok.text % 2 = 1 := by
          intro hodd
          simp [leaves, hb, hodd] at hl
        have hcne : sub.closedBy.text ≠ [] := by
          rw [not_not.mp hct]
          exact closer_ne tok hodd
        obtain ⟨f1, sub1, u2, hp1, hsh1, hA2⟩ := Hn _ sub tk tk2 u1 hA1 hsubr hcne
        obtain ⟨s2, hb2, hsim2⟩ := bracketStep_sim F hF tok tok1 hsh sub sub1 hsh1 x y s h hs
        refine ⟨f1, u2, s2, ?_, hsim2, hA2⟩
        intro g hg
        have hct1 : ¬ sub1.closedBy.text ≠ closerOf tok := by
          obtain ⟨-, hc⟩ := shape_fields sub sub1 hsh1
          obtain ⟨-, hc2, -⟩ := shape_eq _ _ hc
          rw [hc2]
          exact hct
        rw [parseRound_bracket g u u1 tok1 closing y hnu hl1 (by rw [htt]; exact hb),
          closerOf_shape tok tok1 hsh, parseLoop_mono_ok f1 g hg _ _ _ _ hp1, Res.ok_bind]
        simp only [hct1, if_false]
        rw [hb2, Res.ok_bind]
    · rw [parseRound_token fuel t tk tok closing x hnx hne hb] at hr
      obtain ⟨s, hs, hr⟩ := Res.bind_eq_ok _ _ _ hr
      simp only [Res.ok.injEq, Round.next.injEq] at hr
      obtain ⟨rfl, rfl⟩ := hr
      obtain ⟨s2, hts, hsim2⟩ := tokenStep_sim F hF tok tok1 hsh x y s h hs
      refine ⟨0, u1, s2, ?_, hsim2, hA1⟩
      intro g _
      rw [parseRound_token g u u1 tok1 closing y hnu (by rw [htt]; exact hne)
        (by rw [htt]; exact hb), hts, Res.ok_bind]

/-- A call of `parseRec` that a closing bracket ends, on two states of the tokenizer that agree
and two sequences that are equal without their positions. -/
theorem nested_sim (e : TokType × JSString × JSString)
    (Y : List (TokType × JSString × JSString)) (he : e.1 = .EOF) (fuel : Nat) :
    ∀ (t u : Tokenizer) (closing : Option JSString) (x y : List Node) (res : ParseRecResult)
      (t1 : Tokenizer), Agr e Y t u → y.map Node.erase = x.map Node.erase →
      parseLoop fuel t closing x = .ok (res, t1) → res.closedBy.text ≠ [] →
      ∃ fuel1 res1 u1, parseLoop fuel1 u closing y = .ok (res1, u1) ∧
        res1.shape = res.shape ∧ Agr e Y t1 u1 := by
  induction fuel with
  | zero =>
    intro t u closing x y res t1 _ _ h
    rw [parseLoop] at h
    simp at h
  | succ n ih =>
    intro t u closing x y res t1 hA hxy h hne
    rw [parseLoop_round] at h
    obtain ⟨r, hr, hk⟩ := Res.bind_eq_ok _ _ _ h
    cases r with
    | done res0 t0 =>
      simp only [Res.ok.injEq, Prod.mk.injEq] at hk
      obtain ⟨rfl, rfl⟩ := hk
      obtain ⟨tok, hnx, hl, hfin⟩ := parseRound_done_inv _ _ _ _ _ _ hr
      have hcb := finishRec_closedBy _ _ _ hfin
      have hneof : tok.toktype ≠ .EOF := by
        intro hE
        rw [hcb] at hne
        exact hne (eof_text _ _ _ hnx hE)
      obtain ⟨tok1, u1, hnu, hsh, hA1⟩ := Agr_step e Y he _ u _ tok hA hnx hneof
      have hl1 : leaves tok1 closing = true := by
        rw [leaves_shape _ _ _ hsh]
        exact hl
      have hf := finishRec_sim tok tok1 hsh x y hxy
      rw [hfin] at hf
      obtain ⟨res1, hf1, hs1⟩ := Res.okMap_eq_some _ _ _ hf
      refine ⟨1, res1, u1, ?_, hs1, hA1⟩
      rw [parseLoop_round, parseRound_leave 0 u u1 tok1 closing y hnu hl1, hf1]
      rfl
    | next t0 s0 =>
      simp only at hk
      obtain ⟨f1, u1, s2, hround, hsim, hA1⟩ := round_sim [] rfl e Y he n
        (fun closer sub tk tk2 u1 hA h hne => ih tk u1 (some closer) [] [] sub tk2 hA rfl h hne)
        t u t0 closing x y s0 hA (by simpa using hxy) hr
      obtain ⟨f2, res1, u2, hp, hsh, hA2⟩ :=
        ih t0 u1 closing s0 s2 res t1 hA1 (by simpa using hsim) hk hne
      refine ⟨max f1 f2 + 1, res1, u2, ?_, hsh, hA2⟩
      rw [parseLoop_round, hround _ (le_max_left _ _), Res.ok_bind]
      exact parseLoop_mono_ok f2 _ (le_max_right _ _) _ _ _ _ hp

/-- The rest of the outermost call of `parseRec` behind an operand and a pending comma: the
call returns an infix node of the comma. -/
theorem tail_sim (F : List Node) (hF : framed F = true) (hFne : F ≠ [])
    (e : TokType × JSString × JSString) (he : e.1 = .EOF) (fuel : Nat) :
    ∀ (t u : Tokenizer) (x y : List Node) (res : ParseRecResult) (t1 : Tokenizer),
      Agr e [e] t u → y.map Node.erase = (F ++ x).map Node.erase →
      parseLoop fuel t none x = .ok (res, t1) → res.closedBy.toktype = .EOF →
      ∃ fuel1 res1 u1, parseLoop fuel1 u none y = .ok (res1, u1) ∧
        res1.closedBy.toktype = .EOF ∧ res1.expr.isComma = true := by
  induction fuel with
  | zero =>
    intro t u x y res t1 _ _ h
    rw [parseLoop] at h
    simp at h
  | succ n ih =>
    intro t u x y res t1 hA hxy h hE
    rw [parseLoop_round] at h
    obtain ⟨r, hr, hk⟩ := Res.bind_eq_ok _ _ _ h
    cases r with
    | done res0 t0 =>
      simp only [Res.ok.injEq, Prod.mk.injEq] at hk
      obtain ⟨rfl, rfl⟩ := hk
      obtain ⟨tok, hnx, hl, hfin⟩ := parseRound_done_inv _ _ _ _ _ _ hr
      have hcb := finishRec_closedBy _ _ _ hfin
      rw [hcb] at hE
      obtain ⟨hSu, hte⟩ := Agr_end e [e] _ u _ tok hA hnx hE
      obtain ⟨tok1, u1, hnu, hsh1, -⟩ := Stream_head u e [] hSu
      have hsh : tok1.shape = tok.shape := by rw [hsh1, hte]
      have hl1 : leaves tok1 none = true := by
        rw [leaves_shape _ _ _ hsh]
        exact hl
      obtain ⟨res2, hf2, hc2, hcomma⟩ := finishRec_frame tok F x res0 hF hFne hfin
      have hf := finishRec_sim tok tok1 hsh (F ++ x) y hxy
      rw [hf2] at hf
      obtain ⟨res1, hf1, hs1⟩ := Res.okMap_eq_some _ _ _ hf
      obtain ⟨hs1e, hs1c⟩ := shape_fields res2 res1 hs1
      obtain ⟨hs1t, -, -⟩ := shape_eq _ _ hs1c
      refine ⟨1, res1, u1, ?_, ?_, ?_⟩
      · rw [parseLoop_round, parseRound_leave 0 u u1 tok1 none y hnu hl1, hf1]
        rfl
      · rw [hs1t, hc2]
        exact hE
      · rw [← isComma_erase, hs1e, isComma_erase]
        exact hcomma
    | next t0 s0 =>
      simp only at hk
      obtain ⟨f1, u1, s2, hround, hsim, hA1⟩ := round_sim F hF e [e] he n
        (fun closer sub tk tk2 u1 hA h hne =>
          nested_sim e [e] he n tk u1 (some closer) [] [] sub tk2 hA rfl h hne)
        t u t0 none x y s0 hA hxy hr
      obtain ⟨f2, res1, u2, hp, hres⟩ := ih t0 u1 s0 s2 res t1 hA1 hsim hk hE
      refine ⟨max f1 f2 + 1, res1, u2, ?_, hres⟩
      rw [parseLoop_round, hround _ (le_max_left _ _), Res.ok_bind]
      exact parseLoop_mono_ok f2 _ (le_max_right _ _) _ _ _ _ hp

/-- The outermost call of `parseRec` on an input that parses, and the same call on an input
whose tokens go on where those of the first end: the second call reaches the sequence on which
the first ends. -/
theorem head_sim (e : TokType × JSString × JSString)
    (Y : List (TokType × JSString × JSString)) (he : e.1 = .EOF) (fuel : Nat) :
    ∀ (t u : Tokenizer) (x y : List Node) (res : ParseRecResult) (t1 : Tokenizer),
      Agr e Y t u → y.map Node.erase = x.map Node.erase → seqRaw x = true →
      (lowPending x = true ∨ commaPending x = true) → (∀ n ∈ x, Node.supOk n = true) →
      parseLoop fuel t none x = .ok (res, t1) → res.closedBy.toktype = .EOF →
      res.expr.isComma = false →
      ∃ u2 xf yf tok, Stream u2 Y ∧ yf.map Node.erase = xf.map Node.erase ∧
        finishRec xf tok = .ok res ∧ lowPending xf = true ∧
        (∀ n ∈ xf, Node.supOk n = true) ∧
        (∀ g r, parseLoop g u2 none yf = .ok r → ∃ fuel1, parseLoop fuel1 u none y = .ok r) := by
  induction fuel with
  | zero =>
    intro t u x y res t1 _ _ _ _ _ h
    rw [parseLoop] at h
    simp at h
  | succ n ih =>
    intro t u x y res t1 hA hxy hraw hord hsup h hE hnc
    rw [parseLoop_round] at h
    obtain ⟨r, hr, hk⟩ := Res.bind_eq_ok _ _ _ h
    cases r with
    | done res0 t0 =>
      simp only [Res.ok.injEq, Prod.mk.injEq] at hk
      obtain ⟨rfl, rfl⟩ := hk
      obtain ⟨tok, hnx, hl, hfin⟩ := parseRound_done_inv _ _ _ _ _ _ hr
      have hcb := finishRec_closedBy _ _ _ hfin
      rw [hcb] at hE
      obtain ⟨hSu, -⟩ := Agr_end e Y _ u _ tok hA hnx hE
      have hlow : lowPending x = true := by
        rcases hord with hlow | hc
        · exact hlow
        · have := finishRec_comma x tok res0 hraw hc hfin
          rw [this] at hnc
          simp at hnc
      exact ⟨u, x, y, tok, hSu, hxy, hfin, hlow, hsup, fun g r hg => ⟨g, hg⟩⟩
    | next t0 s0 =>
      simp only at hk
      obtain ⟨i1, i2, i3, -⟩ := parseRound_next _ _ _ _ _ _ hraw hr
      have hord0 : lowPending s0 = true ∨ commaPending s0 = true := by
        rcases hord with hlow | hc
        · exact i3 hlow
        · exact Or.inr (i2 hc)
      have hsup0 := parseRound_supOk _ _ _ _ _ _ hsup hr
      obtain ⟨f1, u1, s2, hround, hsim, hA1⟩ := round_sim [] rfl e Y he n
        (fun closer sub tk tk2 u1 hA h hne =>
          nested_sim e Y he n tk u1 (some closer) [] [] sub tk2 hA rfl h hne)
        t u t0 none x y s0 hA (by simpa using hxy) hr
      obtain ⟨u2, xf, yf, tok, h1, h2, h3, h4, h5, h6⟩ :=
        ih t0 u1 s0 s2 res t1 hA1 (by simpa using hsim) i1 hord0 hsup0 hk hE hnc
      refine ⟨u2, xf, yf, tok, h1, h2, h3, h4, h5, ?_⟩
      intro g r hg
      obtain ⟨f2, hp⟩ := h6 g r hg
      refine ⟨max f1 f2 + 1, ?_⟩
      rw [parseLoop_round, hround _ (le_max_left _ _), Res.ok_bind]
      exact parseLoop_mono_ok f2 _ (le_max_right _ _) _ _ _ _ hp

theorem pendingLe_low (seq : List Node) (hl : lowPending seq = true)
    (hodd : seq.length % 2 = 1) (h3 : 3 ≤ seq.length) : pendingLe 26 seq = .ok true := by
  obtain ⟨q, hq, hp⟩ := pendingLe_pendings 26 seq hodd h3
  obtain ⟨f, a, m, o, p, rfl, hfp, hle⟩ := low_last seq q hl hq
  rw [hp]
  simp [hfp, hle]

/-- On a sequence without a pending comma, the reduction loop of an incoming comma is the
reduction loop that ends `parseRec`. -/
theorem applyLoop_low_all (fuel : Nat) : ∀ seq : List Node, lowPending seq = true →
    seq.length % 2 = 1 →
    applyLoop (pendingLe 26) fuel seq = applyLoop (fun _ => .ok true) fuel seq := by
  induction fuel with
  | zero =>
    intro seq hl hodd
    rw [applyLoop_zero, applyLoop_zero]
    by_cases h3 : seq.length < 3
    · rw [if_pos h3, if_pos h3]
    · rw [if_neg h3, if_neg h3, pendingLe_low seq hl hodd (by omega)]
  | succ n ih =>
    intro seq hl hodd
    rw [applyLoop_succ, applyLoop_succ]
    by_cases h3 : seq.length < 3
    · rw [if_pos h3, if_pos h3]
    · rw [if_neg h3, if_neg h3, pendingLe_low seq hl hodd (by omega)]
      simp only []
      cases ha : applyOperator seq with
      | fuel => rfl
      | throw e => rfl
      | ok s1 =>
        simp only []
        have hlen := applyOperator_length _ _ ha
        exact ih s1 (low_dropLast seq s1 (applyOperator_pendings seq s1 hodd ha) hl)
          (by omega)

theorem comma_descr : ∃ d, operators (utf16 ",") = some d ∧ d.sym = utf16 "," ∧
    d.precedence = 26 ∧ d.rassoc = true ∧ d.prefixOk = true ∧ d.postfixOk = true ∧
    d.infixOk = true ∧ d.bare = true := by
  have key : ∀ d, operators (utf16 ",") = some d → d.sym = utf16 "," ∧
      d.precedence = 26 ∧ d.rassoc = true ∧ d.prefixOk = true ∧ d.postfixOk = true ∧
      d.infixOk = true ∧ d.bare = true := by
    decide!
  have hsome : (operators (utf16 ",")).isSome = true := by decide!
  cases h : operators (utf16 ",") with
  | none => simp [h] at hsome
  | some d => exact ⟨d, rfl, key d h⟩

/-- The round of the comma token: on the sequence on which the left operand ends, `case 'OP'`
leaves the operand and the pending comma. -/
theorem comma_round (xf yf : List Node) (tok ctok : Token) (res : ParseRecResult)
    (hsim : yf.map Node.erase = xf.map Node.erase) (hfin : finishRec xf tok = .ok res)
    (hlow : lowPending xf = true) (hsup : ∀ n ∈ xf, Node.supOk n = true)
    (hc : ctok.shape = (TokType.OP, utf16 ",", utf16 ",")) :
    ∃ E C, caseOP ctok yf = .ok [E, C] ∧ framed [E, C] = true := by
  obtain ⟨d, hop, hsym, hprec, hrassoc, f1, f2, f3, f4⟩ := comma_descr
  have hct : ctok.toktype = .OP ∧ ctok.text = utf16 "," := by
    simp only [Token.shape, Prod.mk.injEq] at hc
    exact ⟨hc.1, hc.2.1⟩
  unfold finishRec at hfin
  obtain ⟨sx, hw, -⟩ := Res.bind_eq_ok _ _ _ hfin
  obtain ⟨hd, hpar, -⟩ := applyLoop_done _ _ _ _ hw
  have hpl : lowPending (padNull xf) = true := by
    unfold lowPending at hlow ⊢
    rw [pendings_padNull]
    exact hlow
  rw [← applyLoop_low_all _ _ hpl (padNull_parity xf)] at hw
  have hlen : sx.length < 3 := by
    rcases hd with hd | hd
    · exact hd
    · simp at hd
  obtain ⟨ee, hee⟩ := odd_single sx (by rw [hpar]; exact padNull_parity xf) hlen
  subst hee
  have hws := applyWhileLe_sim 26 (padNull xf) (padNull yf) (padNull_sim xf yf hsim)
  have hw2 : applyWhileLe 26 (padNull xf) = .ok [ee] := hw
  rw [hw2] at hws
  obtain ⟨sy, hwy, hsy⟩ := Res.okMap_eq_some _ _ _ hws
  have hly := sim_length _ _ hsy
  obtain ⟨E, hE⟩ := odd_single sy (by rw [hly]; rfl) (by rw [hly]; simp)
  subst hE
  have hEs : Node.supOk E = true :=
    applyLoop_supOk _ _ _ _ (padNull_parity yf)
      (padNull_supOk yf (supOk_of_sim xf yf hsim hsup)) hwy E (by simp)
  have hne : d.sym ≠ utf16 "_" := by
    rw [hsym]
    decide
  have hm : mergesWithDefine d yf = .ok false := by
    unfold mergesWithDefine
    simp [hne]
  refine ⟨E, pendingOperator ctok d, ?_, ?_⟩
  · unfold caseOP
    rw [hct.2, hop]
    simp only []
    rw [hm, Res.ok_bind]
    simp only [Bool.false_eq_true, if_false, Res.ok_bind]
    rw [hprec, hwy, Res.ok_bind]
    simp [pendingOperator, Token.toFields, hct.2, hprec]
  · simp [framed, hEs, Node.commaFrame, pendingOperator, Token.toFields, hct.1, hsym, hrassoc,
      hprec, f1, f2, f3, f4]

theorem joins_streams (a b : JSString) (hj : joinsByComma a b = true) :
    ∃ la lb, tokensOf a = some la ∧ tokensOf b = some lb ∧
      tokensOf (a ++ utf16 " , " ++ b) =
        some (la.dropLast ++ (TokType.OP, utf16 ",", utf16 ",") :: lb) := by
  unfold joinsByComma at hj
  split at hj
  · rename_i la lb l h1 h2 h3
    refine ⟨la, lb, h1, h2, ?_⟩
    rw [h3]
    congr 1
    exact eq_of_beq hj
  · simp at hj

theorem parse_node_inv (a : JSString) (na : Node) (h : parse a = some (.node na)) :
    ∃ res t1, parseLoop (a.length + 1) (Tokenizer.new a) none [] = .ok (res, t1) ∧
      res.closedBy.toktype = .EOF ∧ res.expr.isComma = false := by
  unfold parse parseWith parseRec at h
  cases hp : parseLoop (a.length + 1) (Tokenizer.new a) none [] with
  | fuel => simp [hp] at h
  | throw e => simp [hp] at h
  | ok r =>
    obtain ⟨res, t1⟩ := r
    simp only [hp] at h
    by_cases hE : res.closedBy.toktype = .EOF
    · rw [if_neg (by simp [hE])] at h
      refine ⟨res, t1, rfl, hE, ?_⟩
      cases hc : res.expr.isComma with
      | false => rfl
      | true =>
        match hex : res.expr, hc with
        | .obj f a m o, hc =>
          rw [hex, postprocess_comma f a m o hc] at h
          simp at h
    · rw [if_pos hE] at h
      simp at h

/-- C17: the comma operator between two operands is rejected. For all inputs `a` and `b` that
parse to a tree, and whose tokens the input `a , b` joins by a comma token, which is to say that
the tokens of `a , b` are those of `a`, the comma, and those of `b`, `parse` returns for `a , b`
an error node with description 'comma may only be used to delimit list elements'; and no tree
that `parse` returns for any input contains an infix node with oper ','. -/
theorem comma_between_operands (a b : JSString) (na nb : Node)
    (ha : parse a = some (.node na)) (hb : parse b = some (.node nb))
    (hj : joinsByComma a b = true) :
    (∃ pos, parse (a ++ utf16 " , " ++ b) = some (.error (ParseError
        (utf16 "comma may only be used to delimit list elements") pos none))) ∧
    (∀ (input : JSString) (n : Node),
      parse input = some (.node n) → n.all Fields.notComma = true) := by
  refine ⟨?_, ?_⟩
  · obtain ⟨la, lb, hla, hlb, hlj⟩ := joins_streams a b hj
    obtain ⟨Pa, ea, hPa, hea⟩ := tokenShapes_last _ _ _ hla
    obtain ⟨Pb, eb, hPb, heb⟩ := tokenShapes_last _ _ _ hlb
    obtain ⟨resa, ta1, hpa, hEa, hca⟩ := parse_node_inv a na ha
    obtain ⟨resb, tb1, hpb, hEb, -⟩ := parse_node_inv b nb hb
    have hAa : Agr ea ((TokType.OP, utf16 ",", utf16 ",") :: lb) (Tokenizer.new a)
        (Tokenizer.new (a ++ utf16 " , " ++ b)) := by
      refine ⟨Pa, ⟨a.length + 1, by rw [← hPa]; exact hla⟩,
        ⟨(a ++ utf16 " , " ++ b).length + 1, ?_⟩⟩
      rw [hPa, List.dropLast_concat] at hlj
      exact hlj
    obtain ⟨u2, xf, yf, tokF, hS2, hsim, hfin, hlow, hsup, hcont⟩ :=
      head_sim ea _ hea _ _ _ [] [] resa ta1 hAa rfl rfl (Or.inl rfl)
        (by intro n hn; simp at hn) hpa hEa hca
    obtain ⟨ctok, u3, hnu, hcs, hS3⟩ := Stream_head u2 _ _ hS2
    have hct : ctok.toktype = .OP := by
      have := congrArg Prod.fst hcs
      simpa [Token.shape] using this
    have hS3 := hS3 (by rw [hct]; decide)
    obtain ⟨E, C, hcase, hF⟩ := comma_round xf yf tokF ctok resa hsim hfin hlow hsup hcs
    have hAb : Agr eb [eb] (Tokenizer.new b) u3 := by
      refine ⟨Pb, ⟨b.length + 1, by rw [← hPb]; exact hlb⟩, ?_⟩
      rw [← hPb]
      exact hS3
    obtain ⟨fB, res1, u4, hpB, hE1, hcomma⟩ :=
      tail_sim [E, C] hF (by simp) eb heb _ _ u3 [] [E, C] resb tb1 hAb (by simp) hpb hEb
    have hstep : parseLoop (fB + 1) u2 none yf = .ok (res1, u4) := by
      rw [parseLoop_round, parseRound_token fB u2 u3 ctok none yf hnu (by rw [hct]; decide)
        (by rw [hct]; decide)]
      unfold tokenStep
      simp only [hct]
      rw [hcase, Res.ok_bind]
      exact hpB
    obtain ⟨f1, hp1⟩ := hcont _ _ hstep
    have hnf := (parseLoop_ne_fuel ((a ++ utf16 " , " ++ b).length + 1)
      (Tokenizer.new (a ++ utf16 " , " ++ b)) none [] (by simp [Tokenizer.new])).1
    have hfull : parseLoop ((a ++ utf16 " , " ++ b).length + 1)
        (Tokenizer.new (a ++ utf16 " , " ++ b)) none [] = .ok (res1, u4) := by
      rcases Nat.le_total f1 ((a ++ utf16 " , " ++ b).length + 1) with hle | hle
      · exact parseLoop_mono_ok _ _ hle _ _ _ _ hp1
      · rw [← parseLoop_mono _ _ hle _ _ _ hnf]
        exact hp1
    match hex : res1.expr, hcomma with
    | .obj f fa fm fo, hcomma =>
      refine ⟨f.start, ?_⟩
      unfold parse parseWith parseRec
      rw [hfull]
      simp only []
      rw [if_neg (by simp [hE1]), hex, postprocess_comma f fa fm fo hcomma]
  · exact returned_tree_no_comma

/-- The operands `x² + f(1, 2)` and `[y, 3] * z`, whose commas delimit the arguments of a call
and the elements of a list: both parse, and joined by a comma they do not; the operands `x //c`
and `y` are not joined by a comma as tokens, the comma being in the comment of the first. -/
theorem comma_between_operands_witness :
    (ParseOutput.isNode (parse (utf16 "x² + f(1, 2)")) = true ∧
      ParseOutput.isNode (parse (utf16 "[y, 3] * z")) = true ∧
      joinsByComma (utf16 "x² + f(1, 2)") (utf16 "[y, 3] * z") = true) ∧
    ((∃ pos, parse (utf16 "x² + f(1, 2)" ++ utf16 " , " ++ utf16 "[y, 3] * z") =
        some (.error (ParseError (utf16 "comma may only be used to delimit list elements")
          pos none))) ∧
      (∀ (input : JSString) (n : Node),
        parse input = some (.node n) → n.all Fields.notComma = true)) ∧
    utf16 "x² + f(1, 2)" ++ utf16 " , " ++ utf16 "[y, 3] * z" =
      utf16 "x² + f(1, 2) , [y, 3] * z" ∧
    ParseOutput.sketch (parse (utf16 "x² + f(1, 2) , [y, 3] * z")) =
      "error: comma may only be used to delimit list elements" ∧
    ParseOutput.sketch (parse (utf16 " , ")) =
      "error: comma may only be used to delimit list elements" ∧
    joinsByComma (utf16 "") (utf16 "") = true ∧
    joinsByComma (utf16 "x //c") (utf16 "y") = false :=
  ⟨⟨by decide!, by decide!, by decide!⟩,
    comma_between_operands (utf16 "x² + f(1, 2)") (utf16 "[y, 3] * z") _ _
      (ParseOutput.eq_tree _ (by decide!)) (ParseOutput.eq_tree _ (by decide!)) (by decide!),
    by decide!, by decide!, by decide!, by decide!, by decide!⟩
end CindyParser
